import Mathlib

/-!
# comfy2go `graphapi`: graph ingestion and prompt compilation

A shallow embedding of `graphapi/graph.go`.

* Go pointers are made explicit.  A `*GraphNode` is the position of the node in
  the decoded document (`Graph.Nodes`), a `Property` interface value is an
  optional address into `Graph.Heap`.
* Go maps are association lists with unique keys (`GoMap`).
* A run-time panic is the `Except.error` outcome.
* The calls of the Go standard library (`sort.Sort`, `strconv.Itoa`) are embedded
  in the namespaces `sort` and `strconv`.
-/

set_option autoImplicit false

/-! ## Go maps -/

/-- A Go `map[κ]ν`: an association list that `set` keeps free of duplicate keys. -/
abbrev GoMap (κ ν : Type) := List (κ × ν)

namespace GoMap

variable {κ ν : Type} [DecidableEq κ]

/-- The lookup `m[k]` in its two-result form `v, ok := m[k]`. -/
def get? : GoMap κ ν → κ → Option ν
  | [], _ => none
  | (k', v) :: m, k => if k' = k then some v else get? m k

/-- The assignment `m[k] = v`. -/
def set (m : GoMap κ ν) (k : κ) (v : ν) : GoMap κ ν :=
  m.filter (fun e => decide (e.1 ≠ k)) ++ [(k, v)]

/-- The key set, as a membership test. -/
def hasKey (m : GoMap κ ν) (k : κ) : Bool := (get? m k).isSome

end GoMap

/-! ## The standard library calls -/

namespace strconv

/-- The call `strconv.Itoa`: the decimal text of an integer. -/
def Itoa (i : Int) : String := toString i

end strconv

namespace sort

variable {α : Type}

/-- The method `data.Less(i, j)` of a `sort.Interface` over a slice. -/
def Less (less : α → α → Bool) (data : List α) (i j : Nat) : Bool :=
  match data[i]?, data[j]? with
  | some x, some y => less x y
  | _, _ => false

/-- The method `data.Swap(i, j)` of a `sort.Interface` over a slice. -/
def Swap (data : List α) (i j : Nat) : List α :=
  match data[i]?, data[j]? with
  | some x, some y => (data.set i y).set j x
  | _, _ => data

/-- Inner loop of `insertionSort`:
`for j := i; j > a && data.Less(j, j-1); j-- { data.Swap(j, j-1) }`. -/
def insertionSortInner (less : α → α → Bool) (a : Nat) : Nat → List α → List α
  | 0, data => data
  | j + 1, data =>
    if a < j + 1 ∧ Less less data (j + 1) j = true then
      insertionSortInner less a j (Swap data (j + 1) j)
    else data

/-- Outer loop of `insertionSort`: `for i := a + 1; i < b; i++`. -/
def insertionSortOuter (less : α → α → Bool) (a b : Nat) : Nat → Nat → List α → List α
  | 0, _, data => data
  | fuel + 1, i, data =>
    if i < b then insertionSortOuter less a b fuel (i + 1) (insertionSortInner less a i data)
    else data

/-- The function `insertionSort(data, a, b)`: sorts `data[a:b]`. -/
def insertionSort (less : α → α → Bool) (data : List α) (a b : Nat) : List α :=
  insertionSortOuter less a b (b - a) (a + 1) data

/-- The loop of `siftDown(data, lo, hi, first)`. -/
def siftDownLoop (less : α → α → Bool) (hi first : Nat) : Nat → Nat → List α → List α
  | 0, _, data => data
  | fuel + 1, root, data =>
    let child := 2 * root + 1
    if hi ≤ child then data
    else
      let child :=
        if child + 1 < hi ∧ Less less data (first + child) (first + child + 1) = true
        then child + 1 else child
      if Less less data (first + root) (first + child) = true then
        siftDownLoop less hi first fuel child (Swap data (first + root) (first + child))
      else data

/-- The function `siftDown(data, lo, hi, first)`. -/
def siftDown (less : α → α → Bool) (data : List α) (lo hi first : Nat) : List α :=
  siftDownLoop less hi first hi lo data

/-- First loop of `heapSort`: `for i := (hi - 1) / 2; i >= 0; i--`, counting down
from `n = i + 1`. -/
def heapSortBuild (less : α → α → Bool) (hi first : Nat) : Nat → List α → List α
  | 0, data => data
  | i + 1, data => heapSortBuild less hi first i (siftDown less data i hi first)

/-- Second loop of `heapSort`: `for i := hi - 1; i >= 0; i--`, counting down from
`n = i + 1`. -/
def heapSortPop (less : α → α → Bool) (first : Nat) : Nat → List α → List α
  | 0, data => data
  | i + 1, data =>
    heapSortPop less first i (siftDown less (Swap data first (first + i)) 0 i first)

/-- The function `heapSort(data, a, b)`. -/
def heapSort (less : α → α → Bool) (data : List α) (a b : Nat) : List α :=
  let hi := b - a
  heapSortPop less a hi (heapSortBuild less hi a ((hi - 1) / 2 + 1) data)

/-- The loop `for i <= j && data.Less(i, a) { i++ }` of `partition`. -/
def scanUp (less : α → α → Bool) (data : List α) (a j : Nat) : Nat → Nat → Nat
  | 0, i => i
  | fuel + 1, i =>
    if i ≤ j ∧ Less less data i a = true then scanUp less data a j fuel (i + 1) else i

/-- The loop `for i <= j && !data.Less(j, a) { j-- }` of `partition`. -/
def scanDown (less : α → α → Bool) (data : List α) (a i : Nat) : Nat → Nat → Nat
  | 0, j => j
  | fuel + 1, j =>
    if i ≤ j ∧ Less less data j a = false then scanDown less data a i fuel (j - 1) else j

/-- The main `for` loop of `partition`; returns the data and the final `j`. -/
def partitionLoop (less : α → α → Bool) (a : Nat) :
    Nat → List α → Nat → Nat → List α × Nat
  | 0, data, _, j => (data, j)
  | fuel + 1, data, i, j =>
    let i := scanUp less data a j (j + 1 - i) i
    let j := scanDown less data a i (j + 1 - i) j
    if j < i then (data, j)
    else partitionLoop less a fuel (Swap data i j) (i + 1) (j - 1)

/-- The function `partition(data, a, b, pivot)`: returns the data, the new pivot
position and `alreadyPartitioned`. -/
def partition (less : α → α → Bool) (data : List α) (a b pivot : Nat) :
    List α × Nat × Bool :=
  let data := Swap data a pivot
  let i := a + 1
  let j := b - 1
  let i := scanUp less data a j (j + 1 - i) i
  let j := scanDown less data a i (j + 1 - i) j
  if j < i then (Swap data j a, j, true)
  else
    let r := partitionLoop less a (b - a) (Swap data i j) (i + 1) (j - 1)
    (Swap r.1 r.2 a, r.2, false)

/-- The loop `for i <= j && !data.Less(a, i) { i++ }` of `partitionEqual`. -/
def scanUpEq (less : α → α → Bool) (data : List α) (a j : Nat) : Nat → Nat → Nat
  | 0, i => i
  | fuel + 1, i =>
    if i ≤ j ∧ Less less data a i = false then scanUpEq less data a j fuel (i + 1) else i

/-- The loop `for i <= j && data.Less(a, j) { j-- }` of `partitionEqual`. -/
def scanDownEq (less : α → α → Bool) (data : List α) (a i : Nat) : Nat → Nat → Nat
  | 0, j => j
  | fuel + 1, j =>
    if i ≤ j ∧ Less less data a j = true then scanDownEq less data a i fuel (j - 1) else j

/-- The `for` loop of `partitionEqual`; returns the data and the final `i`. -/
def partitionEqualLoop (less : α → α → Bool) (a : Nat) :
    Nat → List α → Nat → Nat → List α × Nat
  | 0, data, i, _ => (data, i)
  | fuel + 1, data, i, j =>
    let i := scanUpEq less data a j (j + 1 - i) i
    let j := scanDownEq less data a i (j + 1 - i) j
    if j < i then (data, i)
    else partitionEqualLoop less a fuel (Swap data i j) (i + 1) (j - 1)

/-- The function `partitionEqual(data, a, b, pivot)`. -/
def partitionEqual (less : α → α → Bool) (data : List α) (a b pivot : Nat) : List α × Nat :=
  partitionEqualLoop less a (b - a + 1) (Swap data a pivot) (a + 1) (b - 1)

/-- The loop `for i < b && !data.Less(i, i-1) { i++ }` of `partialInsertionSort`. -/
def scanSorted (less : α → α → Bool) (data : List α) (b : Nat) : Nat → Nat → Nat
  | 0, i => i
  | fuel + 1, i =>
    if i < b ∧ Less less data i (i - 1) = false then scanSorted less data b fuel (i + 1) else i

/-- The loop `for j := i - 1; j >= 1; j-- { if !data.Less(j, j-1) { break }; data.Swap(j, j-1) }`
of `partialInsertionSort`. -/
def shiftLeft (less : α → α → Bool) : Nat → List α → List α
  | 0, data => data
  | j + 1, data =>
    if Less less data (j + 1) j = true then shiftLeft less j (Swap data (j + 1) j) else data

/-- The loop `for j := i + 1; j < b; j++ { if !data.Less(j, j-1) { break }; data.Swap(j, j-1) }`
of `partialInsertionSort`. -/
def shiftRight (less : α → α → Bool) (b : Nat) : Nat → Nat → List α → List α
  | 0, _, data => data
  | fuel + 1, j, data =>
    if j < b ∧ Less less data j (j - 1) = true then
      shiftRight less b fuel (j + 1) (Swap data j (j - 1))
    else data

/-- The loop `for j := 0; j < maxSteps; j++` of `partialInsertionSort`, with
`steps` iterations left. -/
def partialInsertionSortLoop (less : α → α → Bool) (a b : Nat) :
    Nat → Nat → List α → List α × Bool
  | 0, _, data => (data, false)
  | steps + 1, i, data =>
    let i := scanSorted less data b (b - i) i
    if i = b then (data, true)
    else if b - a < 50 then (data, false)
    else
      let data := Swap data i (i - 1)
      let data := if 2 ≤ i - a then shiftLeft less (i - 1) data else data
      let data := if 2 ≤ b - i then shiftRight less b (b - i) (i + 1) data else data
      partialInsertionSortLoop less a b steps i data

/-- The function `partialInsertionSort(data, a, b)` (`maxSteps = 5`,
`shortestShifting = 50`): the data and whether it is sorted at the end. -/
def partialInsertionSort (less : α → α → Bool) (data : List α) (a b : Nat) : List α × Bool :=
  partialInsertionSortLoop less a b 5 (a + 1) data

/-- Halving loop behind `bitsLen`. -/
def bitsLenLoop : Nat → Nat → Nat
  | 0, _ => 0
  | fuel + 1, x => if x = 0 then 0 else bitsLenLoop fuel (x / 2) + 1

/-- The function `bits.Len`: the number of bits needed to represent `x`. -/
def bitsLen (x : Nat) : Nat := bitsLenLoop x x

/-- The method `xorshift.Next` on a `uint64` state. -/
def xorshiftNext (r : Nat) : Nat :=
  let r := Nat.xor r ((r <<< 13) % 2 ^ 64)
  let r := Nat.xor r (r >>> 7)
  Nat.xor r ((r <<< 17) % 2 ^ 64)

/-- The function `nextPowerOfTwo(length)`. -/
def nextPowerOfTwo (length : Nat) : Nat := 1 <<< bitsLen length

/-- The loop `for i := 0; i < 3; i++` of `breakPatterns`, with `n` iterations left:
the element at `idx + i` changes places with the one at `a + other`. -/
def breakPatternsLoop (a length modulus idx : Nat) : Nat → Nat → Nat → List α → List α
  | 0, _, _, data => data
  | n + 1, i, random, data =>
    let random := xorshiftNext random
    let other := random % modulus
    let other := if length ≤ other then other - length else other
    breakPatternsLoop a length modulus idx n (i + 1) random (Swap data (idx + i) (a + other))

/-- The function `breakPatterns(data, a, b)`: with `idx = a + (length/4)*2 - 1` the
three elements at `idx`, `idx + 1`, `idx + 2` are scattered over `data[a:b]`. -/
def breakPatterns (data : List α) (a b : Nat) : List α :=
  let length := b - a
  if 8 ≤ length then
    breakPatternsLoop a length (nextPowerOfTwo length) (a + (length / 4) * 2 - 1) 3 0 length data
  else data

/-- The type `sortedHint`. -/
inductive sortedHint
  | unknownHint
  | increasingHint
  | decreasingHint
  deriving DecidableEq, Repr

/-- The function `order2(data, a, b, swaps)`, the counter returned with the pair. -/
def order2 (less : α → α → Bool) (data : List α) (a b swaps : Nat) : Nat × Nat × Nat :=
  if Less less data b a = true then (b, a, swaps + 1) else (a, b, swaps)

/-- The function `median(data, a, b, c, swaps)`, the counter returned with the index. -/
def median (less : α → α → Bool) (data : List α) (a b c swaps : Nat) : Nat × Nat :=
  let r := order2 less data a b swaps
  let a := r.1
  let r := order2 less data r.2.1 c r.2.2
  let r := order2 less data a r.1 r.2.2
  (r.2.1, r.2.2)

/-- The function `medianAdjacent(data, a, swaps)`. -/
def medianAdjacent (less : α → α → Bool) (data : List α) (a swaps : Nat) : Nat × Nat :=
  median less data (a - 1) a (a + 1) swaps

/-- The function `choosePivot(data, a, b)` (`shortestNinther = 50`,
`maxSwaps = 4 * 3`). -/
def choosePivot (less : α → α → Bool) (data : List α) (a b : Nat) : Nat × sortedHint :=
  let l := b - a
  let i := a + l / 4 * 1
  let j := a + l / 4 * 2
  let k := a + l / 4 * 3
  let r : Nat × Nat :=
    if 8 ≤ l then
      if 50 ≤ l then
        let ri := medianAdjacent less data i 0
        let rj := medianAdjacent less data j ri.2
        let rk := medianAdjacent less data k rj.2
        median less data ri.1 rj.1 rk.1 rk.2
      else median less data i j k 0
    else (j, 0)
  if r.2 = 0 then (r.1, sortedHint.increasingHint)
  else if r.2 = 12 then (r.1, sortedHint.decreasingHint)
  else (r.1, sortedHint.unknownHint)

/-- The loop of `reverseRange`: `for i < j { data.Swap(i, j); i++; j-- }`. -/
def reverseRangeLoop : Nat → Nat → Nat → List α → List α
  | 0, _, _, data => data
  | fuel + 1, i, j, data =>
    if i < j then reverseRangeLoop fuel (i + 1) (j - 1) (Swap data i j) else data

/-- The function `reverseRange(data, a, b)`. -/
def reverseRange (data : List α) (a b : Nat) : List α :=
  reverseRangeLoop (b - a) a (b - 1) data

/-- The statements of one iteration of the loop of `pdqsort` between the test of
`limit` and the partitioning: `breakPatterns`, `choosePivot`, `reverseRange` and
`partialInsertionSort`.  The result holds the data, the limit, the pivot and
whether `partialInsertionSort` has reported the range sorted. -/
def pdqsortPivot (less : α → α → Bool) (data : List α) (a b limit : Nat)
    (wasBalanced wasPartitioned : Bool) : List α × Nat × Nat × Bool :=
  let data := if wasBalanced then data else breakPatterns data a b
  let limit := if wasBalanced then limit else limit - 1
  let ph := choosePivot less data a b
  let rev := decide (ph.2 = sortedHint.decreasingHint)
  let data := if rev then reverseRange data a b else data
  let pivot := if rev then (b - 1) - (ph.1 - a) else ph.1
  let hint := if rev then sortedHint.increasingHint else ph.2
  if wasBalanced ∧ wasPartitioned ∧ hint = sortedHint.increasingHint then
    let r := partialInsertionSort less data a b
    (r.1, limit, pivot, r.2)
  else (data, limit, pivot, false)

/-- The function `pdqsort(data, a, b, limit)` (`maxInsertion = 12`).  The `for`
loop carries `wasBalanced` and `wasPartitioned`; every iteration and every
recursive call consumes one unit of `fuel`, and `none` means the fuel ran out. -/
def pdqsortLoop (less : α → α → Bool) :
    Nat → List α → Nat → Nat → Nat → Bool → Bool → Option (List α)
  | 0, _, _, _, _, _, _ => none
  | fuel + 1, data, a, b, limit, wasBalanced, wasPartitioned =>
    if b - a ≤ 12 then some (insertionSort less data a b)
    else if limit = 0 then some (heapSort less data a b)
    else
      let s := pdqsortPivot less data a b limit wasBalanced wasPartitioned
      if s.2.2.2 then some s.1
      else if 0 < a ∧ Less less s.1 (a - 1) s.2.2.1 = false then
        let r := partitionEqual less s.1 a b s.2.2.1
        pdqsortLoop less fuel r.1 r.2 b s.2.1 wasBalanced wasPartitioned
      else
        let r := partition less s.1 a b s.2.2.1
        if r.2.1 - a < b - r.2.1 then
          match pdqsortLoop less fuel r.1 a r.2.1 s.2.1 true true with
          | none => none
          | some data =>
            pdqsortLoop less fuel data (r.2.1 + 1) b s.2.1
              (decide ((b - a) / 8 ≤ r.2.1 - a)) r.2.2
        else
          match pdqsortLoop less fuel r.1 (r.2.1 + 1) b s.2.1 true true with
          | none => none
          | some data =>
            pdqsortLoop less fuel data a r.2.1 s.2.1
              (decide ((b - a) / 8 ≤ b - r.2.1)) r.2.2

/-- The function `sort.Sort(data)` (`Sort` is reserved in Lean): `pdqsort(data, 0, n, bits.Len(uint(n)))` when
`n > 1`.  The fuel `n + 1` bounds the nesting of loop iterations and recursive
calls, each of which works on a strictly shorter range. -/
def SortFn (less : α → α → Bool) (data : List α) : List α :=
  let n := data.length
  if n ≤ 1 then data
  else (pdqsortLoop less (n + 1) data 0 n (bitsLen n) true true).getD data

end sort

/-! ## The data model -/

namespace graphapi

/-- How a call ends when it does not return normally. -/
inductive Fault
  /-- The run-time panic `index out of range`. -/
  | indexOutOfRange
  /-- The run-time panic `invalid memory address or nil pointer dereference`. -/
  | nilDereference
  /-- The run-time panic of a failed type assertion `x.(*T)`. -/
  | typeAssertion
  /-- The step budget of the model is used up: the Go loop has not finished. -/
  | outOfFuel
  deriving DecidableEq, Repr

/-- A literal carried by a widget or a property (`interface{}` in the source); a
float is carried as its decimal text. -/
inductive Value
  | null
  | bool (b : Bool)
  | int (i : Int)
  | str (s : String)
  deriving DecidableEq, Repr

/-- Modelled from the spec: the concrete property types behind the `Property`
interface, which `graph.go` names in its type assertions (`*StringProperty`,
`*FloatProperty`, `*ComboProperty`, `*IntProperty`, `*BoolProperty`,
`*UnknownProperty`) and creates with `newImageUploadProperty`; their
declarations are not part of `graph.go`. -/
inductive PropertyKind
  | StringProperty
  | FloatProperty
  | IntProperty
  | BoolProperty
  | ComboProperty
  | ImageUploadProperty
  | UnknownProperty
  deriving DecidableEq, Repr

/-- Modelled from the spec: the struct behind a `Property` interface value
("stable name, type tag, current value, whether it is serializable into the
compiled prompt, the owning node and originating widget index, and an optional
chain of secondary properties"); its declaration is not part of `graph.go`.
`Parent` is what `UpdateParent` stores, `TargetNode` and `TargetIndex` what
`SetTargetWidget` stores, `UploadTarget` the enumerated property a file chooser
points at. -/
structure PropertyData where
  Kind : PropertyKind := PropertyKind.UnknownProperty
  Name : String := ""
  Value : Value := Value.null
  Serialize : Bool := true
  Parent : Option Nat := none
  TargetNode : Option Nat := none
  TargetIndex : Int := 0
  Secondaries : List (Option Nat) := []
  UploadTarget : Option Nat := none
  deriving DecidableEq, Repr

/-- Modelled from the spec: the method `Property.TypeString`, the type tag of each
variant.  The six tags of the variants `graph.go` switches on are those of its
`case` labels; the declaration of the method is not part of `graph.go`. -/
def PropertyData.TypeString (p : PropertyData) : String :=
  match p.Kind with
  | PropertyKind.StringProperty => "STRING"
  | PropertyKind.FloatProperty => "FLOAT"
  | PropertyKind.IntProperty => "INT"
  | PropertyKind.BoolProperty => "BOOLEAN"
  | PropertyKind.ComboProperty => "COMBO"
  | PropertyKind.ImageUploadProperty => "IMAGEUPLOAD"
  | PropertyKind.UnknownProperty => "UNKNOWN"

/-- Modelled from the spec: an input or output slot ("declared name, declared
type tag, and (for inputs) a link ID plus an owning Property reference once
bound; (for outputs) the set of link IDs fed by this output"); the declaration
is not part of `graph.go`.  `Links` is a pointer to a slice, `Property` an
interface value: `none` is `nil`.  `TypeName` is the field `Type`. -/
structure Slot where
  Name : String := ""
  TypeName : String := ""
  Link : Int := 0
  Links : Option (List Int) := none
  Property : Option Nat := none
  deriving DecidableEq, Repr

/-- Modelled from the spec: a graph vertex, with the fields `graph.go` reads and
writes; the declaration is not part of `graph.go`.  `TypeName` is the field
`Type` (a reserved word in Lean).  The back pointer `Graph` is left out: there
is one graph, and every node is reached through it. -/
structure GraphNode where
  ID : Int := 0
  TypeName : String := ""
  Title : String := ""
  Mode : Int := 0
  Order : Int := 0
  Inputs : List Slot := []
  Outputs : List Slot := []
  WidgetValues : List Value := []
  DisplayName : String := ""
  Description : String := ""
  Properties : GoMap String (Option Nat) := []
  deriving DecidableEq, Repr

/-- Modelled from the spec: a directed edge ("integer ID, origin node ID, origin
output-slot index, target node ID, target input-slot index, declared type
tag"); the declaration is not part of `graph.go`.  `TypeName` is the field
`Type`. -/
structure Link where
  ID : Int := 0
  OriginID : Int := 0
  OriginSlot : Int := 0
  TargetID : Int := 0
  TargetSlot : Int := 0
  TypeName : String := ""
  deriving DecidableEq, Repr

/-- Modelled from the spec: a labeled rectangular region ("title, bounding
rectangle"); the declaration is not part of `graph.go`. -/
structure Group where
  Title : String := ""
  Bounding : List Int := []
  deriving DecidableEq, Repr

/-- The struct `Graph`.  `Nodes` holds the nodes in document order and is at the
same time the memory the `*GraphNode` pointers point into: the pointer to a node
is its position in `Nodes`.  `Heap` is the memory of the property structs.
`Version` is carried as text. -/
structure Graph where
  Nodes : List GraphNode := []
  Links : List Link := []
  Groups : List Group := []
  LastNodeID : Int := 0
  LastLinkID : Int := 0
  Version : String := ""
  NodesByID : GoMap Int Nat := []
  LinksByID : GoMap Int Link := []
  NodesInExecutionOrder : List Nat := []
  HasErrors : Bool := false
  Heap : List PropertyData := []
  deriving DecidableEq, Repr

/-- The value `json.Unmarshal` decodes into the alias of `Graph`: the six
persisted fields. -/
structure Document where
  Nodes : List GraphNode := []
  Links : List Link := []
  Groups : List Group := []
  LastNodeID : Int := 0
  LastLinkID : Int := 0
  Version : String := ""
  deriving DecidableEq, Repr

/-- Modelled from the spec: a catalog entry ("a display name, description, and an
ordered list of settable property declarations"); the declaration is not part
of `graph.go`.  `SettableProperties` is what `GetSettableProperties` returns. -/
structure NodeObject where
  Name : String := ""
  DisplayName : String := ""
  Description : String := ""
  SettableProperties : List PropertyData := []

/-- Modelled from the spec: the node-type catalog ("lookup-by-name"); the
declaration is not part of `graph.go`. -/
structure NodeObjects where
  GetNodeObjectByName : String → Option NodeObject

/-- A resolved input of a prompt node: a literal, or the two-element reference
`[originNodeID, originSlot]`. -/
inductive InputValue
  | literal (v : Value)
  | reference (originNodeID : String) (originSlot : Int)
  deriving DecidableEq, Repr

/-- Modelled from the spec: a compiled node ("class type name, mapping of input
name → resolved value"); the declaration is not part of `graph.go`. -/
structure PromptNode where
  ClassType : String := ""
  Inputs : GoMap String InputValue := []
  deriving DecidableEq, Repr

/-- Modelled from the spec: the compiled output; the declaration is not part of
`graph.go`.  `Workflow` stands for `ExtraData.PngInfo.Workflow`, the graph the
prompt was compiled from. -/
structure Prompt where
  ClientID : String := ""
  Nodes : GoMap Int PromptNode := []
  Workflow : Graph := {}
  deriving DecidableEq, Repr

/-! ## Loading -/

/-- The field `Order` read through a pointer: the node a pointer `p` points to is
`nodes[p]` (a pointer outside the memory, which Go cannot form, reads `0`). -/
def orderAt (nodes : List GraphNode) (p : Nat) : Int :=
  match nodes[p]? with
  | some x => x.Order
  | none => 0

/-- The method `ByGraphOrdinal.Less` on the pointers `a[i]`, `a[j]`:
`a[i].Order < a[j].Order`. -/
def ByGraphOrdinal.Less (nodes : List GraphNode) (p q : Nat) : Bool :=
  decide (orderAt nodes p < orderAt nodes q)

/-- The loop `for _, node := range t.Nodes { t.NodesByID[node.ID] = node }`,
`ptr` being the pointer of the first node of the list. -/
def indexNodes : List GraphNode → Nat → GoMap Int Nat → GoMap Int Nat
  | [], _, m => m
  | node :: rest, ptr, m => indexNodes rest (ptr + 1) (GoMap.set m node.ID ptr)

/-- The loop `for _, link := range t.Links { t.LinksByID[link.ID] = link }`. -/
def indexLinks : List Link → GoMap Int Link → GoMap Int Link
  | [], m => m
  | link :: rest, m => indexLinks rest (GoMap.set m link.ID link)

/-- The method `Graph.UnmarshalJSON` after the call of `json.Unmarshal` has
filled the alias `decoded`. -/
def UnmarshalJSON (decoded : Document) : Graph :=
  { Nodes := decoded.Nodes
    Links := decoded.Links
    Groups := decoded.Groups
    LastNodeID := decoded.LastNodeID
    LastLinkID := decoded.LastLinkID
    Version := decoded.Version
    NodesByID := indexNodes decoded.Nodes 0 []
    LinksByID := indexLinks decoded.Links []
    NodesInExecutionOrder :=
      sort.SortFn (ByGraphOrdinal.Less decoded.Nodes) (List.range decoded.Nodes.length)
    HasErrors := false
    Heap := [] }

/-- The method `Graph.GetLinkById`. -/
def Graph.GetLinkById (t : Graph) (id : Int) : Option Link :=
  GoMap.get? t.LinksByID id

/-- The method `Graph.GetNodeById`; the result is a pointer. -/
def Graph.GetNodeById (t : Graph) (id : Int) : Option Nat :=
  GoMap.get? t.NodesByID id

end graphapi

/-! ## The property binding pass and the primitive pass -/

namespace graphapi

/-- Reading the struct behind a non-nil `Property`. -/
def deref (heap : List PropertyData) (p : Nat) : Except Fault PropertyData :=
  match heap[p]? with
  | some d => Except.ok d
  | none => Except.error Fault.nilDereference

/-- The type assertion `prop.(*T)`, `kind` being the type `T`. -/
def assertKind (d : PropertyData) (kind : PropertyKind) : Except Fault PropertyData :=
  if d.Kind = kind then Except.ok d else Except.error Fault.typeAssertion

/-- The statements `np := *prop.(*T); return &np` of `duplicateProperty`: the
struct is copied to a new address. -/
def duplicateAs (heap : List PropertyData) (d : PropertyData) (kind : PropertyKind) :
    Except Fault (Option Nat × List PropertyData) :=
  match assertKind d kind with
  | Except.error e => Except.error e
  | Except.ok np => Except.ok (some heap.length, heap ++ [np])

/-- The function `duplicateProperty`; the result is the returned `Property`
(`none` is `nil`) and the memory after the call. -/
def duplicateProperty (heap : List PropertyData) (prop : Nat) :
    Except Fault (Option Nat × List PropertyData) :=
  match deref heap prop with
  | Except.error e => Except.error e
  | Except.ok d =>
    if d.TypeString = "STRING" then duplicateAs heap d PropertyKind.StringProperty
    else if d.TypeString = "FLOAT" then duplicateAs heap d PropertyKind.FloatProperty
    else if d.TypeString = "COMBO" then duplicateAs heap d PropertyKind.ComboProperty
    else if d.TypeString = "INT" then duplicateAs heap d PropertyKind.IntProperty
    else if d.TypeString = "UNKNOWN" then duplicateAs heap d PropertyKind.UnknownProperty
    else Except.ok (none, heap)

/-- Modelled from the spec: the method `GraphNode.affixPropertyToInputSlot` ("if
an input slot of the same name exists — attach the property to that slot"); its
declaration is not part of `graph.go`. -/
def affixPropertyToInputSlot (name : String) (p : Nat) : List Slot → List Slot
  | [] => []
  | s :: rest =>
    if s.Name = name then { s with Property := some p } :: rest
    else s :: affixPropertyToInputSlot name p rest

/-- Modelled from the spec: the method `GraphNode.GetPropertyWithName`, the entry
of the node's property mapping under `name`, `nil` when there is none; its
declaration is not part of `graph.go`. -/
def GraphNode.GetPropertyWithName (n : GraphNode) (name : String) : Option Nat :=
  match GoMap.get? n.Properties name with
  | some p => p
  | none => none

/-- Modelled from the spec: the function `newImageUploadProperty` ("an additional
file chooser property pointing at that enumerated property" at the given widget
index); its declaration is not part of `graph.go`. -/
def newImageUploadProperty (name : String) (target : Nat) (index : Int) : PropertyData :=
  { Kind := PropertyKind.ImageUploadProperty
    Name := name
    Serialize := false
    TargetIndex := index
    UploadTarget := some target }

/-- One `case` of the switch over the settable properties:
`np := *prop.(*T); np.UpdateParent(&np); np.SetTargetWidget(n, pindex);
n.Properties[prop.Name()] = &np; n.affixPropertyToInputSlot(prop.Name(), &np)`.
`ptr` is the pointer of the node `n`. -/
def bindAs (ptr : Nat) (pindex : Nat) (prop : PropertyData) (kind : PropertyKind)
    (n : GraphNode) (heap : List PropertyData) : Except Fault (GraphNode × List PropertyData) :=
  match assertKind prop kind with
  | Except.error e => Except.error e
  | Except.ok np =>
    let addr := heap.length
    let np := { np with Parent := some addr, TargetNode := some ptr, TargetIndex := pindex }
    Except.ok
      ({ n with
          Properties := GoMap.set n.Properties prop.Name (some addr)
          Inputs := affixPropertyToInputSlot prop.Name addr n.Inputs },
        heap ++ [np])

/-- The body of `for pindex, prop := range props`: the switch on
`prop.TypeString()`. -/
def bindProperty (ptr : Nat) (pindex : Nat) (prop : PropertyData)
    (n : GraphNode) (heap : List PropertyData) : Except Fault (GraphNode × List PropertyData) :=
  if prop.TypeString = "STRING" then bindAs ptr pindex prop PropertyKind.StringProperty n heap
  else if prop.TypeString = "FLOAT" then bindAs ptr pindex prop PropertyKind.FloatProperty n heap
  else if prop.TypeString = "COMBO" then bindAs ptr pindex prop PropertyKind.ComboProperty n heap
  else if prop.TypeString = "INT" then bindAs ptr pindex prop PropertyKind.IntProperty n heap
  else if prop.TypeString = "BOOLEAN" then bindAs ptr pindex prop PropertyKind.BoolProperty n heap
  else if prop.TypeString = "UNKNOWN" then
    bindAs ptr pindex prop PropertyKind.UnknownProperty n heap
  else Except.ok (n, heap)

/-- The loop `for pindex, prop := range props`. -/
def bindProperties (ptr : Nat) :
    List PropertyData → Nat → GraphNode → List PropertyData →
      Except Fault (GraphNode × List PropertyData)
  | [], _, n, heap => Except.ok (n, heap)
  | prop :: rest, pindex, n, heap =>
    match bindProperty ptr pindex prop n heap with
    | Except.error e => Except.error e
    | Except.ok r => bindProperties ptr rest (pindex + 1) r.1 r.2

/-- The branch `if len(n.WidgetValues) != len(props)` of the binding pass. -/
def bindUpload (nobject : NodeObject) (n : GraphNode) (heap : List PropertyData) :
    Except Fault (GraphNode × List PropertyData) :=
  if n.WidgetValues.length ≠ nobject.SettableProperties.length then
    if nobject.Name = "LoadImage" ∨ nobject.Name = "LoadImageMask" then
      match n.GetPropertyWithName "image" with
      | some targetProp =>
        match deref heap targetProp with
        | Except.error e => Except.error e
        | Except.ok d =>
          match assertKind d PropertyKind.ComboProperty with
          | Except.error e => Except.error e
          | Except.ok _ =>
            let np := newImageUploadProperty "choose file to upload" targetProp
              ((n.Properties.length : Int) - 1)
            Except.ok
              ({ n with
                  Properties := GoMap.set n.Properties "choose file to upload" (some heap.length) },
                heap ++ [np])
      | none => Except.ok (n, heap)
    else Except.ok (n, heap)
  else Except.ok (n, heap)

/-- The body of the first loop of `CreateNodeProperties` for the node `n` with
pointer `ptr`: the node and the memory after it, and whether the node was
appended to `primitives`. -/
def bindNode (node_objects : NodeObjects) (ptr : Nat) (n : GraphNode)
    (heap : List PropertyData) : Except Fault (GraphNode × List PropertyData × Bool) :=
  let n := { n with Properties := [] }
  match node_objects.GetNodeObjectByName n.TypeName with
  | some nobject =>
    let n := { n with DisplayName := nobject.DisplayName, Description := nobject.Description }
    match bindProperties ptr nobject.SettableProperties 0 n heap with
    | Except.error e => Except.error e
    | Except.ok r =>
      match bindUpload nobject r.1 r.2 with
      | Except.error e => Except.error e
      | Except.ok r => Except.ok (r.1, r.2, false)
  | none => Except.ok (n, heap, decide (n.TypeName = "PrimitiveNode"))

/-- The first loop of `CreateNodeProperties`, `for _, n := range t.Nodes`: `todo`
are the nodes still to visit, `ptr` the pointer of the first of them, `done` the
nodes already visited (in document order).  The result holds the nodes, the
memory and the pointers collected in `primitives`. -/
def bindNodes (node_objects : NodeObjects) :
    List GraphNode → Nat → List GraphNode → List PropertyData → List Nat →
      Except Fault (List GraphNode × List PropertyData × List Nat)
  | [], _, done, heap, primitives => Except.ok (done, heap, primitives)
  | n :: todo, ptr, done, heap, primitives =>
    match bindNode node_objects ptr n heap with
    | Except.error e => Except.error e
    | Except.ok r =>
      bindNodes node_objects todo (ptr + 1) (done ++ [r.1]) r.2.1
        (if r.2.2 then primitives ++ [ptr] else primitives)

/-- The indexing `s[i]` of a slice with a Go `int`: `none` is the panic
`index out of range`. -/
def sliceAt {α : Type} (s : List α) (i : Int) : Option α :=
  if i < 0 then none else s[i.toNat]?

/-- The assignment `node.Properties[name] = p` through the node pointer `ptr`. -/
def Graph.setProperty (t : Graph) (ptr : Nat) (name : String) (p : Option Nat) : Graph :=
  { t with
    Nodes := t.Nodes.modify (fun n => { n with Properties := GoMap.set n.Properties name p }) ptr }

/-- Modelled from the spec: the method `Property.AttachSecondaryProperty` ("attach
it as a secondary property", the secondaries forming "a broadcast list"): `newp`
is appended to the secondaries of the property at `p`; its declaration is not
part of `graph.go`. -/
def AttachSecondaryProperty (heap : List PropertyData) (p : Nat) (newp : Option Nat) :
    List PropertyData :=
  heap.modify (fun d => { d with Secondaries := d.Secondaries ++ [newp] }) p

/-- The body of `for _, l := range *primitive_node_output.Links` for the link ID
`l`, `primitive` being the pointer of the primitive node: the new value of
`first_property` and the graph after the iteration. -/
def primitiveLink (primitive : Nat) (l : Int) (first_property : Option Nat) (t : Graph) :
    Except Fault (Option Nat × Graph) :=
  match t.GetLinkById l with
  | none => Except.ok (first_property, t)
  | some primitive_node_output_link =>
    match t.GetNodeById primitive_node_output_link.TargetID with
    | none => Except.ok (first_property, t)
    | some target =>
      match t.Nodes[target]? with
      | none => Except.error Fault.nilDereference
      | some target_node =>
        match sliceAt target_node.Inputs primitive_node_output_link.TargetSlot with
        | none => Except.error Fault.indexOutOfRange
        | some slot =>
          match first_property with
          | none =>
            match slot.Property with
            | none => Except.ok (none, t)
            | some first =>
              match duplicateProperty t.Heap first with
              | Except.error e => Except.error e
              | Except.ok r =>
                Except.ok (some first, Graph.setProperty { t with Heap := r.2 } primitive "value" r.1)
          | some first =>
            match slot.Property with
            | none => Except.ok (some first, t)
            | some p =>
              match duplicateProperty t.Heap p with
              | Except.error e => Except.error e
              | Except.ok r =>
                match t.Nodes[primitive]? with
                | none => Except.error Fault.nilDereference
                | some primitive_node =>
                  match primitive_node.GetPropertyWithName "value" with
                  | none => Except.error Fault.nilDereference
                  | some value =>
                    Except.ok (some first, { t with Heap := AttachSecondaryProperty r.2 value r.1 })

/-- The loop `for _, l := range *primitive_node_output.Links`. -/
def primitiveLinks (primitive : Nat) : List Int → Option Nat → Graph → Except Fault Graph
  | [], _, t => Except.ok t
  | l :: rest, first_property, t =>
    match primitiveLink primitive l first_property t with
    | Except.error e => Except.error e
    | Except.ok r => primitiveLinks primitive rest r.1 r.2

/-- The loop `for _, primitive_node_output := range primitive_node.Outputs`; the
outputs are those the node has when the loop starts. -/
def primitiveOutputs (primitive : Nat) : List Slot → Graph → Except Fault Graph
  | [], t => Except.ok t
  | primitive_node_output :: rest, t =>
    match primitive_node_output.Links with
    | none => primitiveOutputs primitive rest t
    | some links =>
      if links.length ≠ 0 then
        match primitiveLinks primitive links none t with
        | Except.error e => Except.error e
        | Except.ok t => primitiveOutputs primitive rest t
      else primitiveOutputs primitive rest t

/-- The loop `for _, primitive_node := range primitives`. -/
def processPrimitives : List Nat → Graph → Except Fault Graph
  | [], t => Except.ok t
  | primitive :: rest, t =>
    match t.Nodes[primitive]? with
    | none => Except.error Fault.nilDereference
    | some primitive_node =>
      match primitiveOutputs primitive primitive_node.Outputs t with
      | Except.error e => Except.error e
      | Except.ok t => processPrimitives rest t

/-- The method `Graph.CreateNodeProperties`: the graph after the call, or the
panic that ends it.  The diagnostics written with `log` are not part of the
state. -/
def CreateNodeProperties (t : Graph) (node_objects : NodeObjects) : Except Fault Graph :=
  match bindNodes node_objects t.Nodes 0 [] t.Heap [] with
  | Except.error e => Except.error e
  | Except.ok r => processPrimitives r.2.2 { t with Nodes := r.1, Heap := r.2.1 }

/-- The function `NewGraphFromJsonReader` after the document has been read and
decoded. -/
def NewGraphFromJsonReader (decoded : Document) (node_objects : NodeObjects) :
    Except Fault Graph :=
  CreateNodeProperties (UnmarshalJSON decoded) node_objects

end graphapi

/-! ## The prompt compiler -/

namespace graphapi

/-- Modelled from the spec: the method `GraphNode.IsVirtual` ("a node is virtual
if its type denotes a non-executing construct (reroute, note, primitive)"); its
declaration is not part of `graph.go`. -/
def GraphNode.IsVirtual (n : GraphNode) : Bool :=
  decide (n.TypeName = "PrimitiveNode" ∨ n.TypeName = "Reroute" ∨ n.TypeName = "Note")

/-- Modelled from the spec: the method `GraphNode.GetInputLink`, the link recorded
at the input slot `slotIndex` of the node, `nil` when the node has no such slot
or the slot has no live link ("lookup miss: an absence result, never an
exception"); its declaration is not part of `graph.go`. -/
def Graph.GetInputLink (t : Graph) (n : GraphNode) (slotIndex : Int) : Option Link :=
  match sliceAt n.Inputs slotIndex with
  | none => none
  | some slot => t.GetLinkById slot.Link

/-- Modelled from the spec: the method `GraphNode.GetNodeForInput`, the origin
node of the link recorded at the input slot `slotIndex` ("for every input slot
with a live link, resolve the link's origin"), `nil` when there is no such link
or node; its declaration is not part of `graph.go`. -/
def Graph.GetNodeForInput (t : Graph) (n : GraphNode) (slotIndex : Int) : Option Nat :=
  match t.GetInputLink n slotIndex with
  | none => none
  | some link => t.GetNodeById link.OriginID

/-- The target properties of the links `links` of an output: for every link whose
ID, target node and target slot resolve, the property bound to the target
slot. -/
def feedTargets (t : Graph) : List Int → List Nat
  | [] => []
  | l :: rest =>
    match t.GetLinkById l with
    | none => feedTargets t rest
    | some link =>
      match t.GetNodeById link.TargetID with
      | none => feedTargets t rest
      | some target =>
        match t.Nodes[target]? with
        | none => feedTargets t rest
        | some target_node =>
          match sliceAt target_node.Inputs link.TargetSlot with
          | none => feedTargets t rest
          | some slot =>
            match slot.Property with
            | none => feedTargets t rest
            | some p => p :: feedTargets t rest

/-- The target properties of all links of the outputs `outputs`. -/
def outputTargets (t : Graph) : List Slot → List Nat
  | [] => []
  | o :: rest =>
    match o.Links with
    | none => outputTargets t rest
    | some links => feedTargets t links ++ outputTargets t rest

/-- Writing the value `v` into the properties at `targets`. -/
def setValues (v : Value) : List Nat → List PropertyData → List PropertyData
  | [], heap => heap
  | p :: rest, heap => setValues v rest (heap.modify (fun d => { d with Value := v }) p)

/-- Modelled from the spec: the method `GraphNode.ApplyToGraph`, the graph-level
side effect of a virtual node ("propagate a primitive's value into the slots it
feeds"): a `PrimitiveNode` that has a `"value"` property writes the value of
that property into the property bound to the target slot of each of its
outgoing links; other nodes change nothing.  Its declaration is not part of
`graph.go`. -/
def ApplyToGraph (t : Graph) (ptr : Nat) : Graph :=
  match t.Nodes[ptr]? with
  | none => t
  | some n =>
    if n.TypeName = "PrimitiveNode" then
      match n.GetPropertyWithName "value" with
      | none => t
      | some value =>
        match t.Heap[value]? with
        | none => t
        | some d => { t with Heap := setValues d.Value (outputTargets t n.Outputs) t.Heap }
    else t

/-- The loop `for k, p := range node.Properties` of `GraphToPrompt`, with
`p.Serializable()` and `p.GetValue()` reading the struct of the property. -/
def promptValues (heap : List PropertyData) :
    List (String × Option Nat) → GoMap String InputValue →
      Except Fault (GoMap String InputValue)
  | [], inputs => Except.ok inputs
  | (k, p) :: rest, inputs =>
    match p with
    | none => Except.error Fault.nilDereference
    | some addr =>
      match deref heap addr with
      | Except.error e => Except.error e
      | Except.ok d =>
        if d.Serialize then
          promptValues heap rest (GoMap.set inputs k (InputValue.literal d.Value))
        else promptValues heap rest inputs

/-- The loop `for parent != nil && parent.IsVirtual()` of `GraphToPrompt`: the
value of `link` when the loop is left.  Every test of the loop condition
consumes one unit of `fuel`. -/
def resolveVirtual (t : Graph) : Nat → Option Nat → Option Link → Except Fault (Option Link)
  | 0, _, _ => Except.error Fault.outOfFuel
  | fuel + 1, parent, link =>
    match parent with
    | none => Except.ok link
    | some ptr =>
      match t.Nodes[ptr]? with
      | none => Except.error Fault.nilDereference
      | some parent_node =>
        if parent_node.IsVirtual then
          match link with
          | none => Except.error Fault.nilDereference
          | some l =>
            match t.GetInputLink parent_node l.OriginSlot with
            | none => Except.ok none
            | some l2 =>
              resolveVirtual t fuel (t.GetNodeForInput parent_node l2.OriginSlot) (some l2)
        else Except.ok link

/-- The body of `for i, slot := range node.Inputs` for the slot `slot` at index
`i`: the entry written to `pn.Inputs`, if any. -/
def promptLink (fuel : Nat) (t : Graph) (node : GraphNode) (i : Nat) (slot : Slot) :
    Except Fault (Option (String × InputValue)) :=
  match t.GetNodeForInput node i with
  | none => Except.ok none
  | some parent =>
    match resolveVirtual t fuel (some parent) (t.GetLinkById slot.Link) with
    | Except.error e => Except.error e
    | Except.ok none => Except.ok none
    | Except.ok (some link) =>
      Except.ok (some (slot.Name,
        InputValue.reference (strconv.Itoa link.OriginID) link.OriginSlot))

/-- The loop `for i, slot := range node.Inputs` of `GraphToPrompt`. -/
def promptLinks (fuel : Nat) (t : Graph) (node : GraphNode) :
    List Slot → Nat → GoMap String InputValue → Except Fault (GoMap String InputValue)
  | [], _, inputs => Except.ok inputs
  | slot :: rest, i, inputs =>
    match promptLink fuel t node i slot with
    | Except.error e => Except.error e
    | Except.ok none => promptLinks fuel t node rest (i + 1) inputs
    | Except.ok (some w) => promptLinks fuel t node rest (i + 1) (GoMap.set inputs w.1 w.2)

/-- The prompt node `pn` that `GraphToPrompt` builds for a node that is neither
virtual nor muted. -/
def promptNode (fuel : Nat) (t : Graph) (node : GraphNode) : Except Fault PromptNode :=
  match promptValues t.Heap node.Properties [] with
  | Except.error e => Except.error e
  | Except.ok inputs =>
    match promptLinks fuel t node node.Inputs 0 inputs with
    | Except.error e => Except.error e
    | Except.ok inputs => Except.ok { ClassType := node.TypeName, Inputs := inputs }

/-- The loop `for _, node := range t.NodesInExecutionOrder` of `GraphToPrompt`:
the map `p.Nodes` and the graph when the loop is left. -/
def compileNodes (fuel : Nat) :
    List Nat → Graph → GoMap Int PromptNode → Except Fault (GoMap Int PromptNode × Graph)
  | [], t, nodes => Except.ok (nodes, t)
  | ptr :: rest, t, nodes =>
    match t.Nodes[ptr]? with
    | none => Except.error Fault.nilDereference
    | some node =>
      if node.IsVirtual then compileNodes fuel rest (ApplyToGraph t ptr) nodes
      else if node.Mode = 2 then compileNodes fuel rest t nodes
      else
        match promptNode fuel t node with
        | Except.error e => Except.error e
        | Except.ok pn => compileNodes fuel rest t (GoMap.set nodes node.ID pn)

/-- The method `Graph.GraphToPrompt`.  `fuel` bounds the number of steps of each
backward walk over virtual nodes; the graph after the call is the `Workflow` of
the prompt. -/
def GraphToPrompt (fuel : Nat) (t : Graph) (clientID : String) : Except Fault Prompt :=
  match compileNodes fuel t.NodesInExecutionOrder t [] with
  | Except.error e => Except.error e
  | Except.ok r => Except.ok { ClientID := clientID, Nodes := r.1, Workflow := r.2 }

end graphapi

/-! ## Selecting nodes by title and by group -/

namespace graphapi

/-- The method `Graph.GetGroupWithTitle`: the first group with the title. -/
def Graph.GetGroupWithTitle (t : Graph) (title : String) : Option Group :=
  t.Groups.find? (fun g => decide (g.Title = title))

/-- The loop `for _, n := range t.Nodes` of `Graph.GetNodesInGroup`: `todo` are
the nodes still to visit, `ptr` the pointer of the first of them, `retv` the
slice built so far.  `IntersectsOrContains` is the method of `Group` of that
name, whose declaration is not part of `graph.go`. -/
def nodesInGroupLoop (IntersectsOrContains : Group → GraphNode → Bool) (g : Group) :
    List GraphNode → Nat → List Nat → List Nat
  | [], _, retv => retv
  | n :: todo, ptr, retv =>
    if IntersectsOrContains g n = true then
      nodesInGroupLoop IntersectsOrContains g todo (ptr + 1) (retv ++ [ptr])
    else nodesInGroupLoop IntersectsOrContains g todo (ptr + 1) retv

/-- The method `Graph.GetNodesInGroup`; the result is a slice of pointers. -/
def Graph.GetNodesInGroup (IntersectsOrContains : Group → GraphNode → Bool) (t : Graph)
    (g : Group) : List Nat :=
  nodesInGroupLoop IntersectsOrContains g t.Nodes 0 []

/-- The loop `for _, n := range t.Nodes` of `Graph.GetNodesWithTitle`. -/
def nodesWithTitleLoop (title : String) : List GraphNode → Nat → List Nat → List Nat
  | [], _, retv => retv
  | n :: todo, ptr, retv =>
    if (n.Title = "" ∧ n.DisplayName = title) ∨ n.Title = title then
      nodesWithTitleLoop title todo (ptr + 1) (retv ++ [ptr])
    else nodesWithTitleLoop title todo (ptr + 1) retv

/-- The method `Graph.GetNodesWithTitle`; the result is a slice of pointers. -/
def Graph.GetNodesWithTitle (t : Graph) (title : String) : List Nat :=
  nodesWithTitleLoop title t.Nodes 0 []

/-- The method `Graph.GetFirstNodeWithTitle`; `none` is `nil`. -/
def Graph.GetFirstNodeWithTitle (t : Graph) (title : String) : Option Nat :=
  let nodes := t.GetNodesWithTitle title
  if nodes.length ≠ 0 then nodes[0]? else none

/-- The loop `for _, n := range t.Nodes` of `Graph.GetNodesWithType`. -/
def nodesWithTypeLoop (nodeType : String) : List GraphNode → Nat → List Nat → List Nat
  | [], _, retv => retv
  | n :: todo, ptr, retv =>
    if n.TypeName = nodeType then nodesWithTypeLoop nodeType todo (ptr + 1) (retv ++ [ptr])
    else nodesWithTypeLoop nodeType todo (ptr + 1) retv

/-- The method `Graph.GetNodesWithType`; the result is a slice of pointers. -/
def Graph.GetNodesWithType (t : Graph) (nodeType : String) : List Nat :=
  nodesWithTypeLoop nodeType t.Nodes 0 []

end graphapi

/-! ## Definitions used to state the properties -/

namespace sort

variable {α : Type}

/-- Insertion of `x` into a sorted range that is given back to front: `x` moves
past every leading element it is less than.  This is what the inner loop of
`insertionSort` does to the range in front of `x`. -/
def insertBack (less : α → α → Bool) (x : α) : List α → List α
  | [] => [x]
  | y :: ys => if less x y = true then y :: insertBack less x ys else x :: y :: ys

/-- The key of the element at index `i` of the slice (`0` outside the slice). -/
def keyAt (key : α → Int) (data : List α) (i : Nat) : Int :=
  match data[i]? with
  | some x => key x
  | none => 0

/-- The range `data[a:b]` is sorted by `key`: of two of its elements the earlier
one has the smaller or the same key. -/
def SortedOn (key : α → Int) (data : List α) (a b : Nat) : Prop :=
  ∀ i j, a ≤ i → i ≤ j → j < b → keyAt key data i ≤ keyAt key data j

/-- The slice `data2` is the slice `data` outside the range `[a, b)`. -/
def Frame (a b : Nat) (data data2 : List α) : Prop :=
  ∀ i, i < a ∨ b ≤ i → data2[i]? = data[i]?

/-- The slice `data2` comes from `data` by rearranging the range `[a, b)`: the
elements are the same and those outside the range have kept their places. -/
def Within (a b : Nat) (data data2 : List α) : Prop :=
  Frame a b data data2 ∧ data2.Perm data

end sort

namespace graphapi

/-- The graph `t` with the property memory `heap`: the same nodes, links and
derived fields, whatever has been written into the properties since. -/
def Graph.withHeap (t : Graph) (heap : List PropertyData) : Graph :=
  { t with Heap := heap }

/-- A node without its property mapping. -/
def GraphNode.withoutProperties (n : GraphNode) : GraphNode :=
  { n with Properties := [] }

/-- A property struct without its secondaries. -/
def PropertyData.withoutSecondaries (d : PropertyData) : PropertyData :=
  { d with Secondaries := [] }

/-- What the primitive pass keeps when it takes the graph `t` to `t2`: the two
indices, every node up to its property mapping, and every property struct
up to its secondaries. -/
def PrimitiveFrame (t t2 : Graph) : Prop :=
  t2.NodesByID = t.NodesByID ∧ t2.LinksByID = t.LinksByID ∧
  (∀ i : Nat, (t2.Nodes[i]?).map GraphNode.withoutProperties
    = (t.Nodes[i]?).map GraphNode.withoutProperties) ∧
  (∀ (x : Nat) (d : PropertyData), t.Heap[x]? = some d →
    ∃ d2, t2.Heap[x]? = some d2 ∧ d2.withoutSecondaries = d.withoutSecondaries)

/-- A property struct without its current value. -/
def PropertyData.withoutValue (d : PropertyData) : PropertyData :=
  { d with Value := Value.null }

/-- The properties the side effect `ApplyToGraph` of the node at `ptr` writes: for
a `PrimitiveNode` with a `"value"` property, the properties bound to the target
slots of its outgoing links; for other nodes none. -/
def sideEffectTargets (t : Graph) (ptr : Nat) : List Nat :=
  match t.Nodes[ptr]? with
  | none => []
  | some n =>
    if n.TypeName = "PrimitiveNode" then
      match n.GetPropertyWithName "value" with
      | none => []
      | some value =>
        match t.Heap[value]? with
        | none => []
        | some _ => outputTargets t n.Outputs
    else []

/-- The properties of the node at `ptr`: those `GraphToPrompt` reads when it
visits the node. -/
def propertiesOf (t : Graph) (ptr : Nat) : List Nat :=
  match t.Nodes[ptr]? with
  | none => []
  | some n => n.Properties.filterMap (fun e => e.2)

/-- The property memory after the side effect `ApplyToGraph` of the node at `ptr`
has run on the graph `t` with the property memory `h`. -/
def heapAfter (t : Graph) (ptr : Nat) (h : List PropertyData) : List PropertyData :=
  match t.Nodes[ptr]? with
  | none => h
  | some n =>
    if n.TypeName = "PrimitiveNode" then
      match n.GetPropertyWithName "value" with
      | none => h
      | some value =>
        match h[value]? with
        | none => h
        | some d => setValues d.Value (outputTargets t n.Outputs) h
    else h

/-- Every virtual node comes, in the list `order`, before the nodes its side
effect feeds: the properties that a node of `order` writes are not properties
of that node or of a node placed before it. -/
def FeedsForward (t : Graph) : List Nat → Bool
  | [] => true
  | p :: rest =>
    (p :: rest).all (fun q =>
      (sideEffectTargets t q).all (fun x => decide (x ∉ propertiesOf t p)))
    && FeedsForward t rest

/-- The graph after the side effects of the virtual nodes among `order`, applied
in this order: the state in which `GraphToPrompt` visits the node that follows
`order` in the execution order. -/
def applyVirtuals : List Nat → Graph → Graph
  | [], t => t
  | ptr :: rest, t =>
    match t.Nodes[ptr]? with
    | some node =>
      if node.IsVirtual then applyVirtuals rest (ApplyToGraph t ptr) else applyVirtuals rest t
    | none => applyVirtuals rest t

/-- The node `node` at the pointer `ptr` is one `GraphToPrompt` compiles into the
prompt: it is neither virtual nor muted. -/
def Graph.Emits (t : Graph) (ptr : Nat) (node : GraphNode) : Prop :=
  t.Nodes[ptr]? = some node ∧ node.IsVirtual = false ∧ node.Mode ≠ 2

/-- A chain of Reroute nodes that leads back to the link `r`.
`RerouteChain t r c l` holds when `l` leaves the only output (slot 0) of the
Reroute node at the pointer `c`, that node has exactly one input slot, and the
link recorded at this slot is `r` itself or a link that leaves a further Reroute
node from which the chain goes on to `r`. -/
inductive RerouteChain (t : Graph) (r : Link) : Nat → Link → Prop
  | last (c : Nat) (l : Link) (cn : GraphNode) (s : Slot) :
      t.Nodes[c]? = some cn → cn.TypeName = "Reroute" → cn.Inputs = [s] → l.OriginSlot = 0 →
      t.GetLinkById s.Link = some r → RerouteChain t r c l
  | step (c : Nat) (l : Link) (cn : GraphNode) (s : Slot) (c2 : Nat) (l2 : Link) :
      t.Nodes[c]? = some cn → cn.TypeName = "Reroute" → cn.Inputs = [s] → l.OriginSlot = 0 →
      t.GetLinkById s.Link = some l2 → t.GetNodeById l2.OriginID = some c2 →
      RerouteChain t r c2 l2 → RerouteChain t r c l

/-- In the list `order` the pointer `q` is visited after an occurrence of `p`. -/
def VisitedAfter (order : List Nat) (p q : Nat) : Prop :=
  ∃ pre suf, order = pre ++ p :: suf ∧ q ∈ suf

/-- Order of the node pointers by `Order` first and by position in `Nodes` second. -/
def tieLess (nodes : List GraphNode) (p q : Nat) : Prop :=
  orderAt nodes p < orderAt nodes q ∨ (orderAt nodes p = orderAt nodes q ∧ p < q)

/-- The property "stable sort of `Nodes` by `Order`" of a list `order` of node
pointers: it holds every pointer once, `Order` does not decrease along it, and
of two nodes with the same `Order` the one that comes first in `Nodes` comes
first in `order`. -/
def StableByOrder (nodes : List GraphNode) (order : List Nat) : Prop :=
  order.Perm (List.range nodes.length) ∧
  order.Pairwise (fun p q => orderAt nodes p ≤ orderAt nodes q) ∧
  ∀ p q, p < q → q < nodes.length → orderAt nodes p = orderAt nodes q →
    order.indexOf p < order.indexOf q

/-- A document of thirteen nodes: the first has `Order` 1, the other twelve have
`Order` 0. -/
def tieDocument : Document :=
  { Nodes := [{ ID := 1, Order := 1 }, { ID := 2 }, { ID := 3 }, { ID := 4 }, { ID := 5 },
      { ID := 6 }, { ID := 7 }, { ID := 8 }, { ID := 9 }, { ID := 10 }, { ID := 11 },
      { ID := 12 }, { ID := 13 }] }

/-- The graph `NewGraphFromJsonReader` returns for a decoded document (the empty
graph when the call panics). -/
def loadedGraph (decoded : Document) (node_objects : NodeObjects) : Graph :=
  match NewGraphFromJsonReader decoded node_objects with
  | Except.ok t => t
  | Except.error _ => {}

/-- The prompt `GraphToPrompt` returns (the empty prompt when the call does not
return). -/
def compiledPrompt (fuel : Nat) (t : Graph) (clientID : String) : Prompt :=
  match GraphToPrompt fuel t clientID with
  | Except.ok p => p
  | Except.error _ => {}

/-- The node behind the pointer `ptr` (the zero node when the pointer is
dangling). -/
def Graph.nodeAt (t : Graph) (ptr : Nat) : GraphNode :=
  match t.Nodes[ptr]? with
  | some n => n
  | none => {}

/-- A catalog without entries. -/
def emptyCatalog : NodeObjects :=
  { GetNodeObjectByName := fun _ => none }

/-- A document of two nodes with the same ID, the first of them muted. -/
def mutedTwinDocument : Document :=
  { Nodes := [{ ID := 1, TypeName := "KSampler", Mode := 2, Order := 0 },
      { ID := 1, TypeName := "KSampler", Mode := 0, Order := 1 }] }

/-- A document of one muted node. -/
def mutedDocument : Document :=
  { Nodes := [{ ID := 1, TypeName := "KSampler", Mode := 2, Order := 0 }] }

/-- A document of one node that is neither virtual nor muted. -/
def singleDocument : Document :=
  { Nodes := [{ ID := 1, TypeName := "KSampler", Order := 0 }] }

/-- A document of two nodes with the same ID and different types, neither virtual
nor muted. -/
def twinDocument : Document :=
  { Nodes := [{ ID := 1, TypeName := "CheckpointLoader", Order := 0 },
      { ID := 1, TypeName := "KSampler", Order := 1 }] }

/-- A document in which node 4 has two input slots named `x`: the first is fed
through the Reroute node 2 from output 0 of node 1, the second directly from
output 0 of node 3. -/
def rerouteDocument : Document :=
  { Nodes := [{ ID := 1, TypeName := "Loader", Order := 0 },
      { ID := 2, TypeName := "Reroute", Order := 1, Inputs := [{ Name := "", Link := 10 }] },
      { ID := 3, TypeName := "Loader", Order := 2 },
      { ID := 4, TypeName := "KSampler", Order := 3,
        Inputs := [{ Name := "x", Link := 11 }, { Name := "x", Link := 12 }] }],
    Links := [{ ID := 10, OriginID := 1, OriginSlot := 0, TargetID := 2, TargetSlot := 0 },
      { ID := 11, OriginID := 2, OriginSlot := 0, TargetID := 4, TargetSlot := 0 },
      { ID := 12, OriginID := 3, OriginSlot := 0, TargetID := 4, TargetSlot := 1 }] }

/-- The document `rerouteDocument` without the second input slot of node 4 and its
link. -/
def rerouteChainDocument : Document :=
  { Nodes := [{ ID := 1, TypeName := "Loader", Order := 0 },
      { ID := 2, TypeName := "Reroute", Order := 1, Inputs := [{ Name := "", Link := 10 }] },
      { ID := 4, TypeName := "KSampler", Order := 3, Inputs := [{ Name := "x", Link := 11 }] }],
    Links := [{ ID := 10, OriginID := 1, OriginSlot := 0, TargetID := 2, TargetSlot := 0 },
      { ID := 11, OriginID := 2, OriginSlot := 0, TargetID := 4, TargetSlot := 0 }] }

/-- A catalog with one entry: `KSampler`, with the settable INT property `seed`
of value 5. -/
def seedCatalog : NodeObjects :=
  { GetNodeObjectByName := fun name =>
      if name = "KSampler" then
        some { Name := "KSampler", DisplayName := "KSampler",
               SettableProperties :=
                 [{ Kind := PropertyKind.IntProperty, Name := "seed", Value := Value.int 5 }] }
      else none }

/-- The scenario of the spec: the primitive node 1 feeds the input `seed` of the
`KSampler` node 2 through link 10. -/
def primitiveDocument : Document :=
  { Nodes := [{ ID := 1, TypeName := "PrimitiveNode", Order := 0,
                Outputs := [{ Links := some [10] }] },
      { ID := 2, TypeName := "KSampler", Order := 1, Inputs := [{ Name := "seed", Link := 10 }],
        WidgetValues := [Value.int 5] }],
    Links := [{ ID := 10, OriginID := 1, OriginSlot := 0, TargetID := 2, TargetSlot := 0 }] }

/-- The document `primitiveDocument` with a second input slot named `seed` on
node 2, fed from output 0 of node 3. -/
def primitiveTwinSlotDocument : Document :=
  { Nodes := [{ ID := 1, TypeName := "PrimitiveNode", Order := 0,
                Outputs := [{ Links := some [10] }] },
      { ID := 3, TypeName := "Loader", Order := 1 },
      { ID := 2, TypeName := "KSampler", Order := 2,
        Inputs := [{ Name := "seed", Link := 10 }, { Name := "seed", Link := 12 }],
        WidgetValues := [Value.int 5] }],
    Links := [{ ID := 10, OriginID := 1, OriginSlot := 0, TargetID := 2, TargetSlot := 0 },
      { ID := 12, OriginID := 3, OriginSlot := 0, TargetID := 2, TargetSlot := 1 }] }

/-- A catalog with two entries: `KSampler` with the settable INT property `seed`
of value 5, and `Scheduler` with the settable INT property `steps` of value 7. -/
def fanOutCatalog : NodeObjects :=
  { GetNodeObjectByName := fun name =>
      if name = "KSampler" then
        some { Name := "KSampler", DisplayName := "KSampler",
               SettableProperties :=
                 [{ Kind := PropertyKind.IntProperty, Name := "seed", Value := Value.int 5 }] }
      else if name = "Scheduler" then
        some { Name := "Scheduler", DisplayName := "Scheduler",
               SettableProperties :=
                 [{ Kind := PropertyKind.IntProperty, Name := "steps", Value := Value.int 7 }] }
      else none }

/-- A primitive node that feeds two inputs, `seed` of node 2 and `steps` of node 3,
and is placed after node 3 in the execution order. -/
def fanOutDocument : Document :=
  { Nodes := [{ ID := 1, TypeName := "PrimitiveNode", Order := 1,
                Outputs := [{ Links := some [10, 11] }] },
      { ID := 2, TypeName := "KSampler", Order := 2, Inputs := [{ Name := "seed", Link := 10 }],
        WidgetValues := [Value.int 5] },
      { ID := 3, TypeName := "Scheduler", Order := 0,
        Inputs := [{ Name := "steps", Link := 11 }], WidgetValues := [Value.int 7] }],
    Links := [{ ID := 10, OriginID := 1, OriginSlot := 0, TargetID := 2, TargetSlot := 0 },
      { ID := 11, OriginID := 1, OriginSlot := 0, TargetID := 3, TargetSlot := 0 }] }

/-- A BOOLEAN property. -/
def boolProperty : PropertyData :=
  { Kind := PropertyKind.BoolProperty, Name := "flag", Value := Value.bool true }

/-- A catalog with two entries: `KSampler` with the settable properties `seed`
(INT), `flag` and `tiled` (BOOLEAN), and `Scheduler` with the settable INT
property `steps`. -/
def widgetCatalog : NodeObjects :=
  { GetNodeObjectByName := fun name =>
      if name = "KSampler" then
        some { Name := "KSampler", DisplayName := "KSampler",
               SettableProperties :=
                 [{ Kind := PropertyKind.IntProperty, Name := "seed", Value := Value.int 5 },
                  boolProperty,
                  { Kind := PropertyKind.BoolProperty, Name := "tiled",
                    Value := Value.bool false }] }
      else if name = "Scheduler" then
        some { Name := "Scheduler", DisplayName := "Scheduler",
               SettableProperties :=
                 [{ Kind := PropertyKind.IntProperty, Name := "steps", Value := Value.int 7 }] }
      else none }

/-- A primitive node whose output feeds, through the links 10 and 11, the INT input
`seed` and the BOOLEAN input `flag` of node 2. -/
def mixedFanOutDocument : Document :=
  { Nodes := [{ ID := 1, TypeName := "PrimitiveNode", Order := 0,
                Outputs := [{ Links := some [10, 11] }] },
      { ID := 2, TypeName := "KSampler", Order := 1,
        Inputs := [{ Name := "seed", Link := 10 }, { Name := "flag", Link := 11 }],
        WidgetValues := [Value.int 5, Value.bool true, Value.bool false] }],
    Links := [{ ID := 10, OriginID := 1, OriginSlot := 0, TargetID := 2, TargetSlot := 0 },
      { ID := 11, OriginID := 1, OriginSlot := 0, TargetID := 2, TargetSlot := 1 }] }

/-- A primitive node whose outgoing link 10 names the target slot 3 of node 2,
which has one input slot. -/
def outOfRangeDocument : Document :=
  { Nodes := [{ ID := 1, TypeName := "PrimitiveNode", Order := 0,
                Outputs := [{ Links := some [10] }] },
      { ID := 2, TypeName := "KSampler", Order := 1,
        Inputs := [{ Name := "seed", Link := 10 }],
        WidgetValues := [Value.int 5, Value.bool true, Value.bool false] }],
    Links := [{ ID := 10, OriginID := 1, OriginSlot := 0, TargetID := 2, TargetSlot := 3 }] }

/-- A primitive node whose output feeds, through the links 10 and 11, the BOOLEAN
inputs `flag` and `tiled` of node 2. -/
def boolFanOutDocument : Document :=
  { Nodes := [{ ID := 1, TypeName := "PrimitiveNode", Order := 0,
                Outputs := [{ Links := some [10, 11] }] },
      { ID := 2, TypeName := "KSampler", Order := 1,
        Inputs := [{ Name := "flag", Link := 10 }, { Name := "tiled", Link := 11 }],
        WidgetValues := [Value.int 5, Value.bool true, Value.bool false] }],
    Links := [{ ID := 10, OriginID := 1, OriginSlot := 0, TargetID := 2, TargetSlot := 0 },
      { ID := 11, OriginID := 1, OriginSlot := 0, TargetID := 2, TargetSlot := 1 }] }

/-- A primitive node whose output lists its links as `[11, 10]`: link 10 feeds the
input `seed` of node 2, link 11 the input `steps` of node 3. -/
def reversedLinksDocument : Document :=
  { Nodes := [{ ID := 1, TypeName := "PrimitiveNode", Order := 0,
                Outputs := [{ Links := some [11, 10] }] },
      { ID := 2, TypeName := "KSampler", Order := 1,
        Inputs := [{ Name := "seed", Link := 10 }],
        WidgetValues := [Value.int 5, Value.bool true, Value.bool false] },
      { ID := 3, TypeName := "Scheduler", Order := 2,
        Inputs := [{ Name := "steps", Link := 11 }], WidgetValues := [Value.int 7] }],
    Links := [{ ID := 10, OriginID := 1, OriginSlot := 0, TargetID := 2, TargetSlot := 0 },
      { ID := 11, OriginID := 1, OriginSlot := 0, TargetID := 3, TargetSlot := 0 }] }

/-- The document `reversedLinksDocument` with the links of the output listed as
`[10, 11]`. -/
def orderedLinksDocument : Document :=
  { Nodes := [{ ID := 1, TypeName := "PrimitiveNode", Order := 0,
                Outputs := [{ Links := some [10, 11] }] },
      { ID := 2, TypeName := "KSampler", Order := 1,
        Inputs := [{ Name := "seed", Link := 10 }],
        WidgetValues := [Value.int 5, Value.bool true, Value.bool false] },
      { ID := 3, TypeName := "Scheduler", Order := 2,
        Inputs := [{ Name := "steps", Link := 11 }], WidgetValues := [Value.int 7] }],
    Links := [{ ID := 10, OriginID := 1, OriginSlot := 0, TargetID := 2, TargetSlot := 0 },
      { ID := 11, OriginID := 1, OriginSlot := 0, TargetID := 3, TargetSlot := 0 }] }

/-- A document of three nodes, the last two with the same `Order`. -/
def smallDocument : Document :=
  { Nodes := [{ ID := 1, Order := 2 }, { ID := 2, Order := 1 }, { ID := 3, Order := 1 }] }

/-- The pointers of the nodes among `todo` that pass the test `P`, in document
order, `ptr` being the pointer of the first node of `todo`. -/
def selectFrom (P : GraphNode → Bool) : List GraphNode → Nat → List Nat
  | [], _ => []
  | n :: todo, ptr => if P n = true then ptr :: selectFrom P todo (ptr + 1)
      else selectFrom P todo (ptr + 1)

/-- What the binding pass keeps of a node: everything but the property mapping,
the properties bound to the input slots, and the display name and description
copied from the catalog. -/
def GraphNode.header (n : GraphNode) : GraphNode :=
  { n with
    Properties := []
    Inputs := n.Inputs.map (fun s => { s with Property := none })
    DisplayName := ""
    Description := "" }

/-- A catalog with one entry: `LoadImage`, with the settable COMBO property
`image`. -/
def uploadCatalog : NodeObjects :=
  { GetNodeObjectByName := fun name =>
      if name = "LoadImage" then
        some { Name := "LoadImage", DisplayName := "Load Image",
               SettableProperties :=
                 [{ Kind := PropertyKind.ComboProperty, Name := "image",
                    Value := Value.str "example.png" }] }
      else none }

/-- A document of one `LoadImage` node with two widget values: the file name and
the value of the widget `choose file to upload`. -/
def uploadDocument : Document :=
  { Nodes := [{ ID := 1, TypeName := "LoadImage", Order := 0,
                WidgetValues := [Value.str "example.png", Value.str "image"] }] }

/-- A muted primitive node (`Mode` 2) that is visited first and feeds two inputs,
`seed` of node 2 and `steps` of node 3. -/
def mutedPrimitiveDocument : Document :=
  { Nodes := [{ ID := 1, TypeName := "PrimitiveNode", Mode := 2, Order := 0,
                Outputs := [{ Links := some [10, 11] }] },
      { ID := 2, TypeName := "KSampler", Order := 1, Inputs := [{ Name := "seed", Link := 10 }],
        WidgetValues := [Value.int 5] },
      { ID := 3, TypeName := "Scheduler", Order := 2,
        Inputs := [{ Name := "steps", Link := 11 }], WidgetValues := [Value.int 7] }],
    Links := [{ ID := 10, OriginID := 1, OriginSlot := 0, TargetID := 2, TargetSlot := 0 },
      { ID := 11, OriginID := 1, OriginSlot := 0, TargetID := 3, TargetSlot := 0 }] }

/-- The nodes the backward walk of `GraphToPrompt` can go on to from the node at
`p`: when the node is virtual, for every link `l2` recorded at one of its input
slots, the node `GetNodeForInput(l2.OriginSlot)`. -/
def walkTargets (t : Graph) (p : Nat) : List Nat :=
  match t.Nodes[p]? with
  | none => []
  | some node =>
    if node.IsVirtual then
      node.Inputs.filterMap (fun slot =>
        match t.GetLinkById slot.Link with
        | none => none
        | some l2 => t.GetNodeForInput node l2.OriginSlot)
    else []

/-- The backward walk descends: `rank` decreases with every step the walk can
take, so no chain of virtual nodes feeds back into itself. -/
def WalkDescends (t : Graph) (rank : Nat → Nat) : Bool :=
  (List.range t.Nodes.length).all (fun p =>
    (walkTargets t p).all (fun q => decide (rank q < rank p)))

/-- Two Reroute nodes that feed one another, and a node fed by one of them. -/
def rerouteCycleDocument : Document :=
  { Nodes := [{ ID := 1, TypeName := "Reroute", Order := 0,
                Inputs := [{ Name := "", Link := 11 }] },
      { ID := 2, TypeName := "Reroute", Order := 1, Inputs := [{ Name := "", Link := 10 }] },
      { ID := 3, TypeName := "KSampler", Order := 2, Inputs := [{ Name := "x", Link := 12 }] }],
    Links := [{ ID := 10, OriginID := 1, OriginSlot := 0, TargetID := 2, TargetSlot := 0 },
      { ID := 11, OriginID := 2, OriginSlot := 0, TargetID := 1, TargetSlot := 0 },
      { ID := 12, OriginID := 2, OriginSlot := 0, TargetID := 3, TargetSlot := 0 }] }

/-- The link `l` recorded at an input slot resolves to the link `r` that leaves a
node that is not virtual: `l` itself leaves such a node (`r = l`), or `l` leaves
a Reroute node from which a chain of Reroute nodes leads back to `r`. -/
def ResolvesTo (t : Graph) (l r : Link) : Prop :=
  (∃ rptr R, t.GetNodeById l.OriginID = some rptr ∧ t.Nodes[rptr]? = some R ∧
      R.IsVirtual = false ∧ r = l) ∨
  (∃ c rptr R, t.GetNodeById l.OriginID = some c ∧ RerouteChain t r c l ∧
      t.GetNodeById r.OriginID = some rptr ∧ t.Nodes[rptr]? = some R ∧ R.IsVirtual = false)

/-- A document in which node 2 has two input slots named `seed`, the first fed
from output 0 of node 1 and the second from output 0 of node 3, and (with
`seedCatalog`) a property named `seed`. -/
def twinSeedDocument : Document :=
  { Nodes := [{ ID := 1, TypeName := "Loader", Order := 0 },
      { ID := 3, TypeName := "Loader", Order := 1 },
      { ID := 2, TypeName := "KSampler", Order := 2,
        Inputs := [{ Name := "seed", Link := 10 }, { Name := "seed", Link := 12 }],
        WidgetValues := [Value.int 5] }],
    Links := [{ ID := 10, OriginID := 1, OriginSlot := 0, TargetID := 2, TargetSlot := 0 },
      { ID := 12, OriginID := 3, OriginSlot := 0, TargetID := 2, TargetSlot := 1 }] }

/-- A document in which the input `seed` of node 2 is fed from output 0 of
node 1; with `widgetCatalog` node 2 has the properties `seed`, `flag` and
`tiled` as well. -/
def linkedSeedDocument : Document :=
  { Nodes := [{ ID := 1, TypeName := "Loader", Order := 0 },
      { ID := 2, TypeName := "KSampler", Order := 1,
        Inputs := [{ Name := "seed", Link := 10 }],
        WidgetValues := [Value.int 5, Value.bool true, Value.bool false] }],
    Links := [{ ID := 10, OriginID := 1, OriginSlot := 0, TargetID := 2, TargetSlot := 0 }] }

/-- The input slots `b` are the slots `a` after properties have been bound to
slots with a name in `names`: the names are the same at every position, and a
slot with another name is unchanged. -/
def SlotsKept (names : List String) (a b : List Slot) : Prop :=
  b.map (fun s => s.Name) = a.map (fun s => s.Name) ∧
  ∀ (j : Nat) (s s2 : Slot), a[j]? = some s → b[j]? = some s2 → s.Name ∉ names → s2 = s

/-- The property at `addr` is bound to the first input slot named `k`, if there
is one. -/
def BoundToFirst (slots : List Slot) (k : String) (addr : Nat) : Prop :=
  ∀ (j : Nat) (s : Slot), slots[j]? = some s → s.Name = k →
    (∀ (j2 : Nat) (s2 : Slot), j2 < j → slots[j2]? = some s2 → s2.Name ≠ k) →
    s.Property = some addr

/-- The copy of the declared property `prop` that the binding pass makes at the
address `addr` for the node at `ptr`: `UpdateParent` has stored the address of
the copy and `SetTargetWidget` the node and the widget index. -/
def PropertyData.boundTo (prop : PropertyData) (addr ptr pindex : Nat) : PropertyData :=
  { prop with Parent := some addr, TargetNode := some ptr, TargetIndex := pindex }

/-- A catalog whose entry `LoadImage` declares, after the COMBO property `image`,
a STRING property named `choose file to upload`. -/
def uploadNameCatalog : NodeObjects :=
  { GetNodeObjectByName := fun name =>
      if name = "LoadImage" then
        some { Name := "LoadImage", DisplayName := "Load Image",
               SettableProperties :=
                 [{ Kind := PropertyKind.ComboProperty, Name := "image",
                    Value := Value.str "example.png" },
                  { Kind := PropertyKind.StringProperty, Name := "choose file to upload",
                    Value := Value.str "x" }] }
      else none }

/-- A document of one `LoadImage` node with three widget values. -/
def uploadNameDocument : Document :=
  { Nodes := [{ ID := 1, TypeName := "LoadImage", Order := 0,
                WidgetValues := [Value.str "example.png", Value.str "x", Value.str "image"] }] }

/-- A catalog whose entry `LoadImage` declares, after the COMBO property `image`,
a property `upload` of the file upload variant. -/
def declaredUploadCatalog : NodeObjects :=
  { GetNodeObjectByName := fun name =>
      if name = "LoadImage" then
        some { Name := "LoadImage", DisplayName := "Load Image",
               SettableProperties :=
                 [{ Kind := PropertyKind.ComboProperty, Name := "image",
                    Value := Value.str "example.png" },
                  { Kind := PropertyKind.ImageUploadProperty, Name := "upload",
                    Value := Value.str "image" }] }
      else none }

/-- A document of sixteen nodes whose `Order` alternates between 0 and 1.  The
first partition of `sort.Sort` puts the pivot at position 0, so the next
iteration runs `breakPatterns` on `data[1:16]`. -/
def alternatingDocument : Document :=
  { Nodes := [{ ID := 1 }, { ID := 2, Order := 1 }, { ID := 3 }, { ID := 4, Order := 1 },
      { ID := 5 }, { ID := 6, Order := 1 }, { ID := 7 }, { ID := 8, Order := 1 },
      { ID := 9 }, { ID := 10, Order := 1 }, { ID := 11 }, { ID := 12, Order := 1 },
      { ID := 13 }, { ID := 14, Order := 1 }, { ID := 15 }, { ID := 16, Order := 1 }] }

end graphapi

/-! ## Theorems -/

/-! ### Lists and Go maps -/

namespace GoMap

variable {κ ν : Type} [DecidableEq κ]

theorem get?_append_singleton (m : GoMap κ ν) (k k' : κ) (v : ν) :
    get? (m ++ [(k, v)]) k' = match get? m k' with
      | some w => some w
      | none => if k = k' then some v else none := by
  induction m with
  | nil => simp [get?]
  | cons e m ih =>
    obtain ⟨a, b⟩ := e
    by_cases h : a = k'
    · simp [get?, h]
    · simp [get?, h, ih]

theorem get?_filter_ne (m : GoMap κ ν) (k k' : κ) :
    get? (m.filter (fun e => decide (e.1 ≠ k))) k' = if k = k' then none else get? m k' := by
  induction m with
  | nil => simp [get?]
  | cons e m ih =>
    obtain ⟨a, b⟩ := e
    by_cases h : a = k
    · have hf : decide ((a, b).1 ≠ k) = false := by simp [h]
      rw [List.filter_cons_of_neg (by simp [h]), ih]
      by_cases h2 : k = k'
      · simp [h2]
      · have : ¬ a = k' := fun e => h2 (h ▸ e)
        simp [get?, h2, this]
    · rw [List.filter_cons_of_pos (by simp [h])]
      by_cases h2 : a = k'
      · have : ¬ k = k' := fun e => h (h2.trans e.symm)
        simp [get?, h2, this]
      · simp only [get?, h2, if_false, ih]

theorem get?_set (m : GoMap κ ν) (k k' : κ) (v : ν) :
    get? (set m k v) k' = if k = k' then some v else get? m k' := by
  unfold set
  rw [get?_append_singleton, get?_filter_ne]
  by_cases h : k = k'
  · simp [h]
  · simp only [h, if_false]
    cases get? m k' <;> rfl

theorem get?_set_self (m : GoMap κ ν) (k : κ) (v : ν) : get? (set m k v) k = some v := by
  rw [get?_set]; simp

theorem get?_set_of_ne (m : GoMap κ ν) {k k' : κ} (v : ν) (h : k ≠ k') :
    get? (set m k v) k' = get? m k' := by
  rw [get?_set]; simp [h]

end GoMap

namespace sort

variable {α : Type}

theorem getElem?_append_add (A B : List α) (i : Nat) :
    (A ++ B)[A.length + i]? = B[i]? := by
  rw [List.getElem?_append_right (Nat.le_add_right _ _)]
  simp

theorem getElem?_append_len (A B : List α) :
    (A ++ B)[A.length]? = B[0]? := by
  have h := getElem?_append_add A B 0
  simp only [Nat.add_zero] at h
  exact h

theorem set_append_add (A B : List α) (i : Nat) (v : α) :
    (A ++ B).set (A.length + i) v = A ++ B.set i v := by
  induction A with
  | nil => simp
  | cons a A ih => simp [Nat.succ_add, ih]

theorem set_append_len (A B : List α) (v : α) :
    (A ++ B).set A.length v = A ++ B.set 0 v := by
  have h := set_append_add A B 0 v
  simp only [Nat.add_zero] at h
  exact h

/-! ### `sort.Sort` on at most twelve elements is an insertion sort -/

theorem Less_adjacent (less : α → α → Bool) (A B : List α) (x y : α) :
    Less less (A ++ y :: x :: B) (A.length + 1) A.length = less x y := by
  unfold Less
  rw [getElem?_append_add, getElem?_append_len]
  simp

theorem Swap_adjacent (A B : List α) (x y : α) :
    Swap (A ++ y :: x :: B) (A.length + 1) A.length = A ++ x :: y :: B := by
  unfold Swap
  rw [getElem?_append_add, getElem?_append_len]
  simp only [List.getElem?_cons_succ, List.getElem?_cons_zero]
  rw [set_append_add, set_append_len]
  simp

theorem insertionSortInner_eq (less : α → α → Bool) (P : List α) (x : α) :
    ∀ (M : List α) (R : List α),
      insertionSortInner less P.length (P.length + M.length) (P ++ M.reverse ++ x :: R)
        = P ++ (insertBack less x M).reverse ++ R := by
  intro M
  induction M with
  | nil =>
    intro R
    cases hP : P.length with
    | zero => simp [insertionSortInner, insertBack]
    | succ k => simp [insertionSortInner, insertBack]
  | cons y ys ih =>
    intro R
    have hlen : P.length + (y :: ys).length = (P ++ ys.reverse).length + 1 := by
      simp; omega
    have hdata : P ++ (y :: ys).reverse ++ x :: R = (P ++ ys.reverse) ++ y :: x :: R := by
      simp
    rw [hlen, hdata]
    unfold insertionSortInner
    rw [Less_adjacent, Swap_adjacent]
    by_cases hxy : less x y = true
    · have hlt : P.length < (P ++ ys.reverse).length + 1 := by simp; omega
      rw [if_pos ⟨hlt, hxy⟩]
      have h3 : (P ++ ys.reverse).length = P.length + ys.length := by simp
      rw [h3, ih (y :: R)]
      simp [insertBack, hxy]
    · rw [if_neg (fun h => hxy h.2)]
      simp [insertBack, hxy]

theorem length_insertBack (less : α → α → Bool) (x : α) (M : List α) :
    (insertBack less x M).length = M.length + 1 := by
  induction M with
  | nil => rfl
  | cons y ys ih =>
    unfold insertBack
    split
    · simp [ih]
    · simp

theorem perm_insertBack (less : α → α → Bool) (x : α) (M : List α) :
    (insertBack less x M).Perm (x :: M) := by
  induction M with
  | nil => exact List.Perm.refl _
  | cons y ys ih =>
    unfold insertBack
    split
    · exact (List.Perm.cons y ih).trans (List.Perm.swap x y ys)
    · exact List.Perm.refl _

theorem insertionSortOuter_eq (less : α → α → Bool) (P U2 : List α) :
    ∀ (U1 M : List α) (fuel : Nat), U1.length ≤ fuel →
      insertionSortOuter less P.length (P.length + M.length + U1.length) fuel
          (P.length + M.length) (P ++ M.reverse ++ (U1 ++ U2))
        = P ++ (U1.foldl (fun M x => insertBack less x M) M).reverse ++ U2 := by
  intro U1
  induction U1 with
  | nil =>
    intro M fuel _
    cases fuel with
    | zero => simp [insertionSortOuter]
    | succ f => simp [insertionSortOuter]
  | cons x U1 ih =>
    intro M fuel hf
    cases fuel with
    | zero => simp at hf
    | succ f =>
      unfold insertionSortOuter
      have hlt : P.length + M.length < P.length + M.length + (x :: U1).length := by
        simp
      rw [if_pos hlt]
      have hd : P ++ M.reverse ++ (x :: U1 ++ U2) = P ++ M.reverse ++ x :: (U1 ++ U2) := rfl
      rw [hd, insertionSortInner_eq]
      have hb : P.length + M.length + (x :: U1).length
          = P.length + (insertBack less x M).length + U1.length := by
        simp [length_insertBack]; omega
      have hi : P.length + M.length + 1 = P.length + (insertBack less x M).length := by
        simp [length_insertBack]; omega
      rw [hb, hi, ih (insertBack less x M) f (by simpa using hf)]
      rfl

theorem insertionSort_eq (less : α → α → Bool) (data : List α) :
    insertionSort less data 0 data.length
      = (data.foldl (fun M x => insertBack less x M) []).reverse := by
  cases data with
  | nil => simp [insertionSort, insertionSortOuter]
  | cons x U =>
    have h := insertionSortOuter_eq less [] [] U [x] (x :: U).length (by simp)
    simp only [List.length_nil, List.length_cons, List.nil_append, List.append_nil,
      List.reverse_cons, List.reverse_nil, Nat.zero_add, List.length_singleton] at h
    unfold insertionSort
    simp only [List.length_cons, Nat.sub_zero, Nat.zero_add, List.foldl_cons]
    have e : (1 + U.length) = U.length + 1 := by omega
    rw [e] at h
    simpa [insertBack] using h

theorem SortFn_short (less : α → α → Bool) (data : List α) (h : data.length ≤ 12) :
    SortFn less data = (data.foldl (fun M x => insertBack less x M) []).reverse := by
  unfold SortFn
  by_cases h1 : data.length ≤ 1
  · simp only [h1, if_true]
    match data, h1 with
    | [], _ => rfl
    | [x], _ => rfl
  · simp only [h1, if_false]
    unfold pdqsortLoop
    simp only [Nat.sub_zero, h, if_true, Option.getD_some]
    exact insertionSort_eq less data

end sort

namespace graphapi

/-! ### C1: the execution order and ties of `Order` -/

theorem pairwise_insertBack (nodes : List GraphNode) (x : Nat) (M : List Nat)
    (hM : M.Pairwise (fun a b => tieLess nodes b a)) (hx : ∀ y ∈ M, y < x) :
    (sort.insertBack (ByGraphOrdinal.Less nodes) x M).Pairwise (fun a b => tieLess nodes b a) := by
  induction M with
  | nil => simp [sort.insertBack]
  | cons y ys ih =>
    rw [List.pairwise_cons] at hM
    unfold sort.insertBack
    by_cases hxy : ByGraphOrdinal.Less nodes x y = true
    · rw [if_pos hxy]
      have hlt : orderAt nodes x < orderAt nodes y := by
        simpa [ByGraphOrdinal.Less] using hxy
      rw [List.pairwise_cons]
      refine ⟨?_, ih hM.2 (fun z hz => hx z (List.mem_cons_of_mem _ hz))⟩
      intro z hz
      have hz2 : z ∈ x :: ys := (sort.perm_insertBack _ x ys).subset hz
      rcases List.mem_cons.1 hz2 with rfl | hz3
      · exact Or.inl hlt
      · exact hM.1 z hz3
    · rw [if_neg hxy]
      have hge : orderAt nodes y ≤ orderAt nodes x := by
        simpa [ByGraphOrdinal.Less] using hxy
      rw [List.pairwise_cons]
      refine ⟨?_, List.pairwise_cons.2 hM⟩
      intro z hz
      have hzx : z < x := hx z hz
      rcases List.mem_cons.1 hz with rfl | hz3
      · rcases lt_or_eq_of_le hge with h | h
        · exact Or.inl h
        · exact Or.inr ⟨h, hzx⟩
      · rcases hM.1 z hz3 with h | h
        · exact Or.inl (lt_of_lt_of_le h hge)
        · rcases lt_or_eq_of_le hge with h2 | h2
          · exact Or.inl (h.1 ▸ h2)
          · exact Or.inr ⟨h.1.trans h2, hzx⟩

theorem foldl_insertBack_range (nodes : List GraphNode) (n : Nat) :
    ((List.range n).foldl (fun M x => sort.insertBack (ByGraphOrdinal.Less nodes) x M) []).Perm
        (List.range n) ∧
    ((List.range n).foldl (fun M x => sort.insertBack (ByGraphOrdinal.Less nodes) x M) []).Pairwise
        (fun a b => tieLess nodes b a) := by
  induction n with
  | zero => simp
  | succ n ih =>
    rw [List.range_succ, List.foldl_append]
    simp only [List.foldl_cons, List.foldl_nil]
    refine ⟨?_, pairwise_insertBack nodes n _ ih.2 ?_⟩
    · refine (sort.perm_insertBack _ n _).trans ?_
      refine (List.Perm.cons n ih.1).trans ?_
      exact (List.perm_append_singleton n (List.range n)).symm
    · intro y hy
      exact List.mem_range.1 (ih.1.subset hy)

theorem stableByOrder_of_pairwise (nodes : List GraphNode) (order : List Nat)
    (hperm : order.Perm (List.range nodes.length))
    (hpw : order.Pairwise (tieLess nodes)) : StableByOrder nodes order := by
  refine ⟨hperm, hpw.imp ?_, ?_⟩
  · intro a b h
    rcases h with h | h
    · exact le_of_lt h
    · exact le_of_eq h.1
  · intro p q hpq hq hord
    have hp_mem : p ∈ order := hperm.symm.subset (List.mem_range.2 (lt_trans hpq hq))
    have hq_mem : q ∈ order := hperm.symm.subset (List.mem_range.2 hq)
    by_contra hcon
    have hle : order.indexOf q ≤ order.indexOf p := Nat.le_of_not_lt hcon
    have hne : order.indexOf q ≠ order.indexOf p := by
      intro h
      have := (List.indexOf_inj hq_mem hp_mem).1 h
      omega
    have hlt : order.indexOf q < order.indexOf p := lt_of_le_of_ne hle hne
    have hpl : order.indexOf p < order.length := List.indexOf_lt_length.2 hp_mem
    have h := List.pairwise_iff_getElem.1 hpw (order.indexOf q) (order.indexOf p)
      (lt_trans hlt hpl) hpl hlt
    rw [List.getElem_indexOf, List.getElem_indexOf] at h
    rcases h with h | h
    · omega
    · omega

/-- C1, as stated, fails: in the document `tieDocument` (thirteen nodes, the
first with `Order` 1, the others with `Order` 0) `sort.Sort` moves node 6, the
pivot, in front of node 1 although both have `Order` 0, so the execution order
is not a stable sort of `Nodes`. -/
theorem C1_execution_order_not_stable :
    ¬ StableByOrder tieDocument.Nodes (UnmarshalJSON tieDocument).NodesInExecutionOrder := by
  intro h
  have h6 := h.2.2 1 6 (by decide) (by decide) (by decide)
  have e : (UnmarshalJSON tieDocument).NodesInExecutionOrder
      = [6, 1, 2, 3, 4, 5, 7, 8, 9, 10, 11, 12, 0] := by decide
  rw [e] at h6
  revert h6
  decide

/-- C1, amended: for every document of at most twelve nodes (the range on which
`sort.Sort` is an insertion sort) `NodesInExecutionOrder` is a stable sort of
`Nodes` by `Order`: a permutation of the nodes, with `Order` non-decreasing, in
which two nodes of the same `Order` keep the order they have in `Nodes`. -/
theorem C1_execution_order_stable_upto_twelve (decoded : Document)
    (h : decoded.Nodes.length ≤ 12) :
    StableByOrder decoded.Nodes (UnmarshalJSON decoded).NodesInExecutionOrder := by
  have hs : (UnmarshalJSON decoded).NodesInExecutionOrder
      = ((List.range decoded.Nodes.length).foldl
          (fun M x => sort.insertBack (ByGraphOrdinal.Less decoded.Nodes) x M) []).reverse := by
    unfold UnmarshalJSON
    exact sort.SortFn_short _ _ (by simpa using h)
  rw [hs]
  have hf := foldl_insertBack_range decoded.Nodes decoded.Nodes.length
  apply stableByOrder_of_pairwise
  · exact (List.reverse_perm _).trans hf.1
  · exact List.pairwise_reverse.2 hf.2

/-- Witness of `C1_execution_order_stable_upto_twelve`: a document of three nodes
with a tie of `Order`. -/
theorem C1_execution_order_stable_upto_twelve_witness :
    smallDocument.Nodes.length ≤ 12 ∧
      StableByOrder smallDocument.Nodes (UnmarshalJSON smallDocument).NodesInExecutionOrder :=
  ⟨by decide, C1_execution_order_stable_upto_twelve smallDocument (by decide)⟩

end graphapi

namespace sort

variable {α : Type}

theorem Swap_perm (data : List α) (i j : Nat) : (Swap data i j).Perm data := by
  classical
  unfold Swap
  cases hi : data[i]? with
  | none => exact List.Perm.refl _
  | some x =>
    cases hj : data[j]? with
    | none => exact List.Perm.refl _
    | some y =>
      simp only
      have hil : i < data.length := by
        rcases List.getElem?_eq_some.1 hi with ⟨h, _⟩; exact h
      have hjl : j < data.length := by
        rcases List.getElem?_eq_some.1 hj with ⟨h, _⟩; exact h
      have hxi : data[i] = x := by
        rcases List.getElem?_eq_some.1 hi with ⟨_, h⟩; exact h
      have hyj : data[j] = y := by
        rcases List.getElem?_eq_some.1 hj with ⟨_, h⟩; exact h
      rw [List.perm_iff_count]
      intro a
      have hjl2 : j < (data.set i y).length := by simpa using hjl
      rw [List.count_set x a (data.set i y) j hjl2, List.count_set y a data i hil]
      by_cases hij : i = j
      · subst hij
        have hxy : x = y := hxi.symm.trans hyj
        subst hxy
        simp only [List.getElem_set_self, hxi]
        have : 0 < List.count a data ∨ ¬ (x == a) = true := by
          by_cases hxa : (x == a) = true
          · left
            have : a ∈ data := by
              have := List.getElem_mem hil
              rw [hxi] at this
              simpa [beq_iff_eq.1 hxa] using this
            exact List.count_pos_iff.2 this
          · right; exact hxa
        rcases this with h | h
        · split <;> omega
        · simp [h]
      · have hget : (data.set i y)[j] = y := by
          rw [List.getElem_set_ne hij]; exact hyj
        rw [hget, hxi]
        have hx : (x == a) = true → 0 < List.count a data := by
          intro hxa
          have : a ∈ data := by
            have := List.getElem_mem hil
            rw [hxi] at this
            simpa [beq_iff_eq.1 hxa] using this
          exact List.count_pos_iff.2 this
        have hy : (y == a) = true → 0 < List.count a data := by
          intro hya
          have : a ∈ data := by
            have := List.getElem_mem hjl
            rw [hyj] at this
            simpa [beq_iff_eq.1 hya] using this
          exact List.count_pos_iff.2 this
        by_cases hxa : (x == a) = true <;> by_cases hya : (y == a) = true
        · simp only [hxa, hya, if_true]; have := hx hxa; omega
        · have := hx hxa; simp [hxa, hya]; omega
        · have := hy hya; simp [hxa, hya]
        · simp [hxa, hya]

end sort

namespace sort

variable {α : Type}

/-! ### `sort.Sort` permutes its argument -/

theorem insertionSortInner_perm (less : α → α → Bool) (a : Nat) :
    ∀ (j : Nat) (data : List α), (insertionSortInner less a j data).Perm data := by
  intro j
  induction j with
  | zero => intro data; exact List.Perm.refl _
  | succ j ih =>
    intro data
    unfold insertionSortInner
    split
    · exact (ih _).trans (Swap_perm _ _ _)
    · exact List.Perm.refl _

theorem insertionSortOuter_perm (less : α → α → Bool) (a b : Nat) :
    ∀ (fuel i : Nat) (data : List α), (insertionSortOuter less a b fuel i data).Perm data := by
  intro fuel
  induction fuel with
  | zero => intro i data; exact List.Perm.refl _
  | succ fuel ih =>
    intro i data
    unfold insertionSortOuter
    split
    · exact (ih _ _).trans (insertionSortInner_perm less a i data)
    · exact List.Perm.refl _

theorem insertionSort_perm (less : α → α → Bool) (data : List α) (a b : Nat) :
    (insertionSort less data a b).Perm data :=
  insertionSortOuter_perm less a b _ _ data

theorem siftDownLoop_perm (less : α → α → Bool) (hi first : Nat) :
    ∀ (fuel root : Nat) (data : List α), (siftDownLoop less hi first fuel root data).Perm data := by
  intro fuel
  induction fuel with
  | zero => intro root data; exact List.Perm.refl _
  | succ fuel ih =>
    intro root data
    unfold siftDownLoop
    simp only
    split
    · exact List.Perm.refl _
    · generalize (if 2 * root + 1 + 1 < hi ∧
          Less less data (first + (2 * root + 1)) (first + (2 * root + 1) + 1) = true
        then 2 * root + 1 + 1 else 2 * root + 1) = child
      split
      · exact (ih _ _).trans (Swap_perm _ _ _)
      · exact List.Perm.refl _

theorem siftDown_perm (less : α → α → Bool) (data : List α) (lo hi first : Nat) :
    (siftDown less data lo hi first).Perm data :=
  siftDownLoop_perm less hi first _ _ data

theorem heapSortBuild_perm (less : α → α → Bool) (hi first : Nat) :
    ∀ (n : Nat) (data : List α), (heapSortBuild less hi first n data).Perm data := by
  intro n
  induction n with
  | zero => intro data; exact List.Perm.refl _
  | succ n ih =>
    intro data
    unfold heapSortBuild
    exact (ih _).trans (siftDown_perm less data n hi first)

theorem heapSortPop_perm (less : α → α → Bool) (first : Nat) :
    ∀ (n : Nat) (data : List α), (heapSortPop less first n data).Perm data := by
  intro n
  induction n with
  | zero => intro data; exact List.Perm.refl _
  | succ n ih =>
    intro data
    unfold heapSortPop
    exact ((ih _).trans (siftDown_perm less _ 0 n first)).trans (Swap_perm _ _ _)

theorem heapSort_perm (less : α → α → Bool) (data : List α) (a b : Nat) :
    (heapSort less data a b).Perm data :=
  (heapSortPop_perm less a _ _).trans (heapSortBuild_perm less _ a _ data)

theorem partitionLoop_perm (less : α → α → Bool) (a : Nat) :
    ∀ (fuel : Nat) (data : List α) (i j : Nat),
      (partitionLoop less a fuel data i j).1.Perm data := by
  intro fuel
  induction fuel with
  | zero => intro data i j; exact List.Perm.refl _
  | succ fuel ih =>
    intro data i j
    unfold partitionLoop
    simp only
    split
    · exact List.Perm.refl _
    · exact (ih _ _ _).trans (Swap_perm _ _ _)

theorem partition_perm (less : α → α → Bool) (data : List α) (a b pivot : Nat) :
    (partition less data a b pivot).1.Perm data := by
  unfold partition
  simp only
  split
  · exact (Swap_perm _ _ _).trans (Swap_perm _ _ _)
  · exact ((Swap_perm _ _ _).trans (partitionLoop_perm less a _ _ _ _)).trans
      ((Swap_perm _ _ _).trans (Swap_perm _ _ _))

theorem partitionEqualLoop_perm (less : α → α → Bool) (a : Nat) :
    ∀ (fuel : Nat) (data : List α) (i j : Nat),
      (partitionEqualLoop less a fuel data i j).1.Perm data := by
  intro fuel
  induction fuel with
  | zero => intro data i j; exact List.Perm.refl _
  | succ fuel ih =>
    intro data i j
    unfold partitionEqualLoop
    simp only
    split
    · exact List.Perm.refl _
    · exact (ih _ _ _).trans (Swap_perm _ _ _)

theorem partitionEqual_perm (less : α → α → Bool) (data : List α) (a b pivot : Nat) :
    (partitionEqual less data a b pivot).1.Perm data :=
  (partitionEqualLoop_perm less a _ _ _ _).trans (Swap_perm _ _ _)

theorem shiftLeft_perm (less : α → α → Bool) :
    ∀ (j : Nat) (data : List α), (shiftLeft less j data).Perm data := by
  intro j
  induction j with
  | zero => intro data; exact List.Perm.refl _
  | succ j ih =>
    intro data
    unfold shiftLeft
    split
    · exact (ih _).trans (Swap_perm _ _ _)
    · exact List.Perm.refl _

theorem shiftRight_perm (less : α → α → Bool) (b : Nat) :
    ∀ (fuel j : Nat) (data : List α), (shiftRight less b fuel j data).Perm data := by
  intro fuel
  induction fuel with
  | zero => intro j data; exact List.Perm.refl _
  | succ fuel ih =>
    intro j data
    unfold shiftRight
    split
    · exact (ih _ _).trans (Swap_perm _ _ _)
    · exact List.Perm.refl _

theorem partialInsertionSortLoop_perm (less : α → α → Bool) (a b : Nat) :
    ∀ (steps i : Nat) (data : List α),
      (partialInsertionSortLoop less a b steps i data).1.Perm data := by
  intro steps
  induction steps with
  | zero => intro i data; exact List.Perm.refl _
  | succ steps ih =>
    intro i data
    unfold partialInsertionSortLoop
    simp only
    split
    · exact List.Perm.refl _
    · split
      · exact List.Perm.refl _
      · refine (ih _ _).trans ?_
        have h1 : (Swap data (scanSorted less data b (b - i) i)
            (scanSorted less data b (b - i) i - 1)).Perm data := Swap_perm _ _ _
        refine List.Perm.trans ?_ h1
        split
        · refine (shiftRight_perm less b _ _ _).trans ?_
          split
          · exact shiftLeft_perm less _ _
          · exact List.Perm.refl _
        · split
          · exact shiftLeft_perm less _ _
          · exact List.Perm.refl _

theorem partialInsertionSort_perm (less : α → α → Bool) (data : List α) (a b : Nat) :
    (partialInsertionSort less data a b).1.Perm data :=
  partialInsertionSortLoop_perm less a b _ _ data

theorem breakPatternsLoop_perm (a length modulus idx : Nat) :
    ∀ (n i random : Nat) (data : List α),
      (breakPatternsLoop a length modulus idx n i random data).Perm data := by
  intro n
  induction n with
  | zero => intro i random data; exact List.Perm.refl _
  | succ n ih =>
    intro i random data
    unfold breakPatternsLoop
    exact (ih _ _ _).trans (Swap_perm _ _ _)

theorem breakPatterns_perm (data : List α) (a b : Nat) : (breakPatterns data a b).Perm data := by
  unfold breakPatterns
  simp only
  split
  · exact breakPatternsLoop_perm _ _ _ _ _ _ _ _
  · exact List.Perm.refl _

theorem reverseRangeLoop_perm :
    ∀ (fuel i j : Nat) (data : List α), (reverseRangeLoop fuel i j data).Perm data := by
  intro fuel
  induction fuel with
  | zero => intro i j data; exact List.Perm.refl _
  | succ fuel ih =>
    intro i j data
    unfold reverseRangeLoop
    split
    · exact (ih _ _ _).trans (Swap_perm _ _ _)
    · exact List.Perm.refl _

theorem reverseRange_perm (data : List α) (a b : Nat) : (reverseRange data a b).Perm data :=
  reverseRangeLoop_perm _ _ _ data

theorem perm_ite {c : Prop} [Decidable c] {x y data : List α}
    (hx : x.Perm data) (hy : y.Perm data) : (if c then x else y).Perm data := by
  split <;> assumption

theorem perm_fst_ite {β : Type} {c : Prop} [Decidable c] {x y : List α × β} {data : List α}
    (hx : x.1.Perm data) (hy : y.1.Perm data) : (if c then x else y).1.Perm data := by
  split <;> assumption

theorem pdqsortPivot_perm (less : α → α → Bool) (data : List α) (a b limit : Nat)
    (wb wp : Bool) : (pdqsortPivot less data a b limit wb wp).1.Perm data := by
  have hbp : (if wb = true then data else breakPatterns data a b).Perm data :=
    perm_ite (List.Perm.refl _) (breakPatterns_perm data a b)
  have hrev : ∀ (c : Bool), (if c = true
      then reverseRange (if wb = true then data else breakPatterns data a b) a b
      else (if wb = true then data else breakPatterns data a b)).Perm data :=
    fun c => perm_ite ((reverseRange_perm _ a b).trans hbp) hbp
  unfold pdqsortPivot
  exact perm_fst_ite ((partialInsertionSort_perm less _ a b).trans (hrev _)) (hrev _)

theorem pdqsortLoop_perm (less : α → α → Bool) :
    ∀ (fuel : Nat) (data : List α) (a b limit : Nat) (wb wp : Bool) (r : List α),
      pdqsortLoop less fuel data a b limit wb wp = some r → r.Perm data := by
  intro fuel
  induction fuel with
  | zero => intro data a b limit wb wp r h; simp [pdqsortLoop] at h
  | succ fuel ih =>
    intro data a b limit wb wp r h
    unfold pdqsortLoop at h
    split at h
    · cases h; exact insertionSort_perm less data a b
    · split at h
      · cases h; exact heapSort_perm less data a b
      · have hs := pdqsortPivot_perm less data a b limit wb wp
        generalize pdqsortPivot less data a b limit wb wp = s at h hs
        simp only at h
        split at h
        · cases h; exact hs
        · split at h
          · exact (ih _ _ _ _ _ _ _ h).trans ((partitionEqual_perm less _ a b _).trans hs)
          · have hp := (partition_perm less s.1 a b s.2.2.1).trans hs
            generalize partition less s.1 a b s.2.2.1 = pr at h hp
            split at h
            · split at h
              · cases h
              · rename_i d3 hd3
                exact (ih _ _ _ _ _ _ _ h).trans ((ih _ _ _ _ _ _ _ hd3).trans hp)
            · split at h
              · cases h
              · rename_i d3 hd3
                exact (ih _ _ _ _ _ _ _ h).trans ((ih _ _ _ _ _ _ _ hd3).trans hp)

theorem SortFn_perm (less : α → α → Bool) (data : List α) : (SortFn less data).Perm data := by
  unfold SortFn
  simp only
  split
  · exact List.Perm.refl _
  · cases h : pdqsortLoop less (data.length + 1) data 0 data.length (bitsLen data.length) true true with
    | none => exact List.Perm.refl _
    | some r => exact pdqsortLoop_perm less _ _ _ _ _ _ _ r h

end sort

namespace graphapi

/-! ### The loop of `GraphToPrompt` -/


theorem ApplyToGraph_withHeap (t : Graph) (ptr : Nat) :
    ∃ heap, ApplyToGraph t ptr = t.withHeap heap := by
  unfold ApplyToGraph
  split
  · exact ⟨t.Heap, rfl⟩
  · split
    · split
      · exact ⟨t.Heap, rfl⟩
      · split
        · exact ⟨t.Heap, rfl⟩
        · exact ⟨_, rfl⟩
    · exact ⟨t.Heap, rfl⟩

theorem compileNodes_withHeap (fuel : Nat) :
    ∀ (order : List Nat) (t : Graph) (m m' : GoMap Int PromptNode) (t' : Graph),
      compileNodes fuel order t m = Except.ok (m', t') → ∃ heap, t' = t.withHeap heap := by
  intro order
  induction order with
  | nil =>
    intro t m m' t' h
    simp only [compileNodes, Except.ok.injEq, Prod.mk.injEq] at h
    exact ⟨t.Heap, h.2 ▸ rfl⟩
  | cons ptr rest ih =>
    intro t m m' t' h
    unfold compileNodes at h
    split at h
    · cases h
    · split at h
      · obtain ⟨h1, e⟩ := ApplyToGraph_withHeap t ptr
        rw [e] at h
        obtain ⟨h2, e2⟩ := ih _ _ _ _ h
        exact ⟨h2, e2⟩
      · split at h
        · exact ih _ _ _ _ h
        · split at h
          · cases h
          · exact ih _ _ _ _ h

/-- Every key of the map built by the loop of `GraphToPrompt` was in the map
before or is the ID of a node of the execution order that is neither virtual nor
muted. -/
theorem compileNodes_keys (fuel : Nat) (k : Int) :
    ∀ (order : List Nat) (t : Graph) (m m' : GoMap Int PromptNode) (t' : Graph),
      compileNodes fuel order t m = Except.ok (m', t') →
      GoMap.hasKey m' k = true →
      GoMap.hasKey m k = true ∨ ∃ ptr ∈ order, ∃ node, t.Emits ptr node ∧ node.ID = k := by
  intro order
  induction order with
  | nil =>
    intro t m m' t' h hk
    simp only [compileNodes, Except.ok.injEq, Prod.mk.injEq] at h
    exact Or.inl (h.1 ▸ hk)
  | cons ptr rest ih =>
    intro t m m' t' h hk
    unfold compileNodes at h
    split at h
    · cases h
    · rename_i node hnode
      split at h
      · obtain ⟨h1, e⟩ := ApplyToGraph_withHeap t ptr
        rw [e] at h
        rcases ih _ _ _ _ h hk with h3 | ⟨q, hq, n2, hn2, hid⟩
        · exact Or.inl h3
        · exact Or.inr ⟨q, List.mem_cons_of_mem _ hq, n2, hn2, hid⟩
      · rename_i hvirt
        split at h
        · rcases ih _ _ _ _ h hk with h3 | ⟨q, hq, n2, hn2, hid⟩
          · exact Or.inl h3
          · exact Or.inr ⟨q, List.mem_cons_of_mem _ hq, n2, hn2, hid⟩
        · rename_i hmode
          split at h
          · cases h
          · rcases ih _ _ _ _ h hk with h3 | ⟨q, hq, n2, hn2, hid⟩
            · by_cases hid : node.ID = k
              · exact Or.inr ⟨ptr, List.mem_cons_self _ _, node,
                  ⟨hnode, by simpa using hvirt, hmode⟩, hid⟩
              · left
                unfold GoMap.hasKey at h3 ⊢
                rwa [GoMap.get?_set_of_ne _ _ hid] at h3
            · exact Or.inr ⟨q, List.mem_cons_of_mem _ hq, n2, hn2, hid⟩

/-- The nodes visited after the last node compiled under the key `k` leave the
entry under `k` as it is. -/
theorem compileNodes_get?_of_no_write (fuel : Nat) (k : Int) :
    ∀ (order : List Nat) (t : Graph) (m m' : GoMap Int PromptNode) (t' : Graph),
      compileNodes fuel order t m = Except.ok (m', t') →
      (∀ q ∈ order, ∀ n2, t.Emits q n2 → n2.ID ≠ k) →
      GoMap.get? m' k = GoMap.get? m k := by
  intro order
  induction order with
  | nil =>
    intro t m m' t' h _
    simp only [compileNodes, Except.ok.injEq, Prod.mk.injEq] at h
    rw [h.1]
  | cons ptr rest ih =>
    intro t m m' t' h hno
    have hrest : ∀ q ∈ rest, ∀ n2, t.Emits q n2 → n2.ID ≠ k :=
      fun q hq => hno q (List.mem_cons_of_mem _ hq)
    unfold compileNodes at h
    split at h
    · cases h
    · rename_i node hnode
      split at h
      · obtain ⟨h1, e⟩ := ApplyToGraph_withHeap t ptr
        rw [e] at h
        exact ih _ _ _ _ h hrest
      · rename_i hvirt
        split at h
        · exact ih _ _ _ _ h hrest
        · rename_i hmode
          split at h
          · cases h
          · rw [ih _ _ _ _ h hrest]
            have hid : node.ID ≠ k :=
              hno ptr (List.mem_cons_self _ _) node ⟨hnode, by simpa using hvirt, hmode⟩
            exact GoMap.get?_set_of_ne _ _ hid

theorem applyVirtuals_withHeap :
    ∀ (order : List Nat) (t : Graph), ∃ heap, applyVirtuals order t = t.withHeap heap := by
  intro order
  induction order with
  | nil => intro t; exact ⟨t.Heap, rfl⟩
  | cons ptr rest ih =>
    intro t
    unfold applyVirtuals
    split
    · split
      · obtain ⟨h1, e⟩ := ApplyToGraph_withHeap t ptr
        rw [e]
        obtain ⟨h2, e2⟩ := ih (t.withHeap h1)
        exact ⟨h2, e2⟩
      · exact ih t
    · exact ih t

/-- The entry under the ID of a compiled node is the prompt node built for the
last node compiled under that ID, in the state the graph has at its visit. -/
theorem compileNodes_get?_last (fuel : Nat) (ptr : Nat) (node : GraphNode) (suf : List Nat) :
    ∀ (pre : List Nat) (t : Graph) (m m' : GoMap Int PromptNode) (t' : Graph),
      compileNodes fuel (pre ++ ptr :: suf) t m = Except.ok (m', t') →
      t.Emits ptr node →
      (∀ q ∈ suf, ∀ n2, t.Emits q n2 → n2.ID ≠ node.ID) →
      ∃ pn, promptNode fuel (applyVirtuals pre t) node = Except.ok pn ∧
        GoMap.get? m' node.ID = some pn := by
  intro pre
  induction pre with
  | nil =>
    intro t m m' t' h hem hno
    simp only [List.nil_append] at h
    unfold compileNodes at h
    rw [hem.1] at h
    simp only [hem.2.1, hem.2.2, if_false, Bool.false_eq_true] at h
    split at h
    · cases h
    · rename_i pn hpn
      refine ⟨pn, hpn, ?_⟩
      rw [compileNodes_get?_of_no_write fuel node.ID _ _ _ _ _ h hno]
      exact GoMap.get?_set_self _ _ _
  | cons p pre ih =>
    intro t m m' t' h hem hno
    simp only [List.cons_append] at h
    unfold compileNodes at h
    unfold applyVirtuals
    split at h
    · cases h
    · rename_i n0 hn0
      simp only [hn0]
      split at h
      · rename_i hvirt
        rw [if_pos hvirt]
        obtain ⟨h1, e⟩ := ApplyToGraph_withHeap t p
        rw [e] at h ⊢
        exact ih _ _ _ _ h hem hno
      · rename_i hvirt
        rw [if_neg hvirt]
        split at h
        · exact ih _ _ _ _ h hem hno
        · split at h
          · cases h
          · exact ih _ _ _ _ h hem hno

end graphapi

namespace graphapi

/-! ### The prompt does not depend on the fuel -/

theorem resolveVirtual_fuel_mono (t : Graph) :
    ∀ (fuel : Nat) (parent : Option Nat) (link res : Option Link),
      resolveVirtual t fuel parent link = Except.ok res →
      ∀ fuel2, fuel ≤ fuel2 → resolveVirtual t fuel2 parent link = Except.ok res := by
  intro fuel
  induction fuel with
  | zero => intro parent link res h; cases h
  | succ fuel ih =>
    intro parent link res h fuel2 hle
    obtain ⟨k, rfl⟩ : ∃ k, fuel2 = k + 1 := ⟨fuel2 - 1, by omega⟩
    unfold resolveVirtual at h ⊢
    cases parent with
    | none => exact h
    | some ptr =>
      simp only at h ⊢
      cases hn : t.Nodes[ptr]? with
      | none => rw [hn] at h; cases h
      | some parent_node =>
        rw [hn] at h
        simp only at h ⊢
        by_cases hv : parent_node.IsVirtual = true
        · simp only [hv, if_true] at h ⊢
          cases link with
          | none => cases h
          | some l =>
            simp only at h ⊢
            cases hl : t.GetInputLink parent_node l.OriginSlot with
            | none => rw [hl] at h; exact h
            | some l2 =>
              rw [hl] at h
              exact ih _ _ _ h k (by omega)
        · simp only [hv] at h ⊢
          exact h

theorem promptLink_fuel_mono (t : Graph) (node : GraphNode) (i : Nat) (slot : Slot)
    (fuel fuel2 : Nat) (hle : fuel ≤ fuel2) (res : Option (String × InputValue))
    (h : promptLink fuel t node i slot = Except.ok res) :
    promptLink fuel2 t node i slot = Except.ok res := by
  unfold promptLink at h ⊢
  cases hp : t.GetNodeForInput node i with
  | none => rw [hp] at h; exact h
  | some parent =>
    rw [hp] at h
    simp only at h ⊢
    cases hr : resolveVirtual t fuel (some parent) (t.GetLinkById slot.Link) with
    | error e => rw [hr] at h; cases h
    | ok r =>
      rw [resolveVirtual_fuel_mono t fuel _ _ r hr fuel2 hle]
      rw [hr] at h
      exact h

theorem promptLinks_fuel_mono (t : Graph) (node : GraphNode) (fuel fuel2 : Nat)
    (hle : fuel ≤ fuel2) :
    ∀ (slots : List Slot) (i : Nat) (inputs res : GoMap String InputValue),
      promptLinks fuel t node slots i inputs = Except.ok res →
      promptLinks fuel2 t node slots i inputs = Except.ok res := by
  intro slots
  induction slots with
  | nil => intro i inputs res h; exact h
  | cons slot rest ih =>
    intro i inputs res h
    unfold promptLinks at h ⊢
    cases hl : promptLink fuel t node i slot with
    | error e => rw [hl] at h; cases h
    | ok w =>
      rw [promptLink_fuel_mono t node i slot fuel fuel2 hle w hl]
      rw [hl] at h
      cases w with
      | none => exact ih _ _ _ h
      | some w => exact ih _ _ _ h

theorem promptNode_fuel_mono (t : Graph) (node : GraphNode) (fuel fuel2 : Nat)
    (hle : fuel ≤ fuel2) (pn : PromptNode)
    (h : promptNode fuel t node = Except.ok pn) :
    promptNode fuel2 t node = Except.ok pn := by
  unfold promptNode at h ⊢
  cases hv : promptValues t.Heap node.Properties [] with
  | error e => rw [hv] at h; cases h
  | ok inputs =>
    rw [hv] at h
    simp only at h ⊢
    cases hl : promptLinks fuel t node node.Inputs 0 inputs with
    | error e => rw [hl] at h; cases h
    | ok inputs2 =>
      rw [promptLinks_fuel_mono t node fuel fuel2 hle _ _ _ _ hl]
      rw [hl] at h
      exact h

theorem compileNodes_fuel_mono (fuel fuel2 : Nat) (hle : fuel ≤ fuel2) :
    ∀ (todo : List Nat) (t : Graph) (nodes : GoMap Int PromptNode)
      (res : GoMap Int PromptNode × Graph),
      compileNodes fuel todo t nodes = Except.ok res →
      compileNodes fuel2 todo t nodes = Except.ok res := by
  intro todo
  induction todo with
  | nil => intro t nodes res h; exact h
  | cons ptr rest ih =>
    intro t nodes res h
    unfold compileNodes at h ⊢
    cases hn : t.Nodes[ptr]? with
    | none => rw [hn] at h; cases h
    | some node =>
      rw [hn] at h
      simp only at h ⊢
      by_cases hv : node.IsVirtual = true
      · simp only [hv, if_true] at h ⊢
        exact ih _ _ _ h
      · simp only [hv] at h ⊢
        by_cases hm : node.Mode = 2
        · simp only [hm, if_true] at h ⊢
          exact ih _ _ _ h
        · simp only [hm, if_false] at h ⊢
          cases hp : promptNode fuel t node with
          | error e => rw [hp] at h; cases h
          | ok pn =>
            rw [promptNode_fuel_mono t node fuel fuel2 hle pn hp]
            rw [hp] at h
            exact ih _ _ _ h

/-- The prompt does not depend on the fuel: when `GraphToPrompt` returns a prompt
with `fuel` steps for each backward walk, it returns the same prompt with any
larger bound. -/
theorem GraphToPrompt_fuel_mono (t : Graph) (clientID : String) (fuel fuel2 : Nat)
    (hle : fuel ≤ fuel2) (p : Prompt) (h : GraphToPrompt fuel t clientID = Except.ok p) :
    GraphToPrompt fuel2 t clientID = Except.ok p := by
  unfold GraphToPrompt at h ⊢
  cases hc : compileNodes fuel t.NodesInExecutionOrder t [] with
  | error e => rw [hc] at h; cases h
  | ok r =>
    rw [compileNodes_fuel_mono fuel fuel2 hle _ _ _ r hc]
    rw [hc] at h
    exact h

end graphapi

namespace graphapi

/-! ### What loading leaves unchanged -/


theorem bindNodes_length (node_objects : NodeObjects) :
    ∀ (todo : List GraphNode) (ptr : Nat) (done : List GraphNode) (heap : List PropertyData)
      (prims : List Nat) (r : List GraphNode × List PropertyData × List Nat),
      bindNodes node_objects todo ptr done heap prims = Except.ok r →
      r.1.length = done.length + todo.length := by
  intro todo
  induction todo with
  | nil =>
    intro ptr done heap prims r h
    simp only [bindNodes, Except.ok.injEq] at h
    subst h
    simp
  | cons n todo ih =>
    intro ptr done heap prims r h
    unfold bindNodes at h
    split at h
    · cases h
    · have := ih _ _ _ _ _ h
      rw [this]
      simp only [List.length_append, List.length_cons, List.length_nil]
      omega

/-- What the primitive pass leaves unchanged: the number of nodes and the derived
fields of the graph. -/
theorem primitiveLink_frame (primitive : Nat) (l : Int) (first : Option Nat) (t : Graph)
    (r : Option Nat × Graph) (h : primitiveLink primitive l first t = Except.ok r) :
    r.2.Nodes.length = t.Nodes.length ∧ r.2.NodesInExecutionOrder = t.NodesInExecutionOrder ∧
      r.2.NodesByID = t.NodesByID ∧ r.2.LinksByID = t.LinksByID := by
  unfold primitiveLink at h
  repeat' split at h
  all_goals first
    | (simp only [Except.ok.injEq] at h; subst h; simp [Graph.setProperty])
    | cases h

theorem primitiveLinks_frame (primitive : Nat) :
    ∀ (links : List Int) (first : Option Nat) (t t' : Graph),
      primitiveLinks primitive links first t = Except.ok t' →
      t'.Nodes.length = t.Nodes.length ∧ t'.NodesInExecutionOrder = t.NodesInExecutionOrder ∧
        t'.NodesByID = t.NodesByID ∧ t'.LinksByID = t.LinksByID := by
  intro links
  induction links with
  | nil =>
    intro first t t' h
    simp only [primitiveLinks, Except.ok.injEq] at h
    subst h
    exact ⟨rfl, rfl, rfl, rfl⟩
  | cons l rest ih =>
    intro first t t' h
    unfold primitiveLinks at h
    split at h
    · cases h
    · rename_i r hr
      have h1 := primitiveLink_frame _ _ _ _ _ hr
      have h2 := ih _ _ _ h
      exact ⟨h2.1.trans h1.1, h2.2.1.trans h1.2.1, h2.2.2.1.trans h1.2.2.1,
        h2.2.2.2.trans h1.2.2.2⟩

theorem primitiveOutputs_frame (primitive : Nat) :
    ∀ (outputs : List Slot) (t t' : Graph),
      primitiveOutputs primitive outputs t = Except.ok t' →
      t'.Nodes.length = t.Nodes.length ∧ t'.NodesInExecutionOrder = t.NodesInExecutionOrder ∧
        t'.NodesByID = t.NodesByID ∧ t'.LinksByID = t.LinksByID := by
  intro outputs
  induction outputs with
  | nil =>
    intro t t' h
    simp only [primitiveOutputs, Except.ok.injEq] at h
    subst h
    exact ⟨rfl, rfl, rfl, rfl⟩
  | cons o rest ih =>
    intro t t' h
    unfold primitiveOutputs at h
    split at h
    · exact ih _ _ h
    · split at h
      · split at h
        · cases h
        · rename_i t1 ht1
          have h1 := primitiveLinks_frame _ _ _ _ _ ht1
          have h2 := ih _ _ h
          exact ⟨h2.1.trans h1.1, h2.2.1.trans h1.2.1, h2.2.2.1.trans h1.2.2.1,
            h2.2.2.2.trans h1.2.2.2⟩
      · exact ih _ _ h

theorem processPrimitives_frame :
    ∀ (prims : List Nat) (t t' : Graph),
      processPrimitives prims t = Except.ok t' →
      t'.Nodes.length = t.Nodes.length ∧ t'.NodesInExecutionOrder = t.NodesInExecutionOrder ∧
        t'.NodesByID = t.NodesByID ∧ t'.LinksByID = t.LinksByID := by
  intro prims
  induction prims with
  | nil =>
    intro t t' h
    simp only [processPrimitives, Except.ok.injEq] at h
    subst h
    exact ⟨rfl, rfl, rfl, rfl⟩
  | cons p rest ih =>
    intro t t' h
    unfold processPrimitives at h
    split at h
    · cases h
    · split at h
      · cases h
      · rename_i t1 ht1
        have h1 := primitiveOutputs_frame _ _ _ _ ht1
        have h2 := ih _ _ h
        exact ⟨h2.1.trans h1.1, h2.2.1.trans h1.2.1, h2.2.2.1.trans h1.2.2.1,
          h2.2.2.2.trans h1.2.2.2⟩

theorem CreateNodeProperties_frame (t t' : Graph) (node_objects : NodeObjects)
    (h : CreateNodeProperties t node_objects = Except.ok t') :
    t'.Nodes.length = t.Nodes.length ∧ t'.NodesInExecutionOrder = t.NodesInExecutionOrder ∧
      t'.NodesByID = t.NodesByID ∧ t'.LinksByID = t.LinksByID := by
  unfold CreateNodeProperties at h
  split at h
  · cases h
  · rename_i r hr
    have h1 := bindNodes_length _ _ _ _ _ _ _ hr
    have h2 := processPrimitives_frame _ _ _ h
    simp only [List.length_nil, Nat.zero_add] at h1
    exact ⟨h2.1.trans h1, h2.2.1, h2.2.2.1, h2.2.2.2⟩

/-- In a loaded graph the execution order holds every node pointer once. -/
theorem loaded_order_perm (decoded : Document) (node_objects : NodeObjects) (t : Graph)
    (h : NewGraphFromJsonReader decoded node_objects = Except.ok t) :
    t.NodesInExecutionOrder.Perm (List.range t.Nodes.length) := by
  have hf := CreateNodeProperties_frame _ _ _ h
  rw [hf.2.1, hf.1]
  exact sort.SortFn_perm _ _

end graphapi

namespace graphapi

/-! ### C3 and C4: the keys of the prompt and the class types -/

theorem exists_last_of_mem {α : Type} (P : α → Prop) :
    ∀ (l : List α), (∃ x ∈ l, P x) →
      ∃ pre x suf, l = pre ++ x :: suf ∧ P x ∧ ∀ y ∈ suf, ¬ P y := by
  intro l
  induction l with
  | nil => intro h; obtain ⟨x, hx, _⟩ := h; cases hx
  | cons a l ih =>
    intro h
    by_cases hl : ∃ x ∈ l, P x
    · obtain ⟨pre, x, suf, e, hx, hsuf⟩ := ih hl
      exact ⟨a :: pre, x, suf, by rw [e]; rfl, hx, hsuf⟩
    · obtain ⟨x, hx, hpx⟩ := h
      rcases List.mem_cons.1 hx with rfl | hx2
      · exact ⟨[], x, l, rfl, hpx, fun y hy hpy => hl ⟨y, hy, hpy⟩⟩
      · exact absurd ⟨x, hx2, hpx⟩ hl

theorem promptNode_ClassType (fuel : Nat) (t : Graph) (node : GraphNode) (pn : PromptNode)
    (h : promptNode fuel t node = Except.ok pn) : pn.ClassType = node.TypeName := by
  unfold promptNode at h
  split at h
  · cases h
  · split at h
    · cases h
    · simp only [Except.ok.injEq] at h
      subst h
      rfl

/-- A node of the execution order that is neither virtual nor muted has an entry
under its ID; the entry carries the type of the node unless a node compiled
later carries the same ID. -/
theorem compileNodes_entry (fuel : Nat) (order : List Nat) (t : Graph)
    (m m' : GoMap Int PromptNode) (t' : Graph)
    (hrun : compileNodes fuel order t m = Except.ok (m', t'))
    (ptr : Nat) (hptr : ptr ∈ order) (node : GraphNode) (hem : t.Emits ptr node) :
    ∃ pn, GoMap.get? m' node.ID = some pn ∧
      ((∀ q n2, VisitedAfter order ptr q → t.Emits q n2 → n2.ID ≠ node.ID) →
        pn.ClassType = node.TypeName) := by
  obtain ⟨pre, x, suf, e, ⟨mx, hmx, hid⟩, hsuf⟩ :=
    exists_last_of_mem (fun q => ∃ n2, t.Emits q n2 ∧ n2.ID = node.ID) order
      ⟨ptr, hptr, node, hem, rfl⟩
  subst e
  obtain ⟨pn, hpn, hget⟩ := compileNodes_get?_last fuel x mx suf pre t m m' t' hrun hmx
    (fun q hq n2 hn2 h2 => hsuf q hq ⟨n2, hn2, h2.trans hid⟩)
  rw [hid] at hget
  refine ⟨pn, hget, ?_⟩
  intro hlast
  rw [promptNode_ClassType _ _ _ _ hpn]
  rcases List.mem_append.1 hptr with hp | hp
  · obtain ⟨a, b, e⟩ := List.append_of_mem hp
    exact absurd hid (hlast x mx ⟨a, b ++ x :: suf, by rw [e]; simp, by simp⟩ hmx)
  · rcases List.mem_cons.1 hp with rfl | hp2
    · have : some mx = some node := hmx.1.symm.trans hem.1
      cases this
      rfl
    · exact absurd ⟨node, hem, rfl⟩ (hsuf ptr hp2)

/-- C3, as stated, fails: in the graph loaded from `mutedTwinDocument` the first
node has `Mode == 2` and ID 1, and 1 is a key of the compiled prompt, because a
second node, not muted, carries the same ID. -/
theorem C3_muted_id_is_key :
    ∃ t p n, NewGraphFromJsonReader mutedTwinDocument emptyCatalog = Except.ok t ∧
      GraphToPrompt 1 t "" = Except.ok p ∧ n ∈ t.Nodes ∧ n.Mode = 2 ∧
      GoMap.hasKey p.Nodes n.ID = true :=
  ⟨_, _, { ID := 1, TypeName := "KSampler", Mode := 2, Order := 0 }, rfl, rfl,
    by decide, by decide, by decide⟩

/-- C3, amended: for any graph (node IDs may repeat), if a node has `Mode == 2`
and no node that is neither virtual nor muted carries the same ID, then its ID is
not a key of the `Nodes` map of the prompt `GraphToPrompt` returns. -/
theorem C3_muted_not_key (t : Graph) (fuel : Nat) (clientID : String) (p : Prompt)
    (hrun : GraphToPrompt fuel t clientID = Except.ok p)
    (n : GraphNode) (_hn : n ∈ t.Nodes) (_hmode : n.Mode = 2)
    (hothers : ∀ ptr n2, t.Emits ptr n2 → n2.ID ≠ n.ID) :
    GoMap.hasKey p.Nodes n.ID = false := by
  unfold GraphToPrompt at hrun
  split at hrun
  · cases hrun
  · rename_i r hr
    simp only [Except.ok.injEq] at hrun
    subst hrun
    cases hk : GoMap.hasKey r.1 n.ID with
    | false => rfl
    | true =>
      rcases compileNodes_keys fuel n.ID _ _ _ _ _ hr hk with h | ⟨q, _, n2, hn2, hid⟩
      · simp [GoMap.hasKey, GoMap.get?] at h
      · exact absurd hid (hothers q n2 hn2)


/-- C4, as stated, fails: in the graph loaded from `twinDocument` the first node
is neither virtual nor muted and has the type `CheckpointLoader`, but the entry
under its ID has the class type `KSampler` of the second node, which carries the
same ID and is compiled later. -/
theorem C4_class_type_of_twin :
    ∃ t p n pn, NewGraphFromJsonReader twinDocument emptyCatalog = Except.ok t ∧
      GraphToPrompt 1 t "" = Except.ok p ∧ n ∈ t.Nodes ∧ n.IsVirtual = false ∧ n.Mode ≠ 2 ∧
      GoMap.get? p.Nodes n.ID = some pn ∧ pn.ClassType ≠ n.TypeName :=
  ⟨_, _, { ID := 1, TypeName := "CheckpointLoader", Order := 0 }, _, rfl, rfl,
    by decide, by decide, by decide, rfl, by decide⟩

/-- C4, amended: for every loaded graph, whatever values its properties hold, and
every node `n` of it that is neither virtual nor muted, the prompt returned by
`GraphToPrompt` has an entry under the key `n.ID`, and the `ClassType` of that
entry equals `n.Type` provided no node that is visited after `n` and is neither
virtual nor muted carries the same ID. -/
theorem C4_class_type (decoded : Document) (node_objects : NodeObjects) (t : Graph)
    (heap : List PropertyData) (fuel : Nat) (clientID : String) (p : Prompt)
    (hload : NewGraphFromJsonReader decoded node_objects = Except.ok t)
    (hrun : GraphToPrompt fuel (t.withHeap heap) clientID = Except.ok p)
    (ptr : Nat) (n : GraphNode) (hn : t.Nodes[ptr]? = some n)
    (hv : n.IsVirtual = false) (hm : n.Mode ≠ 2) :
    ∃ pn, GoMap.get? p.Nodes n.ID = some pn ∧
      ((∀ q n2, VisitedAfter t.NodesInExecutionOrder ptr q → t.Emits q n2 → n2.ID ≠ n.ID) →
        pn.ClassType = n.TypeName) := by
  have hperm := loaded_order_perm decoded node_objects t hload
  have hlt : ptr < t.Nodes.length := by
    rcases List.getElem?_eq_some.1 hn with ⟨h, _⟩; exact h
  have hmem : ptr ∈ t.NodesInExecutionOrder := hperm.symm.subset (List.mem_range.2 hlt)
  unfold GraphToPrompt at hrun
  split at hrun
  · cases hrun
  · rename_i r hr
    simp only [Except.ok.injEq] at hrun
    subst hrun
    exact compileNodes_entry fuel _ (t.withHeap heap) [] r.1 r.2 hr ptr hmem n ⟨hn, hv, hm⟩


/-- Witness of `C3_muted_not_key`: the graph loaded from `mutedDocument`. -/
theorem C3_muted_not_key_witness :
    GoMap.hasKey (compiledPrompt 1 (loadedGraph mutedDocument emptyCatalog) "").Nodes 1 = false :=
  C3_muted_not_key (loadedGraph mutedDocument emptyCatalog) 1 "" _ rfl
    { ID := 1, TypeName := "KSampler", Mode := 2, Order := 0 } (by decide) (by decide)
    (by
      intro ptr n2 h
      have e : (loadedGraph mutedDocument emptyCatalog).Nodes
          = [{ ID := 1, TypeName := "KSampler", Mode := 2, Order := 0 }] := by decide
      rcases h with ⟨h1, _, h3⟩
      rw [e] at h1
      cases ptr with
      | zero =>
        simp only [List.getElem?_cons_zero, Option.some.injEq] at h1
        subst h1
        exact absurd rfl h3
      | succ k => simp at h1)

/-- Witness of `C4_class_type`: the graph loaded from `singleDocument`. -/
theorem C4_class_type_witness :
    ∃ pn, GoMap.get? (compiledPrompt 1 (loadedGraph singleDocument emptyCatalog) "").Nodes 1
        = some pn ∧
      ((∀ q n2, VisitedAfter (loadedGraph singleDocument emptyCatalog).NodesInExecutionOrder 0 q →
          (loadedGraph singleDocument emptyCatalog).Emits q n2 → n2.ID ≠ 1) →
        pn.ClassType = "KSampler") :=
  C4_class_type singleDocument emptyCatalog (loadedGraph singleDocument emptyCatalog)
    (loadedGraph singleDocument emptyCatalog).Heap 1 "" _ rfl rfl 0
    { ID := 1, TypeName := "KSampler", Order := 0 } rfl rfl (by decide)

end graphapi

namespace graphapi

/-! ### C2: references through chains of Reroute nodes -/

theorem sliceAt_append_length {α : Type} (pre suf : List α) (x : α) :
    sliceAt (pre ++ x :: suf) (pre.length : Int) = some x := by
  unfold sliceAt
  have h : ¬ ((pre.length : Int) < 0) := by omega
  rw [if_neg h, Int.toNat_ofNat, sort.getElem?_append_len]
  simp

theorem sliceAt_singleton_zero {α : Type} (x : α) : sliceAt [x] 0 = some x := rfl

theorem sliceAt_singleton_ne {α : Type} (x : α) (i : Int) (h : i ≠ 0) : sliceAt [x] i = none := by
  unfold sliceAt
  split
  · rfl
  · have : 1 ≤ i.toNat := by omega
    obtain ⟨k, hk⟩ : ∃ k, i.toNat = k + 1 := ⟨i.toNat - 1, by omega⟩
    rw [hk]
    rfl

theorem resolveVirtual_withHeap (t : Graph) (heap : List PropertyData) :
    ∀ (fuel : Nat) (parent : Option Nat) (link : Option Link),
      resolveVirtual (t.withHeap heap) fuel parent link = resolveVirtual t fuel parent link := by
  intro fuel
  induction fuel with
  | zero => intro parent link; rfl
  | succ fuel ih =>
    intro parent link
    unfold resolveVirtual
    cases parent with
    | none => rfl
    | some ptr =>
      simp only
      have e1 : (t.withHeap heap).Nodes = t.Nodes := rfl
      rw [e1]
      cases t.Nodes[ptr]? with
      | none => rfl
      | some parent_node =>
        simp only
        split
        · cases link with
          | none => rfl
          | some l =>
            simp only
            have e2 : (t.withHeap heap).GetInputLink parent_node l.OriginSlot
                = t.GetInputLink parent_node l.OriginSlot := rfl
            rw [e2]
            cases t.GetInputLink parent_node l.OriginSlot with
            | none => rfl
            | some l2 =>
              simp only
              have e3 : (t.withHeap heap).GetNodeForInput parent_node l2.OriginSlot
                  = t.GetNodeForInput parent_node l2.OriginSlot := rfl
              rw [e3, ih]
        · rfl

theorem promptLink_withHeap (fuel : Nat) (t : Graph) (heap : List PropertyData)
    (node : GraphNode) (i : Nat) (slot : Slot) :
    promptLink fuel (t.withHeap heap) node i slot = promptLink fuel t node i slot := by
  unfold promptLink
  have e1 : (t.withHeap heap).GetNodeForInput node i = t.GetNodeForInput node i := rfl
  have e2 : (t.withHeap heap).GetLinkById slot.Link = t.GetLinkById slot.Link := rfl
  rw [e1, e2]
  cases t.GetNodeForInput node i with
  | none => rfl
  | some parent =>
    simp only
    rw [resolveVirtual_withHeap]

theorem promptLinks_withHeap (fuel : Nat) (t : Graph) (heap : List PropertyData)
    (node : GraphNode) :
    ∀ (slots : List Slot) (i : Nat) (inputs : GoMap String InputValue),
      promptLinks fuel (t.withHeap heap) node slots i inputs
        = promptLinks fuel t node slots i inputs := by
  intro slots
  induction slots with
  | nil => intro i inputs; rfl
  | cons slot rest ih =>
    intro i inputs
    unfold promptLinks
    rw [promptLink_withHeap]
    cases promptLink fuel t node i slot with
    | error e => rfl
    | ok w =>
      cases w with
      | none => simp only; rw [ih]
      | some w => simp only; rw [ih]

theorem RerouteChain.originSlot {t : Graph} {r : Link} {c : Nat} {l : Link}
    (h : RerouteChain t r c l) : l.OriginSlot = 0 := by
  cases h with
  | last _ _ _ _ _ _ _ h4 _ => exact h4
  | step _ _ _ _ _ _ _ _ _ h4 _ _ _ => exact h4

theorem isVirtual_of_reroute (n : GraphNode) (h : n.TypeName = "Reroute") :
    n.IsVirtual = true := by
  simp [GraphNode.IsVirtual, h]

/-- The backward walk along a chain of Reroute nodes ends with the link that
leaves the node the chain starts at. -/
theorem resolveVirtual_chain (t : Graph) (r : Link) (rptr : Nat) (R : GraphNode)
    (hR : t.GetNodeById r.OriginID = some rptr) (hRn : t.Nodes[rptr]? = some R)
    (hRv : R.IsVirtual = false) :
    ∀ (c : Nat) (l : Link), RerouteChain t r c l →
      ∀ (fuel : Nat) (res : Option Link),
        resolveVirtual t fuel (some c) (some l) = Except.ok res → res = some r := by
  intro c l hchain
  induction hchain with
  | last c l cn s h1 h2 h3 h4 h5 =>
    intro fuel res hres
    cases fuel with
    | zero => cases hres
    | succ fuel =>
      unfold resolveVirtual at hres
      simp only [h1, isVirtual_of_reroute cn h2, if_true] at hres
      have e1 : t.GetInputLink cn l.OriginSlot = some r := by
        unfold Graph.GetInputLink
        rw [h4, h3, sliceAt_singleton_zero]
        exact h5
      rw [e1] at hres
      simp only at hres
      by_cases hs : r.OriginSlot = 0
      · have e2 : t.GetNodeForInput cn r.OriginSlot = some rptr := by
          unfold Graph.GetNodeForInput Graph.GetInputLink
          rw [hs, h3, sliceAt_singleton_zero]
          simp only [h5]
          exact hR
        rw [e2] at hres
        cases fuel with
        | zero => cases hres
        | succ fuel =>
          unfold resolveVirtual at hres
          simp only [hRn, hRv, Bool.false_eq_true, if_false, Except.ok.injEq] at hres
          exact hres.symm
      · have e2 : t.GetNodeForInput cn r.OriginSlot = none := by
          unfold Graph.GetNodeForInput Graph.GetInputLink
          rw [h3, sliceAt_singleton_ne s _ hs]
        rw [e2] at hres
        cases fuel with
        | zero => cases hres
        | succ fuel =>
          unfold resolveVirtual at hres
          simp only [Except.ok.injEq] at hres
          exact hres.symm
  | step c l cn s c2 l2 h1 h2 h3 h4 h5 h6 hrest ih =>
    intro fuel res hres
    cases fuel with
    | zero => cases hres
    | succ fuel =>
      unfold resolveVirtual at hres
      simp only [h1, isVirtual_of_reroute cn h2, if_true] at hres
      have e1 : t.GetInputLink cn l.OriginSlot = some l2 := by
        unfold Graph.GetInputLink
        rw [h4, h3, sliceAt_singleton_zero]
        exact h5
      rw [e1] at hres
      simp only at hres
      have e2 : t.GetNodeForInput cn l2.OriginSlot = some c2 := by
        unfold Graph.GetNodeForInput Graph.GetInputLink
        rw [hrest.originSlot, h3, sliceAt_singleton_zero]
        simp only [h5]
        exact h6
      rw [e2] at hres
      exact ih fuel res hres


theorem promptLink_name (fuel : Nat) (t : Graph) (node : GraphNode) (i : Nat) (slot : Slot)
    (w : String × InputValue) (h : promptLink fuel t node i slot = Except.ok (some w)) :
    w.1 = slot.Name := by
  unfold promptLink at h
  split at h
  · cases h
  · split at h
    · cases h
    · cases h
    · simp only [Except.ok.injEq, Option.some.injEq] at h
      subst h
      rfl

/-- Input slots with other names leave the entry under `k` as it is. -/
theorem promptLinks_get?_of_no_write (fuel : Nat) (t : Graph) (node : GraphNode) (k : String) :
    ∀ (slots : List Slot) (i : Nat) (inputs out : GoMap String InputValue),
      promptLinks fuel t node slots i inputs = Except.ok out →
      (∀ s2 ∈ slots, s2.Name ≠ k) → GoMap.get? out k = GoMap.get? inputs k := by
  intro slots
  induction slots with
  | nil =>
    intro i inputs out h _
    simp only [promptLinks, Except.ok.injEq] at h
    rw [h]
  | cons slot rest ih =>
    intro i inputs out h hno
    have hrest : ∀ s2 ∈ rest, s2.Name ≠ k := fun s2 hs => hno s2 (List.mem_cons_of_mem _ hs)
    unfold promptLinks at h
    split at h
    · cases h
    · exact ih _ _ _ h hrest
    · rename_i w hw
      rw [ih _ _ _ h hrest]
      have hne : w.1 ≠ k := by
        rw [promptLink_name _ _ _ _ _ _ hw]
        exact hno slot (List.mem_cons_self _ _)
      exact GoMap.get?_set_of_ne _ _ hne

/-- The loop over the input slots, cut at one slot: the body returns for that
slot, and what it writes stays under the name of the slot unless a later slot
has the same name. -/
theorem promptLinks_get?_at (fuel : Nat) (t : Graph) (node : GraphNode) (slot : Slot)
    (suf : List Slot) :
    ∀ (pre : List Slot) (i : Nat) (inputs out : GoMap String InputValue),
      promptLinks fuel t node (pre ++ slot :: suf) i inputs = Except.ok out →
      (∀ s2 ∈ suf, s2.Name ≠ slot.Name) →
      ∃ w mid, promptLink fuel t node (i + pre.length) slot = Except.ok w ∧
        GoMap.get? out slot.Name = match w with
          | some w => some w.2
          | none => GoMap.get? mid slot.Name := by
  intro pre
  induction pre with
  | nil =>
    intro i inputs out h hno
    simp only [List.nil_append] at h
    unfold promptLinks at h
    simp only [List.length_nil, Nat.add_zero]
    split at h
    · cases h
    · rename_i hw
      exact ⟨none, inputs, hw, promptLinks_get?_of_no_write _ _ _ _ _ _ _ _ h hno⟩
    · rename_i w hw
      refine ⟨some w, inputs, hw, ?_⟩
      rw [promptLinks_get?_of_no_write _ _ _ _ _ _ _ _ h hno,
        ← promptLink_name _ _ _ _ _ _ hw]
      exact GoMap.get?_set_self _ _ _
  | cons s0 pre ih =>
    intro i inputs out h hno
    simp only [List.cons_append] at h
    unfold promptLinks at h
    have e : i + (s0 :: pre).length = i + 1 + pre.length := by
      simp only [List.length_cons]; omega
    rw [e]
    split at h
    · cases h
    · exact ih _ _ _ h hno
    · exact ih _ _ _ h hno

/-- What `GraphToPrompt` writes for an input slot that is fed through a chain of
Reroute nodes: the reference to the origin of the link the chain starts with. -/
theorem promptLink_chain (fuel : Nat) (t : Graph) (N : GraphNode) (pre suf : List Slot)
    (slot : Slot) (hslots : N.Inputs = pre ++ slot :: suf)
    (l : Link) (c : Nat) (r : Link) (rptr : Nat) (R : GraphNode)
    (hl : t.GetLinkById slot.Link = some l) (hc : t.GetNodeById l.OriginID = some c)
    (hchain : RerouteChain t r c l)
    (hR : t.GetNodeById r.OriginID = some rptr) (hRn : t.Nodes[rptr]? = some R)
    (hRv : R.IsVirtual = false)
    (w : Option (String × InputValue))
    (h : promptLink fuel t N pre.length slot = Except.ok w) :
    w = some (slot.Name, InputValue.reference (strconv.Itoa r.OriginID) r.OriginSlot) := by
  unfold promptLink at h
  have e1 : t.GetNodeForInput N (pre.length : Int) = some c := by
    unfold Graph.GetNodeForInput Graph.GetInputLink
    rw [hslots, sliceAt_append_length]
    simp only [hl]
    exact hc
  rw [e1, hl] at h
  simp only at h
  split at h
  · cases h
  · rename_i hres
    have := resolveVirtual_chain t r rptr R hR hRn hRv c l hchain fuel _ hres
    cases this
  · rename_i link hres
    have := resolveVirtual_chain t r rptr R hR hRn hRv c l hchain fuel _ hres
    simp only [Option.some.injEq] at this
    subst this
    simp only [Except.ok.injEq] at h
    exact h.symm


/-- C2, as stated, fails: in the graph loaded from `rerouteDocument` the first
input slot `x` of node 4 is fed through the Reroute node 2 from output 0 of
node 1, but the entry under `x` is the reference `["3", 0]` that the second
input slot, also named `x`, writes after it. -/
theorem C2_reroute_entry_overwritten :
    ∃ t p N slot l c r rptr R pn,
      NewGraphFromJsonReader rerouteDocument emptyCatalog = Except.ok t ∧
      GraphToPrompt 3 t "" = Except.ok p ∧
      t.Nodes[3]? = some N ∧ N.IsVirtual = false ∧ N.Mode ≠ 2 ∧
      N.Inputs[0]? = some slot ∧ t.GetLinkById slot.Link = some l ∧
      t.GetNodeById l.OriginID = some c ∧ RerouteChain t r c l ∧
      r.OriginID = R.ID ∧ t.GetNodeById R.ID = some rptr ∧ t.Nodes[rptr]? = some R ∧
      R.IsVirtual = false ∧
      GoMap.get? p.Nodes N.ID = some pn ∧
      GoMap.get? pn.Inputs slot.Name = some (InputValue.reference "3" 0) ∧
      GoMap.get? pn.Inputs slot.Name
        ≠ some (InputValue.reference (strconv.Itoa R.ID) r.OriginSlot) :=
  ⟨_, _,
    ({ ID := 4, TypeName := "KSampler", Order := 3,
       Inputs := [{ Name := "x", Link := 11 }, { Name := "x", Link := 12 }] } : GraphNode),
    ({ Name := "x", Link := 11 } : Slot),
    ({ ID := 11, OriginID := 2, OriginSlot := 0, TargetID := 4, TargetSlot := 0 } : Link), 1,
    ({ ID := 10, OriginID := 1, OriginSlot := 0, TargetID := 2, TargetSlot := 0 } : Link), 0,
    ({ ID := 1, TypeName := "Loader", Order := 0 } : GraphNode), _,
    rfl, rfl, rfl, (by decide), (by decide), rfl, rfl, rfl,
    RerouteChain.last 1 _
      ({ ID := 2, TypeName := "Reroute", Order := 1,
         Inputs := [{ Name := "", Link := 10 }] } : GraphNode)
      ({ Name := "", Link := 10 } : Slot) rfl rfl rfl rfl rfl,
    rfl, rfl, rfl, (by decide), rfl, rfl, (by decide)⟩

/-- C2, amended: in a loaded graph, whatever values its properties hold, let an
input slot `slot` of a node `N` that is neither virtual nor muted be fed through
a chain of one or more Reroute nodes that starts at output slot `s` of a
non-virtual node `R`.  If no later input slot of `N` has the same name and no
node that is visited after `N` and is neither virtual nor muted carries the ID
of `N`, then in the prompt `GraphToPrompt` returns the entry of `N` under the
name of the slot is the reference `[strconv.Itoa R.ID, s]`. -/
theorem C2_reroute_chain (decoded : Document) (node_objects : NodeObjects) (t : Graph)
    (heap : List PropertyData) (fuel : Nat) (clientID : String) (p : Prompt)
    (hload : NewGraphFromJsonReader decoded node_objects = Except.ok t)
    (hrun : GraphToPrompt fuel (t.withHeap heap) clientID = Except.ok p)
    (ptr : Nat) (N : GraphNode) (hN : t.Nodes[ptr]? = some N)
    (hv : N.IsVirtual = false) (hm : N.Mode ≠ 2)
    (hlastID : ∀ q n2, VisitedAfter t.NodesInExecutionOrder ptr q → t.Emits q n2 → n2.ID ≠ N.ID)
    (pre suf : List Slot) (slot : Slot) (hslots : N.Inputs = pre ++ slot :: suf)
    (hname : ∀ s2 ∈ suf, s2.Name ≠ slot.Name)
    (l : Link) (c : Nat) (r : Link) (rptr : Nat) (R : GraphNode) (s : Int)
    (hl : t.GetLinkById slot.Link = some l) (hc : t.GetNodeById l.OriginID = some c)
    (hchain : RerouteChain t r c l) (hr : r.OriginID = R.ID) (hs : r.OriginSlot = s)
    (hR : t.GetNodeById R.ID = some rptr) (hRn : t.Nodes[rptr]? = some R)
    (hRv : R.IsVirtual = false) :
    ∃ pn, GoMap.get? p.Nodes N.ID = some pn ∧
      GoMap.get? pn.Inputs slot.Name = some (InputValue.reference (strconv.Itoa R.ID) s) := by
  have hperm := loaded_order_perm decoded node_objects t hload
  have hlt : ptr < t.Nodes.length := by
    rcases List.getElem?_eq_some.1 hN with ⟨h, _⟩; exact h
  have hmem : ptr ∈ t.NodesInExecutionOrder := hperm.symm.subset (List.mem_range.2 hlt)
  obtain ⟨a, b, e⟩ := List.append_of_mem hmem
  unfold GraphToPrompt at hrun
  split at hrun
  · cases hrun
  · rename_i res hres
    simp only [Except.ok.injEq] at hrun
    subst hrun
    have e2 : (t.withHeap heap).NodesInExecutionOrder = a ++ ptr :: b := e
    rw [e2] at hres
    obtain ⟨pn, hpn, hget⟩ := compileNodes_get?_last fuel ptr N b a (t.withHeap heap) []
      res.1 res.2 hres ⟨hN, hv, hm⟩
      (fun q hq n2 hn2 => hlastID q n2 ⟨a, b, e, hq⟩ hn2)
    obtain ⟨heap2, e3⟩ := applyVirtuals_withHeap a (t.withHeap heap)
    rw [e3] at hpn
    refine ⟨pn, hget, ?_⟩
    unfold promptNode at hpn
    split at hpn
    · cases hpn
    · rename_i inputs0 _
      split at hpn
      · cases hpn
      · rename_i inputs hin
        simp only [Except.ok.injEq] at hpn
        subst hpn
        simp only
        have hin2 : promptLinks fuel t N (pre ++ slot :: suf) 0 inputs0 = Except.ok inputs := by
          rw [← hslots, ← hin]
          exact (promptLinks_withHeap fuel t heap2 N N.Inputs 0 inputs0).symm
        obtain ⟨w, mid, hw, hval⟩ := promptLinks_get?_at fuel t N slot suf pre 0 inputs0 inputs
          hin2 hname
        rw [Nat.zero_add] at hw
        have hR2 : t.GetNodeById r.OriginID = some rptr := by rw [hr]; exact hR
        have := promptLink_chain fuel t N pre suf slot hslots l c r rptr R hl hc hchain
          hR2 hRn hRv w hw
        subst this
        rw [hval, hr, hs]


theorem VisitedAfter.mem_ne {order : List Nat} {p q : Nat} (hnd : order.Nodup)
    (h : VisitedAfter order p q) : q ∈ order ∧ q ≠ p := by
  obtain ⟨pre, suf, e, hq⟩ := h
  subst e
  refine ⟨List.mem_append_right _ (List.mem_cons_of_mem _ hq), ?_⟩
  rintro rfl
  have h2 := (List.nodup_append.1 hnd).2.1
  exact (List.nodup_cons.1 h2).1 hq

/-- Witness of `C2_reroute_chain`: the graph loaded from `rerouteChainDocument`,
in which the input `x` of node 4 is fed through the Reroute node 2 from output 0
of node 1. -/
theorem C2_reroute_chain_witness :
    ∃ pn, GoMap.get? (compiledPrompt 3 (loadedGraph rerouteChainDocument emptyCatalog) "").Nodes 4
        = some pn ∧
      GoMap.get? pn.Inputs "x" = some (InputValue.reference (strconv.Itoa 1) 0) :=
  C2_reroute_chain rerouteChainDocument emptyCatalog
    (loadedGraph rerouteChainDocument emptyCatalog)
    (loadedGraph rerouteChainDocument emptyCatalog).Heap 3 "" _ rfl rfl 2
    ({ ID := 4, TypeName := "KSampler", Order := 3, Inputs := [{ Name := "x", Link := 11 }] })
    rfl rfl (by decide)
    (by
      intro q n2 hq hem
      have hnd : (loadedGraph rerouteChainDocument emptyCatalog).NodesInExecutionOrder.Nodup := by
        decide
      obtain ⟨_, hne⟩ := hq.mem_ne hnd
      rcases hem with ⟨h1, _, _⟩
      have e : (loadedGraph rerouteChainDocument emptyCatalog).Nodes
          = rerouteChainDocument.Nodes := by decide
      rw [e] at h1
      match q, hne, h1 with
      | 0, _, h1 => cases h1; decide
      | 1, _, h1 => cases h1; decide
      | 2, hne, _ => exact absurd rfl hne
      | k + 3, _, h1 => cases h1)
    [] [] ({ Name := "x", Link := 11 }) rfl (by simp)
    ({ ID := 11, OriginID := 2, OriginSlot := 0, TargetID := 4, TargetSlot := 0 }) 1
    ({ ID := 10, OriginID := 1, OriginSlot := 0, TargetID := 2, TargetSlot := 0 }) 0
    ({ ID := 1, TypeName := "Loader", Order := 0 }) 0 rfl rfl
    (RerouteChain.last 1 _ _ ({ Name := "", Link := 10 }) rfl rfl rfl rfl rfl)
    rfl rfl rfl rfl rfl

end graphapi

namespace GoMap
variable {κ ν : Type} [DecidableEq κ]

theorem nodup_keys_set (m : GoMap κ ν) (k : κ) (v : ν) (h : (m.map Prod.fst).Nodup) :
    ((set m k v).map Prod.fst).Nodup := by
  unfold set
  rw [List.map_append, List.nodup_append]
  refine ⟨?_, by simp, ?_⟩
  · exact List.Nodup.sublist (List.Sublist.map _ (List.filter_sublist _)) h
  · intro a ha hb
    simp only [List.map_cons, List.map_nil, List.mem_singleton] at hb
    subst hb
    obtain ⟨e, he, rfl⟩ := List.mem_map.1 ha
    have := (List.mem_filter.1 he).2
    simp at this

theorem get?_eq_none_of_not_mem (m : GoMap κ ν) (k : κ) (h : k ∉ m.map Prod.fst) :
    get? m k = none := by
  induction m with
  | nil => rfl
  | cons e m ih =>
    obtain ⟨a, b⟩ := e
    simp only [List.map_cons, List.mem_cons, not_or] at h
    have hne : ¬ a = k := fun e => h.1 e.symm
    simp only [get?, hne, if_false]
    exact ih h.2

end GoMap

namespace graphapi

/-! ### The names of the properties of a loaded node are distinct -/

theorem bindAs_nodup (ptr pindex : Nat) (prop : PropertyData) (kind : PropertyKind)
    (n : GraphNode) (heap : List PropertyData) (r : GraphNode × List PropertyData)
    (h : bindAs ptr pindex prop kind n heap = Except.ok r)
    (hn : (n.Properties.map Prod.fst).Nodup) : (r.1.Properties.map Prod.fst).Nodup := by
  unfold bindAs at h
  split at h
  · cases h
  · simp only [Except.ok.injEq] at h
    subst h
    exact GoMap.nodup_keys_set _ _ _ hn

theorem bindProperty_nodup (ptr pindex : Nat) (prop : PropertyData)
    (n : GraphNode) (heap : List PropertyData) (r : GraphNode × List PropertyData)
    (h : bindProperty ptr pindex prop n heap = Except.ok r)
    (hn : (n.Properties.map Prod.fst).Nodup) : (r.1.Properties.map Prod.fst).Nodup := by
  unfold bindProperty at h
  repeat' split at h
  all_goals first
    | exact bindAs_nodup _ _ _ _ _ _ _ h hn
    | (simp only [Except.ok.injEq] at h; subst h; exact hn)

theorem bindProperties_nodup (ptr : Nat) :
    ∀ (props : List PropertyData) (pindex : Nat) (n : GraphNode) (heap : List PropertyData)
      (r : GraphNode × List PropertyData),
      bindProperties ptr props pindex n heap = Except.ok r →
      (n.Properties.map Prod.fst).Nodup → (r.1.Properties.map Prod.fst).Nodup := by
  intro props
  induction props with
  | nil =>
    intro pindex n heap r h hn
    simp only [bindProperties, Except.ok.injEq] at h
    subst h
    exact hn
  | cons prop rest ih =>
    intro pindex n heap r h hn
    unfold bindProperties at h
    split at h
    · cases h
    · rename_i r1 hr1
      exact ih _ _ _ _ h (bindProperty_nodup _ _ _ _ _ _ hr1 hn)

theorem bindUpload_nodup (nobject : NodeObject) (n : GraphNode) (heap : List PropertyData)
    (r : GraphNode × List PropertyData) (h : bindUpload nobject n heap = Except.ok r)
    (hn : (n.Properties.map Prod.fst).Nodup) : (r.1.Properties.map Prod.fst).Nodup := by
  unfold bindUpload at h
  repeat' split at h
  all_goals first
    | (simp only [Except.ok.injEq] at h; subst h; exact hn)
    | (simp only [Except.ok.injEq] at h; subst h; exact GoMap.nodup_keys_set _ _ _ hn)
    | cases h

theorem bindNode_nodup (node_objects : NodeObjects) (ptr : Nat) (n : GraphNode)
    (heap : List PropertyData) (r : GraphNode × List PropertyData × Bool)
    (h : bindNode node_objects ptr n heap = Except.ok r) :
    (r.1.Properties.map Prod.fst).Nodup := by
  unfold bindNode at h
  simp only at h
  split at h
  · split at h
    · cases h
    · rename_i r1 hr1
      split at h
      · cases h
      · rename_i r2 hr2
        simp only [Except.ok.injEq] at h
        subst h
        exact bindUpload_nodup _ _ _ _ hr2
          (bindProperties_nodup _ _ _ _ _ _ hr1 (by simp))
  · simp only [Except.ok.injEq] at h
    subst h
    simp

theorem bindNodes_nodup (node_objects : NodeObjects) :
    ∀ (todo : List GraphNode) (ptr : Nat) (done : List GraphNode) (heap : List PropertyData)
      (prims : List Nat) (r : List GraphNode × List PropertyData × List Nat),
      bindNodes node_objects todo ptr done heap prims = Except.ok r →
      (∀ n ∈ done, (n.Properties.map Prod.fst).Nodup) →
      ∀ n ∈ r.1, (n.Properties.map Prod.fst).Nodup := by
  intro todo
  induction todo with
  | nil =>
    intro ptr done heap prims r h hd
    simp only [bindNodes, Except.ok.injEq] at h
    subst h
    exact hd
  | cons n todo ih =>
    intro ptr done heap prims r h hd
    unfold bindNodes at h
    split at h
    · cases h
    · rename_i r1 hr1
      apply ih _ _ _ _ _ h
      intro n2 hn2
      rcases List.mem_append.1 hn2 with h3 | h3
      · exact hd n2 h3
      · simp only [List.mem_singleton] at h3
        subst h3
        exact bindNode_nodup _ _ _ _ _ hr1

theorem forall_mem_modify {α : Type} (P : α → Prop) (f : α → α) (hf : ∀ a, P a → P (f a)) :
    ∀ (l : List α) (i : Nat), (∀ a ∈ l, P a) → ∀ a ∈ l.modify f i, P a := by
  intro l
  induction l with
  | nil => intro i h a ha; cases i <;> simp [List.modify] at ha
  | cons x l ih =>
    intro i h a ha
    cases i with
    | zero =>
      simp only [List.modify_zero_cons, List.mem_cons] at ha
      rcases ha with rfl | ha
      · exact hf _ (h x (List.mem_cons_self _ _))
      · exact h a (List.mem_cons_of_mem _ ha)
    | succ i =>
      simp only [List.modify_succ_cons, List.mem_cons] at ha
      rcases ha with rfl | ha
      · exact h _ (List.mem_cons_self _ _)
      · exact ih i (fun b hb => h b (List.mem_cons_of_mem _ hb)) a ha

theorem primitiveLink_nodup (primitive : Nat) (l : Int) (first : Option Nat) (t : Graph)
    (r : Option Nat × Graph) (h : primitiveLink primitive l first t = Except.ok r)
    (ht : ∀ n ∈ t.Nodes, (n.Properties.map Prod.fst).Nodup) :
    ∀ n ∈ r.2.Nodes, (n.Properties.map Prod.fst).Nodup := by
  unfold primitiveLink at h
  repeat' split at h
  all_goals first
    | (simp only [Except.ok.injEq] at h; subst h; exact ht)
    | (simp only [Except.ok.injEq] at h; subst h
       exact forall_mem_modify (fun n : GraphNode => (n.Properties.map Prod.fst).Nodup) _
         (fun a ha => GoMap.nodup_keys_set _ _ _ ha) t.Nodes primitive ht)
    | cases h

theorem primitiveLinks_nodup (primitive : Nat) :
    ∀ (links : List Int) (first : Option Nat) (t t' : Graph),
      primitiveLinks primitive links first t = Except.ok t' →
      (∀ n ∈ t.Nodes, (n.Properties.map Prod.fst).Nodup) →
      ∀ n ∈ t'.Nodes, (n.Properties.map Prod.fst).Nodup := by
  intro links
  induction links with
  | nil =>
    intro first t t' h ht
    simp only [primitiveLinks, Except.ok.injEq] at h
    subst h
    exact ht
  | cons l rest ih =>
    intro first t t' h ht
    unfold primitiveLinks at h
    split at h
    · cases h
    · rename_i r hr
      exact ih _ _ _ h (primitiveLink_nodup _ _ _ _ _ hr ht)

theorem primitiveOutputs_nodup (primitive : Nat) :
    ∀ (outputs : List Slot) (t t' : Graph),
      primitiveOutputs primitive outputs t = Except.ok t' →
      (∀ n ∈ t.Nodes, (n.Properties.map Prod.fst).Nodup) →
      ∀ n ∈ t'.Nodes, (n.Properties.map Prod.fst).Nodup := by
  intro outputs
  induction outputs with
  | nil =>
    intro t t' h ht
    simp only [primitiveOutputs, Except.ok.injEq] at h
    subst h
    exact ht
  | cons o rest ih =>
    intro t t' h ht
    unfold primitiveOutputs at h
    split at h
    · exact ih _ _ h ht
    · split at h
      · split at h
        · cases h
        · rename_i t1 ht1
          exact ih _ _ h (primitiveLinks_nodup _ _ _ _ _ ht1 ht)
      · exact ih _ _ h ht

theorem processPrimitives_nodup :
    ∀ (prims : List Nat) (t t' : Graph),
      processPrimitives prims t = Except.ok t' →
      (∀ n ∈ t.Nodes, (n.Properties.map Prod.fst).Nodup) →
      ∀ n ∈ t'.Nodes, (n.Properties.map Prod.fst).Nodup := by
  intro prims
  induction prims with
  | nil =>
    intro t t' h ht
    simp only [processPrimitives, Except.ok.injEq] at h
    subst h
    exact ht
  | cons p rest ih =>
    intro t t' h ht
    unfold processPrimitives at h
    split at h
    · cases h
    · split at h
      · cases h
      · rename_i t1 ht1
        exact ih _ _ h (primitiveOutputs_nodup _ _ _ _ ht1 ht)

/-- In a loaded graph no node has two properties under one name. -/
theorem loaded_properties_nodup (decoded : Document) (node_objects : NodeObjects) (t : Graph)
    (h : NewGraphFromJsonReader decoded node_objects = Except.ok t) :
    ∀ n ∈ t.Nodes, (n.Properties.map Prod.fst).Nodup := by
  unfold NewGraphFromJsonReader CreateNodeProperties at h
  split at h
  · cases h
  · rename_i r hr
    apply processPrimitives_nodup _ _ _ h
    exact bindNodes_nodup _ _ _ _ _ _ _ hr (by simp)

end graphapi

namespace graphapi

/-! ### C6: inputs fed by a primitive node -/

theorem promptValues_get?_of_not_mem (heap : List PropertyData) (k : String) :
    ∀ (props : List (String × Option Nat)) (inputs out : GoMap String InputValue),
      promptValues heap props inputs = Except.ok out → k ∉ props.map Prod.fst →
      GoMap.get? out k = GoMap.get? inputs k := by
  intro props
  induction props with
  | nil =>
    intro inputs out h _
    simp only [promptValues, Except.ok.injEq] at h
    rw [h]
  | cons e rest ih =>
    intro inputs out h hk
    obtain ⟨k', p⟩ := e
    simp only [List.map_cons, List.mem_cons, not_or] at hk
    unfold promptValues at h
    split at h
    · cases h
    · split at h
      · cases h
      · split at h
        · rw [ih _ _ h hk.2]
          exact GoMap.get?_set_of_ne _ _ (fun e => hk.1 e.symm)
        · exact ih _ _ h hk.2

/-- The entry the loop over the properties leaves under `k`: the literal value of
the property named `k` when it is serializable. -/
theorem promptValues_get? (heap : List PropertyData) (k : String) :
    ∀ (props : List (String × Option Nat)) (inputs out : GoMap String InputValue),
      promptValues heap props inputs = Except.ok out → (props.map Prod.fst).Nodup →
      GoMap.get? out k =
        match GoMap.get? props k with
        | some (some addr) =>
          match heap[addr]? with
          | some d => if d.Serialize = true then some (InputValue.literal d.Value)
              else GoMap.get? inputs k
          | none => GoMap.get? inputs k
        | _ => GoMap.get? inputs k := by
  intro props
  induction props with
  | nil =>
    intro inputs out h _
    simp only [promptValues, Except.ok.injEq] at h
    rw [h]
    rfl
  | cons e rest ih =>
    intro inputs out h hnd
    obtain ⟨k', p⟩ := e
    simp only [List.map_cons, List.nodup_cons] at hnd
    unfold promptValues at h
    split at h
    · cases h
    · rename_i addr
      split at h
      · cases h
      · rename_i d hd
        have hd2 : heap[addr]? = some d := by
          unfold deref at hd
          split at hd
          · simp only [Except.ok.injEq] at hd
            subst hd
            assumption
          · cases hd
        by_cases hk : k' = k
        · subst hk
          simp only [GoMap.get?, if_true, hd2]
          split at h
          · rename_i hser
            rw [promptValues_get?_of_not_mem heap k' rest _ _ h hnd.1, if_pos hser]
            exact GoMap.get?_set_self _ _ _
          · rename_i hser
            rw [promptValues_get?_of_not_mem heap k' rest _ _ h hnd.1, if_neg hser]
        · simp only [GoMap.get?, hk, if_false]
          split at h
          · rw [ih _ _ h hnd.2, GoMap.get?_set_of_ne _ _ hk]
          · exact ih _ _ h hnd.2


/-- Input slots that write nothing under `k` leave the entry under `k` as it is. -/
theorem promptLinks_get?_of_skip (fuel : Nat) (t : Graph) (node : GraphNode) (k : String) :
    ∀ (slots : List Slot) (i : Nat) (inputs out : GoMap String InputValue),
      promptLinks fuel t node slots i inputs = Except.ok out →
      (∀ j s2 w, slots[j]? = some s2 → s2.Name = k →
        promptLink fuel t node (i + j) s2 = Except.ok w → w = none) →
      GoMap.get? out k = GoMap.get? inputs k := by
  intro slots
  induction slots with
  | nil =>
    intro i inputs out h _
    simp only [promptLinks, Except.ok.injEq] at h
    rw [h]
  | cons slot rest ih =>
    intro i inputs out h hskip
    have hrest : ∀ j s2 w, rest[j]? = some s2 → s2.Name = k →
        promptLink fuel t node (i + 1 + j) s2 = Except.ok w → w = none := by
      intro j s2 w hj hn hw
      have e : i + 1 + j = i + (j + 1) := by omega
      rw [e] at hw
      exact hskip (j + 1) s2 w (by simpa using hj) hn hw
    unfold promptLinks at h
    split at h
    · cases h
    · exact ih _ _ _ h hrest
    · rename_i w hw
      rw [ih _ _ _ h hrest]
      have hne : w.1 ≠ k := by
        intro hk
        have hn : slot.Name = k := by rw [← promptLink_name _ _ _ _ _ _ hw]; exact hk
        have := hskip 0 slot (some w) (by simp) hn hw
        cases this
      exact GoMap.get?_set_of_ne _ _ hne

theorem isVirtual_of_primitive (n : GraphNode) (h : n.TypeName = "PrimitiveNode") :
    n.IsVirtual = true := by
  simp [GraphNode.IsVirtual, h]

theorem sliceAt_mem {α : Type} (l : List α) (i : Int) (x : α) (h : sliceAt l i = some x) :
    x ∈ l := by
  unfold sliceAt at h
  split at h
  · cases h
  · rename_i hi
    rcases List.getElem?_eq_some.1 h with ⟨hlt, e⟩
    exact e ▸ List.getElem_mem hlt

/-- An input slot linked to a node of type `PrimitiveNode` that has no input link
writes nothing. -/
theorem promptLink_primitive (fuel : Nat) (t : Graph) (N : GraphNode) (pre suf : List Slot)
    (slot : Slot) (hslots : N.Inputs = pre ++ slot :: suf)
    (l : Link) (pptr : Nat) (P : GraphNode)
    (hl : t.GetLinkById slot.Link = some l) (hp : t.GetNodeById l.OriginID = some pptr)
    (hP : t.Nodes[pptr]? = some P) (hPt : P.TypeName = "PrimitiveNode")
    (hPin : ∀ s ∈ P.Inputs, t.GetLinkById s.Link = none)
    (w : Option (String × InputValue))
    (h : promptLink fuel t N pre.length slot = Except.ok w) : w = none := by
  unfold promptLink at h
  have e1 : t.GetNodeForInput N (pre.length : Int) = some pptr := by
    unfold Graph.GetNodeForInput Graph.GetInputLink
    rw [hslots, sliceAt_append_length]
    simp only [hl]
    exact hp
  rw [e1, hl] at h
  simp only at h
  cases fuel with
  | zero => simp [resolveVirtual] at h
  | succ fuel =>
    unfold resolveVirtual at h
    simp only [hP, isVirtual_of_primitive P hPt, if_true] at h
    have e2 : t.GetInputLink P l.OriginSlot = none := by
      unfold Graph.GetInputLink
      cases hs : sliceAt P.Inputs l.OriginSlot with
      | none => rfl
      | some s => exact hPin s (sliceAt_mem _ _ _ hs)
    rw [e2] at h
    simp only [Except.ok.injEq] at h
    exact h.symm

end graphapi

namespace graphapi

/-- C6, as stated, fails: in the graph loaded from `primitiveTwinSlotDocument` the
first input slot `seed` of node 2 is linked to the primitive node 1 and node 2
has the serializable property `seed` of value 5, but the entry under `seed` is
the reference `["3", 0]` written for the second input slot of that name, not
the literal value. -/
theorem C6_literal_overwritten :
    ∃ t p N slot l pptr P addr d pn,
      NewGraphFromJsonReader primitiveTwinSlotDocument seedCatalog = Except.ok t ∧
      GraphToPrompt 3 t "" = Except.ok p ∧
      t.Nodes[2]? = some N ∧ N.IsVirtual = false ∧ N.Mode ≠ 2 ∧
      N.Inputs[0]? = some slot ∧ slot.Name = "seed" ∧ t.GetLinkById slot.Link = some l ∧
      t.GetNodeById l.OriginID = some pptr ∧ t.Nodes[pptr]? = some P ∧
      P.TypeName = "PrimitiveNode" ∧ P.Inputs = [] ∧
      N.GetPropertyWithName "seed" = some addr ∧ p.Workflow.Heap[addr]? = some d ∧
      d.Serialize = true ∧ d.Value = Value.int 5 ∧
      GoMap.get? p.Nodes N.ID = some pn ∧
      GoMap.get? pn.Inputs "seed" = some (InputValue.reference "3" 0) :=
  ⟨_, _, _, _, _, _, _, _, _, _, rfl, rfl, rfl, (by decide), (by decide), rfl, rfl, rfl, rfl, rfl,
    rfl, rfl, rfl, rfl, rfl, rfl, rfl, rfl⟩


theorem getElem?_append_cases {α : Type} (pre suf : List α) (x y : α) (j : Nat)
    (h : (pre ++ x :: suf)[j]? = some y) :
    y ∈ pre ∨ (j = pre.length ∧ y = x) ∨ y ∈ suf := by
  by_cases h1 : j < pre.length
  · rw [List.getElem?_append_left h1] at h
    exact Or.inl (List.getElem?_mem h)
  · obtain ⟨i, rfl⟩ : ∃ i, j = pre.length + i := ⟨j - pre.length, by omega⟩
    rw [sort.getElem?_append_add] at h
    cases i with
    | zero =>
      simp only [List.getElem?_cons_zero, Option.some.injEq] at h
      exact Or.inr (Or.inl ⟨rfl, h.symm⟩)
    | succ i =>
      simp only [List.getElem?_cons_succ] at h
      exact Or.inr (Or.inr (List.getElem?_mem h))

/-- C6, amended: in a loaded graph, whatever values its properties hold, let an
input slot named `k` of a node `N` that is neither virtual nor muted be linked
to an output of a `PrimitiveNode` without input link.  If no other input slot of
`N` is named `k` and no node that is visited after `N` and is neither virtual
nor muted carries the ID of `N`, then the entry of `N` under `k` in the prompt
`GraphToPrompt` returns is no reference (to the primitive node or to any other
node), and when `N` has a serializable property named `k` the entry is the
literal value that property holds when `N` is visited, that is after the side
effects of the virtual nodes `a` visited before `N`. -/
theorem C6_primitive_input (decoded : Document) (node_objects : NodeObjects) (t : Graph)
    (heap : List PropertyData) (fuel : Nat) (clientID : String) (p : Prompt)
    (hload : NewGraphFromJsonReader decoded node_objects = Except.ok t)
    (hrun : GraphToPrompt fuel (t.withHeap heap) clientID = Except.ok p)
    (ptr : Nat) (N : GraphNode) (hN : t.Nodes[ptr]? = some N)
    (hv : N.IsVirtual = false) (hm : N.Mode ≠ 2)
    (hlastID : ∀ q n2, VisitedAfter t.NodesInExecutionOrder ptr q → t.Emits q n2 → n2.ID ≠ N.ID)
    (pre suf : List Slot) (slot : Slot) (hslots : N.Inputs = pre ++ slot :: suf)
    (hname : ∀ s2, s2 ∈ pre ∨ s2 ∈ suf → s2.Name ≠ slot.Name)
    (l : Link) (pptr : Nat) (P : GraphNode)
    (hl : t.GetLinkById slot.Link = some l) (hp : t.GetNodeById l.OriginID = some pptr)
    (hP : t.Nodes[pptr]? = some P) (hPt : P.TypeName = "PrimitiveNode")
    (hPin : ∀ s ∈ P.Inputs, t.GetLinkById s.Link = none) :
    ∃ a b pn, t.NodesInExecutionOrder = a ++ ptr :: b ∧
      GoMap.get? p.Nodes N.ID = some pn ∧
      (∀ origin s, GoMap.get? pn.Inputs slot.Name ≠ some (InputValue.reference origin s)) ∧
      (∀ addr d, N.GetPropertyWithName slot.Name = some addr →
        (applyVirtuals a (t.withHeap heap)).Heap[addr]? = some d → d.Serialize = true →
        GoMap.get? pn.Inputs slot.Name = some (InputValue.literal d.Value)) := by
  have hperm := loaded_order_perm decoded node_objects t hload
  have hnodup := loaded_properties_nodup decoded node_objects t hload N (List.getElem?_mem hN)
  have hlt : ptr < t.Nodes.length := by
    rcases List.getElem?_eq_some.1 hN with ⟨h, _⟩; exact h
  have hmem : ptr ∈ t.NodesInExecutionOrder := hperm.symm.subset (List.mem_range.2 hlt)
  obtain ⟨a, b, e⟩ := List.append_of_mem hmem
  unfold GraphToPrompt at hrun
  split at hrun
  · cases hrun
  · rename_i res hres
    simp only [Except.ok.injEq] at hrun
    subst hrun
    have e2 : (t.withHeap heap).NodesInExecutionOrder = a ++ ptr :: b := e
    rw [e2] at hres
    obtain ⟨pn, hpn, hget⟩ := compileNodes_get?_last fuel ptr N b a (t.withHeap heap) []
      res.1 res.2 hres ⟨hN, hv, hm⟩
      (fun q hq n2 hn2 => hlastID q n2 ⟨a, b, e, hq⟩ hn2)
    refine ⟨a, b, pn, e, hget, ?_⟩
    obtain ⟨heap2, e3⟩ := applyVirtuals_withHeap a (t.withHeap heap)
    generalize applyVirtuals a (t.withHeap heap) = tv at hpn e3 ⊢
    unfold promptNode at hpn
    split at hpn
    · cases hpn
    · rename_i inputs0 hin0
      split at hpn
      · cases hpn
      · rename_i inputs hin
        simp only [Except.ok.injEq] at hpn
        subst hpn
        simp only
        have hin2 : promptLinks fuel t N (pre ++ slot :: suf) 0 inputs0 = Except.ok inputs := by
          rw [← hslots, ← hin, e3]
          exact (promptLinks_withHeap fuel t heap2 N N.Inputs 0 inputs0).symm
        have hskip : GoMap.get? inputs slot.Name = GoMap.get? inputs0 slot.Name := by
          apply promptLinks_get?_of_skip fuel t N slot.Name _ _ _ _ hin2
          intro j s2 w hj hn2 hw
          rw [Nat.zero_add] at hw
          rcases getElem?_append_cases pre suf slot s2 j hj with h1 | ⟨h1, h2⟩ | h1
          · exact absurd hn2 (hname s2 (Or.inl h1))
          · subst h1 h2
            exact promptLink_primitive fuel t N pre suf s2 hslots l pptr P hl hp hP hPt hPin w hw
          · exact absurd hn2 (hname s2 (Or.inr h1))
        have hval := promptValues_get? tv.Heap slot.Name N.Properties [] inputs0 hin0 hnodup
        rw [← hskip] at hval
        refine ⟨?_, ?_⟩
        · intro origin s hcon
          rw [hcon] at hval
          revert hval
          cases GoMap.get? N.Properties slot.Name with
          | none => simp [GoMap.get?]
          | some o =>
            cases o with
            | none => simp [GoMap.get?]
            | some addr =>
              simp only
              cases tv.Heap[addr]? with
              | none => simp [GoMap.get?]
              | some d =>
                simp only
                split
                · simp
                · simp [GoMap.get?]
        · intro addr d hprop hd hser
          have hprop2 : GoMap.get? N.Properties slot.Name = some (some addr) := by
            unfold GraphNode.GetPropertyWithName at hprop
            split at hprop
            · rename_i o ho
              rw [ho, hprop]
            · cases hprop
          rw [hval, hprop2]
          simp only [hd, hser, if_true]


/-- Witness of `C6_primitive_input`: the scenario of the spec, loaded from
`primitiveDocument`; the entry of node 2 under `seed` is the literal 5. -/
theorem C6_primitive_input_witness :
    ∃ pn, GoMap.get? (compiledPrompt 3 (loadedGraph primitiveDocument seedCatalog) "").Nodes 2
        = some pn ∧
      GoMap.get? pn.Inputs "seed" = some (InputValue.literal (Value.int 5)) := by
  obtain ⟨a, b, pn, e, hget, _, hlit⟩ :=
    C6_primitive_input primitiveDocument seedCatalog (loadedGraph primitiveDocument seedCatalog)
      (loadedGraph primitiveDocument seedCatalog).Heap 3 "" _ rfl rfl 1
      ((loadedGraph primitiveDocument seedCatalog).nodeAt 1) rfl (by decide) (by decide)
      (by
        intro q n2 hq hem
        have hnd : (loadedGraph primitiveDocument seedCatalog).NodesInExecutionOrder.Nodup := by
          decide
        obtain ⟨_, hne⟩ := hq.mem_ne hnd
        rcases hem with ⟨h1, _, _⟩
        match q, hne, h1 with
        | 0, _, h1 => cases h1; decide
        | 1, hne, _ => exact absurd rfl hne
        | k + 2, _, h1 => cases h1)
      [] [] { Name := "seed", Link := 10, Property := some 0 } rfl (by simp)
      { ID := 10, OriginID := 1, OriginSlot := 0, TargetID := 2, TargetSlot := 0 } 0
      ((loadedGraph primitiveDocument seedCatalog).nodeAt 0) rfl rfl rfl rfl
      (by intro s hs; cases hs)
  refine ⟨pn, hget, ?_⟩
  have ea : a = [0] := by
    have e2 : [0, 1] = a ++ 1 :: b := e
    match a, e2 with
    | [], e2 => cases e2
    | [x], e2 => cases e2; rfl
    | x :: y :: a2, e2 =>
      have h3 := congrArg List.length e2
      simp at h3
  subst ea
  exact hlit 0 _ rfl rfl rfl

end graphapi

namespace graphapi

/-! ### C5: compiling twice -/

theorem setValues_length (v : Value) :
    ∀ (T : List Nat) (h : List PropertyData), (setValues v T h).length = h.length := by
  intro T
  induction T with
  | nil => intro h; rfl
  | cons p rest ih => intro h; unfold setValues; rw [ih]; simp

theorem setValues_getElem? (v : Value) (x : Nat) :
    ∀ (T : List Nat) (h : List PropertyData),
      (setValues v T h)[x]? =
        if x ∈ T then (h[x]?).map (fun d => { d with Value := v }) else h[x]? := by
  intro T
  induction T with
  | nil => intro h; simp [setValues]
  | cons p rest ih =>
    intro h
    unfold setValues
    rw [ih, List.getElem?_modify]
    by_cases hp : p = x
    · subst hp
      by_cases hr : p ∈ rest
      · simp only [hr, if_true, List.mem_cons, true_or]
        cases h[p]? <;> simp
      · simp only [hr, if_false, List.mem_cons, true_or, if_true]
        cases h[p]? <;> simp
    · have hx : ¬ x = p := fun e => hp e.symm
      by_cases hr : x ∈ rest
      · simp only [hr, if_true, List.mem_cons, or_true, hp, if_false]
        cases h[x]? <;> simp
      · simp only [hr, if_false, List.mem_cons, hx, or_self, hp]
        cases h[x]? <;> simp

theorem feedTargets_withHeap (t : Graph) (heap : List PropertyData) :
    ∀ (links : List Int), feedTargets (t.withHeap heap) links = feedTargets t links := by
  intro links
  induction links with
  | nil => rfl
  | cons l rest ih =>
    unfold feedTargets
    have e1 : (t.withHeap heap).GetLinkById l = t.GetLinkById l := rfl
    rw [e1]
    cases t.GetLinkById l with
    | none => exact ih
    | some link =>
      simp only
      have e2 : (t.withHeap heap).GetNodeById link.TargetID = t.GetNodeById link.TargetID := rfl
      rw [e2]
      cases t.GetNodeById link.TargetID with
      | none => exact ih
      | some target =>
        simp only
        have e3 : (t.withHeap heap).Nodes = t.Nodes := rfl
        rw [e3]
        cases t.Nodes[target]? with
        | none => exact ih
        | some target_node =>
          simp only
          cases sliceAt target_node.Inputs link.TargetSlot with
          | none => exact ih
          | some slot =>
            simp only
            cases slot.Property with
            | none => exact ih
            | some p => simp only; rw [ih]

theorem outputTargets_withHeap (t : Graph) (heap : List PropertyData) :
    ∀ (outs : List Slot), outputTargets (t.withHeap heap) outs = outputTargets t outs := by
  intro outs
  induction outs with
  | nil => rfl
  | cons o rest ih =>
    unfold outputTargets
    cases o.Links with
    | none => exact ih
    | some links => simp only; rw [ih, feedTargets_withHeap]

theorem ApplyToGraph_eq_heapAfter (t : Graph) (ptr : Nat) (h : List PropertyData) :
    ApplyToGraph (t.withHeap h) ptr = t.withHeap (heapAfter t ptr h) := by
  unfold ApplyToGraph heapAfter
  have e1 : (t.withHeap h).Nodes = t.Nodes := rfl
  have e2 : (t.withHeap h).Heap = h := rfl
  simp only [e1, e2]
  cases t.Nodes[ptr]? with
  | none => rfl
  | some n =>
    simp only
    split
    · cases n.GetPropertyWithName "value" with
      | none => rfl
      | some value =>
        simp only
        cases h[value]? with
        | none => rfl
        | some d => simp only; rw [outputTargets_withHeap]; rfl
    · rfl

theorem mem_propertiesOf_value (t : Graph) (ptr : Nat) (n : GraphNode) (value : Nat)
    (hn : t.Nodes[ptr]? = some n) (hv : n.GetPropertyWithName "value" = some value) :
    value ∈ propertiesOf t ptr := by
  simp only [propertiesOf, hn, List.mem_filterMap]
  unfold GraphNode.GetPropertyWithName at hv
  split at hv
  · rename_i o ho
    subst hv
    refine ⟨("value", some value), ?_, rfl⟩
    revert ho
    generalize n.Properties = m
    intro ho
    induction m with
    | nil => simp [GoMap.get?] at ho
    | cons e m ih =>
      obtain ⟨a, b⟩ := e
      by_cases hab : a = "value"
      · simp only [GoMap.get?, hab, if_true, Option.some.injEq] at ho
        subst hab ho
        exact List.mem_cons_self _ _
      · simp only [GoMap.get?, hab, if_false] at ho
        exact List.mem_cons_of_mem _ (ih ho)
  · cases hv

theorem isSome_of_withoutValue_eq {a b : Option PropertyData}
    (h : a.map PropertyData.withoutValue = b.map PropertyData.withoutValue) :
    a = none ↔ b = none := by
  cases a <;> cases b <;> simp at h ⊢

/-- The side effect keeps every property struct up to its value. -/
theorem heapAfter_withoutValue (t : Graph) (ptr : Nat) (h : List PropertyData) (x : Nat) :
    ((heapAfter t ptr h)[x]?).map PropertyData.withoutValue
      = (h[x]?).map PropertyData.withoutValue := by
  unfold heapAfter
  repeat' split
  all_goals first
    | rfl
    | (rw [setValues_getElem?]
       split
       · cases h[x]? <;> simp [PropertyData.withoutValue]
       · rfl)

/-- The side effect writes the properties of `sideEffectTargets` only. -/
theorem heapAfter_of_not_mem (t : Graph) (ptr : Nat) (h : List PropertyData)
    (hbase : ∀ x : Nat, (h[x]?).map PropertyData.withoutValue
      = (t.Heap[x]?).map PropertyData.withoutValue)
    (x : Nat) (hx : x ∉ sideEffectTargets t ptr) : (heapAfter t ptr h)[x]? = h[x]? := by
  unfold heapAfter
  unfold sideEffectTargets at hx
  cases hn : t.Nodes[ptr]? with
  | none => rfl
  | some n =>
    simp only [hn] at hx ⊢
    split
    · rename_i hty
      simp only [hty, if_true] at hx
      cases hv : n.GetPropertyWithName "value" with
      | none => rfl
      | some value =>
        simp only [hv] at hx ⊢
        cases hd : h[value]? with
        | none => rfl
        | some d =>
          simp only
          have hts : t.Heap[value]? ≠ none := by
            intro hc
            have := (isSome_of_withoutValue_eq (hbase value)).2 hc
            rw [hd] at this
            cases this
          cases htv : t.Heap[value]? with
          | none => exact absurd htv hts
          | some d0 =>
            simp only [htv] at hx
            rw [setValues_getElem?, if_neg hx]
    · rfl

/-- Two memories that agree on the properties of the node at `ptr` agree, after
its side effect, wherever they agreed before and on what the side effect has
written. -/
theorem heapAfter_congr (t : Graph) (ptr : Nat) (h h2 : List PropertyData)
    (hbase : ∀ x : Nat, (h[x]?).map PropertyData.withoutValue
      = (t.Heap[x]?).map PropertyData.withoutValue)
    (hbase2 : ∀ x : Nat, (h2[x]?).map PropertyData.withoutValue
      = (t.Heap[x]?).map PropertyData.withoutValue)
    (hread : ∀ x ∈ propertiesOf t ptr, h[x]? = h2[x]?)
    (x : Nat) (hx : h[x]? = h2[x]? ∨ x ∈ sideEffectTargets t ptr) :
    (heapAfter t ptr h)[x]? = (heapAfter t ptr h2)[x]? := by
  unfold heapAfter
  unfold sideEffectTargets at hx
  cases hn : t.Nodes[ptr]? with
  | none =>
    simp only [hn] at hx ⊢
    rcases hx with hx | hx
    · exact hx
    · cases hx
  | some n =>
    simp only [hn] at hx ⊢
    split
    · rename_i hty
      simp only [hty, if_true] at hx
      cases hv : n.GetPropertyWithName "value" with
      | none =>
        simp only [hv] at hx ⊢
        rcases hx with hx | hx
        · exact hx
        · cases hx
      | some value =>
        simp only [hv] at hx ⊢
        have hval : h[value]? = h2[value]? :=
          hread value (mem_propertiesOf_value t ptr n value hn hv)
        rw [← hval]
        cases hd : h[value]? with
        | none =>
          simp only
          have htn : t.Heap[value]? = none := by
            have := (isSome_of_withoutValue_eq (hbase value)).1 hd
            exact this
          simp only [htn] at hx
          rcases hx with hx | hx
          · exact hx
          · cases hx
        | some d =>
          simp only
          have hts : t.Heap[value]? ≠ none := by
            intro hc
            have := (isSome_of_withoutValue_eq (hbase value)).2 hc
            rw [hd] at this
            cases this
          cases htv : t.Heap[value]? with
          | none => exact absurd htv hts
          | some d0 =>
            simp only [htv] at hx
            rw [setValues_getElem?, setValues_getElem?]
            by_cases hxW : x ∈ outputTargets t n.Outputs
            · simp only [hxW, if_true]
              have h1 := hbase x
              rw [← hbase2 x] at h1
              cases hx1 : h[x]? with
              | none =>
                rw [hx1] at h1
                cases hx2 : h2[x]? with
                | none => rfl
                | some b => rw [hx2] at h1; cases h1
              | some a =>
                rw [hx1] at h1
                cases hx2 : h2[x]? with
                | none => rw [hx2] at h1; cases h1
                | some b =>
                  rw [hx2] at h1
                  simp only [Option.map_some', Option.some.injEq] at h1 ⊢
                  cases a; cases b
                  simp only [PropertyData.withoutValue, PropertyData.mk.injEq] at h1 ⊢
                  simp_all
            · simp only [hxW, if_false]
              rcases hx with hx | hx
              · exact hx
              · exact absurd hx hxW
    · rename_i hty
      simp only [hty, if_false] at hx
      rcases hx with hx | hx
      · exact hx
      · cases hx

end graphapi

namespace graphapi

theorem promptValues_congr (h1 h2 : List PropertyData) :
    ∀ (props : List (String × Option Nat)) (inputs : GoMap String InputValue),
      (∀ e ∈ props, ∀ a, e.2 = some a → h1[a]? = h2[a]?) →
      promptValues h1 props inputs = promptValues h2 props inputs := by
  intro props
  induction props with
  | nil => intro inputs _; rfl
  | cons e rest ih =>
    intro inputs hag
    obtain ⟨k, p⟩ := e
    have hrest : ∀ e ∈ rest, ∀ a, e.2 = some a → h1[a]? = h2[a]? :=
      fun e he => hag e (List.mem_cons_of_mem _ he)
    unfold promptValues
    cases p with
    | none => rfl
    | some addr =>
      simp only
      have e1 : deref h1 addr = deref h2 addr := by
        unfold deref
        rw [hag (k, some addr) (List.mem_cons_self _ _) addr rfl]
      rw [e1]
      cases deref h2 addr with
      | error e => rfl
      | ok d =>
        simp only
        split
        · exact ih _ hrest
        · exact ih _ hrest

theorem promptNode_congr (fuel : Nat) (t : Graph) (ptr : Nat) (node : GraphNode)
    (hn : t.Nodes[ptr]? = some node) (h1 h2 : List PropertyData)
    (hread : ∀ x ∈ propertiesOf t ptr, h1[x]? = h2[x]?) :
    promptNode fuel (t.withHeap h1) node = promptNode fuel (t.withHeap h2) node := by
  unfold promptNode
  have e1 : (t.withHeap h1).Heap = h1 := rfl
  have e2 : (t.withHeap h2).Heap = h2 := rfl
  rw [e1, e2]
  have e3 : promptValues h1 node.Properties [] = promptValues h2 node.Properties [] := by
    apply promptValues_congr
    intro e he a ha
    apply hread
    simp only [propertiesOf, hn, List.mem_filterMap]
    exact ⟨e, he, ha⟩
  rw [e3]
  cases promptValues h2 node.Properties [] with
  | error e => rfl
  | ok inputs =>
    simp only
    rw [promptLinks_withHeap, promptLinks_withHeap]

theorem sideEffectTargets_of_not_virtual (t : Graph) (ptr : Nat) (node : GraphNode)
    (hn : t.Nodes[ptr]? = some node) (hv : ¬ node.IsVirtual = true) :
    sideEffectTargets t ptr = [] := by
  unfold sideEffectTargets
  simp only [hn]
  split
  · rename_i hty
    exact absurd (isVirtual_of_primitive node hty) hv
  · rfl

/-- The second of two compiles: started from a memory that agrees with the memory
of the first wherever no side effect of the nodes still to visit writes, it
builds the same map. -/
theorem compileNodes_congr (fuel : Nat) (t : Graph) :
    ∀ (suffix : List Nat) (h1 h2 : List PropertyData) (m m' : GoMap Int PromptNode)
      (g1 : Graph),
      (∀ x : Nat, (h1[x]?).map PropertyData.withoutValue
        = (t.Heap[x]?).map PropertyData.withoutValue) →
      (∀ x : Nat, (h2[x]?).map PropertyData.withoutValue
        = (t.Heap[x]?).map PropertyData.withoutValue) →
      (∀ x : Nat, (∀ q ∈ suffix, x ∉ sideEffectTargets t q) → h1[x]? = h2[x]?) →
      FeedsForward t suffix = true →
      compileNodes fuel suffix (t.withHeap h1) m = Except.ok (m', g1) →
      ∃ g2, compileNodes fuel suffix (t.withHeap h2) m = Except.ok (m', g2) := by
  intro suffix
  induction suffix with
  | nil =>
    intro h1 h2 m m' g1 _ _ _ _ h
    simp only [compileNodes, Except.ok.injEq, Prod.mk.injEq] at h
    exact ⟨t.withHeap h2, by simp only [compileNodes]; rw [h.1]⟩
  | cons p rest ih =>
    intro h1 h2 m m' g1 hb1 hb2 hag hfwd h
    unfold FeedsForward at hfwd
    simp only [Bool.and_eq_true, List.all_eq_true, decide_eq_true_eq] at hfwd
    obtain ⟨hhead, hfrest⟩ := hfwd
    have hread : ∀ x ∈ propertiesOf t p, h1[x]? = h2[x]? := by
      intro x hx
      apply hag
      intro q hq hxq
      exact hhead q hq x hxq hx
    unfold compileNodes at h ⊢
    have e1 : (t.withHeap h1).Nodes = t.Nodes := rfl
    have e2 : (t.withHeap h2).Nodes = t.Nodes := rfl
    rw [e1] at h
    rw [e2]
    cases hn : t.Nodes[p]? with
    | none => rw [hn] at h; cases h
    | some node =>
      rw [hn] at h
      simp only at h ⊢
      by_cases hvirt : node.IsVirtual = true
      · rw [if_pos hvirt] at h
        rw [if_pos hvirt]
        rw [ApplyToGraph_eq_heapAfter] at h ⊢
        apply ih (heapAfter t p h1) (heapAfter t p h2) m m' g1 _ _ _ hfrest h
        · intro x; rw [heapAfter_withoutValue]; exact hb1 x
        · intro x; rw [heapAfter_withoutValue]; exact hb2 x
        · intro x hx
          apply heapAfter_congr t p h1 h2 hb1 hb2 hread
          by_cases hxp : x ∈ sideEffectTargets t p
          · exact Or.inr hxp
          · left
            apply hag
            intro q hq
            rcases List.mem_cons.1 hq with rfl | hq2
            · exact hxp
            · exact hx q hq2
      · rw [if_neg hvirt] at h
        rw [if_neg hvirt]
        have hW := sideEffectTargets_of_not_virtual t p node hn hvirt
        have hag2 : ∀ x : Nat, (∀ q ∈ rest, x ∉ sideEffectTargets t q) → h1[x]? = h2[x]? := by
          intro x hx
          apply hag
          intro q hq
          rcases List.mem_cons.1 hq with rfl | hq2
          · rw [hW]; simp
          · exact hx q hq2
        by_cases hmode : node.Mode = 2
        · rw [if_pos hmode] at h
          rw [if_pos hmode]
          exact ih h1 h2 m m' g1 hb1 hb2 hag2 hfrest h
        · rw [if_neg hmode] at h
          rw [if_neg hmode]
          rw [← promptNode_congr fuel t p node hn h1 h2 hread]
          cases hpn : promptNode fuel (t.withHeap h1) node with
          | error e => rw [hpn] at h; cases h
          | ok pn =>
            rw [hpn] at h
            simp only at h ⊢
            exact ih h1 h2 _ m' g1 hb1 hb2 hag2 hfrest h

/-- What the loop of `GraphToPrompt` does to the property memory: it keeps every
struct up to its value, and the properties no side effect writes altogether. -/
theorem compileNodes_frame (fuel : Nat) (t : Graph) :
    ∀ (suffix : List Nat) (h : List PropertyData) (m m' : GoMap Int PromptNode) (g : Graph),
      (∀ x : Nat, (h[x]?).map PropertyData.withoutValue
        = (t.Heap[x]?).map PropertyData.withoutValue) →
      compileNodes fuel suffix (t.withHeap h) m = Except.ok (m', g) →
      ∃ h', g = t.withHeap h' ∧
        (∀ x : Nat, (h'[x]?).map PropertyData.withoutValue
          = (t.Heap[x]?).map PropertyData.withoutValue) ∧
        (∀ x : Nat, (∀ q ∈ suffix, x ∉ sideEffectTargets t q) → h'[x]? = h[x]?) := by
  intro suffix
  induction suffix with
  | nil =>
    intro h m m' g hb hrun
    simp only [compileNodes, Except.ok.injEq, Prod.mk.injEq] at hrun
    exact ⟨h, hrun.2.symm, hb, fun _ _ => rfl⟩
  | cons p rest ih =>
    intro h m m' g hb hrun
    unfold compileNodes at hrun
    have e1 : (t.withHeap h).Nodes = t.Nodes := rfl
    rw [e1] at hrun
    cases hn : t.Nodes[p]? with
    | none => rw [hn] at hrun; cases hrun
    | some node =>
      rw [hn] at hrun
      simp only at hrun
      by_cases hvirt : node.IsVirtual = true
      · rw [if_pos hvirt, ApplyToGraph_eq_heapAfter] at hrun
        obtain ⟨h', e, hb', hfr⟩ := ih (heapAfter t p h) m m' g
          (fun x => by rw [heapAfter_withoutValue]; exact hb x) hrun
        refine ⟨h', e, hb', ?_⟩
        intro x hx
        rw [hfr x (fun q hq => hx q (List.mem_cons_of_mem _ hq))]
        exact heapAfter_of_not_mem t p h hb x (hx p (List.mem_cons_self _ _))
      · rw [if_neg hvirt] at hrun
        by_cases hmode : node.Mode = 2
        · rw [if_pos hmode] at hrun
          obtain ⟨h', e, hb', hfr⟩ := ih h m m' g hb hrun
          exact ⟨h', e, hb', fun x hx => hfr x (fun q hq => hx q (List.mem_cons_of_mem _ hq))⟩
        · rw [if_neg hmode] at hrun
          cases hpn : promptNode fuel (t.withHeap h) node with
          | error e => rw [hpn] at hrun; cases hrun
          | ok pn =>
            rw [hpn] at hrun
            simp only at hrun
            obtain ⟨h', e, hb', hfr⟩ := ih h _ m' g hb hrun
            exact ⟨h', e, hb', fun x hx => hfr x (fun q hq => hx q (List.mem_cons_of_mem _ hq))⟩

/-- C5, as stated, fails: the graph loaded from `fanOutDocument` is compiled twice
in a row.  The primitive node is visited after node 3, so the first prompt has
the literal 7 under `steps` of node 3, and the second the literal 5 that the
side effect of the primitive has written in between. -/
theorem C5_second_compile_differs :
    ∃ t p1 p2 pn1 pn2, NewGraphFromJsonReader fanOutDocument fanOutCatalog = Except.ok t ∧
      GraphToPrompt 3 t "" = Except.ok p1 ∧ GraphToPrompt 3 p1.Workflow "" = Except.ok p2 ∧
      GoMap.get? p1.Nodes 3 = some pn1 ∧ GoMap.get? p2.Nodes 3 = some pn2 ∧
      GoMap.get? pn1.Inputs "steps" = some (InputValue.literal (Value.int 7)) ∧
      GoMap.get? pn2.Inputs "steps" = some (InputValue.literal (Value.int 5)) :=
  ⟨_, _, _, _, _, rfl, rfl, rfl, rfl, rfl, rfl, rfl⟩

/-- C5, amended: when every virtual node comes, in the execution order, before
the nodes its side effect feeds (no property written by `ApplyToGraph` of a node
belongs to that node or to a node visited before it), calling `GraphToPrompt`
twice in a row yields prompts with the same `Nodes` map: the same keys and, for
each key, the same class type and the same inputs. -/
theorem C5_compile_twice (t : Graph) (fuel : Nat) (clientID : String) (p1 : Prompt)
    (hfwd : FeedsForward t t.NodesInExecutionOrder = true)
    (hrun : GraphToPrompt fuel t clientID = Except.ok p1) :
    ∃ p2, GraphToPrompt fuel p1.Workflow clientID = Except.ok p2 ∧ p2.Nodes = p1.Nodes := by
  unfold GraphToPrompt at hrun
  split at hrun
  · cases hrun
  · rename_i r hr
    simp only [Except.ok.injEq] at hrun
    subst hrun
    simp only
    have et : t = t.withHeap t.Heap := rfl
    rw [et] at hr
    obtain ⟨h', e, hb', hfr⟩ := compileNodes_frame fuel t _ t.Heap [] r.1 r.2 (fun _ => rfl) hr
    obtain ⟨g2, hg2⟩ := compileNodes_congr fuel t _ t.Heap h' [] r.1 r.2 (fun _ => rfl) hb'
      (fun x hx => (hfr x hx).symm) hfwd hr
    have e2 : (t.withHeap t.Heap).NodesInExecutionOrder = t.NodesInExecutionOrder := rfl
    rw [e2] at hg2
    refine ⟨{ ClientID := clientID, Nodes := r.1, Workflow := g2 }, ?_, rfl⟩
    unfold GraphToPrompt
    rw [e]
    have e3 : (t.withHeap h').NodesInExecutionOrder = t.NodesInExecutionOrder := rfl
    rw [e3, hg2]

/-- Witness of `C5_compile_twice`: the graph loaded from `primitiveDocument`, in
which the primitive node is visited before the node it feeds. -/
theorem C5_compile_twice_witness :
    ∃ p2, GraphToPrompt 3
        (compiledPrompt 3 (loadedGraph primitiveDocument seedCatalog) "").Workflow ""
          = Except.ok p2 ∧
      p2.Nodes = (compiledPrompt 3 (loadedGraph primitiveDocument seedCatalog) "").Nodes :=
  C5_compile_twice (loadedGraph primitiveDocument seedCatalog) 3 "" _ (by decide) rfl

end graphapi

namespace graphapi

/-! ### C7: the value of a primitive node -/

theorem PrimitiveFrame.refl (t : Graph) : PrimitiveFrame t t :=
  ⟨rfl, rfl, fun _ => rfl, fun _ d h => ⟨d, h, rfl⟩⟩

theorem PrimitiveFrame.trans {t t2 t3 : Graph} (h1 : PrimitiveFrame t t2)
    (h2 : PrimitiveFrame t2 t3) : PrimitiveFrame t t3 := by
  refine ⟨h2.1.trans h1.1, h2.2.1.trans h1.2.1, fun i => (h2.2.2.1 i).trans (h1.2.2.1 i), ?_⟩
  intro x d hd
  obtain ⟨d2, hd2, e2⟩ := h1.2.2.2 x d hd
  obtain ⟨d3, hd3, e3⟩ := h2.2.2.2 x d2 hd2
  exact ⟨d3, hd3, e3.trans e2⟩

theorem getElem?_append_of_some {α : Type} (l : List α) (y : α) (x : Nat) (d : α)
    (h : l[x]? = some d) : (l ++ [y])[x]? = some d := by
  rcases List.getElem?_eq_some.1 h with ⟨hlt, e⟩
  rw [List.getElem?_append_left hlt]
  exact h

theorem duplicateAs_ok (heap : List PropertyData) (d : PropertyData) (kind : PropertyKind)
    (r : Option Nat × List PropertyData) (h : duplicateAs heap d kind = Except.ok r) :
    r = (some heap.length, heap ++ [d]) := by
  unfold duplicateAs assertKind at h
  by_cases hk : d.Kind = kind
  · simp only [hk, if_true, Except.ok.injEq] at h
    exact h.symm
  · simp only [hk, if_false] at h
    cases h

/-- The result of `duplicateProperty`: the memory grows by at most one struct. -/
theorem duplicateProperty_heap (heap : List PropertyData) (p : Nat)
    (r : Option Nat × List PropertyData) (h : duplicateProperty heap p = Except.ok r) :
    ∃ d, heap[p]? = some d ∧ (r = (none, heap) ∨ r = (some heap.length, heap ++ [d])) := by
  unfold duplicateProperty at h
  cases hd : heap[p]? with
  | none => simp [deref, hd] at h
  | some d =>
    refine ⟨d, rfl, ?_⟩
    simp only [deref, hd] at h
    repeat' split at h
    all_goals first
      | exact Or.inr (duplicateAs_ok _ _ _ _ h)
      | (simp only [Except.ok.injEq] at h; subst h; exact Or.inl rfl)

/-- For a property of a variant other than `BoolProperty` and
`ImageUploadProperty`, `duplicateProperty` returns a copy at a new address. -/
theorem duplicateProperty_of_kind (heap : List PropertyData) (p : Nat) (d : PropertyData)
    (hd : heap[p]? = some d) (hb : d.Kind ≠ PropertyKind.BoolProperty)
    (hu : d.Kind ≠ PropertyKind.ImageUploadProperty) :
    duplicateProperty heap p = Except.ok (some heap.length, heap ++ [d]) := by
  unfold duplicateProperty
  simp only [deref, hd]
  cases hk : d.Kind
  all_goals first
    | exact absurd hk hb
    | exact absurd hk hu
    | simp [PropertyData.TypeString, hk, duplicateAs, assertKind]

theorem heap_frame_append (heap : List PropertyData) (y : PropertyData) :
    ∀ (x : Nat) (d : PropertyData), heap[x]? = some d →
      ∃ d2, (heap ++ [y])[x]? = some d2 ∧ d2.withoutSecondaries = d.withoutSecondaries :=
  fun x d h => ⟨d, getElem?_append_of_some heap y x d h, rfl⟩

theorem heap_frame_attach (heap : List PropertyData) (p : Nat) (newp : Option Nat) :
    ∀ (x : Nat) (d : PropertyData), heap[x]? = some d →
      ∃ d2, (AttachSecondaryProperty heap p newp)[x]? = some d2 ∧
        d2.withoutSecondaries = d.withoutSecondaries := by
  intro x d h
  unfold AttachSecondaryProperty
  rw [List.getElem?_modify, h]
  by_cases hp : p = x
  · simp only [hp, if_true, Option.map_eq_map, Option.map_some']
    exact ⟨_, rfl, rfl⟩
  · simp only [hp, if_false, Option.map_eq_map, Option.map_some']
    exact ⟨_, rfl, rfl⟩

theorem nodes_frame_setProperty (t : Graph) (ptr : Nat) (name : String) (p : Option Nat)
    (i : Nat) :
    ((Graph.setProperty t ptr name p).Nodes[i]?).map GraphNode.withoutProperties
      = (t.Nodes[i]?).map GraphNode.withoutProperties := by
  unfold Graph.setProperty
  simp only
  rw [List.getElem?_modify]
  cases t.Nodes[i]? with
  | none => rfl
  | some n =>
    by_cases hp : ptr = i
    · simp [hp, GraphNode.withoutProperties]
    · simp [hp]

theorem nodes_setProperty_of_ne (t : Graph) (ptr : Nat) (name : String) (p : Option Nat)
    (i : Nat) (h : i ≠ ptr) : (Graph.setProperty t ptr name p).Nodes[i]? = t.Nodes[i]? := by
  unfold Graph.setProperty
  simp only
  rw [List.getElem?_modify]
  have : ¬ ptr = i := fun e => h e.symm
  cases t.Nodes[i]? <;> simp [this]

/-- One link of a primitive node: the frame of the pass holds, and the nodes other
than the primitive are left as they are. -/
theorem primitiveLink_primitiveFrame (primitive : Nat) (l : Int) (first : Option Nat)
    (t : Graph) (r : Option Nat × Graph)
    (h : primitiveLink primitive l first t = Except.ok r) :
    PrimitiveFrame t r.2 ∧ ∀ i, i ≠ primitive → r.2.Nodes[i]? = t.Nodes[i]? := by
  have hskip : ∀ (f : Option Nat), Except.ok (f, t) = (Except.ok r : Except Fault _) →
      PrimitiveFrame t r.2 ∧ ∀ i, i ≠ primitive → r.2.Nodes[i]? = t.Nodes[i]? := by
    intro f hf
    simp only [Except.ok.injEq] at hf
    subst hf
    exact ⟨PrimitiveFrame.refl t, fun _ _ => rfl⟩
  unfold primitiveLink at h
  cases hl : t.GetLinkById l with
  | none => rw [hl] at h; exact hskip _ h
  | some link =>
    rw [hl] at h
    simp only at h
    cases htp : t.GetNodeById link.TargetID with
    | none => rw [htp] at h; exact hskip _ h
    | some tp =>
      rw [htp] at h
      simp only at h
      cases htn : t.Nodes[tp]? with
      | none => rw [htn] at h; cases h
      | some tn =>
        rw [htn] at h
        simp only at h
        cases hslot : sliceAt tn.Inputs link.TargetSlot with
        | none => rw [hslot] at h; cases h
        | some slot =>
          rw [hslot] at h
          simp only at h
          cases first with
          | none =>
            simp only at h
            cases hfp : slot.Property with
            | none => rw [hfp] at h; exact hskip _ h
            | some fp =>
              rw [hfp] at h
              simp only at h
              cases hr1 : duplicateProperty t.Heap fp with
              | error e => rw [hr1] at h; cases h
              | ok r1 =>
                rw [hr1] at h
                simp only [Except.ok.injEq] at h
                subst h
                obtain ⟨d, hd, hr⟩ := duplicateProperty_heap _ _ _ hr1
                refine ⟨⟨rfl, rfl, fun i => nodes_frame_setProperty _ _ _ _ i, ?_⟩,
                  fun i hi => nodes_setProperty_of_ne _ _ _ _ i hi⟩
                intro x dx hx
                rcases hr with hr | hr
                · rw [hr]; exact ⟨dx, hx, rfl⟩
                · rw [hr]; exact heap_frame_append _ _ x dx hx
          | some f =>
            simp only at h
            cases hfp : slot.Property with
            | none => rw [hfp] at h; exact hskip _ h
            | some p =>
              rw [hfp] at h
              simp only at h
              cases hr1 : duplicateProperty t.Heap p with
              | error e => rw [hr1] at h; cases h
              | ok r1 =>
                rw [hr1] at h
                simp only at h
                cases hpn : t.Nodes[primitive]? with
                | none => rw [hpn] at h; cases h
                | some pn =>
                  rw [hpn] at h
                  simp only at h
                  cases hval : pn.GetPropertyWithName "value" with
                  | none => rw [hval] at h; cases h
                  | some value =>
                    rw [hval] at h
                    simp only [Except.ok.injEq] at h
                    subst h
                    obtain ⟨d, hd, hr⟩ := duplicateProperty_heap _ _ _ hr1
                    refine ⟨⟨rfl, rfl, fun i => rfl, ?_⟩, fun i _ => rfl⟩
                    intro x dx hx
                    rcases hr with hr | hr
                    · rw [hr]; exact heap_frame_attach _ _ _ x dx hx
                    · rw [hr]
                      obtain ⟨d2, hd2, e2⟩ := heap_frame_append t.Heap d x dx hx
                      obtain ⟨d3, hd3, e3⟩ := heap_frame_attach _ _ _ x d2 hd2
                      exact ⟨d3, hd3, e3.trans e2⟩

/-- A link visited when `first_property` is set leaves the nodes as they are. -/
theorem primitiveLink_some (primitive : Nat) (l : Int) (f : Nat)
    (t : Graph) (r : Option Nat × Graph)
    (h : primitiveLink primitive l (some f) t = Except.ok r) :
    r.1 = some f ∧ r.2.Nodes = t.Nodes := by
  have hskip : Except.ok (some f, t) = (Except.ok r : Except Fault _) →
      r.1 = some f ∧ r.2.Nodes = t.Nodes := by
    intro hf
    simp only [Except.ok.injEq] at hf
    subst hf
    exact ⟨rfl, rfl⟩
  unfold primitiveLink at h
  cases hl : t.GetLinkById l with
  | none => rw [hl] at h; exact hskip h
  | some link =>
    rw [hl] at h
    simp only at h
    cases htp : t.GetNodeById link.TargetID with
    | none => rw [htp] at h; exact hskip h
    | some tp =>
      rw [htp] at h
      simp only at h
      cases htn : t.Nodes[tp]? with
      | none => rw [htn] at h; cases h
      | some tn =>
        rw [htn] at h
        simp only at h
        cases hslot : sliceAt tn.Inputs link.TargetSlot with
        | none => rw [hslot] at h; cases h
        | some slot =>
          rw [hslot] at h
          simp only at h
          cases hfp : slot.Property with
          | none => rw [hfp] at h; exact hskip h
          | some p =>
            rw [hfp] at h
            simp only at h
            cases hr1 : duplicateProperty t.Heap p with
            | error e => rw [hr1] at h; cases h
            | ok r1 =>
              rw [hr1] at h
              simp only at h
              cases hpn : t.Nodes[primitive]? with
              | none => rw [hpn] at h; cases h
              | some pn =>
                rw [hpn] at h
                simp only at h
                cases hval : pn.GetPropertyWithName "value" with
                | none => rw [hval] at h; cases h
                | some value =>
                  rw [hval] at h
                  simp only [Except.ok.injEq] at h
                  subst h
                  exact ⟨rfl, rfl⟩


theorem primitiveLinks_primitiveFrame (primitive : Nat) :
    ∀ (links : List Int) (first : Option Nat) (t t2 : Graph),
      primitiveLinks primitive links first t = Except.ok t2 →
      PrimitiveFrame t t2 ∧ ∀ i, i ≠ primitive → t2.Nodes[i]? = t.Nodes[i]? := by
  intro links
  induction links with
  | nil =>
    intro first t t2 h
    simp only [primitiveLinks, Except.ok.injEq] at h
    subst h
    exact ⟨PrimitiveFrame.refl t, fun _ _ => rfl⟩
  | cons l rest ih =>
    intro first t t2 h
    unfold primitiveLinks at h
    split at h
    · cases h
    · rename_i r hr
      obtain ⟨h1, h1n⟩ := primitiveLink_primitiveFrame _ _ _ _ _ hr
      obtain ⟨h2, h2n⟩ := ih _ _ _ h
      exact ⟨h1.trans h2, fun i hi => (h2n i hi).trans (h1n i hi)⟩

theorem primitiveLinks_some (primitive : Nat) (f : Nat) :
    ∀ (links : List Int) (t t2 : Graph),
      primitiveLinks primitive links (some f) t = Except.ok t2 → t2.Nodes = t.Nodes := by
  intro links
  induction links with
  | nil =>
    intro t t2 h
    simp only [primitiveLinks, Except.ok.injEq] at h
    subst h
    rfl
  | cons l rest ih =>
    intro t t2 h
    unfold primitiveLinks at h
    split at h
    · cases h
    · rename_i r hr
      obtain ⟨h1, h1n⟩ := primitiveLink_some _ _ _ _ _ hr
      rw [h1] at h
      exact (ih _ _ h).trans h1n

theorem primitiveOutputs_primitiveFrame (primitive : Nat) :
    ∀ (outputs : List Slot) (t t2 : Graph),
      primitiveOutputs primitive outputs t = Except.ok t2 →
      PrimitiveFrame t t2 ∧ ∀ i, i ≠ primitive → t2.Nodes[i]? = t.Nodes[i]? := by
  intro outputs
  induction outputs with
  | nil =>
    intro t t2 h
    simp only [primitiveOutputs, Except.ok.injEq] at h
    subst h
    exact ⟨PrimitiveFrame.refl t, fun _ _ => rfl⟩
  | cons o rest ih =>
    intro t t2 h
    unfold primitiveOutputs at h
    split at h
    · exact ih _ _ h
    · split at h
      · split at h
        · cases h
        · rename_i t1 ht1
          obtain ⟨h1, h1n⟩ := primitiveLinks_primitiveFrame _ _ _ _ _ ht1
          obtain ⟨h2, h2n⟩ := ih _ _ h
          exact ⟨h1.trans h2, fun i hi => (h2n i hi).trans (h1n i hi)⟩
      · exact ih _ _ h

theorem processPrimitives_primitiveFrame :
    ∀ (prims : List Nat) (t t2 : Graph),
      processPrimitives prims t = Except.ok t2 →
      PrimitiveFrame t t2 ∧ ∀ i, i ∉ prims → t2.Nodes[i]? = t.Nodes[i]? := by
  intro prims
  induction prims with
  | nil =>
    intro t t2 h
    simp only [processPrimitives, Except.ok.injEq] at h
    subst h
    exact ⟨PrimitiveFrame.refl t, fun _ _ => rfl⟩
  | cons p rest ih =>
    intro t t2 h
    unfold processPrimitives at h
    split at h
    · cases h
    · split at h
      · cases h
      · rename_i t1 ht1
        obtain ⟨h1, h1n⟩ := primitiveOutputs_primitiveFrame _ _ _ _ ht1
        obtain ⟨h2, h2n⟩ := ih _ _ h
        refine ⟨h1.trans h2, fun i hi => ?_⟩
        simp only [List.mem_cons, not_or] at hi
        exact (h2n i hi.2).trans (h1n i hi.1)

theorem processPrimitives_append :
    ∀ (A B : List Nat) (t t2 : Graph),
      processPrimitives (A ++ B) t = Except.ok t2 →
      ∃ tA, processPrimitives A t = Except.ok tA ∧ processPrimitives B tA = Except.ok t2 := by
  intro A
  induction A with
  | nil => intro B t t2 h; exact ⟨t, rfl, h⟩
  | cons p rest ih =>
    intro B t t2 h
    simp only [List.cons_append] at h
    unfold processPrimitives at h
    split at h
    · cases h
    · rename_i pn hpn
      split at h
      · cases h
      · rename_i t1 ht1
        obtain ⟨tA, hA, hB⟩ := ih B t1 t2 h
        refine ⟨tA, ?_, hB⟩
        rw [processPrimitives, hpn]
        simp only [ht1]
        exact hA


theorem bindAs_shape (ptr pindex : Nat) (prop : PropertyData) (kind : PropertyKind)
    (n : GraphNode) (heap : List PropertyData) (r : GraphNode × List PropertyData)
    (h : bindAs ptr pindex prop kind n heap = Except.ok r) :
    r.1.TypeName = n.TypeName ∧ r.1.Outputs = n.Outputs := by
  unfold bindAs at h
  split at h
  · cases h
  · simp only [Except.ok.injEq] at h
    subst h
    exact ⟨rfl, rfl⟩

theorem bindProperty_shape (ptr pindex : Nat) (prop : PropertyData)
    (n : GraphNode) (heap : List PropertyData) (r : GraphNode × List PropertyData)
    (h : bindProperty ptr pindex prop n heap = Except.ok r) :
    r.1.TypeName = n.TypeName ∧ r.1.Outputs = n.Outputs := by
  unfold bindProperty at h
  repeat' split at h
  all_goals first
    | exact bindAs_shape _ _ _ _ _ _ _ h
    | (simp only [Except.ok.injEq] at h; subst h; exact ⟨rfl, rfl⟩)

theorem bindProperties_shape (ptr : Nat) :
    ∀ (props : List PropertyData) (pindex : Nat) (n : GraphNode) (heap : List PropertyData)
      (r : GraphNode × List PropertyData),
      bindProperties ptr props pindex n heap = Except.ok r →
      r.1.TypeName = n.TypeName ∧ r.1.Outputs = n.Outputs := by
  intro props
  induction props with
  | nil =>
    intro pindex n heap r h
    simp only [bindProperties, Except.ok.injEq] at h
    subst h
    exact ⟨rfl, rfl⟩
  | cons prop rest ih =>
    intro pindex n heap r h
    unfold bindProperties at h
    split at h
    · cases h
    · rename_i r1 hr1
      obtain ⟨a1, a2⟩ := bindProperty_shape _ _ _ _ _ _ hr1
      obtain ⟨b1, b2⟩ := ih _ _ _ _ h
      exact ⟨b1.trans a1, b2.trans a2⟩

theorem bindUpload_shape (nobject : NodeObject) (n : GraphNode) (heap : List PropertyData)
    (r : GraphNode × List PropertyData) (h : bindUpload nobject n heap = Except.ok r) :
    r.1.TypeName = n.TypeName ∧ r.1.Outputs = n.Outputs := by
  unfold bindUpload at h
  repeat' split at h
  all_goals first
    | (simp only [Except.ok.injEq] at h; subst h; exact ⟨rfl, rfl⟩)
    | cases h

theorem bindNode_shape (node_objects : NodeObjects) (ptr : Nat) (n : GraphNode)
    (heap : List PropertyData) (r : GraphNode × List PropertyData × Bool)
    (h : bindNode node_objects ptr n heap = Except.ok r) :
    r.1.TypeName = n.TypeName ∧ r.1.Outputs = n.Outputs ∧
      (node_objects.GetNodeObjectByName n.TypeName = none → n.TypeName = "PrimitiveNode" →
        r.2.2 = true) := by
  unfold bindNode at h
  simp only at h
  split at h
  · rename_i nobject hcat
    split at h
    · cases h
    · rename_i r1 hr1
      split at h
      · cases h
      · rename_i r2 hr2
        simp only [Except.ok.injEq] at h
        subst h
        obtain ⟨a1, a2⟩ := bindProperties_shape _ _ _ _ _ _ hr1
        obtain ⟨b1, b2⟩ := bindUpload_shape _ _ _ _ hr2
        refine ⟨b1.trans a1, b2.trans a2, ?_⟩
        intro hnone
        rw [hnone] at hcat
        cases hcat
  · simp only [Except.ok.injEq] at h
    subst h
    refine ⟨rfl, rfl, ?_⟩
    intro _ hty
    simp [hty]

/-- The first loop of `CreateNodeProperties` collects the pointer of every node of
type `PrimitiveNode` when the catalog has no entry for that type, and collects
no pointer twice. -/
theorem bindNodes_primitives (node_objects : NodeObjects)
    (hcat : node_objects.GetNodeObjectByName "PrimitiveNode" = none) :
    ∀ (todo : List GraphNode) (ptr : Nat) (done : List GraphNode) (heap : List PropertyData)
      (prims : List Nat) (r : List GraphNode × List PropertyData × List Nat),
      bindNodes node_objects todo ptr done heap prims = Except.ok r →
      ptr = done.length →
      (∀ i n1, r.1[i]? = some n1 → done.length ≤ i → n1.TypeName = "PrimitiveNode" →
        i ∈ r.2.2) ∧
      (∀ i ∈ prims, i ∈ r.2.2) ∧
      (∀ i, i < done.length → r.1[i]? = done[i]?) ∧
      (prims.Nodup → (∀ i ∈ prims, i < ptr) → r.2.2.Nodup) := by
  intro todo
  induction todo with
  | nil =>
    intro ptr done heap prims r h hptr
    simp only [bindNodes, Except.ok.injEq] at h
    subst h
    refine ⟨?_, fun i hi => hi, fun _ _ => rfl, fun hnd _ => hnd⟩
    intro i n1 hi hle _
    have := (List.getElem?_eq_some.1 hi).1
    simp only at this
    omega
  | cons n todo ih =>
    intro ptr done heap prims r h hptr
    unfold bindNodes at h
    split at h
    · cases h
    · rename_i r1 hr1
      obtain ⟨hty, _, hprim⟩ := bindNode_shape _ _ _ _ _ hr1
      obtain ⟨i1, i2, i3, i4⟩ := ih _ _ _ _ _ h (by simp [hptr])
      have hlen : (done ++ [r1.1]).length = done.length + 1 := by simp
      refine ⟨?_, ?_, ?_, ?_⟩
      · intro i n1 hi hle hn1
        by_cases hi2 : i = done.length
        · subst hi2
          have e := i3 done.length (by rw [hlen]; omega)
          rw [hi, sort.getElem?_append_len] at e
          simp only [List.getElem?_cons_zero, Option.some.injEq] at e
          subst e
          have htn : n.TypeName = "PrimitiveNode" := hty ▸ hn1
          have hflag := hprim (by rw [htn]; exact hcat) htn
          apply i2
          rw [hflag, if_pos rfl, hptr]
          simp
        · exact i1 i n1 hi (by rw [hlen]; omega) hn1
      · intro i hi
        apply i2
        split
        · exact List.mem_append_left _ hi
        · exact hi
      · intro i hi
        rw [i3 i (by rw [hlen]; omega), List.getElem?_append_left hi]
      · intro hnd hlt
        apply i4
        · split
          · rw [List.nodup_append]
            refine ⟨hnd, by simp, ?_⟩
            intro a ha hb
            simp only [List.mem_singleton] at hb
            subst hb
            exact absurd (hlt a ha) (Nat.lt_irrefl _)
          · exact hnd
        · intro i hi
          split at hi
          · rcases List.mem_append.1 hi with h1 | h1
            · exact Nat.lt_succ_of_lt (hlt i h1)
            · simp only [List.mem_singleton] at h1
              omega
          · exact Nat.lt_succ_of_lt (hlt i hi)


theorem withoutProperties_eq {a b : Option GraphNode} {n : GraphNode}
    (h : a.map GraphNode.withoutProperties = b.map GraphNode.withoutProperties)
    (hb : b = some n) :
    ∃ m, a = some m ∧ m.Inputs = n.Inputs ∧ m.Outputs = n.Outputs ∧ m.TypeName = n.TypeName := by
  subst hb
  cases a with
  | none => cases h
  | some m =>
    simp only [Option.map_some', Option.some.injEq] at h
    have h1 : m.withoutProperties.Inputs = n.withoutProperties.Inputs := by rw [h]
    have h2 : m.withoutProperties.Outputs = n.withoutProperties.Outputs := by rw [h]
    have h3 : m.withoutProperties.TypeName = n.withoutProperties.TypeName := by rw [h]
    exact ⟨m, rfl, h1, h2, h3⟩

theorem withoutSecondaries_eq {a b : PropertyData}
    (h : a.withoutSecondaries = b.withoutSecondaries) :
    a.Kind = b.Kind ∧ a.Name = b.Name ∧ a.Value = b.Value := by
  have h1 : a.withoutSecondaries.Kind = b.withoutSecondaries.Kind := by rw [h]
  have h2 : a.withoutSecondaries.Name = b.withoutSecondaries.Name := by rw [h]
  have h3 : a.withoutSecondaries.Value = b.withoutSecondaries.Value := by rw [h]
  exact ⟨h1, h2, h3⟩

theorem getPropertyWithName_setProperty (t : Graph) (ptr : Nat) (n : GraphNode)
    (hn : t.Nodes[ptr]? = some n) (name : String) (p : Option Nat) :
    ∃ n2, (Graph.setProperty t ptr name p).Nodes[ptr]? = some n2 ∧
      n2.GetPropertyWithName name = p := by
  unfold Graph.setProperty
  simp only
  rw [List.getElem?_modify, hn]
  refine ⟨{ n with Properties := GoMap.set n.Properties name p }, by simp, ?_⟩
  unfold GraphNode.GetPropertyWithName
  simp only [GoMap.get?_set_self]

/-- C7, amended: after `CreateNodeProperties` with a catalog that has no entry for
`PrimitiveNode`, for every `PrimitiveNode` with one output whose first listed
outgoing link resolves (the link exists, its target node exists, the target
input slot has a bound property) and whose bound property is of a variant
`duplicateProperty` handles, `Properties["value"]` is a duplicate of the
property bound to the target slot of that first link of the list: a property at
another address with the same variant, name and current value. -/
theorem C7_value_of_first_link (decoded : Document) (node_objects : NodeObjects) (t : Graph)
    (hload : NewGraphFromJsonReader decoded node_objects = Except.ok t)
    (hcat : node_objects.GetNodeObjectByName "PrimitiveNode" = none)
    (pp : Nat) (P : GraphNode) (hP : t.Nodes[pp]? = some P)
    (hPt : P.TypeName = "PrimitiveNode")
    (o : Slot) (hout : P.Outputs = [o]) (l : Int) (ls : List Int)
    (hlinks : o.Links = some (l :: ls))
    (link : Link) (hl : t.GetLinkById l = some link)
    (tp : Nat) (htp : t.GetNodeById link.TargetID = some tp)
    (tn : GraphNode) (htn : t.Nodes[tp]? = some tn)
    (slot : Slot) (hslot : sliceAt tn.Inputs link.TargetSlot = some slot)
    (fp : Nat) (hfp : slot.Property = some fp)
    (df : PropertyData) (hdf : t.Heap[fp]? = some df)
    (hbool : df.Kind ≠ PropertyKind.BoolProperty)
    (hupload : df.Kind ≠ PropertyKind.ImageUploadProperty) :
    ∃ value dv, P.GetPropertyWithName "value" = some value ∧ value ≠ fp ∧
      t.Heap[value]? = some dv ∧
      dv.Kind = df.Kind ∧ dv.Name = df.Name ∧ dv.Value = df.Value := by
  unfold NewGraphFromJsonReader CreateNodeProperties at hload
  split at hload
  · cases hload
  · rename_i r hr
    obtain ⟨b1, _, _, b4⟩ := bindNodes_primitives node_objects hcat _ _ _ _ _ _ hr rfl
    generalize ht1 : ({ UnmarshalJSON decoded with Nodes := r.1, Heap := r.2.1 } : Graph) = t1
      at hload
    obtain ⟨F, _⟩ := processPrimitives_primitiveFrame _ _ _ hload
    -- the primitive is among the collected pointers
    obtain ⟨P1, hP1, _, hP1out, hP1ty⟩ := withoutProperties_eq ((F.2.2.1 pp).symm) hP
    have hP1' : r.1[pp]? = some P1 := by rw [← ht1] at hP1; exact hP1
    have hmem : pp ∈ r.2.2 := b1 pp P1 hP1' (Nat.zero_le _) (hP1ty.trans hPt)
    have hnd : r.2.2.Nodup := b4 List.nodup_nil (fun i hi => by cases hi)
    obtain ⟨A, B, eAB⟩ := List.append_of_mem hmem
    have hB : pp ∉ B := by
      rw [eAB] at hnd
      have := (List.nodup_append.1 hnd).2.1
      exact (List.nodup_cons.1 this).1
    rw [eAB] at hload
    obtain ⟨tA, _, hrest⟩ := processPrimitives_append A (pp :: B) t1 t hload
    unfold processPrimitives at hrest
    split at hrest
    · cases hrest
    · rename_i PA hPA
      split at hrest
      · cases hrest
      · rename_i tP htP
        obtain ⟨FB, FBn⟩ := processPrimitives_primitiveFrame _ _ _ hrest
        obtain ⟨FP, _⟩ := primitiveOutputs_primitiveFrame _ _ _ _ htP
        -- the facts about the first link, read in the state `tA`
        have hPAout : PA.Outputs = [o] := by
          obtain ⟨m, hm, _, hmo, _⟩ := withoutProperties_eq ((FP.trans FB).2.2.1 pp).symm hP
          rw [hPA] at hm
          cases hm
          exact hmo.trans hout
        have hlA : tA.GetLinkById l = some link := by
          unfold Graph.GetLinkById at hl ⊢
          rw [← (FP.trans FB).2.1]; exact hl
        have htpA : tA.GetNodeById link.TargetID = some tp := by
          unfold Graph.GetNodeById at htp ⊢
          rw [← (FP.trans FB).1]; exact htp
        obtain ⟨tnA, htnA, htnAin, _, _⟩ :=
          withoutProperties_eq ((FP.trans FB).2.2.1 tp).symm htn
        have hslotA : sliceAt tnA.Inputs link.TargetSlot = some slot := by
          rw [htnAin]; exact hslot
        rw [hPAout] at htP
        unfold primitiveOutputs at htP
        simp only [hlinks, List.length_cons, ne_eq, Nat.add_one_ne_zero, not_false_eq_true,
          if_true] at htP
        split at htP
        · cases htP
        · rename_i tL htL
          simp only [primitiveOutputs, Except.ok.injEq] at htP
          subst htP
          unfold primitiveLinks at htL
          split at htL
          · cases htL
          · rename_i r1 hr1
            unfold primitiveLink at hr1
            simp only [hlA, htpA, htnA, hslotA, hfp] at hr1
            split at hr1
            · cases hr1
            · rename_i rd hrd
              simp only [Except.ok.injEq] at hr1
              subst hr1
              simp only at htL
              obtain ⟨d, hd, _⟩ := duplicateProperty_heap _ _ _ hrd
              -- the struct at `fp` keeps its variant, name and value
              obtain ⟨FL, _⟩ := primitiveLinks_primitiveFrame _ _ _ _ _ htL
              have hkindd : df.withoutSecondaries = d.withoutSecondaries := by
                obtain ⟨d2, hd2, e2⟩ := (FP.trans FB).2.2.2 fp d hd
                rw [hdf] at hd2
                cases hd2
                exact e2
              obtain ⟨hKd0, hNd, hVd⟩ := withoutSecondaries_eq hkindd
              have hKd : d.Kind = df.Kind := hKd0.symm
              have hdup := duplicateProperty_of_kind tA.Heap fp d hd (hKd ▸ hbool) (hKd ▸ hupload)
              rw [hdup] at hrd
              simp only [Except.ok.injEq] at hrd
              subst hrd
              -- the node of the primitive after the first link
              obtain ⟨n2, hn2, hval⟩ := getPropertyWithName_setProperty
                { tA with Heap := tA.Heap ++ [d] } pp PA hPA "value" (some tA.Heap.length)
              have hnodes := primitiveLinks_some _ _ _ _ _ htL
              have hn3 : t.Nodes[pp]? = some n2 := by
                rw [FBn pp hB, hnodes]; exact hn2
              rw [hP] at hn3
              cases hn3
              -- the struct at the new address
              have hnew : (Graph.setProperty { tA with Heap := tA.Heap ++ [d] } pp "value"
                  (some tA.Heap.length)).Heap[tA.Heap.length]? = some d := by
                show (tA.Heap ++ [d])[tA.Heap.length]? = some d
                rw [sort.getElem?_append_len]
                rfl
              obtain ⟨dv, hdv, edv⟩ := (FL.trans FB).2.2.2 _ d hnew
              obtain ⟨e1, e2, e3⟩ := withoutSecondaries_eq edv
              refine ⟨tA.Heap.length, dv, hval, ?_, hdv, e1.trans hKd, e2.trans hNd.symm,
                e3.trans hVd.symm⟩
              intro e
              have := (List.getElem?_eq_some.1 hd).1
              omega

/-- Witness of `C7_value_of_first_link`: the graph loaded from
`orderedLinksDocument`; the first link of the output is link 10, whose target
slot is bound to `seed`, and the `"value"` property of the primitive is a
duplicate of `seed`. -/
theorem C7_value_of_first_link_witness :
    ∃ value dv,
      ((loadedGraph orderedLinksDocument widgetCatalog).nodeAt 0).GetPropertyWithName "value"
        = some value ∧
      value ≠ 0 ∧ (loadedGraph orderedLinksDocument widgetCatalog).Heap[value]? = some dv ∧
      dv.Kind = PropertyKind.IntProperty ∧ dv.Name = "seed" ∧ dv.Value = Value.int 5 := by
  obtain ⟨value, dv, h1, h2, h3, h4, h5, h6⟩ :=
    C7_value_of_first_link orderedLinksDocument widgetCatalog
      (loadedGraph orderedLinksDocument widgetCatalog) rfl rfl 0
      ((loadedGraph orderedLinksDocument widgetCatalog).nodeAt 0) rfl rfl
      { Links := some [10, 11] } rfl 10 [11] rfl
      { ID := 10, OriginID := 1, OriginSlot := 0, TargetID := 2, TargetSlot := 0 } rfl 1 rfl
      ((loadedGraph orderedLinksDocument widgetCatalog).nodeAt 1) rfl
      { Name := "seed", Link := 10, Property := some 0 } rfl 0 rfl
      _ rfl (by decide) (by decide)
  exact ⟨value, dv, h1, h2, h3, h4, h5, h6⟩

/-- C7, as stated, fails: in the graph loaded from `reversedLinksDocument` the
output of the primitive lists its links as `[11, 10]`; the `"value"` property is
a duplicate of `steps`, the property bound to the target slot of link 11, which
comes first in the list, and not of `seed`, the property bound to the target
slot of link 10, the link with the smallest ID. -/
theorem C7_value_follows_list_order :
    ∃ t value d link target slot seed dseed,
      NewGraphFromJsonReader reversedLinksDocument widgetCatalog = Except.ok t ∧
      (t.nodeAt 0).GetPropertyWithName "value" = some value ∧ t.Heap[value]? = some d ∧
      t.GetLinkById 10 = some link ∧ t.GetNodeById link.TargetID = some target ∧
      sliceAt (t.nodeAt target).Inputs link.TargetSlot = some slot ∧
      slot.Property = some seed ∧ t.Heap[seed]? = some dseed ∧
      dseed.Name = "seed" ∧ d.Name = "steps" ∧ d.Value = Value.int 7 ∧
      dseed.Value = Value.int 5 :=
  ⟨_, _, _, _, _, _, _, _, rfl, rfl, rfl, rfl, rfl, rfl, rfl, rfl, rfl, rfl, rfl, rfl⟩

end graphapi

namespace graphapi

/-! ### C8, C9, C10: the primitive pass on inputs `duplicateProperty` does not handle -/

/-- C10: `duplicateProperty` has no case for the type tag `BOOLEAN`, which the
switch of `CreateNodeProperties` has: for a `BoolProperty` it returns `nil` and
allocates nothing. -/
theorem C10_duplicateProperty_bool_nil :
    duplicateProperty [boolProperty] 0 = Except.ok (none, [boolProperty]) := rfl

/-- C9: `CreateNodeProperties` panics.  In `outOfRangeDocument` the link of the
primitive names the target slot 3 of a node with one input slot, and the
indexing `target_node.Inputs[...]` panics with `index out of range`.  In
`boolFanOutDocument` the first link stores the `nil` that `duplicateProperty`
returns for a BOOLEAN property under `"value"`, and the second link calls
`AttachSecondaryProperty` on it. -/
theorem C9_CreateNodeProperties_panics :
    NewGraphFromJsonReader outOfRangeDocument widgetCatalog
        = Except.error Fault.indexOutOfRange ∧
      NewGraphFromJsonReader boolFanOutDocument widgetCatalog
        = Except.error Fault.nilDereference :=
  ⟨rfl, rfl⟩

/-- C8: in the graph loaded from `mixedFanOutDocument` the first link fixes the
`"value"` property of the primitive, the second link resolves and its target
slot has a bound property (`flag`, BOOLEAN), but what is attached to `"value"`
is `nil`, not a duplicate of that property. -/
theorem C8_secondary_is_nil :
    ∃ t value d link target slot flag,
      NewGraphFromJsonReader mixedFanOutDocument widgetCatalog = Except.ok t ∧
      (t.nodeAt 0).GetPropertyWithName "value" = some value ∧ t.Heap[value]? = some d ∧
      t.GetLinkById 11 = some link ∧ t.GetNodeById link.TargetID = some target ∧
      sliceAt (t.nodeAt target).Inputs link.TargetSlot = some slot ∧
      slot.Property = some flag ∧
      d.Secondaries = [none] :=
  ⟨_, _, _, _, _, _, _, rfl, rfl, rfl, rfl, rfl, rfl, rfl, rfl⟩

end graphapi

namespace graphapi

/-! ### C15: looking up nodes and links by ID -/

theorem indexNodes_get? (id : Int) :
    ∀ (todo : List GraphNode) (ptr : Nat) (m : GoMap Int Nat),
      ((∃ n ∈ todo, n.ID = id) →
        ∃ p n, GoMap.get? (indexNodes todo ptr m) id = some p ∧ ptr ≤ p ∧
          todo[p - ptr]? = some n ∧ n.ID = id) ∧
      ((¬ ∃ n ∈ todo, n.ID = id) →
        GoMap.get? (indexNodes todo ptr m) id = GoMap.get? m id) := by
  intro todo
  induction todo with
  | nil =>
    intro ptr m
    refine ⟨fun h => ?_, fun _ => rfl⟩
    obtain ⟨n, hn, _⟩ := h
    cases hn
  | cons x todo ih =>
    intro ptr m
    unfold indexNodes
    obtain ⟨ih1, ih2⟩ := ih (ptr + 1) (GoMap.set m x.ID ptr)
    by_cases hrest : ∃ n ∈ todo, n.ID = id
    · have hex : ∃ n ∈ x :: todo, n.ID = id := by
        obtain ⟨n, hn, e⟩ := hrest
        exact ⟨n, List.mem_cons_of_mem _ hn, e⟩
      refine ⟨fun _ => ?_, fun hno => absurd hex hno⟩
      obtain ⟨p, n, hget, hle, hn, e⟩ := ih1 hrest
      refine ⟨p, n, hget, by omega, ?_, e⟩
      have e2 : p - ptr = (p - (ptr + 1)) + 1 := by omega
      rw [e2, List.getElem?_cons_succ]
      exact hn
    · rw [ih2 hrest]
      by_cases hx : x.ID = id
      · refine ⟨fun _ => ⟨ptr, x, ?_, Nat.le_refl _, ?_, hx⟩, fun hno => ?_⟩
        · rw [← hx]; exact GoMap.get?_set_self _ _ _
        · rw [Nat.sub_self, List.getElem?_cons_zero]
        · exact absurd ⟨x, List.mem_cons_self _ _, hx⟩ hno
      · refine ⟨fun h => ?_, fun _ => GoMap.get?_set_of_ne _ _ hx⟩
        obtain ⟨n, hn, e⟩ := h
        rcases List.mem_cons.1 hn with h1 | h1
        · subst h1; exact absurd e hx
        · exact absurd ⟨n, h1, e⟩ hrest

theorem indexLinks_get? (id : Int) :
    ∀ (todo : List Link) (m : GoMap Int Link),
      ((∃ l ∈ todo, l.ID = id) →
        ∃ l, GoMap.get? (indexLinks todo m) id = some l ∧ l ∈ todo ∧ l.ID = id) ∧
      ((¬ ∃ l ∈ todo, l.ID = id) →
        GoMap.get? (indexLinks todo m) id = GoMap.get? m id) := by
  intro todo
  induction todo with
  | nil =>
    intro m
    refine ⟨fun h => ?_, fun _ => rfl⟩
    obtain ⟨n, hn, _⟩ := h
    cases hn
  | cons x todo ih =>
    intro m
    unfold indexLinks
    obtain ⟨ih1, ih2⟩ := ih (GoMap.set m x.ID x)
    by_cases hrest : ∃ l ∈ todo, l.ID = id
    · have hex : ∃ l ∈ x :: todo, l.ID = id := by
        obtain ⟨n, hn, e⟩ := hrest
        exact ⟨n, List.mem_cons_of_mem _ hn, e⟩
      refine ⟨fun _ => ?_, fun hno => absurd hex hno⟩
      obtain ⟨l, hget, hl, e⟩ := ih1 hrest
      exact ⟨l, hget, List.mem_cons_of_mem _ hl, e⟩
    · rw [ih2 hrest]
      by_cases hx : x.ID = id
      · refine ⟨fun _ => ⟨x, ?_, List.mem_cons_self _ _, hx⟩, fun hno => ?_⟩
        · rw [← hx]; exact GoMap.get?_set_self _ _ _
        · exact absurd ⟨x, List.mem_cons_self _ _, hx⟩ hno
      · refine ⟨fun h => ?_, fun _ => GoMap.get?_set_of_ne _ _ hx⟩
        obtain ⟨n, hn, e⟩ := h
        rcases List.mem_cons.1 hn with h1 | h1
        · subst h1; exact absurd e hx
        · exact absurd ⟨n, h1, e⟩ hrest

end graphapi

namespace graphapi

theorem affix_clear (name : String) (p : Nat) :
    ∀ slots : List Slot,
      (affixPropertyToInputSlot name p slots).map (fun s => { s with Property := none })
        = slots.map (fun s => { s with Property := none }) := by
  intro slots
  induction slots with
  | nil => rfl
  | cons s rest ih =>
    unfold affixPropertyToInputSlot
    by_cases h : s.Name = name
    · simp only [h, if_true, List.map_cons]
    · simp only [h, if_false, List.map_cons, ih]

theorem bindAs_header (ptr pindex : Nat) (prop : PropertyData) (kind : PropertyKind)
    (n : GraphNode) (heap : List PropertyData) (r : GraphNode × List PropertyData)
    (h : bindAs ptr pindex prop kind n heap = Except.ok r) : r.1.header = n.header := by
  unfold bindAs at h
  split at h
  · cases h
  · simp only [Except.ok.injEq] at h
    subst h
    simp only [GraphNode.header, affix_clear]

theorem bindProperty_header (ptr pindex : Nat) (prop : PropertyData)
    (n : GraphNode) (heap : List PropertyData) (r : GraphNode × List PropertyData)
    (h : bindProperty ptr pindex prop n heap = Except.ok r) : r.1.header = n.header := by
  unfold bindProperty at h
  repeat' split at h
  all_goals first
    | exact bindAs_header _ _ _ _ _ _ _ h
    | (simp only [Except.ok.injEq] at h; subst h; rfl)

theorem bindProperties_header (ptr : Nat) :
    ∀ (props : List PropertyData) (pindex : Nat) (n : GraphNode) (heap : List PropertyData)
      (r : GraphNode × List PropertyData),
      bindProperties ptr props pindex n heap = Except.ok r → r.1.header = n.header := by
  intro props
  induction props with
  | nil =>
    intro pindex n heap r h
    simp only [bindProperties, Except.ok.injEq] at h
    subst h
    rfl
  | cons prop rest ih =>
    intro pindex n heap r h
    unfold bindProperties at h
    split at h
    · cases h
    · rename_i r1 hr1
      exact (ih _ _ _ _ h).trans (bindProperty_header _ _ _ _ _ _ hr1)

theorem bindUpload_header (nobject : NodeObject) (n : GraphNode) (heap : List PropertyData)
    (r : GraphNode × List PropertyData) (h : bindUpload nobject n heap = Except.ok r) :
    r.1.header = n.header := by
  unfold bindUpload at h
  repeat' split at h
  all_goals first
    | (simp only [Except.ok.injEq] at h; subst h; rfl)
    | cases h

theorem bindNode_header (node_objects : NodeObjects) (ptr : Nat) (n : GraphNode)
    (heap : List PropertyData) (r : GraphNode × List PropertyData × Bool)
    (h : bindNode node_objects ptr n heap = Except.ok r) : r.1.header = n.header := by
  unfold bindNode at h
  simp only at h
  split at h
  · split at h
    · cases h
    · rename_i r1 hr1
      split at h
      · cases h
      · rename_i r2 hr2
        simp only [Except.ok.injEq] at h
        subst h
        exact (bindUpload_header _ _ _ _ hr2).trans
          ((bindProperties_header _ _ _ _ _ _ hr1).trans rfl)
  · simp only [Except.ok.injEq] at h
    subst h
    rfl

theorem bindNodes_header (node_objects : NodeObjects) :
    ∀ (todo : List GraphNode) (ptr : Nat) (done : List GraphNode) (heap : List PropertyData)
      (prims : List Nat) (r : List GraphNode × List PropertyData × List Nat),
      bindNodes node_objects todo ptr done heap prims = Except.ok r →
      r.1.map GraphNode.header = (done ++ todo).map GraphNode.header := by
  intro todo
  induction todo with
  | nil =>
    intro ptr done heap prims r h
    simp only [bindNodes, Except.ok.injEq] at h
    subst h
    simp
  | cons n todo ih =>
    intro ptr done heap prims r h
    unfold bindNodes at h
    split at h
    · cases h
    · rename_i r1 hr1
      rw [ih _ _ _ _ _ h]
      simp only [List.map_append, List.map_cons, List.map_nil, List.append_assoc,
        List.singleton_append, bindNode_header _ _ _ _ _ hr1]

theorem header_of_withoutProperties {a b : GraphNode}
    (h : a.withoutProperties = b.withoutProperties) : a.header = b.header := by
  have e : ∀ n : GraphNode, n.header = n.withoutProperties.header := fun _ => rfl
  rw [e a, e b, h]

/-- What the primitive pass leaves unchanged: the links and the groups. -/
theorem primitiveLink_links (primitive : Nat) (l : Int) (first : Option Nat) (t : Graph)
    (r : Option Nat × Graph) (h : primitiveLink primitive l first t = Except.ok r) :
    r.2.Links = t.Links ∧ r.2.Groups = t.Groups := by
  unfold primitiveLink at h
  repeat' split at h
  all_goals first
    | (simp only [Except.ok.injEq] at h; subst h; simp [Graph.setProperty])
    | cases h

theorem primitiveLinks_links (primitive : Nat) :
    ∀ (links : List Int) (first : Option Nat) (t t' : Graph),
      primitiveLinks primitive links first t = Except.ok t' →
      t'.Links = t.Links ∧ t'.Groups = t.Groups := by
  intro links
  induction links with
  | nil =>
    intro first t t' h
    simp only [primitiveLinks, Except.ok.injEq] at h
    subst h
    exact ⟨rfl, rfl⟩
  | cons l rest ih =>
    intro first t t' h
    unfold primitiveLinks at h
    split at h
    · cases h
    · rename_i r hr
      have h1 := primitiveLink_links _ _ _ _ _ hr
      have h2 := ih _ _ _ h
      exact ⟨h2.1.trans h1.1, h2.2.trans h1.2⟩

theorem primitiveOutputs_links (primitive : Nat) :
    ∀ (outputs : List Slot) (t t' : Graph),
      primitiveOutputs primitive outputs t = Except.ok t' →
      t'.Links = t.Links ∧ t'.Groups = t.Groups := by
  intro outputs
  induction outputs with
  | nil =>
    intro t t' h
    simp only [primitiveOutputs, Except.ok.injEq] at h
    subst h
    exact ⟨rfl, rfl⟩
  | cons o rest ih =>
    intro t t' h
    unfold primitiveOutputs at h
    split at h
    · exact ih _ _ h
    · split at h
      · split at h
        · cases h
        · rename_i t1 ht1
          have h1 := primitiveLinks_links _ _ _ _ _ ht1
          have h2 := ih _ _ h
          exact ⟨h2.1.trans h1.1, h2.2.trans h1.2⟩
      · exact ih _ _ h

theorem processPrimitives_links :
    ∀ (prims : List Nat) (t t' : Graph),
      processPrimitives prims t = Except.ok t' →
      t'.Links = t.Links ∧ t'.Groups = t.Groups := by
  intro prims
  induction prims with
  | nil =>
    intro t t' h
    simp only [processPrimitives, Except.ok.injEq] at h
    subst h
    exact ⟨rfl, rfl⟩
  | cons p rest ih =>
    intro t t' h
    unfold processPrimitives at h
    split at h
    · cases h
    · split at h
      · cases h
      · rename_i t1 ht1
        have h1 := primitiveOutputs_links _ _ _ _ ht1
        have h2 := ih _ _ h
        exact ⟨h2.1.trans h1.1, h2.2.trans h1.2⟩

/-- The fields of a loaded graph in terms of the decoded document: the two
indices, the links, and every node up to what the binding pass writes. -/
theorem loaded_fields (decoded : Document) (node_objects : NodeObjects) (t : Graph)
    (h : NewGraphFromJsonReader decoded node_objects = Except.ok t) :
    t.NodesByID = indexNodes decoded.Nodes 0 [] ∧ t.LinksByID = indexLinks decoded.Links [] ∧
      t.Links = decoded.Links ∧ t.Groups = decoded.Groups ∧
      t.Nodes.map GraphNode.header = decoded.Nodes.map GraphNode.header := by
  have hf := CreateNodeProperties_frame _ _ _ h
  unfold NewGraphFromJsonReader CreateNodeProperties at h
  split at h
  · cases h
  · rename_i r hr
    obtain ⟨hl, hg⟩ := processPrimitives_links _ _ _ h
    obtain ⟨F, _⟩ := processPrimitives_primitiveFrame _ _ _ h
    refine ⟨hf.2.2.1, hf.2.2.2, hl, hg, ?_⟩
    have hb := bindNodes_header _ _ _ _ _ _ _ hr
    simp only [List.nil_append] at hb
    have hb2 : r.1.map GraphNode.header = decoded.Nodes.map GraphNode.header := hb
    rw [← hb2]
    apply List.ext_getElem?
    intro i
    rw [List.getElem?_map, List.getElem?_map]
    have := F.2.2.1 i
    simp only at this
    cases h1 : t.Nodes[i]? with
    | none =>
      rw [h1] at this
      cases h2 : r.1[i]? with
      | none => rfl
      | some b => rw [h2] at this; cases this
    | some a =>
      rw [h1] at this
      cases h2 : r.1[i]? with
      | none => rw [h2] at this; cases this
      | some b =>
        rw [h2] at this
        simp only [Option.map_some', Option.some.injEq] at this ⊢
        exact header_of_withoutProperties this

end graphapi

namespace graphapi

theorem header_getElem? {a b : List GraphNode}
    (h : a.map GraphNode.header = b.map GraphNode.header) (i : Nat) (n : GraphNode)
    (hn : a[i]? = some n) : ∃ m, b[i]? = some m ∧ m.header = n.header := by
  have e := congrArg (fun l => l[i]?) h
  simp only [List.getElem?_map, hn, Option.map_some'] at e
  cases hb : b[i]? with
  | none => rw [hb] at e; cases e
  | some m =>
    rw [hb] at e
    simp only [Option.map_some', Option.some.injEq] at e
    exact ⟨m, rfl, e.symm⟩

theorem header_ID {a b : GraphNode} (h : a.header = b.header) : a.ID = b.ID := by
  have e : a.header.ID = b.header.ID := by rw [h]
  exact e

theorem header_mem_ID {a b : List GraphNode}
    (h : a.map GraphNode.header = b.map GraphNode.header) (id : Int)
    (hex : ∃ n ∈ a, n.ID = id) : ∃ m ∈ b, m.ID = id := by
  obtain ⟨n, hn, e⟩ := hex
  obtain ⟨i, hi⟩ := List.getElem?_of_mem hn
  obtain ⟨m, hm, hh⟩ := header_getElem? h i n hi
  exact ⟨m, List.getElem?_mem hm, (header_ID hh).trans e⟩

theorem unmarshal_fields (decoded : Document) (node_objects : NodeObjects) (t : Graph)
    (h : t = UnmarshalJSON decoded ∨ NewGraphFromJsonReader decoded node_objects = Except.ok t) :
    t.NodesByID = indexNodes decoded.Nodes 0 [] ∧ t.LinksByID = indexLinks decoded.Links [] ∧
      t.Links = decoded.Links ∧ t.Groups = decoded.Groups ∧
      t.Nodes.map GraphNode.header = decoded.Nodes.map GraphNode.header := by
  rcases h with h | h
  · subst h
    exact ⟨rfl, rfl, rfl, rfl, rfl⟩
  · exact loaded_fields decoded node_objects t h

/-- C15: in a loaded graph (decoded by `UnmarshalJSON`, with or without the
properties created afterwards) `GetNodeById id` returns a pointer to a node of
`Nodes` whose `ID` is `id` when `Nodes` holds such a node and `nil` otherwise,
and `GetLinkById id` returns a link of `Links` whose `ID` is `id` when `Links`
holds such a link and `nil` otherwise.  Both are total: a miss is the result
`nil`, never a panic. -/
theorem C15_lookup_by_id (decoded : Document) (node_objects : NodeObjects) (t : Graph)
    (hload : t = UnmarshalJSON decoded ∨
      NewGraphFromJsonReader decoded node_objects = Except.ok t) (id : Int) :
    ((∃ n ∈ t.Nodes, n.ID = id) →
      ∃ ptr n, t.GetNodeById id = some ptr ∧ t.Nodes[ptr]? = some n ∧ n.ID = id) ∧
    ((¬ ∃ n ∈ t.Nodes, n.ID = id) → t.GetNodeById id = none) ∧
    ((∃ l ∈ t.Links, l.ID = id) →
      ∃ l, t.GetLinkById id = some l ∧ l ∈ t.Links ∧ l.ID = id) ∧
    ((¬ ∃ l ∈ t.Links, l.ID = id) → t.GetLinkById id = none) := by
  obtain ⟨hN, hL, hlinks, _, hhead⟩ := unmarshal_fields decoded node_objects t hload
  obtain ⟨n1, n2⟩ := indexNodes_get? id decoded.Nodes 0 []
  obtain ⟨l1, l2⟩ := indexLinks_get? id decoded.Links []
  unfold Graph.GetNodeById Graph.GetLinkById
  rw [hN, hL, hlinks]
  refine ⟨?_, ?_, l1, l2⟩
  · intro hex
    obtain ⟨p, m, hget, _, hm, e⟩ := n1 (header_mem_ID hhead id hex)
    rw [Nat.sub_zero] at hm
    obtain ⟨n, hn, hh⟩ := header_getElem? hhead.symm p m hm
    exact ⟨p, n, hget, hn, (header_ID hh).trans e⟩
  · intro hno
    exact n2 (fun hex => hno (header_mem_ID hhead.symm id hex))

/-- Witness of `C15_lookup_by_id`: in the graph loaded from `reversedLinksDocument`
the node 2 and the link 11 are found, the node 7 and the link 12 are not. -/
theorem C15_lookup_by_id_witness :
    (loadedGraph reversedLinksDocument widgetCatalog).GetNodeById 2 = some 1 ∧
    (loadedGraph reversedLinksDocument widgetCatalog).GetNodeById 7 = none ∧
    (loadedGraph reversedLinksDocument widgetCatalog).GetLinkById 12 = none ∧
    ∃ l, (loadedGraph reversedLinksDocument widgetCatalog).GetLinkById 11 = some l ∧
      l.ID = 11 := by
  have h := C15_lookup_by_id reversedLinksDocument widgetCatalog
    (loadedGraph reversedLinksDocument widgetCatalog) (Or.inr rfl)
  refine ⟨rfl, (h 7).2.1 (by decide), (h 12).2.2.2 (by decide), ?_⟩
  obtain ⟨l, hl, _, e⟩ := (h 11).2.2.1 (by decide)
  exact ⟨l, hl, e⟩

end graphapi

namespace graphapi

/-! ### C16 and C17: selecting nodes by title and by group -/


theorem mem_selectFrom (P : GraphNode → Bool) :
    ∀ (todo : List GraphNode) (ptr i : Nat),
      i ∈ selectFrom P todo ptr ↔
        ptr ≤ i ∧ ∃ n, todo[i - ptr]? = some n ∧ P n = true := by
  intro todo
  induction todo with
  | nil => intro ptr i; simp [selectFrom]
  | cons n todo ih =>
    intro ptr i
    unfold selectFrom
    have key : (ptr ≤ i ∧ ∃ m, (n :: todo)[i - ptr]? = some m ∧ P m = true) ↔
        ((i = ptr ∧ P n = true) ∨ (ptr + 1 ≤ i ∧ ∃ m, todo[i - (ptr + 1)]? = some m ∧ P m = true)) := by
      constructor
      · rintro ⟨hle, m, hm, hP⟩
        by_cases e : i = ptr
        · subst e
          rw [Nat.sub_self, List.getElem?_cons_zero] at hm
          cases hm
          exact Or.inl ⟨rfl, hP⟩
        · have e2 : i - ptr = (i - (ptr + 1)) + 1 := by omega
          rw [e2, List.getElem?_cons_succ] at hm
          exact Or.inr ⟨by omega, m, hm, hP⟩
      · rintro (⟨e, hP⟩ | ⟨hle, m, hm, hP⟩)
        · subst e
          exact ⟨Nat.le_refl _, n, by rw [Nat.sub_self, List.getElem?_cons_zero], hP⟩
        · have e2 : i - ptr = (i - (ptr + 1)) + 1 := by omega
          exact ⟨by omega, m, by rw [e2, List.getElem?_cons_succ]; exact hm, hP⟩
    rw [key]
    by_cases hP : P n = true
    · simp only [hP, if_true, List.mem_cons, ih, and_true]
    · rw [if_neg hP, ih]
      constructor
      · intro h
        exact Or.inr h
      · rintro (⟨_, h⟩ | h)
        · exact absurd h hP
        · exact h

theorem pairwise_selectFrom (P : GraphNode → Bool) :
    ∀ (todo : List GraphNode) (ptr : Nat),
      (selectFrom P todo ptr).Pairwise (fun i j => i < j) := by
  intro todo
  induction todo with
  | nil => intro ptr; exact List.Pairwise.nil
  | cons n todo ih =>
    intro ptr
    unfold selectFrom
    by_cases hP : P n = true
    · simp only [hP, if_true]
      refine List.Pairwise.cons ?_ (ih _)
      intro j hj
      have := ((mem_selectFrom P todo (ptr + 1) j).1 hj).1
      omega
    · simp only [hP]
      exact ih _

theorem map_selectFrom (P : GraphNode → Bool) (pre : List GraphNode) :
    ∀ (todo : List GraphNode) (ptr : Nat), ptr + todo.length ≤ pre.length →
      (∀ i, i < todo.length → pre[ptr + i]? = todo[i]?) →
      (selectFrom P todo ptr).filterMap (fun i => pre[i]?) = todo.filter P := by
  intro todo
  induction todo with
  | nil => intro ptr _ _; rfl
  | cons n todo ih =>
    intro ptr hlen hget
    unfold selectFrom
    have hrest : (selectFrom P todo (ptr + 1)).filterMap (fun i => pre[i]?) = todo.filter P := by
      apply ih
      · simp only [List.length_cons] at hlen; omega
      · intro i hi
        have := hget (i + 1) (by simp only [List.length_cons]; omega)
        rw [List.getElem?_cons_succ] at this
        rw [← this]
        congr 1
        omega
    have h0 : pre[ptr]? = some n := by
      have := hget 0 (by simp)
      simpa using this
    by_cases hP : P n = true
    · simp only [hP, if_true, List.filterMap_cons, h0, hrest, List.filter_cons_of_pos]
    · rw [if_neg hP, hrest, List.filter_cons_of_neg hP]

theorem nodesInGroupLoop_eq (f : Group → GraphNode → Bool) (g : Group) :
    ∀ (todo : List GraphNode) (ptr : Nat) (retv : List Nat),
      nodesInGroupLoop f g todo ptr retv = retv ++ selectFrom (f g) todo ptr := by
  intro todo
  induction todo with
  | nil => intro ptr retv; simp [nodesInGroupLoop, selectFrom]
  | cons n todo ih =>
    intro ptr retv
    unfold nodesInGroupLoop selectFrom
    by_cases h : f g n = true
    · simp only [h, if_true, ih, List.append_assoc, List.singleton_append]
    · simp only [h, ih]
      rfl

theorem nodesWithTitleLoop_eq (title : String) :
    ∀ (todo : List GraphNode) (ptr : Nat) (retv : List Nat),
      nodesWithTitleLoop title todo ptr retv
        = retv ++ selectFrom
            (fun n => decide ((n.Title = "" ∧ n.DisplayName = title) ∨ n.Title = title))
            todo ptr := by
  intro todo
  induction todo with
  | nil => intro ptr retv; simp [nodesWithTitleLoop, selectFrom]
  | cons n todo ih =>
    intro ptr retv
    unfold nodesWithTitleLoop selectFrom
    by_cases h : (n.Title = "" ∧ n.DisplayName = title) ∨ n.Title = title
    · simp only [h, if_true, ih, List.append_assoc, List.singleton_append, decide_True]
    · simp only [h, ih, decide_False]
      rfl

/-- C16: `GetNodesWithTitle` returns the pointers of the nodes whose `Title` is
`title`, or whose `Title` is empty and whose `DisplayName` is `title`: in
document order and each once (the pointers increase strictly), and all of them
(a pointer is returned exactly when its node passes the test, so a node with
another non-empty `Title` is not returned for its display name).
`GetFirstNodeWithTitle` returns the first of them, `nil` when there is none. -/
theorem C16_GetNodesWithTitle (t : Graph) (title : String) :
    (t.GetNodesWithTitle title).Pairwise (fun p q => p < q) ∧
    (∀ ptr : Nat, ptr ∈ t.GetNodesWithTitle title ↔
      ∃ n, t.Nodes[ptr]? = some n ∧
        (n.Title = title ∨ (n.Title = "" ∧ n.DisplayName = title))) ∧
    (∀ (ptr : Nat) (n : GraphNode), t.Nodes[ptr]? = some n → n.Title ≠ "" →
      n.Title ≠ title → ptr ∉ t.GetNodesWithTitle title) ∧
    t.GetFirstNodeWithTitle title = (t.GetNodesWithTitle title).head? := by
  have e : t.GetNodesWithTitle title = selectFrom
      (fun n => decide ((n.Title = "" ∧ n.DisplayName = title) ∨ n.Title = title))
      t.Nodes 0 := by
    unfold Graph.GetNodesWithTitle
    rw [nodesWithTitleLoop_eq, List.nil_append]
  have hmem : ∀ ptr : Nat, ptr ∈ t.GetNodesWithTitle title ↔
      ∃ n, t.Nodes[ptr]? = some n ∧
        (n.Title = title ∨ (n.Title = "" ∧ n.DisplayName = title)) := by
    intro ptr
    rw [e, mem_selectFrom]
    simp only [Nat.zero_le, true_and, Nat.sub_zero, decide_eq_true_eq]
    constructor
    · rintro ⟨n, hn, h⟩
      exact ⟨n, hn, h.symm⟩
    · rintro ⟨n, hn, h⟩
      exact ⟨n, hn, h.symm⟩
  refine ⟨?_, hmem, ?_, ?_⟩
  · rw [e]
    exact pairwise_selectFrom _ _ _
  · intro ptr n hn h1 h2 hin
    obtain ⟨m, hm, h⟩ := (hmem ptr).1 hin
    rw [hn] at hm
    cases hm
    rcases h with h | ⟨h, _⟩
    · exact h2 h
    · exact h1 h
  · unfold Graph.GetFirstNodeWithTitle
    simp only
    cases t.GetNodesWithTitle title with
    | nil => rfl
    | cons x rest => simp

/-- C17: `GetNodesInGroup g` returns the pointers of the nodes for which
`g.IntersectsOrContains` holds, each once and in document order (the pointers
increase strictly), and all of them.  The nodes returned for a graph whose
`Nodes` are a permutation of the `Nodes` of `t` are a permutation of the nodes
returned for `t`: the members do not depend on the order of declaration.  The
method `IntersectsOrContains`, which `graph.go` calls and does not declare, is
a parameter. -/
theorem C17_GetNodesInGroup (IntersectsOrContains : Group → GraphNode → Bool) (t : Graph)
    (g : Group) :
    (t.GetNodesInGroup IntersectsOrContains g).Pairwise (fun p q => p < q) ∧
    (∀ ptr : Nat, ptr ∈ t.GetNodesInGroup IntersectsOrContains g ↔
      ∃ n, t.Nodes[ptr]? = some n ∧ IntersectsOrContains g n = true) ∧
    (∀ t2 : Graph, t2.Nodes.Perm t.Nodes →
      ((t2.GetNodesInGroup IntersectsOrContains g).filterMap (fun p => t2.Nodes[p]?)).Perm
        ((t.GetNodesInGroup IntersectsOrContains g).filterMap (fun p => t.Nodes[p]?))) := by
  have e : ∀ t : Graph, t.GetNodesInGroup IntersectsOrContains g
      = selectFrom (IntersectsOrContains g) t.Nodes 0 := by
    intro t
    unfold Graph.GetNodesInGroup
    rw [nodesInGroupLoop_eq, List.nil_append]
  have hnodes : ∀ t : Graph,
      (t.GetNodesInGroup IntersectsOrContains g).filterMap (fun p => t.Nodes[p]?)
        = t.Nodes.filter (IntersectsOrContains g) := by
    intro t
    rw [e]
    apply map_selectFrom
    · simp
    · intro i _
      rw [Nat.zero_add]
  refine ⟨?_, ?_, ?_⟩
  · rw [e]
    exact pairwise_selectFrom _ _ _
  · intro ptr
    rw [e, mem_selectFrom]
    simp only [Nat.zero_le, true_and, Nat.sub_zero]
  · intro t2 hperm
    rw [hnodes, hnodes]
    exact hperm.filter _

end graphapi

namespace graphapi

/-! ### C12: the widget index of the upload property -/

/-- C12: in the graph loaded from `uploadDocument` the catalog entry of `LoadImage`
declares one settable property, `image` (COMBO, widget index 0), and the node
has two widget values.  `CreateNodeProperties` adds the property
`choose file to upload`, which points at `image`, with the widget index
`len(n.Properties) - 1 = 0`: the index of the last declared property, not the
next index 1. -/
theorem C12_upload_index_is_last :
    ∃ t n nobject image dimage upload d,
      NewGraphFromJsonReader uploadDocument uploadCatalog = Except.ok t ∧
      t.Nodes[0]? = some n ∧
      uploadCatalog.GetNodeObjectByName n.TypeName = some nobject ∧
      nobject.SettableProperties.length = 1 ∧ n.WidgetValues.length = 2 ∧
      n.GetPropertyWithName "image" = some image ∧ t.Heap[image]? = some dimage ∧
      dimage.Kind = PropertyKind.ComboProperty ∧ dimage.TargetIndex = 0 ∧
      n.GetPropertyWithName "choose file to upload" = some upload ∧
      t.Heap[upload]? = some d ∧ d.UploadTarget = some image ∧
      d.TargetIndex = 0 ∧ d.TargetIndex ≠ (nobject.SettableProperties.length : Int) :=
  ⟨_, _, _, _, _, _, _, rfl, rfl, rfl, rfl, rfl, rfl, rfl, rfl, rfl, rfl, rfl, rfl, rfl,
    by decide⟩

/-! ### C13: muted nodes and side effects -/

/-- C13, as stated, fails: the primitive node of `mutedPrimitiveDocument` is muted
and virtual.  `GraphToPrompt` tests `IsVirtual` first and calls `ApplyToGraph` on
it: the property `steps` of node 3, which holds 7 when the graph is loaded,
holds 5 after the compile, and 5 is the literal in the prompt. -/
theorem C13_muted_primitive_applies :
    ∃ t primitive p steps d d2 pn,
      NewGraphFromJsonReader mutedPrimitiveDocument fanOutCatalog = Except.ok t ∧
      t.Nodes[0]? = some primitive ∧ primitive.Mode = 2 ∧ primitive.IsVirtual = true ∧
      GraphToPrompt 3 t "" = Except.ok p ∧
      (t.nodeAt 2).GetPropertyWithName "steps" = some steps ∧
      t.Heap[steps]? = some d ∧ d.Value = Value.int 7 ∧
      p.Workflow.Heap[steps]? = some d2 ∧ d2.Value = Value.int 5 ∧
      GoMap.get? p.Nodes 3 = some pn ∧
      GoMap.get? pn.Inputs "steps" = some (InputValue.literal (Value.int 5)) :=
  ⟨_, _, _, _, _, _, _, rfl, rfl, rfl, rfl, rfl, rfl, rfl, rfl, rfl, rfl, rfl, rfl⟩

theorem compileNodes_skip_muted (fuel : Nat) (ptr : Nat) (node : GraphNode) (suf : List Nat)
    (hv : node.IsVirtual = false) (hm : node.Mode = 2) :
    ∀ (pre : List Nat) (t : Graph) (nodes : GoMap Int PromptNode),
      t.Nodes[ptr]? = some node →
      compileNodes fuel (pre ++ ptr :: suf) t nodes = compileNodes fuel (pre ++ suf) t nodes := by
  intro pre
  induction pre with
  | nil =>
    intro t nodes hn
    simp only [List.nil_append]
    rw [compileNodes, hn]
    simp only [hv, hm, if_true, Bool.false_eq_true, if_false]
  | cons q pre ih =>
    intro t nodes hn
    simp only [List.cons_append]
    rw [compileNodes, compileNodes]
    cases hq : t.Nodes[q]? with
    | none => rfl
    | some qn =>
      simp only
      by_cases hqv : qn.IsVirtual = true
      · simp only [hqv, if_true]
        apply ih
        obtain ⟨h2, e⟩ := ApplyToGraph_withHeap t q
        rw [e]
        exact hn
      · simp only [hqv, if_false]
        by_cases hqm : qn.Mode = 2
        · simp only [hqm, if_true]
          exact ih _ _ hn
        · simp only [hqm, if_false]
          cases promptNode fuel t qn with
          | error e => rfl
          | ok pn => exact ih _ _ hn

/-- C13, amended: `GraphToPrompt` applies no side effect for a node with
`Mode == 2` that is not virtual: when such a node stands in the execution order
between `pre` and `suf`, the call returns what the loop over `pre ++ suf`, which
does not visit the node, yields: the same prompt entries and the same graph
state (or the same failure). -/
theorem C13_muted_not_virtual_no_effect (fuel : Nat) (t : Graph) (clientID : String)
    (pre suf : List Nat) (ptr : Nat) (node : GraphNode)
    (horder : t.NodesInExecutionOrder = pre ++ ptr :: suf)
    (hn : t.Nodes[ptr]? = some node) (hv : node.IsVirtual = false) (hm : node.Mode = 2) :
    GraphToPrompt fuel t clientID =
      match compileNodes fuel (pre ++ suf) t [] with
      | Except.error e => Except.error e
      | Except.ok r => Except.ok { ClientID := clientID, Nodes := r.1, Workflow := r.2 } := by
  unfold GraphToPrompt
  rw [horder, compileNodes_skip_muted fuel ptr node suf hv hm pre t [] hn]

/-- Witness of `C13_muted_not_virtual_no_effect`: the graph loaded from
`mutedDocument`, whose only node is muted and not virtual; the prompt is empty
and the graph is the one loaded. -/
theorem C13_muted_not_virtual_no_effect_witness :
    GraphToPrompt 3 (loadedGraph mutedDocument emptyCatalog) ""
      = Except.ok { ClientID := "", Nodes := [],
                    Workflow := loadedGraph mutedDocument emptyCatalog } :=
  C13_muted_not_virtual_no_effect 3 (loadedGraph mutedDocument emptyCatalog) "" [] [] 0
    ((loadedGraph mutedDocument emptyCatalog).nodeAt 0) rfl rfl rfl rfl

end graphapi

namespace graphapi

/-! ### C19: termination of the backward walk -/

theorem cycle_walk :
    ∀ (fuel : Nat) (l : Link), l.OriginSlot = 0 →
      resolveVirtual (loadedGraph rerouteCycleDocument emptyCatalog) fuel (some 0) (some l)
          = Except.error Fault.outOfFuel ∧
        resolveVirtual (loadedGraph rerouteCycleDocument emptyCatalog) fuel (some 1) (some l)
          = Except.error Fault.outOfFuel := by
  intro fuel
  induction fuel with
  | zero => intro l _; exact ⟨rfl, rfl⟩
  | succ fuel ih =>
    intro l hl
    have a0 : resolveVirtual (loadedGraph rerouteCycleDocument emptyCatalog) (fuel + 1) (some 0)
        (some l) = resolveVirtual (loadedGraph rerouteCycleDocument emptyCatalog) fuel (some 1)
          (some { ID := 11, OriginID := 2, OriginSlot := 0, TargetID := 1, TargetSlot := 0 }) := by
      rw [resolveVirtual]
      have h0 : (loadedGraph rerouteCycleDocument emptyCatalog).Nodes[0]?
          = some ((loadedGraph rerouteCycleDocument emptyCatalog).nodeAt 0) := rfl
      have hv : ((loadedGraph rerouteCycleDocument emptyCatalog).nodeAt 0).IsVirtual = true := rfl
      have hg : (loadedGraph rerouteCycleDocument emptyCatalog).GetInputLink
          ((loadedGraph rerouteCycleDocument emptyCatalog).nodeAt 0) 0
          = some { ID := 11, OriginID := 2, OriginSlot := 0, TargetID := 1, TargetSlot := 0 } :=
        rfl
      have hp : (loadedGraph rerouteCycleDocument emptyCatalog).GetNodeForInput
          ((loadedGraph rerouteCycleDocument emptyCatalog).nodeAt 0) 0 = some 1 := rfl
      simp only [h0, hv, if_true, hl, hg, hp]
    have a1 : resolveVirtual (loadedGraph rerouteCycleDocument emptyCatalog) (fuel + 1) (some 1)
        (some l) = resolveVirtual (loadedGraph rerouteCycleDocument emptyCatalog) fuel (some 0)
          (some { ID := 10, OriginID := 1, OriginSlot := 0, TargetID := 2, TargetSlot := 0 }) := by
      rw [resolveVirtual]
      have h0 : (loadedGraph rerouteCycleDocument emptyCatalog).Nodes[1]?
          = some ((loadedGraph rerouteCycleDocument emptyCatalog).nodeAt 1) := rfl
      have hv : ((loadedGraph rerouteCycleDocument emptyCatalog).nodeAt 1).IsVirtual = true := rfl
      have hg : (loadedGraph rerouteCycleDocument emptyCatalog).GetInputLink
          ((loadedGraph rerouteCycleDocument emptyCatalog).nodeAt 1) 0
          = some { ID := 10, OriginID := 1, OriginSlot := 0, TargetID := 2, TargetSlot := 0 } :=
        rfl
      have hp : (loadedGraph rerouteCycleDocument emptyCatalog).GetNodeForInput
          ((loadedGraph rerouteCycleDocument emptyCatalog).nodeAt 1) 0 = some 0 := rfl
      simp only [h0, hv, if_true, hl, hg, hp]
    rw [a0, a1]
    exact ⟨(ih _ rfl).2, (ih _ rfl).1⟩

/-- C19, as stated, fails: in the graph loaded from `rerouteCycleDocument` the
Reroute nodes 1 and 2 feed one another, and node 3 is fed by node 2.  The
backward walk for the input of node 3 goes round the cycle for ever: whatever
the number of steps allowed, `GraphToPrompt` has not returned. -/
theorem C19_reroute_cycle_never_returns :
    ∃ t, NewGraphFromJsonReader rerouteCycleDocument emptyCatalog = Except.ok t ∧
      ∀ fuel : Nat, GraphToPrompt fuel t "" = Except.error Fault.outOfFuel := by
  refine ⟨loadedGraph rerouteCycleDocument emptyCatalog, rfl, ?_⟩
  intro fuel
  have hw := (cycle_walk fuel
    { ID := 12, OriginID := 2, OriginSlot := 0, TargetID := 3, TargetSlot := 0 } rfl).2
  have hlink : promptLink fuel (loadedGraph rerouteCycleDocument emptyCatalog)
      ((loadedGraph rerouteCycleDocument emptyCatalog).nodeAt 2) 0 { Name := "x", Link := 12 }
      = Except.error Fault.outOfFuel := by
    rw [promptLink]
    have e1 : (loadedGraph rerouteCycleDocument emptyCatalog).GetNodeForInput
        ((loadedGraph rerouteCycleDocument emptyCatalog).nodeAt 2) ((0 : Nat) : Int) = some 1 :=
      rfl
    have e2 : (loadedGraph rerouteCycleDocument emptyCatalog).GetLinkById
        ({ Name := "x", Link := 12 } : Slot).Link
        = some { ID := 12, OriginID := 2, OriginSlot := 0, TargetID := 3, TargetSlot := 0 } :=
      rfl
    rw [e1, e2]
    simp only [hw]
  have hnode : promptNode fuel (loadedGraph rerouteCycleDocument emptyCatalog)
      ((loadedGraph rerouteCycleDocument emptyCatalog).nodeAt 2)
      = Except.error Fault.outOfFuel := by
    rw [promptNode]
    have e1 : promptValues (loadedGraph rerouteCycleDocument emptyCatalog).Heap
        ((loadedGraph rerouteCycleDocument emptyCatalog).nodeAt 2).Properties []
        = Except.ok [] := rfl
    have e2 : ((loadedGraph rerouteCycleDocument emptyCatalog).nodeAt 2).Inputs
        = [{ Name := "x", Link := 12 }] := rfl
    rw [e1, e2]
    simp only [promptLinks, hlink]
  have e0 : (loadedGraph rerouteCycleDocument emptyCatalog).NodesInExecutionOrder = [0, 1, 2] :=
    rfl
  have n0 : (loadedGraph rerouteCycleDocument emptyCatalog).Nodes[0]?
      = some ((loadedGraph rerouteCycleDocument emptyCatalog).nodeAt 0) := rfl
  have n1 : (loadedGraph rerouteCycleDocument emptyCatalog).Nodes[1]?
      = some ((loadedGraph rerouteCycleDocument emptyCatalog).nodeAt 1) := rfl
  have n2 : (loadedGraph rerouteCycleDocument emptyCatalog).Nodes[2]?
      = some ((loadedGraph rerouteCycleDocument emptyCatalog).nodeAt 2) := rfl
  have v0 : ((loadedGraph rerouteCycleDocument emptyCatalog).nodeAt 0).IsVirtual = true := rfl
  have v1 : ((loadedGraph rerouteCycleDocument emptyCatalog).nodeAt 1).IsVirtual = true := rfl
  have v2 : ((loadedGraph rerouteCycleDocument emptyCatalog).nodeAt 2).IsVirtual = false := rfl
  have m2 : ((loadedGraph rerouteCycleDocument emptyCatalog).nodeAt 2).Mode ≠ 2 := by decide
  have a0 : ApplyToGraph (loadedGraph rerouteCycleDocument emptyCatalog) 0
      = loadedGraph rerouteCycleDocument emptyCatalog := rfl
  have a1 : ApplyToGraph (loadedGraph rerouteCycleDocument emptyCatalog) 1
      = loadedGraph rerouteCycleDocument emptyCatalog := rfl
  rw [GraphToPrompt, e0, compileNodes, n0]
  simp only [v0, if_true, a0]
  rw [compileNodes, n1]
  simp only [v1, if_true, a1]
  rw [compileNodes, n2]
  simp only [v2, m2, if_false, Bool.false_eq_true, hnode]

end graphapi

namespace graphapi

theorem walkDescends_step (t : Graph) (rank : Nat → Nat) (h : WalkDescends t rank = true)
    (p q : Nat) (node : GraphNode) (s : Int) (l2 : Link)
    (hn : t.Nodes[p]? = some node) (hv : node.IsVirtual = true)
    (hl : t.GetInputLink node s = some l2)
    (hq : t.GetNodeForInput node l2.OriginSlot = some q) : rank q < rank p := by
  unfold WalkDescends at h
  rw [List.all_eq_true] at h
  have hp : p ∈ List.range t.Nodes.length :=
    List.mem_range.2 (List.getElem?_eq_some.1 hn).1
  have h2 := h p hp
  rw [List.all_eq_true] at h2
  have hmem : q ∈ walkTargets t p := by
    unfold walkTargets
    rw [hn]
    simp only [hv, if_true, List.mem_filterMap]
    unfold Graph.GetInputLink at hl
    cases hs : sliceAt node.Inputs s with
    | none => rw [hs] at hl; cases hl
    | some slot =>
      rw [hs] at hl
      simp only at hl
      refine ⟨slot, sliceAt_mem _ _ _ hs, ?_⟩
      rw [hl]
      exact hq
  have := h2 q hmem
  simpa using this

/-- With a rank that descends along the walk, a backward walk that starts with
enough fuel does not run out of it. -/
theorem resolveVirtual_terminates (t : Graph) (rank : Nat → Nat)
    (h : WalkDescends t rank = true) :
    ∀ (fuel : Nat) (parent : Option Nat) (link : Option Link),
      1 ≤ fuel → (∀ p, parent = some p → rank p + 2 ≤ fuel) →
      resolveVirtual t fuel parent link ≠ Except.error Fault.outOfFuel := by
  intro fuel
  induction fuel with
  | zero => intro parent link h1; omega
  | succ fuel ih =>
    intro parent link _ hr
    unfold resolveVirtual
    cases parent with
    | none => intro e; cases e
    | some p =>
      simp only
      cases hn : t.Nodes[p]? with
      | none => intro e; cases e
      | some node =>
        simp only
        by_cases hv : node.IsVirtual = true
        · simp only [hv, if_true]
          cases link with
          | none => intro e; cases e
          | some l =>
            simp only
            cases hl : t.GetInputLink node l.OriginSlot with
            | none => intro e; cases e
            | some l2 =>
              simp only
              have hp := hr p rfl
              apply ih
              · omega
              · intro q hq
                have := walkDescends_step t rank h p q node _ l2 hn hv hl hq
                omega
        · simp only [hv]
          intro e; cases e

theorem promptLink_terminates (t : Graph) (rank : Nat → Nat) (h : WalkDescends t rank = true)
    (fuel : Nat) (hfuel : ∀ p, rank p + 2 ≤ fuel)
    (node : GraphNode) (i : Nat) (slot : Slot) :
    promptLink fuel t node i slot ≠ Except.error Fault.outOfFuel := by
  unfold promptLink
  cases hp : t.GetNodeForInput node i with
  | none => intro e; cases e
  | some parent =>
    simp only
    have := resolveVirtual_terminates t rank h fuel (some parent) (t.GetLinkById slot.Link)
      (by have := hfuel 0; omega) (fun p _ => hfuel p)
    cases hr : resolveVirtual t fuel (some parent) (t.GetLinkById slot.Link) with
    | error e =>
      simp only
      intro e2
      cases e2
      exact this hr
    | ok r =>
      cases r with
      | none => intro e; cases e
      | some l => intro e; cases e

theorem promptLinks_terminates (t : Graph) (rank : Nat → Nat) (h : WalkDescends t rank = true)
    (fuel : Nat) (hfuel : ∀ p, rank p + 2 ≤ fuel) (node : GraphNode) :
    ∀ (slots : List Slot) (i : Nat) (inputs : GoMap String InputValue),
      promptLinks fuel t node slots i inputs ≠ Except.error Fault.outOfFuel := by
  intro slots
  induction slots with
  | nil => intro i inputs e; cases e
  | cons slot rest ih =>
    intro i inputs
    unfold promptLinks
    have := promptLink_terminates t rank h fuel hfuel node i slot
    cases hl : promptLink fuel t node i slot with
    | error e =>
      simp only
      intro e2
      cases e2
      exact this hl
    | ok w =>
      cases w with
      | none => exact ih _ _
      | some w => exact ih _ _

theorem promptValues_no_fuel (heap : List PropertyData) :
    ∀ (props : List (String × Option Nat)) (inputs : GoMap String InputValue),
      promptValues heap props inputs ≠ Except.error Fault.outOfFuel := by
  intro props
  induction props with
  | nil => intro inputs e; cases e
  | cons x rest ih =>
    intro inputs
    obtain ⟨k, p⟩ := x
    unfold promptValues
    cases p with
    | none => intro e; cases e
    | some addr =>
      simp only
      unfold deref
      cases heap[addr]? with
      | none => intro e; cases e
      | some d =>
        simp only
        by_cases hs : d.Serialize = true
        · simp only [hs, if_true]
          exact ih _
        · simp only [hs]
          exact ih _

theorem promptNode_terminates (t : Graph) (rank : Nat → Nat) (h : WalkDescends t rank = true)
    (fuel : Nat) (hfuel : ∀ p, rank p + 2 ≤ fuel) (node : GraphNode) :
    promptNode fuel t node ≠ Except.error Fault.outOfFuel := by
  unfold promptNode
  have h1 := promptValues_no_fuel t.Heap node.Properties []
  cases hv : promptValues t.Heap node.Properties [] with
  | error e =>
    simp only
    intro e2
    cases e2
    exact h1 hv
  | ok inputs =>
    simp only
    have h2 := promptLinks_terminates t rank h fuel hfuel node node.Inputs 0 inputs
    cases hl : promptLinks fuel t node node.Inputs 0 inputs with
    | error e =>
      simp only
      intro e2
      cases e2
      exact h2 hl
    | ok r => intro e; cases e

theorem walkDescends_withHeap (t : Graph) (heap : List PropertyData) (rank : Nat → Nat) :
    WalkDescends (t.withHeap heap) rank = WalkDescends t rank := rfl

theorem compileNodes_terminates (rank : Nat → Nat) (fuel : Nat)
    (hfuel : ∀ p, rank p + 2 ≤ fuel) :
    ∀ (order : List Nat) (t : Graph) (nodes : GoMap Int PromptNode),
      WalkDescends t rank = true →
      compileNodes fuel order t nodes ≠ Except.error Fault.outOfFuel := by
  intro order
  induction order with
  | nil => intro t nodes _ e; cases e
  | cons ptr rest ih =>
    intro t nodes h
    unfold compileNodes
    cases hn : t.Nodes[ptr]? with
    | none => intro e; cases e
    | some node =>
      simp only
      by_cases hv : node.IsVirtual = true
      · simp only [hv, if_true]
        apply ih
        obtain ⟨heap, e⟩ := ApplyToGraph_withHeap t ptr
        rw [e, walkDescends_withHeap]
        exact h
      · simp only [hv, if_false]
        by_cases hm : node.Mode = 2
        · simp only [hm, if_true]
          exact ih _ _ h
        · simp only [hm, if_false]
          have h1 := promptNode_terminates t rank h fuel hfuel node
          cases hp : promptNode fuel t node with
          | error e =>
            simp only
            intro e2
            cases e2
            exact h1 hp
          | ok pn => exact ih _ _ h

/-- C19, amended: when no chain of virtual nodes feeds back into itself (a rank of
the nodes decreases with every step the backward walk can take), `GraphToPrompt`
terminates: with a step budget above every rank the compile does not run out of
steps, it completes or fails outright. -/
theorem C19_compile_terminates (t : Graph) (clientID : String) (rank : Nat → Nat) (fuel : Nat)
    (hdesc : WalkDescends t rank = true) (hfuel : ∀ p, rank p + 2 ≤ fuel) :
    GraphToPrompt fuel t clientID ≠ Except.error Fault.outOfFuel := by
  unfold GraphToPrompt
  have h := compileNodes_terminates rank fuel hfuel t.NodesInExecutionOrder t [] hdesc
  cases hc : compileNodes fuel t.NodesInExecutionOrder t [] with
  | error e =>
    simp only
    intro e2
    cases e2
    exact h hc
  | ok r => intro e; cases e

/-- Witness of `C19_compile_terminates`: the graph loaded from
`rerouteChainDocument`, in which the Reroute node is fed by a node that is not
virtual; the rank is the position in the document. -/
theorem C19_compile_terminates_witness :
    WalkDescends (loadedGraph rerouteChainDocument emptyCatalog) (fun p => min p 2) = true ∧
      GraphToPrompt 4 (loadedGraph rerouteChainDocument emptyCatalog) ""
        ≠ Except.error Fault.outOfFuel :=
  ⟨by decide, C19_compile_terminates (loadedGraph rerouteChainDocument emptyCatalog) ""
    (fun p => min p 2) 4 (by decide) (fun p => by simp only; omega)⟩

end graphapi

namespace graphapi

/-! ### C14 and C20: literals and references among the inputs of a prompt node -/

/-- Every entry of the prompt was built, by `promptNode`, from a node of the
execution order that is neither virtual nor muted and carries the key as its
ID, in the state the side effects of the nodes visited before it have left. -/
theorem GraphToPrompt_entry (fuel : Nat) (t : Graph) (clientID : String) (p : Prompt)
    (hrun : GraphToPrompt fuel t clientID = Except.ok p) (id : Int) (pn : PromptNode)
    (hpn : GoMap.get? p.Nodes id = some pn) :
    ∃ pre ptr suf node, t.NodesInExecutionOrder = pre ++ ptr :: suf ∧ t.Emits ptr node ∧
      node.ID = id ∧ promptNode fuel (applyVirtuals pre t) node = Except.ok pn := by
  unfold GraphToPrompt at hrun
  split at hrun
  · cases hrun
  · rename_i r hr
    simp only [Except.ok.injEq] at hrun
    subst hrun
    simp only at hpn
    have hk : GoMap.hasKey r.1 id = true := by
      unfold GoMap.hasKey
      rw [hpn]
      rfl
    rcases compileNodes_keys fuel id _ _ _ _ _ hr hk with h | ⟨q, hq, n2, hn2, hid⟩
    · cases h
    · obtain ⟨pre, x, suf, e, ⟨mx, hmx, hid2⟩, hsuf⟩ :=
        exists_last_of_mem (fun q => ∃ n2, t.Emits q n2 ∧ n2.ID = id) t.NodesInExecutionOrder
          ⟨q, hq, n2, hn2, hid⟩
      rw [e] at hr
      obtain ⟨pn2, hpn2, hget⟩ := compileNodes_get?_last fuel x mx suf pre t [] r.1 r.2 hr hmx
        (fun q hq n2 hn2 h2 => hsuf q hq ⟨n2, hn2, h2.trans hid2⟩)
      rw [hid2, hpn] at hget
      cases hget
      exact ⟨pre, x, suf, mx, e, hmx, hid2, hpn2⟩

theorem sliceAt_natCast {α : Type} (l : List α) (j : Nat) : sliceAt l (j : Int) = l[j]? := by
  unfold sliceAt
  have h : ¬ ((j : Int) < 0) := by omega
  simp only [h, if_false, Int.toNat_ofNat]

theorem promptLink_of_unlinked (fuel : Nat) (t : Graph) (node : GraphNode) (j : Nat)
    (slot : Slot) (hs : node.Inputs[j]? = some slot) (hl : t.GetLinkById slot.Link = none) :
    promptLink fuel t node j slot = Except.ok none := by
  unfold promptLink Graph.GetNodeForInput Graph.GetInputLink
  rw [sliceAt_natCast, hs]
  simp only [hl]

end graphapi

namespace graphapi

/-- C14: let `pn` be an entry of the prompt that `GraphToPrompt` returns for a
loaded graph, whatever values its properties hold.  It was built from a node of
the execution order that is neither virtual nor muted, and for every name `k`
that is not the name of an input slot of that node with a live link: when the
node has a property named `k`, the entry of `pn.Inputs` under `k` is the value
the property holds when the node is visited if the property is serializable,
and there is no entry if it is not; when the node has no property named `k`,
`k` is not a key of `pn.Inputs`. -/
theorem C14_literal_inputs (decoded : Document) (node_objects : NodeObjects) (t : Graph)
    (heap : List PropertyData) (fuel : Nat) (clientID : String) (p : Prompt)
    (hload : NewGraphFromJsonReader decoded node_objects = Except.ok t)
    (hrun : GraphToPrompt fuel (t.withHeap heap) clientID = Except.ok p)
    (id : Int) (pn : PromptNode) (hpn : GoMap.get? p.Nodes id = some pn) :
    ∃ pre ptr suf node, t.NodesInExecutionOrder = pre ++ ptr :: suf ∧ t.Emits ptr node ∧
      node.ID = id ∧
      ∀ k : String, (∀ slot ∈ node.Inputs, t.GetLinkById slot.Link ≠ none → slot.Name ≠ k) →
        (∀ addr d, node.GetPropertyWithName k = some addr →
          (applyVirtuals pre (t.withHeap heap)).Heap[addr]? = some d →
          GoMap.get? pn.Inputs k =
            if d.Serialize = true then some (InputValue.literal d.Value) else none) ∧
        (node.GetPropertyWithName k = none → GoMap.get? pn.Inputs k = none) := by
  obtain ⟨pre, ptr, suf, node, horder, hem, hid, hnode⟩ :=
    GraphToPrompt_entry fuel (t.withHeap heap) clientID p hrun id pn hpn
  refine ⟨pre, ptr, suf, node, horder, hem, hid, ?_⟩
  intro k hk
  have hnodup := loaded_properties_nodup decoded node_objects t hload node
    (List.getElem?_mem hem.1)
  obtain ⟨heap2, e⟩ := applyVirtuals_withHeap pre (t.withHeap heap)
  rw [e] at hnode ⊢
  unfold promptNode at hnode
  cases hv : promptValues ((t.withHeap heap).withHeap heap2).Heap node.Properties [] with
  | error err => rw [hv] at hnode; cases hnode
  | ok inputs0 =>
    rw [hv] at hnode
    simp only at hnode
    cases hl : promptLinks fuel ((t.withHeap heap).withHeap heap2) node node.Inputs 0 inputs0 with
    | error err => rw [hl] at hnode; cases hnode
    | ok inputs =>
      rw [hl] at hnode
      simp only [Except.ok.injEq] at hnode
      subst hnode
      simp only
      have h1 : GoMap.get? inputs k = GoMap.get? inputs0 k := by
        apply promptLinks_get?_of_skip fuel _ node k node.Inputs 0 inputs0 inputs hl
        intro j s2 w hs2 hname hw
        have hnone : t.GetLinkById s2.Link = none := by
          cases hx : t.GetLinkById s2.Link with
          | none => rfl
          | some l => exact absurd hname (hk s2 (List.getElem?_mem hs2) (by rw [hx]; simp))
        rw [Nat.zero_add, promptLink_of_unlinked fuel ((t.withHeap heap).withHeap heap2) node j s2
          hs2 hnone] at hw
        cases hw
        rfl
      have h2 := promptValues_get? ((t.withHeap heap).withHeap heap2).Heap k node.Properties
        [] inputs0 hv hnodup
      rw [h1, h2]
      constructor
      · intro addr d hprop hd
        unfold GraphNode.GetPropertyWithName at hprop
        cases hg : GoMap.get? node.Properties k with
        | none => rw [hg] at hprop; cases hprop
        | some v =>
          rw [hg] at hprop
          simp only at hprop
          subst hprop
          simp only [hd]
          rfl
      · intro hprop
        unfold GraphNode.GetPropertyWithName at hprop
        cases hg : GoMap.get? node.Properties k with
        | none => rfl
        | some v =>
          rw [hg] at hprop
          simp only at hprop
          subst hprop
          rfl

end graphapi

namespace graphapi

/-- Witness of `C14_literal_inputs`: in the graph loaded from `linkedSeedDocument`
the node 2 has the serializable property `flag` and no property `steps`, and
neither is the name of a linked input slot: the entry under `flag` is the
literal `true` and there is no entry under `steps`. -/
theorem C14_literal_inputs_witness :
    ∃ pn, GoMap.get? (compiledPrompt 3 (loadedGraph linkedSeedDocument widgetCatalog) "").Nodes 2
        = some pn ∧
      GoMap.get? pn.Inputs "flag" = some (InputValue.literal (Value.bool true)) ∧
      GoMap.get? pn.Inputs "steps" = none := by
  obtain ⟨pre, ptr, suf, node, horder, hem, hid, hk⟩ :=
    C14_literal_inputs linkedSeedDocument widgetCatalog
      (loadedGraph linkedSeedDocument widgetCatalog)
      (loadedGraph linkedSeedDocument widgetCatalog).Heap 3 ""
      (compiledPrompt 3 (loadedGraph linkedSeedDocument widgetCatalog) "") rfl rfl 2 _ rfl
  refine ⟨_, rfl, ?_⟩
  have hptr : ptr = 1 ∧ node = (loadedGraph linkedSeedDocument widgetCatalog).nodeAt 1 := by
    have h1 := hem.1
    match ptr, h1 with
    | 0, h1 => cases h1; exact absurd hid (by decide)
    | 1, h1 => cases h1; exact ⟨rfl, rfl⟩
    | q + 2, h1 => cases h1
  obtain ⟨rfl, rfl⟩ := hptr
  have hpre : pre = [0] := by
    have e2 : [0, 1] = pre ++ 1 :: suf := horder
    match pre, e2 with
    | [], e2 => cases e2
    | [x], e2 => cases e2; rfl
    | x :: y :: rest, e2 =>
      have h3 := congrArg List.length e2
      simp at h3
  subst hpre
  have hflag := hk "flag" (by
    intro slot hs _
    have : slot = { Name := "seed", Link := 10, Property := some 0 } := by
      have hs2 : slot ∈ [({ Name := "seed", Link := 10, Property := some 0 } : Slot)] := hs
      simpa using hs2
    subst this
    decide)
  have hsteps := hk "steps" (by
    intro slot hs _
    have : slot = { Name := "seed", Link := 10, Property := some 0 } := by
      have hs2 : slot ∈ [({ Name := "seed", Link := 10, Property := some 0 } : Slot)] := hs
      simpa using hs2
    subst this
    decide)
  exact ⟨hflag.1 1 _ rfl rfl, hsteps.2 rfl⟩

end graphapi

namespace graphapi

/-- What the loop over the input slots writes is a reference. -/
theorem promptLink_reference (fuel : Nat) (t : Graph) (node : GraphNode) (i : Nat) (slot : Slot)
    (w : String × InputValue) (h : promptLink fuel t node i slot = Except.ok (some w)) :
    ∃ origin s, w.2 = InputValue.reference origin s := by
  unfold promptLink at h
  split at h
  · cases h
  · split at h
    · cases h
    · cases h
    · simp only [Except.ok.injEq, Option.some.injEq] at h
      subst h
      exact ⟨_, _, rfl⟩

/-- An entry that is a reference is a reference after the loop over the input
slots. -/
theorem promptLinks_reference (fuel : Nat) (t : Graph) (node : GraphNode) (k : String) :
    ∀ (slots : List Slot) (i : Nat) (inputs out : GoMap String InputValue),
      promptLinks fuel t node slots i inputs = Except.ok out →
      (∃ origin s, GoMap.get? inputs k = some (InputValue.reference origin s)) →
      ∃ origin s, GoMap.get? out k = some (InputValue.reference origin s) := by
  intro slots
  induction slots with
  | nil =>
    intro i inputs out h hin
    simp only [promptLinks, Except.ok.injEq] at h
    rw [← h]
    exact hin
  | cons slot rest ih =>
    intro i inputs out h hin
    unfold promptLinks at h
    cases hl : promptLink fuel t node i slot with
    | error e => rw [hl] at h; cases h
    | ok w =>
      rw [hl] at h
      cases w with
      | none => exact ih _ _ _ h hin
      | some w =>
        apply ih _ _ _ h
        by_cases hk : w.1 = k
        · obtain ⟨origin, s, e⟩ := promptLink_reference fuel t node i slot w hl
          exact ⟨origin, s, by rw [← hk, GoMap.get?_set_self, e]⟩
        · rw [GoMap.get?_set_of_ne _ _ hk]
          exact hin

/-- The loop over the input slots, split at one slot. -/
theorem promptLinks_split (fuel : Nat) (t : Graph) (node : GraphNode) (slot : Slot)
    (suf : List Slot) :
    ∀ (pre : List Slot) (i : Nat) (inputs out : GoMap String InputValue),
      promptLinks fuel t node (pre ++ slot :: suf) i inputs = Except.ok out →
      ∃ w mid, promptLink fuel t node (i + pre.length) slot = Except.ok w ∧
        promptLinks fuel t node suf (i + pre.length + 1)
          (match w with
            | some w => GoMap.set mid w.1 w.2
            | none => mid) = Except.ok out := by
  intro pre
  induction pre with
  | nil =>
    intro i inputs out h
    simp only [List.nil_append] at h
    unfold promptLinks at h
    cases hl : promptLink fuel t node i slot with
    | error e => rw [hl] at h; cases h
    | ok w =>
      rw [hl] at h
      refine ⟨w, inputs, hl, ?_⟩
      cases w with
      | none => exact h
      | some w => exact h
  | cons s pre ih =>
    intro i inputs out h
    simp only [List.cons_append] at h
    unfold promptLinks at h
    cases hl : promptLink fuel t node i s with
    | error e => rw [hl] at h; cases h
    | ok w0 =>
      rw [hl] at h
      have e : i + (s :: pre).length = i + 1 + pre.length := by
        simp only [List.length_cons]; omega
      rw [e]
      cases w0 with
      | none => exact ih _ _ _ h
      | some w0 => exact ih _ _ _ h

/-- What `GraphToPrompt` writes for an input slot whose link leaves a node that is
not virtual: the reference to the origin of that link. -/
theorem promptLink_direct (fuel : Nat) (t : Graph) (N : GraphNode) (pre suf : List Slot)
    (slot : Slot) (hslots : N.Inputs = pre ++ slot :: suf)
    (l : Link) (rptr : Nat) (R : GraphNode)
    (hl : t.GetLinkById slot.Link = some l) (hR : t.GetNodeById l.OriginID = some rptr)
    (hRn : t.Nodes[rptr]? = some R) (hRv : R.IsVirtual = false)
    (w : Option (String × InputValue))
    (h : promptLink fuel t N pre.length slot = Except.ok w) :
    w = some (slot.Name, InputValue.reference (strconv.Itoa l.OriginID) l.OriginSlot) := by
  unfold promptLink at h
  have e1 : t.GetNodeForInput N (pre.length : Int) = some rptr := by
    unfold Graph.GetNodeForInput Graph.GetInputLink
    rw [hslots, sliceAt_append_length]
    simp only [hl]
    exact hR
  rw [e1, hl] at h
  simp only at h
  have hres : ∀ res, resolveVirtual t fuel (some rptr) (some l) = Except.ok res →
      res = some l := by
    intro res hr
    cases fuel with
    | zero => cases hr
    | succ fuel =>
      unfold resolveVirtual at hr
      simp only [hRn, hRv, Bool.false_eq_true, if_false, Except.ok.injEq] at hr
      exact hr.symm
  split at h
  · cases h
  · rename_i hr
    cases hres _ hr
  · rename_i link hr
    have := hres _ hr
    simp only [Option.some.injEq] at this
    subst this
    simp only [Except.ok.injEq] at h
    exact h.symm

/-- What `GraphToPrompt` writes for an input slot whose link resolves to a link
that leaves a node that is not virtual. -/
theorem promptLink_resolves (fuel : Nat) (t : Graph) (N : GraphNode) (pre suf : List Slot)
    (slot : Slot) (hslots : N.Inputs = pre ++ slot :: suf) (l r : Link)
    (hl : t.GetLinkById slot.Link = some l) (hres : ResolvesTo t l r)
    (w : Option (String × InputValue))
    (h : promptLink fuel t N pre.length slot = Except.ok w) :
    w = some (slot.Name, InputValue.reference (strconv.Itoa r.OriginID) r.OriginSlot) := by
  rcases hres with ⟨rptr, R, hR, hRn, hRv, e⟩ | ⟨c, rptr, R, hc, hchain, hR, hRn, hRv⟩
  · subst e
    exact promptLink_direct fuel t N pre suf slot hslots r rptr R hl hR hRn hRv w h
  · exact promptLink_chain fuel t N pre suf slot hslots l c r rptr R hl hc hchain hR hRn hRv w h

end graphapi

namespace graphapi

/-- C20, as stated, fails: in the graph loaded from `twinSeedDocument` node 2 has
the serializable property `seed` and two input slots named `seed`.  The link of
the first resolves to output 0 of node 1, which is not virtual, but the entry
under `seed` is the reference `["3", 0]` that the second slot writes after
it, not `["1", 0]`. -/
theorem C20_reference_overwritten :
    ∃ t p N slot l rptr R prop d pn,
      NewGraphFromJsonReader twinSeedDocument seedCatalog = Except.ok t ∧
      GraphToPrompt 3 t "" = Except.ok p ∧
      t.Nodes[2]? = some N ∧ N.IsVirtual = false ∧ N.Mode ≠ 2 ∧
      N.Inputs[0]? = some slot ∧ slot.Name = "seed" ∧ t.GetLinkById slot.Link = some l ∧
      t.GetNodeById l.OriginID = some rptr ∧ t.Nodes[rptr]? = some R ∧ R.IsVirtual = false ∧
      N.GetPropertyWithName "seed" = some prop ∧ t.Heap[prop]? = some d ∧
      d.Serialize = true ∧
      GoMap.get? p.Nodes N.ID = some pn ∧
      GoMap.get? pn.Inputs "seed" = some (InputValue.reference "3" 0) ∧
      InputValue.reference (strconv.Itoa l.OriginID) l.OriginSlot = InputValue.reference "1" 0 :=
  ⟨_, _, _, _, _, _, _, _, _, _, rfl, rfl, rfl, rfl, by decide, rfl, rfl, rfl, rfl, rfl, rfl,
    rfl, rfl, rfl, rfl, rfl, rfl⟩

/-- C20, amended: let `pn` be an entry of the prompt `GraphToPrompt` returns.  It
was built from a node of the execution order that is neither virtual nor muted,
and for every input slot of that node whose link resolves to a link `r` leaving
a node that is not virtual, the entry of `pn.Inputs` under the name of the slot
is a reference, whatever properties the node has and in whatever order they are
held; when no later input slot of the node has the same name, it is the
reference `[strconv.Itoa r.OriginID, r.OriginSlot]`. -/
theorem C20_link_over_literal (t : Graph) (fuel : Nat) (clientID : String) (p : Prompt)
    (hrun : GraphToPrompt fuel t clientID = Except.ok p)
    (id : Int) (pn : PromptNode) (hpn : GoMap.get? p.Nodes id = some pn) :
    ∃ pre ptr suf node, t.NodesInExecutionOrder = pre ++ ptr :: suf ∧ t.Emits ptr node ∧
      node.ID = id ∧
      ∀ (spre ssuf : List Slot) (slot : Slot) (l r : Link),
        node.Inputs = spre ++ slot :: ssuf → t.GetLinkById slot.Link = some l →
        ResolvesTo t l r →
        (∃ origin s, GoMap.get? pn.Inputs slot.Name = some (InputValue.reference origin s)) ∧
        ((∀ s2 ∈ ssuf, s2.Name ≠ slot.Name) →
          GoMap.get? pn.Inputs slot.Name
            = some (InputValue.reference (strconv.Itoa r.OriginID) r.OriginSlot)) := by
  obtain ⟨pre, ptr, suf, node, horder, hem, hid, hnode⟩ :=
    GraphToPrompt_entry fuel t clientID p hrun id pn hpn
  refine ⟨pre, ptr, suf, node, horder, hem, hid, ?_⟩
  intro spre ssuf slot l r hslots hl hres
  obtain ⟨heap2, e⟩ := applyVirtuals_withHeap pre t
  rw [e] at hnode
  unfold promptNode at hnode
  cases hv : promptValues (t.withHeap heap2).Heap node.Properties [] with
  | error err => rw [hv] at hnode; cases hnode
  | ok inputs0 =>
    rw [hv] at hnode
    simp only at hnode
    cases hlk : promptLinks fuel (t.withHeap heap2) node node.Inputs 0 inputs0 with
    | error err => rw [hlk] at hnode; cases hnode
    | ok inputs =>
      rw [hlk] at hnode
      simp only [Except.ok.injEq] at hnode
      subst hnode
      simp only
      rw [promptLinks_withHeap, hslots] at hlk
      obtain ⟨w, mid, hw, hrest⟩ := promptLinks_split fuel t node slot ssuf spre 0 inputs0
        inputs hlk
      rw [Nat.zero_add] at hw
      have hwv := promptLink_resolves fuel t node spre ssuf slot hslots l r hl hres w hw
      subst hwv
      simp only at hrest
      constructor
      · exact promptLinks_reference fuel t node slot.Name ssuf _ _ inputs hrest
          ⟨_, _, GoMap.get?_set_self _ _ _⟩
      · intro hname
        rw [promptLinks_get?_of_no_write fuel t node slot.Name ssuf _ _ inputs hrest hname]
        exact GoMap.get?_set_self _ _ _

/-- Witness of `C20_link_over_literal`: in the graph loaded from
`linkedSeedDocument` node 2 has the serializable property `seed` and one input
slot named `seed`, fed from output 0 of node 1: the entry under `seed` is the
reference `["1", 0]`. -/
theorem C20_link_over_literal_witness :
    ∃ pn, GoMap.get? (compiledPrompt 3 (loadedGraph linkedSeedDocument widgetCatalog) "").Nodes 2
        = some pn ∧
      GoMap.get? pn.Inputs "seed" = some (InputValue.reference (strconv.Itoa 1) 0) := by
  obtain ⟨pre, ptr, suf, node, horder, hem, hid, hk⟩ :=
    C20_link_over_literal (loadedGraph linkedSeedDocument widgetCatalog) 3 ""
      (compiledPrompt 3 (loadedGraph linkedSeedDocument widgetCatalog) "") rfl 2 _ rfl
  refine ⟨_, rfl, ?_⟩
  have hptr : ptr = 1 ∧ node = (loadedGraph linkedSeedDocument widgetCatalog).nodeAt 1 := by
    have h1 := hem.1
    match ptr, h1 with
    | 0, h1 => cases h1; exact absurd hid (by decide)
    | 1, h1 => cases h1; exact ⟨rfl, rfl⟩
    | q + 2, h1 => cases h1
  obtain ⟨rfl, rfl⟩ := hptr
  exact (hk [] [] { Name := "seed", Link := 10, Property := some 0 }
    { ID := 10, OriginID := 1, OriginSlot := 0, TargetID := 2, TargetSlot := 0 }
    { ID := 10, OriginID := 1, OriginSlot := 0, TargetID := 2, TargetSlot := 0 } rfl rfl
    (Or.inl ⟨0, (loadedGraph linkedSeedDocument widgetCatalog).nodeAt 0, rfl, rfl, rfl, rfl⟩)).2
    (by intro s hs; cases hs)

end graphapi

namespace graphapi

/-! ### C11: the properties the binding pass creates -/

theorem affix_names (name : String) (p : Nat) :
    ∀ slots : List Slot,
      (affixPropertyToInputSlot name p slots).map (fun s => s.Name)
        = slots.map (fun s => s.Name) := by
  intro slots
  induction slots with
  | nil => rfl
  | cons s rest ih =>
    unfold affixPropertyToInputSlot
    by_cases h : s.Name = name
    · simp only [h, if_true, List.map_cons]
    · simp only [h, if_false, List.map_cons, ih]

theorem affix_kept (name : String) (p : Nat) :
    ∀ (slots : List Slot) (j : Nat) (s s2 : Slot),
      slots[j]? = some s → (affixPropertyToInputSlot name p slots)[j]? = some s2 →
      s.Name ≠ name → s2 = s := by
  intro slots
  induction slots with
  | nil => intro j s s2 h; cases h
  | cons x rest ih =>
    intro j s s2 h h2 hne
    unfold affixPropertyToInputSlot at h2
    by_cases hx : x.Name = name
    · simp only [hx, if_true] at h2
      cases j with
      | zero =>
        simp only [List.getElem?_cons_zero, Option.some.injEq] at h
        subst h
        exact absurd hx hne
      | succ j =>
        simp only [List.getElem?_cons_succ] at h h2
        rw [h] at h2
        cases h2
        rfl
    · simp only [hx, if_false] at h2
      cases j with
      | zero =>
        simp only [List.getElem?_cons_zero, Option.some.injEq] at h h2
        rw [← h, ← h2]
      | succ j =>
        simp only [List.getElem?_cons_succ] at h h2
        exact ih j s s2 h h2 hne

theorem affix_bound (name : String) (p : Nat) :
    ∀ slots : List Slot, BoundToFirst (affixPropertyToInputSlot name p slots) name p := by
  intro slots
  induction slots with
  | nil => intro j s h; cases h
  | cons x rest ih =>
    intro j s h hs hfirst
    unfold affixPropertyToInputSlot at h hfirst
    by_cases hx : x.Name = name
    · simp only [hx, if_true] at h hfirst
      cases j with
      | zero =>
        simp only [List.getElem?_cons_zero, Option.some.injEq] at h
        subst h
        rfl
      | succ j =>
        exact absurd rfl (hfirst 0 _ (Nat.succ_pos _) (List.getElem?_cons_zero))
    · simp only [hx, if_false] at h hfirst
      cases j with
      | zero =>
        simp only [List.getElem?_cons_zero, Option.some.injEq] at h
        subst h
        exact absurd hs hx
      | succ j =>
        simp only [List.getElem?_cons_succ] at h
        apply ih j s h hs
        intro j2 s2 hlt h2
        exact hfirst (j2 + 1) s2 (by omega) (by simpa using h2)

theorem SlotsKept.keptRefl (names : List String) (a : List Slot) : SlotsKept names a a :=
  ⟨rfl, fun _ s s2 h h2 _ => by rw [h] at h2; cases h2; rfl⟩

theorem SlotsKept.keptTrans {n1 n2 : List String} {a b c : List Slot}
    (h1 : SlotsKept n1 a b) (h2 : SlotsKept n2 b c) : SlotsKept (n1 ++ n2) a c := by
  refine ⟨h2.1.trans h1.1, ?_⟩
  intro j s s3 ha hc hne
  have hlen : b.length = a.length := by
    have := congrArg List.length h1.1
    simpa using this
  have hj : j < b.length := by
    rw [hlen]; exact (List.getElem?_eq_some.1 ha).1
  obtain ⟨s2, hb⟩ : ∃ s2, b[j]? = some s2 := ⟨b[j], List.getElem?_eq_getElem hj⟩
  have e1 : s2 = s := h1.2 j s s2 ha hb (fun h => hne (List.mem_append_left _ h))
  subst e1
  exact h2.2 j s2 s3 hb hc (fun h => hne (List.mem_append_right _ h))

theorem SlotsKept.name_at {names : List String} {a b : List Slot} (h : SlotsKept names a b)
    (j : Nat) (s2 : Slot) (hb : b[j]? = some s2) :
    ∃ s, a[j]? = some s ∧ s.Name = s2.Name := by
  have e := congrArg (fun l => l[j]?) h.1
  simp only [List.getElem?_map, hb, Option.map_some'] at e
  cases ha : a[j]? with
  | none => rw [ha] at e; cases e
  | some s =>
    rw [ha] at e
    simp only [Option.map_some', Option.some.injEq] at e
    exact ⟨s, rfl, e.symm⟩

theorem BoundToFirst.kept {names : List String} {a b : List Slot} {k : String} {addr : Nat}
    (h : SlotsKept names a b) (hk : k ∉ names) (hb : BoundToFirst a k addr) :
    BoundToFirst b k addr := by
  intro j s2 hj hs hfirst
  obtain ⟨s, ha, hn⟩ := h.name_at j s2 hj
  have e : s2 = s := h.2 j s s2 ha hj (by rw [hn, hs]; exact hk)
  subst e
  apply hb j s2 ha hs
  intro j2 s0 hlt h0
  have hlen : b.length = a.length := by
    have := congrArg List.length h.1
    simpa using this
  have hj2 : j2 < b.length := by
    rw [hlen]; exact (List.getElem?_eq_some.1 h0).1
  obtain ⟨s3, h3⟩ : ∃ s3, b[j2]? = some s3 := ⟨b[j2], List.getElem?_eq_getElem hj2⟩
  obtain ⟨s4, h4, hn4⟩ := h.name_at j2 s3 h3
  rw [h0] at h4
  cases h4
  rw [hn4]
  exact hfirst j2 s3 hlt h3

end graphapi

namespace graphapi

/-- One iteration of the loop over the settable properties, for a property of
one of the six variants the switch names: the struct is copied to a new
address, bound to the node and its widget index, stored under its name and
attached to the input slot of that name. -/
theorem bindProperty_eq (ptr pindex : Nat) (prop : PropertyData) (n : GraphNode)
    (heap : List PropertyData) (hk : prop.Kind ≠ PropertyKind.ImageUploadProperty) :
    bindProperty ptr pindex prop n heap = Except.ok
      ({ n with
          Properties := GoMap.set n.Properties prop.Name (some heap.length)
          Inputs := affixPropertyToInputSlot prop.Name heap.length n.Inputs },
        heap ++ [prop.boundTo heap.length ptr pindex]) := by
  cases hK : prop.Kind with
  | ImageUploadProperty => exact absurd hK hk
  | StringProperty =>
    simp [bindProperty, PropertyData.TypeString, hK, bindAs, assertKind, PropertyData.boundTo]
  | FloatProperty =>
    simp [bindProperty, PropertyData.TypeString, hK, bindAs, assertKind, PropertyData.boundTo]
  | IntProperty =>
    simp [bindProperty, PropertyData.TypeString, hK, bindAs, assertKind, PropertyData.boundTo]
  | BoolProperty =>
    simp [bindProperty, PropertyData.TypeString, hK, bindAs, assertKind, PropertyData.boundTo]
  | ComboProperty =>
    simp [bindProperty, PropertyData.TypeString, hK, bindAs, assertKind, PropertyData.boundTo]
  | UnknownProperty =>
    simp [bindProperty, PropertyData.TypeString, hK, bindAs, assertKind, PropertyData.boundTo]

/-- A settable property whose type tag is none of the six `case` labels is
skipped: nothing is stored for it. -/
theorem bindProperty_skip (ptr pindex : Nat) (prop : PropertyData) (n : GraphNode)
    (heap : List PropertyData) (hk : prop.Kind = PropertyKind.ImageUploadProperty) :
    bindProperty ptr pindex prop n heap = Except.ok (n, heap) := by
  simp [bindProperty, PropertyData.TypeString, hk]

/-- What one iteration of the loop over the settable properties keeps. -/
theorem bindProperty_kept (ptr pindex : Nat) (prop : PropertyData) (n : GraphNode)
    (heap : List PropertyData) (r : GraphNode × List PropertyData)
    (h : bindProperty ptr pindex prop n heap = Except.ok r) :
    (∀ (x : Nat) (d : PropertyData), heap[x]? = some d → r.2[x]? = some d) ∧
    (∀ k, k ≠ prop.Name → GoMap.get? r.1.Properties k = GoMap.get? n.Properties k) ∧
    SlotsKept [prop.Name] n.Inputs r.1.Inputs := by
  by_cases hk : prop.Kind = PropertyKind.ImageUploadProperty
  · rw [bindProperty_skip ptr pindex prop n heap hk] at h
    simp only [Except.ok.injEq] at h
    subst h
    exact ⟨fun _ _ hd => hd, fun _ _ => rfl, SlotsKept.keptRefl _ _⟩
  · rw [bindProperty_eq ptr pindex prop n heap hk] at h
    simp only [Except.ok.injEq] at h
    subst h
    refine ⟨?_, ?_, ?_, ?_⟩
    · intro x d hd
      simp only
      rw [List.getElem?_append_left (List.getElem?_eq_some.1 hd).1]
      exact hd
    · intro k hne
      exact GoMap.get?_set_of_ne _ _ (fun e => hne e.symm)
    · exact affix_names _ _ _
    · intro j s s2 hs hs2 hne
      exact affix_kept _ _ _ j s s2 hs hs2 (fun e => hne (by simp [e]))

theorem bindProperties_kept (ptr : Nat) :
    ∀ (props : List PropertyData) (pindex : Nat) (n : GraphNode) (heap : List PropertyData)
      (r : GraphNode × List PropertyData),
      bindProperties ptr props pindex n heap = Except.ok r →
      (∀ (x : Nat) (d : PropertyData), heap[x]? = some d → r.2[x]? = some d) ∧
      (∀ k, k ∉ props.map (fun p => p.Name) →
        GoMap.get? r.1.Properties k = GoMap.get? n.Properties k) ∧
      SlotsKept (props.map (fun p => p.Name)) n.Inputs r.1.Inputs := by
  intro props
  induction props with
  | nil =>
    intro pindex n heap r h
    simp only [bindProperties, Except.ok.injEq] at h
    subst h
    exact ⟨fun _ _ hd => hd, fun _ _ => rfl, SlotsKept.keptRefl _ _⟩
  | cons prop rest ih =>
    intro pindex n heap r h
    unfold bindProperties at h
    cases h1 : bindProperty ptr pindex prop n heap with
    | error e => rw [h1] at h; cases h
    | ok r1 =>
      rw [h1] at h
      obtain ⟨a1, a2, a3⟩ := bindProperty_kept ptr pindex prop n heap r1 h1
      obtain ⟨b1, b2, b3⟩ := ih _ _ _ _ h
      refine ⟨fun x d hd => b1 x d (a1 x d hd), ?_, ?_⟩
      · intro k hk
        simp only [List.map_cons, List.mem_cons, not_or] at hk
        rw [b2 k hk.2, a2 k hk.1]
      · exact a3.keptTrans b3

/-- The loop over the settable properties: every declared property of one of the
six variants, its name declared once, ends up as a copy at an address of its
own, stored under its name, bound to the node and to its position in the list,
and attached to the first input slot of its name. -/
theorem bindProperties_bound (ptr : Nat) :
    ∀ (props : List PropertyData) (pindex : Nat) (n : GraphNode) (heap : List PropertyData)
      (r : GraphNode × List PropertyData),
      bindProperties ptr props pindex n heap = Except.ok r →
      (props.map (fun p => p.Name)).Nodup →
      ∀ (i : Nat) (prop : PropertyData), props[i]? = some prop →
        prop.Kind ≠ PropertyKind.ImageUploadProperty →
        ∃ addr, GoMap.get? r.1.Properties prop.Name = some (some addr) ∧
          r.2[addr]? = some (prop.boundTo addr ptr (pindex + i)) ∧
          BoundToFirst r.1.Inputs prop.Name addr := by
  intro props
  induction props with
  | nil => intro pindex n heap r _ _ i prop hi; cases hi
  | cons p0 rest ih =>
    intro pindex n heap r h hnd i prop hi hk
    simp only [List.map_cons, List.nodup_cons] at hnd
    unfold bindProperties at h
    cases h1 : bindProperty ptr pindex p0 n heap with
    | error e => rw [h1] at h; cases h
    | ok r1 =>
      rw [h1] at h
      simp only at h
      cases i with
      | zero =>
        simp only [List.getElem?_cons_zero, Option.some.injEq] at hi
        subst hi
        rw [bindProperty_eq ptr pindex p0 n heap hk] at h1
        simp only [Except.ok.injEq] at h1
        subst h1
        obtain ⟨b1, b2, b3⟩ := bindProperties_kept ptr rest _ _ _ _ h
        refine ⟨heap.length, ?_, ?_, ?_⟩
        · rw [b2 _ hnd.1]
          exact GoMap.get?_set_self _ _ _
        · apply b1
          simp only [Nat.add_zero]
          rw [sort.getElem?_append_len]
          rfl
        · exact BoundToFirst.kept b3 hnd.1 (affix_bound _ _ _)
      | succ i =>
        simp only [List.getElem?_cons_succ] at hi
        obtain ⟨addr, c1, c2, c3⟩ := ih (pindex + 1) r1.1 r1.2 r h hnd.2 i prop hi hk
        refine ⟨addr, c1, ?_, c3⟩
        rw [c2]
        have e : pindex + 1 + i = pindex + (i + 1) := by omega
        rw [e]

end graphapi

namespace graphapi

/-- What the branch for a differing widget count keeps: the memory written so
far, the input slots, and every entry of the property mapping but the one under
`choose file to upload`, which it replaces when it is taken. -/
theorem bindUpload_kept (nobject : NodeObject) (n : GraphNode) (heap : List PropertyData)
    (r : GraphNode × List PropertyData) (h : bindUpload nobject n heap = Except.ok r) :
    (∀ (x : Nat) (d : PropertyData), heap[x]? = some d → r.2[x]? = some d) ∧
    r.1.Inputs = n.Inputs ∧
    (∀ k, (k ≠ "choose file to upload" ∨
          n.WidgetValues.length = nobject.SettableProperties.length ∨
          (nobject.Name ≠ "LoadImage" ∧ nobject.Name ≠ "LoadImageMask")) →
      GoMap.get? r.1.Properties k = GoMap.get? n.Properties k) := by
  unfold bindUpload at h
  by_cases h1 : n.WidgetValues.length ≠ nobject.SettableProperties.length
  · rw [if_pos h1] at h
    by_cases h2 : nobject.Name = "LoadImage" ∨ nobject.Name = "LoadImageMask"
    · rw [if_pos h2] at h
      cases hp : n.GetPropertyWithName "image" with
      | none =>
        rw [hp] at h
        simp only [Except.ok.injEq] at h
        subst h
        exact ⟨fun _ _ hd => hd, rfl, fun _ _ => rfl⟩
      | some targetProp =>
        rw [hp] at h
        simp only at h
        cases hd : deref heap targetProp with
        | error e => rw [hd] at h; cases h
        | ok d =>
          rw [hd] at h
          simp only at h
          cases ha : assertKind d PropertyKind.ComboProperty with
          | error e => rw [ha] at h; cases h
          | ok d2 =>
            rw [ha] at h
            simp only [Except.ok.injEq] at h
            subst h
            refine ⟨?_, rfl, ?_⟩
            · intro x d0 hx
              simp only
              rw [List.getElem?_append_left (List.getElem?_eq_some.1 hx).1]
              exact hx
            · intro k hk
              rcases hk with hk | hk | hk
              · exact GoMap.get?_set_of_ne _ _ (fun e => hk e.symm)
              · exact absurd hk h1
              · rcases h2 with h2 | h2
                · exact absurd h2 hk.1
                · exact absurd h2 hk.2
    · rw [if_neg h2] at h
      simp only [Except.ok.injEq] at h
      subst h
      exact ⟨fun _ _ hd => hd, rfl, fun _ _ => rfl⟩
  · rw [if_neg h1] at h
    simp only [Except.ok.injEq] at h
    subst h
    exact ⟨fun _ _ hd => hd, rfl, fun _ _ => rfl⟩

/-- The memory written before a node is bound is kept. -/
theorem bindNode_heap (node_objects : NodeObjects) (ptr : Nat) (n : GraphNode)
    (heap : List PropertyData) (r : GraphNode × List PropertyData × Bool)
    (h : bindNode node_objects ptr n heap = Except.ok r) :
    ∀ (x : Nat) (d : PropertyData), heap[x]? = some d → r.2.1[x]? = some d := by
  unfold bindNode at h
  simp only at h
  split at h
  · split at h
    · cases h
    · rename_i r1 hr1
      split at h
      · cases h
      · rename_i r2 hr2
        simp only [Except.ok.injEq] at h
        subst h
        intro x d hd
        exact (bindUpload_kept _ _ _ _ hr2).1 x d ((bindProperties_kept _ _ _ _ _ _ hr1).1 x d hd)
  · simp only [Except.ok.injEq] at h
    subst h
    exact fun _ _ hd => hd

/-- A node is collected among the primitives only when the catalog has no entry
for its type. -/
theorem bindNode_flag (node_objects : NodeObjects) (ptr : Nat) (n : GraphNode)
    (heap : List PropertyData) (r : GraphNode × List PropertyData × Bool)
    (h : bindNode node_objects ptr n heap = Except.ok r) (hflag : r.2.2 = true) :
    node_objects.GetNodeObjectByName n.TypeName = none := by
  unfold bindNode at h
  simp only at h
  split at h
  · split at h
    · cases h
    · split at h
      · cases h
      · simp only [Except.ok.injEq] at h
        subst h
        cases hflag
  · rename_i hnone
    exact hnone

/-- The binding of one node whose type has a catalog entry. -/
theorem bindNode_bound (node_objects : NodeObjects) (ptr : Nat) (n : GraphNode)
    (heap : List PropertyData) (r : GraphNode × List PropertyData × Bool)
    (h : bindNode node_objects ptr n heap = Except.ok r)
    (nobject : NodeObject) (hcat : node_objects.GetNodeObjectByName n.TypeName = some nobject)
    (hnd : (nobject.SettableProperties.map (fun p => p.Name)).Nodup)
    (i : Nat) (prop : PropertyData) (hi : nobject.SettableProperties[i]? = some prop)
    (hk : prop.Kind ≠ PropertyKind.ImageUploadProperty)
    (hname : prop.Name ≠ "choose file to upload" ∨
      n.WidgetValues.length = nobject.SettableProperties.length ∨
      (nobject.Name ≠ "LoadImage" ∧ nobject.Name ≠ "LoadImageMask")) :
    ∃ addr, GoMap.get? r.1.Properties prop.Name = some (some addr) ∧
      r.2.1[addr]? = some (prop.boundTo addr ptr i) ∧
      BoundToFirst r.1.Inputs prop.Name addr := by
  unfold bindNode at h
  simp only at h
  rw [hcat] at h
  simp only at h
  split at h
  · cases h
  · rename_i r1 hr1
    split at h
    · cases h
    · rename_i r2 hr2
      simp only [Except.ok.injEq] at h
      subst h
      obtain ⟨addr, c1, c2, c3⟩ := bindProperties_bound ptr _ _ _ _ _ hr1 hnd i prop hi hk
      obtain ⟨u1, u2, u3⟩ := bindUpload_kept _ _ _ _ hr2
      have hw : r1.1.WidgetValues = n.WidgetValues := by
        have e := bindProperties_header _ _ _ _ _ _ hr1
        have e2 : r1.1.header.WidgetValues = n.header.WidgetValues := by rw [e]; rfl
        exact e2
      refine ⟨addr, ?_, ?_, ?_⟩
      · simp only
        rw [u3 prop.Name (by rw [hw]; exact hname)]
        exact c1
      · simp only
        apply u1
        rw [c2, Nat.zero_add]
      · simp only
        rw [u2]
        exact c3

end graphapi

namespace graphapi

/-- The first loop of `CreateNodeProperties`, node by node: the node at each
position of the result is what `bindNode` returned for the node of the document
at that position, the memory written then is kept until the end of the loop,
and a pointer is collected among the primitives only for a node whose type has
no catalog entry. -/
theorem bindNodes_at (node_objects : NodeObjects) :
    ∀ (todo : List GraphNode) (ptr : Nat) (done : List GraphNode) (heap : List PropertyData)
      (prims : List Nat) (r : List GraphNode × List PropertyData × List Nat),
      bindNodes node_objects todo ptr done heap prims = Except.ok r →
      ptr = done.length →
      (∀ (x : Nat) (d : PropertyData), heap[x]? = some d → r.2.1[x]? = some d) ∧
      (∀ i, i < done.length → r.1[i]? = done[i]?) ∧
      (∀ (i : Nat) (n0 : GraphNode), todo[i]? = some n0 →
        ∃ heapi ri, bindNode node_objects (ptr + i) n0 heapi = Except.ok ri ∧
          r.1[ptr + i]? = some ri.1 ∧
          (∀ (x : Nat) (d : PropertyData), ri.2.1[x]? = some d → r.2.1[x]? = some d)) ∧
      (∀ q ∈ r.2.2, q ∈ prims ∨ ∃ i n0, q = ptr + i ∧ todo[i]? = some n0 ∧
        node_objects.GetNodeObjectByName n0.TypeName = none) := by
  intro todo
  induction todo with
  | nil =>
    intro ptr done heap prims r h _
    simp only [bindNodes, Except.ok.injEq] at h
    subst h
    refine ⟨fun _ _ hd => hd, fun _ _ => rfl, ?_, fun q hq => Or.inl hq⟩
    intro i n0 hi
    cases hi
  | cons n todo ih =>
    intro ptr done heap prims r h hptr
    unfold bindNodes at h
    cases h1 : bindNode node_objects ptr n heap with
    | error e => rw [h1] at h; cases h
    | ok r1 =>
      rw [h1] at h
      simp only at h
      obtain ⟨a1, a2, a3, a4⟩ := ih (ptr + 1) (done ++ [r1.1]) r1.2.1 _ r h
        (by simp only [List.length_append, List.length_cons, List.length_nil]; omega)
      refine ⟨?_, ?_, ?_, ?_⟩
      · intro x d hd
        exact a1 x d (bindNode_heap _ _ _ _ _ h1 x d hd)
      · intro i hi
        rw [a2 i (by simp only [List.length_append, List.length_cons, List.length_nil]; omega)]
        exact List.getElem?_append_left hi
      · intro i n0 hi
        cases i with
        | zero =>
          simp only [List.getElem?_cons_zero, Option.some.injEq] at hi
          subst hi
          refine ⟨heap, r1, h1, ?_, a1⟩
          rw [Nat.add_zero, a2 ptr (by
            simp only [List.length_append, List.length_cons, List.length_nil]; omega)]
          rw [hptr, sort.getElem?_append_len]
          rfl
        | succ i =>
          simp only [List.getElem?_cons_succ] at hi
          obtain ⟨heapi, ri, b1, b2, b3⟩ := a3 i n0 hi
          have e : ptr + 1 + i = ptr + (i + 1) := by omega
          rw [e] at b1 b2
          exact ⟨heapi, ri, b1, b2, b3⟩
      · intro q hq
        rcases a4 q hq with hin | ⟨i, n0, e, hi, hc⟩
        · by_cases hf : r1.2.2 = true
          · rw [if_pos hf] at hin
            rcases List.mem_append.1 hin with hin | hin
            · exact Or.inl hin
            · simp only [List.mem_singleton] at hin
              refine Or.inr ⟨0, n, by omega, List.getElem?_cons_zero,
                bindNode_flag _ _ _ _ _ h1 hf⟩
          · rw [if_neg hf] at hin
            exact Or.inl hin
        · exact Or.inr ⟨i + 1, n0, by omega, by simpa using hi, hc⟩

end graphapi

namespace graphapi

/-- C11, as stated, fails.  With `uploadNameCatalog` the entry `LoadImage` declares
a STRING property named `choose file to upload`; the node has three widget
values for two declared properties, and the branch for a differing widget count
stores the file chooser under that name: the copy of the declared property is
dropped from the mapping.  With `declaredUploadCatalog` the entry declares a
property of the file upload variant, for whose type tag the switch has no
`case`: nothing is stored under its name. -/
theorem C11_declared_property_dropped :
    (∃ t n nobject prop stored d,
      NewGraphFromJsonReader uploadNameDocument uploadNameCatalog = Except.ok t ∧
      t.Nodes[0]? = some n ∧
      uploadNameCatalog.GetNodeObjectByName n.TypeName = some nobject ∧
      (nobject.SettableProperties.map (fun p => p.Name)).Nodup ∧
      nobject.SettableProperties[1]? = some prop ∧ prop.Kind = PropertyKind.StringProperty ∧
      GoMap.get? n.Properties prop.Name = some (some stored) ∧ t.Heap[stored]? = some d ∧
      d.Kind = PropertyKind.ImageUploadProperty ∧ d.TargetNode = none) ∧
    (∃ t n nobject prop,
      NewGraphFromJsonReader uploadDocument declaredUploadCatalog = Except.ok t ∧
      t.Nodes[0]? = some n ∧
      declaredUploadCatalog.GetNodeObjectByName n.TypeName = some nobject ∧
      (nobject.SettableProperties.map (fun p => p.Name)).Nodup ∧
      nobject.SettableProperties[1]? = some prop ∧
      GoMap.get? n.Properties prop.Name = none) :=
  ⟨⟨_, _, _, _, _, _, rfl, rfl, rfl, by decide, rfl, rfl, rfl, rfl, rfl, rfl⟩,
    ⟨_, _, _, _, rfl, rfl, rfl, by decide, rfl, rfl⟩⟩

theorem header_fields {a b : GraphNode} (h : a.header = b.header) :
    a.TypeName = b.TypeName ∧ a.WidgetValues = b.WidgetValues := by
  have e1 : a.header.TypeName = b.header.TypeName := by rw [h]
  have e2 : a.header.WidgetValues = b.header.WidgetValues := by rw [h]
  exact ⟨e1, e2⟩

/-- C11, amended: after `CreateNodeProperties`, for every node whose type has a
catalog entry and every settable property the entry declares (names distinct)
whose variant is one of the six the switch names and which is not the entry
`choose file to upload` that the branch for a differing widget count of
`LoadImage` and `LoadImageMask` writes, the `Properties` map of the node holds
under the name of the property a copy at an address of its own: same variant,
name, value and serializability, bound to this node (`TargetNode`) with the
position in the declaration list as widget index, and the first input slot of
that name, if there is one, has this copy as its `Property`. -/
theorem C11_declared_properties_bound (decoded : Document) (node_objects : NodeObjects)
    (t : Graph) (hload : NewGraphFromJsonReader decoded node_objects = Except.ok t)
    (ptr : Nat) (n : GraphNode) (hn : t.Nodes[ptr]? = some n)
    (nobject : NodeObject) (hcat : node_objects.GetNodeObjectByName n.TypeName = some nobject)
    (hnd : (nobject.SettableProperties.map (fun p => p.Name)).Nodup)
    (pindex : Nat) (prop : PropertyData)
    (hprop : nobject.SettableProperties[pindex]? = some prop)
    (hkind : prop.Kind ≠ PropertyKind.ImageUploadProperty)
    (hname : prop.Name ≠ "choose file to upload" ∨
      n.WidgetValues.length = nobject.SettableProperties.length ∨
      (nobject.Name ≠ "LoadImage" ∧ nobject.Name ≠ "LoadImageMask")) :
    ∃ addr d, GoMap.get? n.Properties prop.Name = some (some addr) ∧
      t.Heap[addr]? = some d ∧
      d.Kind = prop.Kind ∧ d.Name = prop.Name ∧ d.Value = prop.Value ∧
      d.Serialize = prop.Serialize ∧ d.Parent = some addr ∧ d.TargetNode = some ptr ∧
      d.TargetIndex = (pindex : Int) ∧
      BoundToFirst n.Inputs prop.Name addr := by
  have hlen := (CreateNodeProperties_frame _ _ _ hload).1
  unfold NewGraphFromJsonReader CreateNodeProperties at hload
  split at hload
  · cases hload
  · rename_i r hr
    obtain ⟨_, _, a3, a4⟩ := bindNodes_at node_objects _ _ _ _ _ _ hr rfl
    obtain ⟨F, Fn⟩ := processPrimitives_primitiveFrame _ _ _ hload
    have hlt : ptr < (UnmarshalJSON decoded).Nodes.length := by
      rw [← hlen]; exact (List.getElem?_eq_some.1 hn).1
    obtain ⟨n0, hn0⟩ : ∃ n0, (UnmarshalJSON decoded).Nodes[ptr]? = some n0 :=
      ⟨_, List.getElem?_eq_getElem hlt⟩
    obtain ⟨heapi, ri, b1, b2, b3⟩ := a3 ptr n0 hn0
    rw [Nat.zero_add] at b1 b2
    have hhead := bindNode_header _ _ _ _ _ b1
    obtain ⟨m, hm, _, _, hmty⟩ := withoutProperties_eq ((F.2.2.1 ptr).symm) hn
    have hm2 : r.1[ptr]? = some m := hm
    rw [b2] at hm2
    cases hm2
    have hty0 : n0.TypeName = n.TypeName := (header_fields hhead).1.symm.trans hmty
    have hcat0 : node_objects.GetNodeObjectByName n0.TypeName = some nobject := by
      rw [hty0]; exact hcat
    have hnot : ptr ∉ r.2.2 := by
      intro hin
      rcases a4 ptr hin with h | ⟨i, n1, e, hi, hc⟩
      · cases h
      · rw [Nat.zero_add] at e
        subst e
        rw [hn0] at hi
        cases hi
        rw [hcat0] at hc
        cases hc
    have hnode : t.Nodes[ptr]? = some ri.1 := by
      rw [Fn ptr hnot]; exact b2
    rw [hn] at hnode
    cases hnode
    have hw : n0.WidgetValues = ri.1.WidgetValues := (header_fields hhead).2.symm
    obtain ⟨addr, c1, c2, c3⟩ := bindNode_bound node_objects ptr n0 heapi ri b1 nobject hcat0
      hnd pindex prop hprop hkind (by rw [hw]; exact hname)
    obtain ⟨d, hd, hds⟩ := F.2.2.2 addr _ (b3 addr _ c2)
    obtain ⟨e1, e2, e3⟩ := withoutSecondaries_eq hds
    have e4 : d.withoutSecondaries.Serialize
        = (prop.boundTo addr ptr pindex).withoutSecondaries.Serialize := by rw [hds]
    have e5 : d.withoutSecondaries.Parent
        = (prop.boundTo addr ptr pindex).withoutSecondaries.Parent := by rw [hds]
    have e6 : d.withoutSecondaries.TargetNode
        = (prop.boundTo addr ptr pindex).withoutSecondaries.TargetNode := by rw [hds]
    have e7 : d.withoutSecondaries.TargetIndex
        = (prop.boundTo addr ptr pindex).withoutSecondaries.TargetIndex := by rw [hds]
    exact ⟨addr, d, c1, hd, e1, e2, e3, e4, e5, e6, e7, c3⟩

/-- Witness of `C11_declared_properties_bound`: in the graph loaded from
`linkedSeedDocument` the node 2 has the catalog entry `KSampler`, whose first
declared property is `seed`; its copy is bound to the node and to the input slot
`seed`. -/
theorem C11_declared_properties_bound_witness :
    ∃ addr d,
      GoMap.get? ((loadedGraph linkedSeedDocument widgetCatalog).nodeAt 1).Properties "seed"
        = some (some addr) ∧
      (loadedGraph linkedSeedDocument widgetCatalog).Heap[addr]? = some d ∧
      d.Kind = PropertyKind.IntProperty ∧ d.Name = "seed" ∧ d.Value = Value.int 5 ∧
      d.Serialize = true ∧ d.Parent = some addr ∧ d.TargetNode = some 1 ∧
      d.TargetIndex = ((0 : Nat) : Int) ∧
      BoundToFirst ((loadedGraph linkedSeedDocument widgetCatalog).nodeAt 1).Inputs "seed" addr :=
  C11_declared_properties_bound linkedSeedDocument widgetCatalog
    (loadedGraph linkedSeedDocument widgetCatalog) rfl 1
    ((loadedGraph linkedSeedDocument widgetCatalog).nodeAt 1) rfl
    { Name := "KSampler", DisplayName := "KSampler",
      SettableProperties :=
        [{ Kind := PropertyKind.IntProperty, Name := "seed", Value := Value.int 5 },
         boolProperty,
         { Kind := PropertyKind.BoolProperty, Name := "tiled", Value := Value.bool false }] }
    rfl (by decide) 0
    { Kind := PropertyKind.IntProperty, Name := "seed", Value := Value.int 5 } rfl
    (by decide) (Or.inl (by decide))

end graphapi

namespace sort

variable {α : Type}

/-! ### `sort.Sort` sorts its argument -/

/-! ### `sort.Sort` sorts: frames and keys -/

theorem Swap_length (data : List α) (i j : Nat) : (Swap data i j).length = data.length :=
  (Swap_perm data i j).length_eq

theorem Swap_getElem? (data : List α) (i j k : Nat) (hi : i < data.length)
    (hj : j < data.length) :
    (Swap data i j)[k]? = if k = j then data[i]? else if k = i then data[j]? else data[k]? := by
  unfold Swap
  rw [List.getElem?_eq_getElem hi, List.getElem?_eq_getElem hj]
  simp only
  rw [List.getElem?_set]
  by_cases h1 : j = k
  · subst h1
    simp [hi, hj]
  · have h1' : ¬ k = j := fun e => h1 e.symm
    simp only [h1, if_false, h1']
    rw [List.getElem?_set]
    by_cases h2 : i = k
    · subst h2
      simp [hi]
    · have h2' : ¬ k = i := fun e => h2 e.symm
      simp only [h2, if_false, h2']

theorem Swap_of_not_lt (data : List α) (i j : Nat) (h : ¬ (i < data.length ∧ j < data.length)) :
    Swap data i j = data := by
  unfold Swap
  by_cases hi : i < data.length
  · have hj : ¬ j < data.length := fun hj => h ⟨hi, hj⟩
    rw [List.getElem?_eq_none (Nat.le_of_not_lt hj)]
    cases data[i]? <;> rfl
  · rw [List.getElem?_eq_none (Nat.le_of_not_lt hi)]

theorem Frame.frameRefl (a b : Nat) (data : List α) : Frame a b data data := fun _ _ => rfl

theorem Frame.frameTrans {a b : Nat} {d1 d2 d3 : List α} (h1 : Frame a b d1 d2)
    (h2 : Frame a b d2 d3) : Frame a b d1 d3 :=
  fun i hi => (h2 i hi).trans (h1 i hi)

theorem Frame.frameMono {a b a2 b2 : Nat} {d1 d2 : List α} (h : Frame a2 b2 d1 d2)
    (ha : a ≤ a2) (hb : b2 ≤ b) : Frame a b d1 d2 :=
  fun i hi => h i (by omega)

theorem Swap_frame (data : List α) (a b i j : Nat) (hi : a ≤ i ∧ i < b) (hj : a ≤ j ∧ j < b) :
    Frame a b data (Swap data i j) := by
  intro k hk
  by_cases h : i < data.length ∧ j < data.length
  · rw [Swap_getElem? data i j k h.1 h.2]
    have h1 : ¬ k = j := by omega
    have h2 : ¬ k = i := by omega
    simp only [h1, h2, if_false]
  · rw [Swap_of_not_lt data i j h]

theorem Within.withinRefl (a b : Nat) (data : List α) : Within a b data data :=
  ⟨Frame.frameRefl a b data, List.Perm.refl _⟩

theorem Within.withinTrans {a b : Nat} {d1 d2 d3 : List α} (h1 : Within a b d1 d2)
    (h2 : Within a b d2 d3) : Within a b d1 d3 :=
  ⟨h1.1.frameTrans h2.1, h2.2.trans h1.2⟩

theorem Within.withinMono {a b a2 b2 : Nat} {d1 d2 : List α} (h : Within a2 b2 d1 d2)
    (ha : a ≤ a2) (hb : b2 ≤ b) : Within a b d1 d2 :=
  ⟨h.1.frameMono ha hb, h.2⟩

theorem Within.length {a b : Nat} {d1 d2 : List α} (h : Within a b d1 d2) :
    d2.length = d1.length := h.2.length_eq

theorem Swap_within (data : List α) (a b i j : Nat) (hi : a ≤ i ∧ i < b) (hj : a ≤ j ∧ j < b) :
    Within a b data (Swap data i j) :=
  ⟨Swap_frame data a b i j hi hj, Swap_perm data i j⟩

theorem keyAt_of_frame (key : α → Int) {a b : Nat} {d1 d2 : List α} (h : Frame a b d1 d2)
    (i : Nat) (hi : i < a ∨ b ≤ i) : keyAt key d2 i = keyAt key d1 i := by
  unfold keyAt
  rw [h i hi]

theorem Less_eq_key (less : α → α → Bool) (key : α → Int)
    (hless : ∀ x y, less x y = decide (key x < key y)) (data : List α) (i j : Nat)
    (hi : i < data.length) (hj : j < data.length) :
    Less less data i j = decide (keyAt key data i < keyAt key data j) := by
  unfold Less keyAt
  rw [List.getElem?_eq_getElem hi, List.getElem?_eq_getElem hj]
  exact hless _ _

theorem keyAt_Swap (key : α → Int) (data : List α) (i j k : Nat) (hi : i < data.length)
    (hj : j < data.length) :
    keyAt key (Swap data i j) k
      = if k = j then keyAt key data i else if k = i then keyAt key data j
        else keyAt key data k := by
  unfold keyAt
  rw [Swap_getElem? data i j k hi hj]
  by_cases h1 : k = j
  · simp only [h1, if_true]
  · simp only [h1, if_false]
    by_cases h2 : k = i
    · simp only [h2, if_true]
    · simp only [h2, if_false]

theorem split_range (data : List α) (a b : Nat) (hab : a ≤ b) :
    data = data.take a ++ ((data.drop a).take (b - a) ++ data.drop b) := by
  have h1 : data = data.take a ++ data.drop a := (List.take_append_drop a data).symm
  have h2 : data.drop a = (data.drop a).take (b - a) ++ (data.drop a).drop (b - a) :=
    (List.take_append_drop (b - a) (data.drop a)).symm
  have h3 : (data.drop a).drop (b - a) = data.drop b := by
    rw [List.drop_drop]
    congr 1
    omega
  rw [h3] at h2
  rw [← h2]
  exact h1

theorem Frame.take_eq {a b : Nat} {d1 d2 : List α} (h : Frame a b d1 d2) :
    d2.take a = d1.take a := by
  apply List.ext_getElem?
  intro i
  rw [List.getElem?_take, List.getElem?_take]
  by_cases hi : i < a
  · simp only [hi, if_true]
    exact h i (Or.inl hi)
  · simp only [hi, if_false]

theorem Frame.drop_eq {a b : Nat} {d1 d2 : List α} (h : Frame a b d1 d2) :
    d2.drop b = d1.drop b := by
  apply List.ext_getElem?
  intro i
  rw [List.getElem?_drop, List.getElem?_drop]
  exact h (b + i) (Or.inr (Nat.le_add_right _ _))

theorem Within.slice_perm {a b : Nat} {d1 d2 : List α} (h : Within a b d1 d2) (hab : a ≤ b) :
    ((d2.drop a).take (b - a)).Perm ((d1.drop a).take (b - a)) := by
  have hp : (d2.take a ++ ((d2.drop a).take (b - a) ++ d2.drop b)).Perm
      (d1.take a ++ ((d1.drop a).take (b - a) ++ d1.drop b)) := by
    rw [← split_range d1 a b hab, ← split_range d2 a b hab]
    exact h.2
  rw [h.1.take_eq, h.1.drop_eq, List.perm_append_left_iff, List.perm_append_right_iff] at hp
  exact hp

theorem mem_slice (data : List α) (a b : Nat) (x : α) :
    x ∈ (data.drop a).take (b - a) ↔ ∃ i, a ≤ i ∧ i < b ∧ data[i]? = some x := by
  constructor
  · intro hx
    obtain ⟨i, hi⟩ := List.getElem?_of_mem hx
    rw [List.getElem?_take] at hi
    by_cases hlt : i < b - a
    · simp only [hlt, if_true, List.getElem?_drop] at hi
      exact ⟨a + i, by omega, by omega, hi⟩
    · simp only [hlt, if_false] at hi
      cases hi
  · rintro ⟨i, hai, hib, hi⟩
    apply List.getElem?_mem (n := i - a)
    rw [List.getElem?_take]
    have hlt : i - a < b - a := by omega
    simp only [hlt, if_true, List.getElem?_drop]
    have e : a + (i - a) = i := by omega
    rw [e]
    exact hi

/-- A bound that holds for the keys of a range holds for them after the range has
been rearranged. -/
theorem Within.forall_key (key : α → Int) {a b : Nat} {d1 d2 : List α} (h : Within a b d1 d2)
    (hab : a ≤ b) (hb : b ≤ d1.length) (P : Int → Prop)
    (hP : ∀ i, a ≤ i → i < b → P (keyAt key d1 i)) :
    ∀ i, a ≤ i → i < b → P (keyAt key d2 i) := by
  intro i hai hib
  have hlt : i < d2.length := by rw [h.length]; omega
  have hx : d2[i]? = some d2[i] := List.getElem?_eq_getElem hlt
  have hmem : d2[i] ∈ (d2.drop a).take (b - a) := (mem_slice d2 a b _).2 ⟨i, hai, hib, hx⟩
  have hmem1 := (h.slice_perm hab).mem_iff.1 hmem
  obtain ⟨j, haj, hjb, hj⟩ := (mem_slice d1 a b _).1 hmem1
  have := hP j haj hjb
  unfold keyAt at this ⊢
  rw [hj] at this
  rw [hx]
  exact this

theorem reverseRangeLoop_frame (a b : Nat) :
    ∀ (fuel i j : Nat) (data : List α), a ≤ i → j < b →
      Frame a b data (reverseRangeLoop fuel i j data) := by
  intro fuel
  induction fuel with
  | zero => intro i j data _ _; exact Frame.frameRefl _ _ _
  | succ fuel ih =>
    intro i j data hi hj
    unfold reverseRangeLoop
    by_cases h : i < j
    · rw [if_pos h]
      exact (Swap_frame data a b i j ⟨hi, by omega⟩ ⟨by omega, hj⟩).frameTrans
        (ih (i + 1) (j - 1) _ (by omega) (by omega))
    · rw [if_neg h]
      exact Frame.frameRefl _ _ _

theorem reverseRange_frame (data : List α) (a b : Nat) :
    Frame a b data (reverseRange data a b) := by
  unfold reverseRange
  by_cases h : a < b
  · exact reverseRangeLoop_frame a b _ _ _ data (Nat.le_refl _) (by omega)
  · cases hf : b - a with
    | zero => exact Frame.frameRefl _ _ _
    | succ f =>
      unfold reverseRangeLoop
      rw [if_neg (by omega)]
      exact Frame.frameRefl _ _ _

theorem bitsLenLoop_zero (fuel : Nat) : bitsLenLoop fuel 0 = 0 := by
  cases fuel <;> simp [bitsLenLoop]

theorem two_pow_bitsLenLoop :
    ∀ (fuel x : Nat), 1 ≤ x → 2 ^ bitsLenLoop fuel x ≤ 2 * x := by
  intro fuel
  induction fuel with
  | zero => intro x hx; simp only [bitsLenLoop, Nat.pow_zero]; omega
  | succ fuel ih =>
    intro x hx
    unfold bitsLenLoop
    have hx0 : ¬ x = 0 := by omega
    rw [if_neg hx0, Nat.pow_succ]
    by_cases h2 : x / 2 = 0
    · rw [h2, bitsLenLoop_zero, Nat.pow_zero]
      omega
    · have := ih (x / 2) (by omega)
      omega

theorem nextPowerOfTwo_le (length : Nat) (h : 1 ≤ length) :
    nextPowerOfTwo length ≤ 2 * length := by
  unfold nextPowerOfTwo bitsLen
  rw [Nat.shiftLeft_eq, Nat.one_mul]
  exact two_pow_bitsLenLoop _ _ h

theorem nextPowerOfTwo_pos (length : Nat) : 0 < nextPowerOfTwo length := by
  unfold nextPowerOfTwo
  rw [Nat.shiftLeft_eq, Nat.one_mul]
  exact Nat.pow_pos (by omega)

theorem breakPatternsLoop_frame (a b length modulus idx : Nat) (hlen : b = a + length)
    (hmod : 0 < modulus ∧ modulus ≤ 2 * length) :
    ∀ (n i random : Nat) (data : List α), a ≤ idx → idx + i + n ≤ b →
      Frame a b data (breakPatternsLoop a length modulus idx n i random data) := by
  intro n
  induction n with
  | zero => intro i random data _ _; exact Frame.frameRefl _ _ _
  | succ n ih =>
    intro i random data h1 h2
    unfold breakPatternsLoop
    simp only
    have hlt : xorshiftNext random % modulus < modulus := Nat.mod_lt _ hmod.1
    have hother : (if length ≤ xorshiftNext random % modulus
        then xorshiftNext random % modulus - length
        else xorshiftNext random % modulus) < length := by
      split <;> omega
    exact (Swap_frame data a b _ _ ⟨by omega, by omega⟩ ⟨by omega, by omega⟩).frameTrans
      (ih (i + 1) _ _ h1 (by omega))

theorem breakPatterns_frame (data : List α) (a b : Nat) (hab : a ≤ b) :
    Frame a b data (breakPatterns data a b) := by
  unfold breakPatterns
  simp only
  by_cases h : 8 ≤ b - a
  · rw [if_pos h]
    apply breakPatternsLoop_frame a b (b - a) _ _ (by omega)
      ⟨nextPowerOfTwo_pos _, nextPowerOfTwo_le _ (by omega)⟩
    · have : 2 ≤ (b - a) / 4 := by omega
      omega
    · have : (b - a) / 4 * 2 ≤ (b - a) / 2 := by omega
      omega
  · rw [if_neg h]
    exact Frame.frameRefl _ _ _

theorem order2_cases (less : α → α → Bool) (data : List α) (a b swaps : Nat) :
    ((order2 less data a b swaps).1 = a ∧ (order2 less data a b swaps).2.1 = b) ∨
      ((order2 less data a b swaps).1 = b ∧ (order2 less data a b swaps).2.1 = a) := by
  unfold order2
  by_cases h : Less less data b a = true
  · rw [if_pos h]
    exact Or.inr ⟨rfl, rfl⟩
  · rw [if_neg h]
    exact Or.inl ⟨rfl, rfl⟩

theorem median_mem (less : α → α → Bool) (data : List α) (a b c swaps : Nat) :
    (median less data a b c swaps).1 = a ∨ (median less data a b c swaps).1 = b ∨
      (median less data a b c swaps).1 = c := by
  unfold median
  simp only
  have c1 := order2_cases less data a b swaps
  generalize order2 less data a b swaps = r1 at c1 ⊢
  have c2 := order2_cases less data r1.2.1 c r1.2.2
  generalize order2 less data r1.2.1 c r1.2.2 = r2 at c2 ⊢
  have c3 := order2_cases less data r1.1 r2.1 r2.2.2
  generalize order2 less data r1.1 r2.1 r2.2.2 = r3 at c3 ⊢
  omega

theorem medianAdjacent_range (less : α → α → Bool) (data : List α) (a swaps : Nat) :
    a - 1 ≤ (medianAdjacent less data a swaps).1 ∧
      (medianAdjacent less data a swaps).1 ≤ a + 1 := by
  unfold medianAdjacent
  rcases median_mem less data (a - 1) a (a + 1) swaps with h | h | h <;> rw [h] <;> omega

theorem choosePivot_range (less : α → α → Bool) (data : List α) (a b : Nat) (hab : a < b) :
    a ≤ (choosePivot less data a b).1 ∧ (choosePivot less data a b).1 < b := by
  have key : ∀ r : Nat × Nat, a ≤ r.1 ∧ r.1 < b →
      a ≤ (if r.2 = 0 then (r.1, sortedHint.increasingHint)
        else if r.2 = 12 then (r.1, sortedHint.decreasingHint)
        else (r.1, sortedHint.unknownHint)).1 ∧
      (if r.2 = 0 then (r.1, sortedHint.increasingHint)
        else if r.2 = 12 then (r.1, sortedHint.decreasingHint)
        else (r.1, sortedHint.unknownHint)).1 < b := by
    intro r hr
    split
    · exact hr
    · split
      · exact hr
      · exact hr
  unfold choosePivot
  simp only
  apply key
  by_cases h8 : 8 ≤ b - a
  · rw [if_pos h8]
    have hq : 2 ≤ (b - a) / 4 := by omega
    have hq3 : (b - a) / 4 * 3 + 1 < b - a := by omega
    by_cases h50 : 50 ≤ b - a
    · rw [if_pos h50]
      have h1 := medianAdjacent_range less data (a + (b - a) / 4 * 1) 0
      have h2 := medianAdjacent_range less data (a + (b - a) / 4 * 2)
        (medianAdjacent less data (a + (b - a) / 4 * 1) 0).2
      have h3 := medianAdjacent_range less data (a + (b - a) / 4 * 3)
        (medianAdjacent less data (a + (b - a) / 4 * 2)
          (medianAdjacent less data (a + (b - a) / 4 * 1) 0).2).2
      rcases median_mem less data
        (medianAdjacent less data (a + (b - a) / 4 * 1) 0).1
        (medianAdjacent less data (a + (b - a) / 4 * 2)
          (medianAdjacent less data (a + (b - a) / 4 * 1) 0).2).1
        (medianAdjacent less data (a + (b - a) / 4 * 3)
          (medianAdjacent less data (a + (b - a) / 4 * 2)
            (medianAdjacent less data (a + (b - a) / 4 * 1) 0).2).2).1
        (medianAdjacent less data (a + (b - a) / 4 * 3)
          (medianAdjacent less data (a + (b - a) / 4 * 2)
            (medianAdjacent less data (a + (b - a) / 4 * 1) 0).2).2).2 with h | h | h
      all_goals (rw [h]; omega)
    · rw [if_neg h50]
      rcases median_mem less data (a + (b - a) / 4 * 1) (a + (b - a) / 4 * 2)
        (a + (b - a) / 4 * 3) 0 with h | h | h
      all_goals (rw [h]; omega)
  · rw [if_neg h8]
    constructor
    · exact Nat.le_add_right _ _
    · show a + (b - a) / 4 * 2 < b
      omega

section keyed

variable (less : α → α → Bool) (key : α → Int)
variable (hless : ∀ x y, less x y = decide (key x < key y))

include hless

theorem Less_true_iff (data : List α) (i j : Nat) (hi : i < data.length)
    (hj : j < data.length) :
    Less less data i j = true ↔ keyAt key data i < keyAt key data j := by
  rw [Less_eq_key less key hless data i j hi hj]
  exact decide_eq_true_iff

theorem Less_false_iff (data : List α) (i j : Nat) (hi : i < data.length)
    (hj : j < data.length) :
    Less less data i j = false ↔ keyAt key data j ≤ keyAt key data i := by
  rw [Less_eq_key less key hless data i j hi hj]
  simp

theorem scanUp_spec (data : List α) (a j : Nat) (ha : a < data.length)
    (hj : j < data.length) :
    ∀ (fuel i : Nat), j + 1 - i ≤ fuel → i ≤ j + 1 →
      i ≤ scanUp less data a j fuel i ∧ scanUp less data a j fuel i ≤ j + 1 ∧
      (∀ k, i ≤ k → k < scanUp less data a j fuel i → keyAt key data k < keyAt key data a) ∧
      (scanUp less data a j fuel i ≤ j →
        keyAt key data a ≤ keyAt key data (scanUp less data a j fuel i)) := by
  intro fuel
  induction fuel with
  | zero =>
    intro i hf hi
    unfold scanUp
    exact ⟨Nat.le_refl _, hi, fun k h1 h2 => by omega, fun h => by omega⟩
  | succ fuel ih =>
    intro i hf hi
    unfold scanUp
    by_cases hc : i ≤ j ∧ Less less data i a = true
    · rw [if_pos hc]
      obtain ⟨h1, h2, h3, h4⟩ := ih (i + 1) (by omega) (by omega)
      refine ⟨by omega, h2, ?_, h4⟩
      intro k hk1 hk2
      by_cases hki : k = i
      · subst hki
        exact (Less_true_iff less key hless data k a (by omega) ha).1 hc.2
      · exact h3 k (by omega) hk2
    · rw [if_neg hc]
      refine ⟨Nat.le_refl _, hi, fun k h1 h2 => by omega, ?_⟩
      intro hij
      have : Less less data i a = false := by
        cases h : Less less data i a with
        | false => rfl
        | true => exact absurd ⟨hij, h⟩ hc
      exact (Less_false_iff less key hless data i a (by omega) ha).1 this

theorem scanDown_spec (data : List α) (a i : Nat) (ha : a < data.length) (hi1 : 1 ≤ i) :
    ∀ (fuel j : Nat), j + 1 - i ≤ fuel → i ≤ j + 1 → j < data.length →
      scanDown less data a i fuel j ≤ j ∧ i ≤ scanDown less data a i fuel j + 1 ∧
      (∀ k, scanDown less data a i fuel j < k → k ≤ j →
        keyAt key data a ≤ keyAt key data k) ∧
      (i ≤ scanDown less data a i fuel j →
        keyAt key data (scanDown less data a i fuel j) < keyAt key data a) := by
  intro fuel
  induction fuel with
  | zero =>
    intro j hf hj hjl
    unfold scanDown
    exact ⟨Nat.le_refl _, hj, fun k h1 h2 => by omega, fun h => by omega⟩
  | succ fuel ih =>
    intro j hf hj hjl
    unfold scanDown
    by_cases hc : i ≤ j ∧ Less less data j a = false
    · rw [if_pos hc]
      obtain ⟨h1, h2, h3, h4⟩ := ih (j - 1) (by omega) (by omega) (by omega)
      refine ⟨by omega, h2, ?_, h4⟩
      intro k hk1 hk2
      by_cases hkj : k = j
      · subst hkj
        exact (Less_false_iff less key hless data k a hjl ha).1 hc.2
      · exact h3 k hk1 (by omega)
    · rw [if_neg hc]
      refine ⟨Nat.le_refl _, hj, fun k h1 h2 => by omega, ?_⟩
      intro hij
      have : Less less data j a = true := by
        cases h : Less less data j a with
        | true => rfl
        | false => exact absurd ⟨hij, h⟩ hc
      exact (Less_true_iff less key hless data j a hjl ha).1 this

end keyed

section keyed

variable (less : α → α → Bool) (key : α → Int)
variable (hless : ∀ x y, less x y = decide (key x < key y))

include hless

/-- The main loop of `partition`: when the elements in front of `i` are less than
the pivot `data[a]` and those behind `j` are not, the loop ends with the range
behind `a` split at the returned index. -/
theorem partitionLoop_spec (a b : Nat) :
    ∀ (fuel : Nat) (data : List α) (i j : Nat),
      a + 1 ≤ i → j < b → i ≤ j + 1 → b ≤ data.length → j + 1 - i ≤ fuel →
      (∀ k, a + 1 ≤ k → k < i → keyAt key data k < keyAt key data a) →
      (∀ k, j < k → k < b → keyAt key data a ≤ keyAt key data k) →
      Within (a + 1) b data (partitionLoop less a fuel data i j).1 ∧
      a ≤ (partitionLoop less a fuel data i j).2 ∧ (partitionLoop less a fuel data i j).2 < b ∧
      (∀ k, a + 1 ≤ k → k ≤ (partitionLoop less a fuel data i j).2 →
        keyAt key (partitionLoop less a fuel data i j).1 k
          < keyAt key (partitionLoop less a fuel data i j).1 a) ∧
      (∀ k, (partitionLoop less a fuel data i j).2 < k → k < b →
        keyAt key (partitionLoop less a fuel data i j).1 a
          ≤ keyAt key (partitionLoop less a fuel data i j).1 k) := by
  intro fuel
  induction fuel with
  | zero =>
    intro data i j hi hj hij hb hf hlo hhi
    unfold partitionLoop
    refine ⟨Within.withinRefl _ _ _, by omega, hj, ?_, hhi⟩
    intro k hk1 hk2
    exact hlo k hk1 (by omega)
  | succ fuel ih =>
    intro data i j hi hj hij hb hf hlo hhi
    unfold partitionLoop
    simp only
    obtain ⟨u1, u2, u3, u4⟩ := scanUp_spec less key hless data a j (by omega) (by omega)
      (j + 1 - i) i (Nat.le_refl _) hij
    generalize scanUp less data a j (j + 1 - i) i = i2 at u1 u2 u3 u4 ⊢
    obtain ⟨d1, d2, d3, d4⟩ := scanDown_spec less key hless data a i2 (by omega) (by omega)
      (j + 1 - i2) j (Nat.le_refl _) u2 (by omega)
    generalize scanDown less data a i2 (j + 1 - i2) j = j2 at d1 d2 d3 d4 ⊢
    by_cases hc : j2 < i2
    · rw [if_pos hc]
      refine ⟨Within.withinRefl _ _ _, by omega, by omega, ?_, ?_⟩
      · intro k hk1 hk2
        by_cases hki : k < i
        · exact hlo k hk1 hki
        · exact u3 k (by omega) (by omega)
      · intro k hk1 hk2
        by_cases hkj : k ≤ j
        · exact d3 k hk1 hkj
        · exact hhi k (by omega) hk2
    · rw [if_neg hc]
      have h4 := u4 (by omega)
      have h5 := d4 (by omega)
      have hne : i2 < j2 := by
        by_cases e : i2 = j2
        · subst e; omega
        · omega
      have hil : i2 < data.length := by omega
      have hjl : j2 < data.length := by omega
      have hsw := Swap_within data (a + 1) b i2 j2 ⟨by omega, by omega⟩ ⟨by omega, by omega⟩
      have hka : keyAt key (Swap data i2 j2) a = keyAt key data a :=
        keyAt_of_frame key hsw.1 a (Or.inl (by omega))
      obtain ⟨r1, r2, r3, r4, r5⟩ := ih (Swap data i2 j2) (i2 + 1) (j2 - 1) (by omega)
        (by omega) (by omega) (by rw [Swap_length]; exact hb) (by omega)
        (by
          intro k hk1 hk2
          rw [hka, keyAt_Swap key data i2 j2 k hil hjl]
          by_cases e1 : k = j2
          · omega
          · rw [if_neg e1]
            by_cases e2 : k = i2
            · rw [if_pos e2]; exact h5
            · rw [if_neg e2]
              by_cases hki : k < i
              · exact hlo k hk1 hki
              · exact u3 k (by omega) (by omega))
        (by
          intro k hk1 hk2
          rw [hka, keyAt_Swap key data i2 j2 k hil hjl]
          by_cases e1 : k = j2
          · rw [if_pos e1]; exact h4
          · rw [if_neg e1]
            have e2 : ¬ k = i2 := by omega
            rw [if_neg e2]
            by_cases hkj : k ≤ j
            · exact d3 k (by omega) hkj
            · exact hhi k (by omega) hk2)
      exact ⟨hsw.withinTrans r1, r2, r3, r4, r5⟩

end keyed

theorem partition_eq (less : α → α → Bool) (data : List α) (a b pivot : Nat) :
    (partition less data a b pivot).1
        = Swap (partitionLoop less a (b - a + 1) (Swap data a pivot) (a + 1) (b - 1)).1
            (partitionLoop less a (b - a + 1) (Swap data a pivot) (a + 1) (b - 1)).2 a ∧
      (partition less data a b pivot).2.1
        = (partitionLoop less a (b - a + 1) (Swap data a pivot) (a + 1) (b - 1)).2 := by
  unfold partition
  rw [partitionLoop]
  simp only
  split <;> exact ⟨rfl, rfl⟩

section keyed

variable (less : α → α → Bool) (key : α → Int)
variable (hless : ∀ x y, less x y = decide (key x < key y))

include hless

/-- The function `partition`: the range is rearranged around the returned index
`mid`; the elements in front of it are less than `data[mid]`, those behind it
are not. -/
theorem partition_spec (data : List α) (a b pivot : Nat) (hab : a < b)
    (hb : b ≤ data.length) (hp : a ≤ pivot ∧ pivot < b) :
    Within a b data (partition less data a b pivot).1 ∧
    a ≤ (partition less data a b pivot).2.1 ∧ (partition less data a b pivot).2.1 < b ∧
    (∀ k, a ≤ k → k < (partition less data a b pivot).2.1 →
      keyAt key (partition less data a b pivot).1 k
        < keyAt key (partition less data a b pivot).1 (partition less data a b pivot).2.1) ∧
    (∀ k, (partition less data a b pivot).2.1 < k → k < b →
      keyAt key (partition less data a b pivot).1 (partition less data a b pivot).2.1
        ≤ keyAt key (partition less data a b pivot).1 k) := by
  obtain ⟨e1, e2⟩ := partition_eq less data a b pivot
  rw [e1, e2]
  have hsw0 := Swap_within data a b a pivot ⟨Nat.le_refl _, hab⟩ hp
  obtain ⟨r1, r2, r3, r4, r5⟩ := partitionLoop_spec less key hless a b (b - a + 1)
    (Swap data a pivot) (a + 1) (b - 1) (Nat.le_refl _) (by omega) (by omega)
    (by rw [Swap_length]; exact hb) (by omega) (fun k h1 h2 => by omega)
    (fun k h1 h2 => by omega)
  generalize partitionLoop less a (b - a + 1) (Swap data a pivot) (a + 1) (b - 1) = r
    at r1 r2 r3 r4 r5 ⊢
  have hlen : r.1.length = data.length := by rw [r1.length, Swap_length]
  have hjl : r.2 < r.1.length := by omega
  have hal : a < r.1.length := by omega
  refine ⟨(hsw0.withinTrans (r1.withinMono (by omega) (Nat.le_refl _))).withinTrans
    (Swap_within r.1 a b r.2 a ⟨r2, r3⟩ ⟨Nat.le_refl _, hab⟩), r2, r3, ?_, ?_⟩
  · intro k hk1 hk2
    rw [keyAt_Swap key r.1 r.2 a k hjl hal, keyAt_Swap key r.1 r.2 a r.2 hjl hal]
    by_cases e : k = a
    · rw [if_pos e]
      have hne : ¬ r.2 = a := by omega
      rw [if_neg hne, if_pos rfl]
      exact r4 r.2 (by omega) (Nat.le_refl _)
    · rw [if_neg e]
      have e2 : ¬ k = r.2 := by omega
      rw [if_neg e2]
      by_cases e3 : r.2 = a
      · omega
      · rw [if_neg e3, if_pos rfl]
        exact r4 k (by omega) (by omega)
  · intro k hk1 hk2
    rw [keyAt_Swap key r.1 r.2 a k hjl hal, keyAt_Swap key r.1 r.2 a r.2 hjl hal]
    have e1 : ¬ k = a := by omega
    have e2 : ¬ k = r.2 := by omega
    rw [if_neg e1, if_neg e2]
    by_cases e3 : r.2 = a
    · rw [if_pos e3]
      rw [e3] at hk1
      have := r5 k (by omega) hk2
      rw [e3]
      exact this
    · rw [if_neg e3, if_pos rfl]
      exact r5 k hk1 hk2

end keyed

section keyed

variable (less : α → α → Bool) (key : α → Int)
variable (hless : ∀ x y, less x y = decide (key x < key y))

include hless

theorem scanUpEq_spec (data : List α) (a j : Nat) (ha : a < data.length)
    (hj : j < data.length) :
    ∀ (fuel i : Nat), j + 1 - i ≤ fuel → i ≤ j + 1 →
      i ≤ scanUpEq less data a j fuel i ∧ scanUpEq less data a j fuel i ≤ j + 1 ∧
      (∀ k, i ≤ k → k < scanUpEq less data a j fuel i →
        keyAt key data k ≤ keyAt key data a) ∧
      (scanUpEq less data a j fuel i ≤ j →
        keyAt key data a < keyAt key data (scanUpEq less data a j fuel i)) := by
  intro fuel
  induction fuel with
  | zero =>
    intro i hf hi
    unfold scanUpEq
    exact ⟨Nat.le_refl _, hi, fun k h1 h2 => by omega, fun h => by omega⟩
  | succ fuel ih =>
    intro i hf hi
    unfold scanUpEq
    by_cases hc : i ≤ j ∧ Less less data a i = false
    · rw [if_pos hc]
      obtain ⟨h1, h2, h3, h4⟩ := ih (i + 1) (by omega) (by omega)
      refine ⟨by omega, h2, ?_, h4⟩
      intro k hk1 hk2
      by_cases hki : k = i
      · subst hki
        exact (Less_false_iff less key hless data a k ha (by omega)).1 hc.2
      · exact h3 k (by omega) hk2
    · rw [if_neg hc]
      refine ⟨Nat.le_refl _, hi, fun k h1 h2 => by omega, ?_⟩
      intro hij
      have : Less less data a i = true := by
        cases h : Less less data a i with
        | true => rfl
        | false => exact absurd ⟨hij, h⟩ hc
      exact (Less_true_iff less key hless data a i ha (by omega)).1 this

theorem scanDownEq_spec (data : List α) (a i : Nat) (ha : a < data.length) (hi1 : 1 ≤ i) :
    ∀ (fuel j : Nat), j + 1 - i ≤ fuel → i ≤ j + 1 → j < data.length →
      scanDownEq less data a i fuel j ≤ j ∧ i ≤ scanDownEq less data a i fuel j + 1 ∧
      (i ≤ scanDownEq less data a i fuel j →
        keyAt key data (scanDownEq less data a i fuel j) ≤ keyAt key data a) := by
  intro fuel
  induction fuel with
  | zero =>
    intro j hf hj hjl
    unfold scanDownEq
    exact ⟨Nat.le_refl _, hj, fun h => by omega⟩
  | succ fuel ih =>
    intro j hf hj hjl
    unfold scanDownEq
    by_cases hc : i ≤ j ∧ Less less data a j = true
    · rw [if_pos hc]
      obtain ⟨h1, h2, h4⟩ := ih (j - 1) (by omega) (by omega) (by omega)
      exact ⟨by omega, h2, h4⟩
    · rw [if_neg hc]
      refine ⟨Nat.le_refl _, hj, ?_⟩
      intro hij
      have : Less less data a j = false := by
        cases h : Less less data a j with
        | false => rfl
        | true => exact absurd ⟨hij, h⟩ hc
      exact (Less_false_iff less key hless data a j ha hjl).1 this

/-- The loop of `partitionEqual`: the elements in front of the returned index are
not greater than the pivot `data[a]`. -/
theorem partitionEqualLoop_spec (a b : Nat) :
    ∀ (fuel : Nat) (data : List α) (i j : Nat),
      a + 1 ≤ i → j < b → i ≤ j + 1 → b ≤ data.length → j + 1 - i ≤ fuel →
      (∀ k, a + 1 ≤ k → k < i → keyAt key data k ≤ keyAt key data a) →
      Within (a + 1) b data (partitionEqualLoop less a fuel data i j).1 ∧
      a + 1 ≤ (partitionEqualLoop less a fuel data i j).2 ∧
      (partitionEqualLoop less a fuel data i j).2 ≤ b ∧
      (∀ k, a + 1 ≤ k → k < (partitionEqualLoop less a fuel data i j).2 →
        keyAt key (partitionEqualLoop less a fuel data i j).1 k
          ≤ keyAt key (partitionEqualLoop less a fuel data i j).1 a) := by
  intro fuel
  induction fuel with
  | zero =>
    intro data i j hi hj hij hb hf hlo
    unfold partitionEqualLoop
    exact ⟨Within.withinRefl _ _ _, hi, by omega, hlo⟩
  | succ fuel ih =>
    intro data i j hi hj hij hb hf hlo
    unfold partitionEqualLoop
    simp only
    obtain ⟨u1, u2, u3, u4⟩ := scanUpEq_spec less key hless data a j (by omega) (by omega)
      (j + 1 - i) i (Nat.le_refl _) hij
    generalize scanUpEq less data a j (j + 1 - i) i = i2 at u1 u2 u3 u4 ⊢
    obtain ⟨d1, d2, d4⟩ := scanDownEq_spec less key hless data a i2 (by omega) (by omega)
      (j + 1 - i2) j (Nat.le_refl _) u2 (by omega)
    generalize scanDownEq less data a i2 (j + 1 - i2) j = j2 at d1 d2 d4 ⊢
    have hall : ∀ k, a + 1 ≤ k → k < i2 → keyAt key data k ≤ keyAt key data a := by
      intro k hk1 hk2
      by_cases hki : k < i
      · exact hlo k hk1 hki
      · exact u3 k (by omega) hk2
    by_cases hc : j2 < i2
    · rw [if_pos hc]
      exact ⟨Within.withinRefl _ _ _, by omega, by omega, hall⟩
    · rw [if_neg hc]
      have h4 := u4 (by omega)
      have h5 := d4 (by omega)
      have hne : i2 < j2 := by
        by_cases e : i2 = j2
        · subst e; omega
        · omega
      have hil : i2 < data.length := by omega
      have hjl : j2 < data.length := by omega
      have hsw := Swap_within data (a + 1) b i2 j2 ⟨by omega, by omega⟩ ⟨by omega, by omega⟩
      have hka : keyAt key (Swap data i2 j2) a = keyAt key data a :=
        keyAt_of_frame key hsw.1 a (Or.inl (by omega))
      obtain ⟨r1, r2, r3, r4⟩ := ih (Swap data i2 j2) (i2 + 1) (j2 - 1) (by omega)
        (by omega) (by omega) (by rw [Swap_length]; exact hb) (by omega)
        (by
          intro k hk1 hk2
          rw [hka, keyAt_Swap key data i2 j2 k hil hjl]
          by_cases e1 : k = j2
          · omega
          · rw [if_neg e1]
            by_cases e2 : k = i2
            · rw [if_pos e2]; exact h5
            · rw [if_neg e2]
              exact hall k hk1 (by omega))
      exact ⟨hsw.withinTrans r1, r2, r3, r4⟩

/-- The function `partitionEqual`: the range is rearranged, and the elements in
front of the returned index are not greater than the pivot. -/
theorem partitionEqual_spec (data : List α) (a b pivot : Nat) (hab : a < b)
    (hb : b ≤ data.length) (hp : a ≤ pivot ∧ pivot < b) :
    Within a b data (partitionEqual less data a b pivot).1 ∧
    a + 1 ≤ (partitionEqual less data a b pivot).2 ∧
    (partitionEqual less data a b pivot).2 ≤ b ∧
    (∀ k, a ≤ k → k < (partitionEqual less data a b pivot).2 →
      keyAt key (partitionEqual less data a b pivot).1 k ≤ keyAt key data pivot) := by
  unfold partitionEqual
  have hsw0 := Swap_within data a b a pivot ⟨Nat.le_refl _, hab⟩ hp
  obtain ⟨r1, r2, r3, r4⟩ := partitionEqualLoop_spec less key hless a b (b - a + 1)
    (Swap data a pivot) (a + 1) (b - 1) (Nat.le_refl _) (by omega) (by omega)
    (by rw [Swap_length]; exact hb) (by omega) (fun k h1 h2 => by omega)
  generalize partitionEqualLoop less a (b - a + 1) (Swap data a pivot) (a + 1) (b - 1) = r
    at r1 r2 r3 r4 ⊢
  have hka : keyAt key r.1 a = keyAt key data pivot := by
    rw [keyAt_of_frame key r1.1 a (Or.inl (by omega)),
      keyAt_Swap key data a pivot a (by omega) (by omega)]
    by_cases e : a = pivot
    · rw [if_pos e, e]
    · rw [if_neg e, if_pos rfl]
  refine ⟨hsw0.withinTrans (r1.withinMono (by omega) (Nat.le_refl _)), r2, r3, ?_⟩
  intro k hk1 hk2
  by_cases e : k = a
  · rw [e, hka]
  · rw [← hka]
    exact r4 k (by omega) hk2

end keyed

/-- A range in which no element is less than the one before it is sorted. -/
theorem sortedOn_of_adjacent (key : α → Int) (data : List α) (a b : Nat)
    (h : ∀ k, a < k → k < b → keyAt key data (k - 1) ≤ keyAt key data k) :
    SortedOn key data a b := by
  intro i j hai hij hjb
  obtain ⟨d, rfl⟩ : ∃ d, j = i + d := ⟨j - i, by omega⟩
  clear hij
  induction d with
  | zero => exact Int.le_refl _
  | succ d ih =>
    have h1 := ih (by omega)
    have h2 := h (i + (d + 1)) (by omega) hjb
    have e : i + (d + 1) - 1 = i + d := by omega
    rw [e] at h2
    exact Int.le_trans h1 h2

theorem insertionSortInner_frame (less : α → α → Bool) (a b : Nat) :
    ∀ (j : Nat) (data : List α), j < b →
      Frame a b data (insertionSortInner less a j data) := by
  intro j
  induction j with
  | zero => intro data _; exact Frame.frameRefl _ _ _
  | succ j ih =>
    intro data hj
    unfold insertionSortInner
    by_cases hc : a < j + 1 ∧ Less less data (j + 1) j = true
    · rw [if_pos hc]
      exact (Swap_frame data a b (j + 1) j ⟨by omega, hj⟩ ⟨by omega, by omega⟩).frameTrans
        (ih _ (by omega))
    · rw [if_neg hc]
      exact Frame.frameRefl _ _ _

section keyed

variable (less : α → α → Bool) (key : α → Int)
variable (hless : ∀ x y, less x y = decide (key x < key y))

include hless

/-- The inner loop of `insertionSort`, started at `j` while the element it moves
stood at `t`: when the range `[a, t]` is sorted but for the pair `(j - 1, j)`,
it is sorted afterwards. -/
theorem insertionSortInner_sorted (a t : Nat) :
    ∀ (j : Nat) (data : List α), a ≤ j → j ≤ t → t < data.length →
      (∀ k, a < k → k ≤ t → k ≠ j → keyAt key data (k - 1) ≤ keyAt key data k) →
      (a < j → j < t → keyAt key data (j - 1) ≤ keyAt key data (j + 1)) →
      ∀ k, a < k → k ≤ t →
        keyAt key (insertionSortInner less a j data) (k - 1)
          ≤ keyAt key (insertionSortInner less a j data) k := by
  intro j
  induction j with
  | zero =>
    intro data ha _ _ h1 _ k hk1 hk2
    unfold insertionSortInner
    exact h1 k hk1 hk2 (by omega)
  | succ j ih =>
    intro data ha hjt ht h1 h2
    unfold insertionSortInner
    by_cases hc : a < j + 1 ∧ Less less data (j + 1) j = true
    · rw [if_pos hc]
      have hlt := (Less_true_iff less key hless data (j + 1) j (by omega) (by omega)).1 hc.2
      have sj : keyAt key (Swap data (j + 1) j) j = keyAt key data (j + 1) := by
        rw [keyAt_Swap key data (j + 1) j j (by omega) (by omega), if_pos rfl]
      have sj1 : keyAt key (Swap data (j + 1) j) (j + 1) = keyAt key data j := by
        rw [keyAt_Swap key data (j + 1) j (j + 1) (by omega) (by omega),
          if_neg (by omega), if_pos rfl]
      have so : ∀ k, k ≠ j → k ≠ j + 1 →
          keyAt key (Swap data (j + 1) j) k = keyAt key data k := by
        intro k e1 e2
        rw [keyAt_Swap key data (j + 1) j k (by omega) (by omega), if_neg e1, if_neg e2]
      apply ih (Swap data (j + 1) j) (by omega) (by omega) (by rw [Swap_length]; exact ht)
      · intro k hk1 hk2 hk3
        by_cases e1 : k = j + 1
        · subst e1
          rw [Nat.add_sub_cancel, sj, sj1]
          exact Int.le_of_lt hlt
        · by_cases e2 : k = j + 2
          · subst e2
            have e3 : j + 2 - 1 = j + 1 := by omega
            rw [e3, sj1, so (j + 2) (by omega) (by omega)]
            have := h2 hc.1 (by omega)
            simpa using this
          · rw [so (k - 1) (by omega) (by omega), so k hk3 e1]
            exact h1 k hk1 hk2 (by omega)
      · intro haj hjt2
        rw [so (j - 1) (by omega) (by omega), sj1]
        exact h1 j haj (by omega) (by omega)
    · rw [if_neg hc]
      intro k hk1 hk2
      by_cases e : k = j + 1
      · subst e
        have hnl : Less less data (j + 1) j = false := by
          cases h : Less less data (j + 1) j with
          | false => rfl
          | true => exact absurd ⟨hk1, h⟩ hc
        have := (Less_false_iff less key hless data (j + 1) j (by omega) (by omega)).1 hnl
        simpa using this
      · exact h1 k hk1 hk2 e

end keyed

section keyed

variable (less : α → α → Bool) (key : α → Int)
variable (hless : ∀ x y, less x y = decide (key x < key y))

include hless

/-- The outer loop of `insertionSort`: with `data[a:i]` sorted at the start, the
range `data[a:b]` is sorted at the end. -/
theorem insertionSortOuter_spec (a b : Nat) :
    ∀ (fuel i : Nat) (data : List α), a < i → i ≤ b → b ≤ data.length → b - i ≤ fuel →
      (∀ k, a < k → k < i → keyAt key data (k - 1) ≤ keyAt key data k) →
      Within a b data (insertionSortOuter less a b fuel i data) ∧
      ∀ k, a < k → k < b →
        keyAt key (insertionSortOuter less a b fuel i data) (k - 1)
          ≤ keyAt key (insertionSortOuter less a b fuel i data) k := by
  intro fuel
  induction fuel with
  | zero =>
    intro i data hai hib hb hf hs
    unfold insertionSortOuter
    exact ⟨Within.withinRefl _ _ _, fun k h1 h2 => hs k h1 (by omega)⟩
  | succ fuel ih =>
    intro i data hai hib hb hf hs
    unfold insertionSortOuter
    by_cases hc : i < b
    · rw [if_pos hc]
      have hfr : Within a b data (insertionSortInner less a i data) :=
        ⟨insertionSortInner_frame less a b i data hc, insertionSortInner_perm less a i data⟩
      have hsorted := insertionSortInner_sorted less key hless a i i data (by omega)
        (Nat.le_refl _) (by omega) (fun k h1 h2 h3 => hs k h1 (by omega))
        (fun _ h => by omega)
      obtain ⟨r1, r2⟩ := ih (i + 1) (insertionSortInner less a i data) (by omega) (by omega)
        (by rw [hfr.length]; exact hb) (by omega)
        (fun k h1 h2 => hsorted k h1 (by omega))
      exact ⟨hfr.withinTrans r1, r2⟩
    · rw [if_neg hc]
      exact ⟨Within.withinRefl _ _ _, fun k h1 h2 => hs k h1 (by omega)⟩

/-- The function `insertionSort` sorts `data[a:b]` and leaves the rest of the
slice as it is. -/
theorem insertionSort_spec (data : List α) (a b : Nat) (hab : a ≤ b) (hb : b ≤ data.length) :
    Within a b data (insertionSort less data a b) ∧
      SortedOn key (insertionSort less data a b) a b := by
  unfold insertionSort
  by_cases h : a < b
  · obtain ⟨r1, r2⟩ := insertionSortOuter_spec less key hless a b (b - a) (a + 1) data
      (by omega) (by omega) hb (by omega) (fun k h1 h2 => by omega)
    exact ⟨r1, sortedOn_of_adjacent key _ a b r2⟩
  · have e : b - a = 0 := by omega
    rw [e]
    unfold insertionSortOuter
    exact ⟨Within.withinRefl _ _ _, fun i j h1 h2 h3 => by omega⟩

end keyed

theorem shiftRight_frame (less : α → α → Bool) (i b : Nat) :
    ∀ (fuel j : Nat) (data : List α), i + 1 ≤ j →
      Frame i b data (shiftRight less b fuel j data) := by
  intro fuel
  induction fuel with
  | zero => intro j data _; exact Frame.frameRefl _ _ _
  | succ fuel ih =>
    intro j data hj
    unfold shiftRight
    by_cases hc : j < b ∧ Less less data j (j - 1) = true
    · rw [if_pos hc]
      exact (Swap_frame data i b j (j - 1) ⟨by omega, hc.1⟩ ⟨by omega, by omega⟩).frameTrans
        (ih (j + 1) _ (by omega))
    · rw [if_neg hc]
      exact Frame.frameRefl _ _ _

section keyed

variable (less : α → α → Bool) (key : α → Int)
variable (hless : ∀ x y, less x y = decide (key x < key y))

include hless

/-- The loop that shifts the smaller element to the left runs down to index 1; it
is the inner loop of `insertionSort` on `[a, j]` when the element in front of
the range is not greater than the element that is shifted. -/
theorem shiftLeft_eq_inner (a : Nat) :
    ∀ (j : Nat) (data : List α), a ≤ j → j < data.length →
      (a = 0 ∨ keyAt key data (a - 1) ≤ keyAt key data j) →
      shiftLeft less j data = insertionSortInner less a j data := by
  intro j
  induction j with
  | zero => intro data _ _ _; rfl
  | succ j ih =>
    intro data haj hj hlow
    unfold shiftLeft insertionSortInner
    by_cases ha : a < j + 1
    · by_cases hl : Less less data (j + 1) j = true
      · rw [if_pos hl, if_pos ⟨ha, hl⟩]
        apply ih _ (by omega) (by rw [Swap_length]; omega)
        rcases hlow with h0 | hlow
        · exact Or.inl h0
        · right
          rw [keyAt_Swap key data (j + 1) j (a - 1) (by omega) (by omega),
            keyAt_Swap key data (j + 1) j j (by omega) (by omega), if_pos rfl]
          by_cases e : a - 1 = j
          · omega
          · rw [if_neg e]
            by_cases e2 : a - 1 = j + 1
            · omega
            · rw [if_neg e2]
              exact hlow
      · rw [if_neg hl,
          if_neg (fun h : a < j + 1 ∧ Less less data (j + 1) j = true => hl h.2)]
    · have e : a = j + 1 := by omega
      rw [if_neg (fun h : a < j + 1 ∧ Less less data (j + 1) j = true => ha h.1)]
      rcases hlow with h0 | hlow
      · omega
      · have hnl : Less less data (j + 1) j = false := by
          apply (Less_false_iff less key hless data (j + 1) j (by omega) (by omega)).2
          rw [e] at hlow
          simpa using hlow
        rw [hnl]
        simp

theorem scanSorted_spec (data : List α) (a b : Nat) (hb : b ≤ data.length) :
    ∀ (fuel i : Nat), a < i → i ≤ b → b - i ≤ fuel →
      (∀ k, a < k → k < i → keyAt key data (k - 1) ≤ keyAt key data k) →
      i ≤ scanSorted less data b fuel i ∧ scanSorted less data b fuel i ≤ b ∧
      (∀ k, a < k → k < scanSorted less data b fuel i →
        keyAt key data (k - 1) ≤ keyAt key data k) := by
  intro fuel
  induction fuel with
  | zero =>
    intro i hai hib hf hs
    unfold scanSorted
    exact ⟨Nat.le_refl _, hib, hs⟩
  | succ fuel ih =>
    intro i hai hib hf hs
    unfold scanSorted
    by_cases hc : i < b ∧ Less less data i (i - 1) = false
    · rw [if_pos hc]
      have hle := (Less_false_iff less key hless data i (i - 1) (by omega) (by omega)).1 hc.2
      obtain ⟨r1, r2, r3⟩ := ih (i + 1) (by omega) (by omega) (by omega)
        (by
          intro k h1 h2
          by_cases e : k = i
          · subst e; exact hle
          · exact hs k h1 (by omega))
      exact ⟨by omega, r2, r3⟩
    · rw [if_neg hc]
      exact ⟨Nat.le_refl _, hib, hs⟩

/-- The loop of `partialInsertionSort`: the range is rearranged, and when the loop
reports it sorted, it is. -/
theorem partialInsertionSortLoop_spec (a b : Nat) :
    ∀ (steps i : Nat) (data : List α), a < i → i ≤ b → b ≤ data.length →
      (a = 0 ∨ ∀ k, a ≤ k → k < b → keyAt key data (a - 1) ≤ keyAt key data k) →
      (∀ k, a < k → k < i → keyAt key data (k - 1) ≤ keyAt key data k) →
      Within a b data (partialInsertionSortLoop less a b steps i data).1 ∧
      ((partialInsertionSortLoop less a b steps i data).2 = true →
        SortedOn key (partialInsertionSortLoop less a b steps i data).1 a b) := by
  intro steps
  induction steps with
  | zero =>
    intro i data _ _ _ _ _
    unfold partialInsertionSortLoop
    exact ⟨Within.withinRefl _ _ _, fun h => by cases h⟩
  | succ steps ih =>
    intro i data hai hib hb hlow hs
    unfold partialInsertionSortLoop
    simp only
    obtain ⟨s1, s2, s3⟩ := scanSorted_spec less key hless data a b hb (b - i) i hai hib
      (Nat.le_refl _) hs
    generalize scanSorted less data b (b - i) i = i2 at s1 s2 s3 ⊢
    by_cases h1 : i2 = b
    · rw [if_pos h1]
      refine ⟨Within.withinRefl _ _ _, fun _ => sortedOn_of_adjacent key data a b ?_⟩
      intro k hk1 hk2
      exact s3 k hk1 (by omega)
    · rw [if_neg h1]
      by_cases h2 : b - a < 50
      · rw [if_pos h2]
        exact ⟨Within.withinRefl _ _ _, fun h => by cases h⟩
      · rw [if_neg h2]
        have hi2 : i2 < data.length := by omega
        -- the swap of the pair that is out of order
        have w1 : Within a b data (Swap data i2 (i2 - 1)) :=
          Swap_within data a b i2 (i2 - 1) ⟨by omega, by omega⟩ ⟨by omega, by omega⟩
        have k1 : keyAt key (Swap data i2 (i2 - 1)) (i2 - 1) = keyAt key data i2 := by
          rw [keyAt_Swap key data i2 (i2 - 1) (i2 - 1) hi2 (by omega), if_pos rfl]
        have k1o : ∀ k, k < i2 - 1 →
            keyAt key (Swap data i2 (i2 - 1)) k = keyAt key data k := by
          intro k hk
          rw [keyAt_Swap key data i2 (i2 - 1) k hi2 (by omega), if_neg (by omega),
            if_neg (by omega)]
        -- the shift to the left
        have w2 : Within a b (Swap data i2 (i2 - 1))
            (if 2 ≤ i2 - a then shiftLeft less (i2 - 1) (Swap data i2 (i2 - 1))
              else Swap data i2 (i2 - 1)) ∧
            ∀ k, a < k → k < i2 →
              keyAt key (if 2 ≤ i2 - a then shiftLeft less (i2 - 1) (Swap data i2 (i2 - 1))
                else Swap data i2 (i2 - 1)) (k - 1)
              ≤ keyAt key (if 2 ≤ i2 - a then shiftLeft less (i2 - 1) (Swap data i2 (i2 - 1))
                else Swap data i2 (i2 - 1)) k := by
          by_cases h3 : 2 ≤ i2 - a
          · rw [if_pos h3]
            have hl2 : a = 0 ∨ keyAt key (Swap data i2 (i2 - 1)) (a - 1)
                ≤ keyAt key (Swap data i2 (i2 - 1)) (i2 - 1) := by
              rcases hlow with h0 | hlow
              · exact Or.inl h0
              · right
                rw [k1, k1o (a - 1) (by omega)]
                exact hlow i2 (by omega) (by omega)
            rw [shiftLeft_eq_inner less key hless a (i2 - 1) (Swap data i2 (i2 - 1)) (by omega)
              (by rw [Swap_length]; omega) hl2]
            refine ⟨⟨insertionSortInner_frame less a b (i2 - 1) _ (by omega),
              insertionSortInner_perm less a (i2 - 1) _⟩, ?_⟩
            intro k hk1 hk2
            apply insertionSortInner_sorted less key hless a (i2 - 1) (i2 - 1) _ (by omega)
              (Nat.le_refl _) (by rw [Swap_length]; omega) ?_ (fun _ h => by omega) k hk1
              (by omega)
            intro k2 hk3 hk4 hk5
            rw [k1o (k2 - 1) (by omega), k1o k2 (by omega)]
            exact s3 k2 hk3 (by omega)
          · rw [if_neg h3]
            exact ⟨Within.withinRefl _ _ _, fun k hk1 hk2 => by omega⟩
        generalize (if 2 ≤ i2 - a then shiftLeft less (i2 - 1) (Swap data i2 (i2 - 1))
            else Swap data i2 (i2 - 1)) = data2 at w2 ⊢
        obtain ⟨w2, sorted2⟩ := w2
        have hlen2 : data2.length = data.length := by rw [w2.length, Swap_length]
        -- the shift to the right
        have w3 : Within i2 b data2
            (if 2 ≤ b - i2 then shiftRight less b (b - i2) (i2 + 1) data2 else data2) := by
          by_cases h4 : 2 ≤ b - i2
          · rw [if_pos h4]
            exact ⟨shiftRight_frame less i2 b _ _ data2 (Nat.le_refl _),
              shiftRight_perm less b _ _ data2⟩
          · rw [if_neg h4]
            exact Within.withinRefl _ _ _
        generalize (if 2 ≤ b - i2 then shiftRight less b (b - i2) (i2 + 1) data2 else data2)
          = data3 at w3 ⊢
        have wall : Within a b data data3 := (w1.withinTrans w2).withinTrans (w3.withinMono (by omega) (Nat.le_refl _))
        have hlen3 : data3.length = data.length := wall.length
        obtain ⟨r1, r2⟩ := ih i2 data3 (by omega) s2 (by rw [hlen3]; exact hb)
          (by
            by_cases ha0 : a = 0
            · exact Or.inl ha0
            rcases hlow with h0 | hlow
            · exact Or.inl h0
            · right
              have hk : keyAt key data3 (a - 1) = keyAt key data (a - 1) :=
                keyAt_of_frame key wall.1 (a - 1) (Or.inl (by omega))
              rw [hk]
              exact wall.forall_key key (by omega) hb
                (fun x => keyAt key data (a - 1) ≤ x) hlow)
          (by
            intro k hk1 hk2
            rw [keyAt_of_frame key w3.1 (k - 1) (Or.inl (by omega)),
              keyAt_of_frame key w3.1 k (Or.inl hk2)]
            exact sorted2 k hk1 hk2)
        exact ⟨wall.withinTrans r1, r2⟩

/-- The function `partialInsertionSort`: the range is rearranged, and it is sorted
when the function reports it sorted. -/
theorem partialInsertionSort_spec (data : List α) (a b : Nat) (hab : a < b)
    (hb : b ≤ data.length)
    (hlow : a = 0 ∨ ∀ k, a ≤ k → k < b → keyAt key data (a - 1) ≤ keyAt key data k) :
    Within a b data (partialInsertionSort less data a b).1 ∧
    ((partialInsertionSort less data a b).2 = true →
      SortedOn key (partialInsertionSort less data a b).1 a b) := by
  unfold partialInsertionSort
  exact partialInsertionSortLoop_spec less key hless a b 5 (a + 1) data (by omega) (by omega) hb
    hlow (fun k h1 h2 => by omega)

end keyed

section keyed

variable (less : α → α → Bool) (key : α → Int)
variable (hless : ∀ x y, less x y = decide (key x < key y))

include hless

/-- The loop of `siftDown`: when the heap condition holds below `lo` for every
parent but `root`, and the parent of `root` is not less than the children of
`root`, the heap condition holds below `lo` afterwards. -/
theorem siftDownLoop_spec (hi first lo : Nat) :
    ∀ (fuel root : Nat) (data : List α), lo ≤ root → first + hi ≤ data.length →
      hi - root ≤ fuel →
      (∀ c, 1 ≤ c → c < hi → lo ≤ (c - 1) / 2 → (c - 1) / 2 ≠ root →
        keyAt key data (first + c) ≤ keyAt key data (first + (c - 1) / 2)) →
      (∀ c, 1 ≤ c → c < hi → (c - 1) / 2 = root → 1 ≤ root → lo ≤ (root - 1) / 2 →
        keyAt key data (first + c) ≤ keyAt key data (first + (root - 1) / 2)) →
      Frame first (first + hi) data (siftDownLoop less hi first fuel root data) ∧
      ∀ c, 1 ≤ c → c < hi → lo ≤ (c - 1) / 2 →
        keyAt key (siftDownLoop less hi first fuel root data) (first + c)
          ≤ keyAt key (siftDownLoop less hi first fuel root data) (first + (c - 1) / 2) := by
  intro fuel
  induction fuel with
  | zero =>
    intro root data hlo hlen hf i1 _
    unfold siftDownLoop
    refine ⟨Frame.frameRefl _ _ _, ?_⟩
    intro c hc1 hc2 hc3
    exact i1 c hc1 hc2 hc3 (by omega)
  | succ fuel ih =>
    intro root data hlo hlen hf i1 i2
    unfold siftDownLoop
    simp only
    by_cases hch : hi ≤ 2 * root + 1
    · rw [if_pos hch]
      refine ⟨Frame.frameRefl _ _ _, ?_⟩
      intro c hc1 hc2 hc3
      exact i1 c hc1 hc2 hc3 (by omega)
    · rw [if_neg hch]
      -- the greater child
      have hpick : ∃ ch, (if 2 * root + 1 + 1 < hi ∧
            Less less data (first + (2 * root + 1)) (first + (2 * root + 1) + 1) = true
          then 2 * root + 1 + 1 else 2 * root + 1) = ch ∧
          (ch = 2 * root + 1 ∨ ch = 2 * root + 2) ∧ ch < hi ∧
          ∀ c, 1 ≤ c → c < hi → (c - 1) / 2 = root →
            keyAt key data (first + c) ≤ keyAt key data (first + ch) := by
        by_cases h2 : 2 * root + 1 + 1 < hi ∧
            Less less data (first + (2 * root + 1)) (first + (2 * root + 1) + 1) = true
        · rw [if_pos h2]
          refine ⟨_, rfl, Or.inr rfl, h2.1, ?_⟩
          have hl := (Less_true_iff less key hless data _ _ (by omega) (by omega)).1 h2.2
          intro c hc1 hc2 hc3
          have hc : c = 2 * root + 1 ∨ c = 2 * root + 2 := by omega
          rcases hc with hc | hc
          · rw [hc]
            exact Int.le_of_lt hl
          · rw [hc]
        · rw [if_neg h2]
          refine ⟨_, rfl, Or.inl rfl, by omega, ?_⟩
          intro c hc1 hc2 hc3
          have hc : c = 2 * root + 1 ∨ c = 2 * root + 2 := by omega
          rcases hc with hc | hc
          · rw [hc]
          · rw [hc]
            have hnl : Less less data (first + (2 * root + 1)) (first + (2 * root + 1) + 1)
                = false := by
              cases h : Less less data (first + (2 * root + 1)) (first + (2 * root + 1) + 1) with
              | false => rfl
              | true => exact absurd ⟨by omega, h⟩ h2
            exact (Less_false_iff less key hless data _ _ (by omega) (by omega)).1 hnl
      obtain ⟨ch, hche, hchv, hchlt, hmax⟩ := hpick
      rw [hche]
      by_cases hl : Less less data (first + root) (first + ch) = true
      · rw [if_pos hl]
        have hlt := (Less_true_iff less key hless data _ _ (by omega) (by omega)).1 hl
        have sr : keyAt key (Swap data (first + root) (first + ch)) (first + root)
            = keyAt key data (first + ch) := by
          rw [keyAt_Swap key data _ _ _ (by omega) (by omega), if_neg (by omega), if_pos rfl]
        have sch : keyAt key (Swap data (first + root) (first + ch)) (first + ch)
            = keyAt key data (first + root) := by
          rw [keyAt_Swap key data _ _ _ (by omega) (by omega), if_pos rfl]
        have so : ∀ x, x ≠ root → x ≠ ch →
            keyAt key (Swap data (first + root) (first + ch)) (first + x)
              = keyAt key data (first + x) := by
          intro x e1 e2
          rw [keyAt_Swap key data _ _ _ (by omega) (by omega), if_neg (by omega),
            if_neg (by omega)]
        obtain ⟨r1, r2⟩ := ih ch (Swap data (first + root) (first + ch)) (by omega)
          (by rw [Swap_length]; exact hlen) (by omega)
          (by
            intro c hc1 hc2 hc3 hc4
            by_cases e1 : (c - 1) / 2 = root
            · rw [e1, sr]
              by_cases e2 : c = ch
              · rw [e2, sch]
                exact Int.le_of_lt hlt
              · rw [so c (by omega) e2]
                exact hmax c hc1 hc2 e1
            · by_cases e2 : c = root
              · rw [e2, sr, so ((root - 1) / 2) (by omega) (by omega)]
                exact i2 ch (by omega) hchlt (by omega) (by omega) (by omega)
              · rw [so c e2 (by omega), so ((c - 1) / 2) e1 hc4]
                exact i1 c hc1 hc2 hc3 e1)
          (by
            intro c hc1 hc2 hc3 _ _
            have e : (ch - 1) / 2 = root := by omega
            rw [e, sr, so c (by omega) (by omega)]
            have h1 := i1 c hc1 hc2 (by omega) (by omega)
            rw [hc3] at h1
            exact h1)
        exact ⟨(Swap_frame data first (first + hi) _ _ ⟨by omega, by omega⟩
          ⟨by omega, by omega⟩).frameTrans r1, r2⟩
      · rw [if_neg hl]
        have hnl : Less less data (first + root) (first + ch) = false := by
          cases h : Less less data (first + root) (first + ch) with
          | false => rfl
          | true => exact absurd h hl
        have hge := (Less_false_iff less key hless data _ _ (by omega) (by omega)).1 hnl
        refine ⟨Frame.frameRefl _ _ _, ?_⟩
        intro c hc1 hc2 hc3
        by_cases e1 : (c - 1) / 2 = root
        · rw [e1]
          exact Int.le_trans (hmax c hc1 hc2 e1) hge
        · exact i1 c hc1 hc2 hc3 e1

/-- The function `siftDown(data, lo, hi, first)`: when the heap condition holds
for the parents behind `lo`, it holds for the parents from `lo` on afterwards. -/
theorem siftDown_spec (data : List α) (lo hi first : Nat) (hlen : first + hi ≤ data.length)
    (h : ∀ c, 1 ≤ c → c < hi → lo + 1 ≤ (c - 1) / 2 →
      keyAt key data (first + c) ≤ keyAt key data (first + (c - 1) / 2)) :
    Within first (first + hi) data (siftDown less data lo hi first) ∧
    ∀ c, 1 ≤ c → c < hi → lo ≤ (c - 1) / 2 →
      keyAt key (siftDown less data lo hi first) (first + c)
        ≤ keyAt key (siftDown less data lo hi first) (first + (c - 1) / 2) := by
  unfold siftDown
  obtain ⟨r1, r2⟩ := siftDownLoop_spec less key hless hi first lo hi lo data (Nat.le_refl _)
    hlen (by omega) (fun c h1 h2 h3 h4 => h c h1 h2 (by omega))
    (fun c h1 h2 h3 h4 h5 => by omega)
  exact ⟨⟨r1, siftDownLoop_perm less hi first _ _ data⟩, r2⟩

end keyed

/-- In a heap the root carries the greatest key. -/
theorem heap_root_max (key : α → Int) (data : List α) (first n : Nat)
    (h : ∀ c, 1 ≤ c → c < n →
      keyAt key data (first + c) ≤ keyAt key data (first + (c - 1) / 2)) :
    ∀ c, c < n → keyAt key data (first + c) ≤ keyAt key data (first + 0) := by
  intro c
  induction c using Nat.strong_induction_on with
  | _ c ih =>
    intro hc
    by_cases h0 : c = 0
    · rw [h0]
    · exact Int.le_trans (h c (by omega) hc) (ih ((c - 1) / 2) (by omega) (by omega))

section keyed

variable (less : α → α → Bool) (key : α → Int)
variable (hless : ∀ x y, less x y = decide (key x < key y))

include hless

/-- The first loop of `heapSort` builds a heap on `[first, first + hi)`. -/
theorem heapSortBuild_spec (hi first : Nat) :
    ∀ (n : Nat) (data : List α), first + hi ≤ data.length →
      (∀ c, 1 ≤ c → c < hi → n ≤ (c - 1) / 2 →
        keyAt key data (first + c) ≤ keyAt key data (first + (c - 1) / 2)) →
      Within first (first + hi) data (heapSortBuild less hi first n data) ∧
      ∀ c, 1 ≤ c → c < hi →
        keyAt key (heapSortBuild less hi first n data) (first + c)
          ≤ keyAt key (heapSortBuild less hi first n data) (first + (c - 1) / 2) := by
  intro n
  induction n with
  | zero =>
    intro data _ h
    exact ⟨Within.withinRefl _ _ _, fun c h1 h2 => h c h1 h2 (Nat.zero_le _)⟩
  | succ n ih =>
    intro data hlen h
    unfold heapSortBuild
    obtain ⟨w1, s1⟩ := siftDown_spec less key hless data n hi first hlen h
    obtain ⟨w2, s2⟩ := ih (siftDown less data n hi first) (by rw [w1.length]; exact hlen) s1
    exact ⟨w1.withinTrans w2, s2⟩

/-- The second loop of `heapSort`: from a heap on `[first, first + n)` below a
sorted tail of greater keys it leaves `[first, first + hi)` sorted. -/
theorem heapSortPop_spec (hi first : Nat) :
    ∀ (n : Nat) (data : List α), n ≤ hi → first + hi ≤ data.length →
      (∀ c, 1 ≤ c → c < n →
        keyAt key data (first + c) ≤ keyAt key data (first + (c - 1) / 2)) →
      SortedOn key data (first + n) (first + hi) →
      (∀ c d, c < n → n ≤ d → d < hi →
        keyAt key data (first + c) ≤ keyAt key data (first + d)) →
      Within first (first + hi) data (heapSortPop less first n data) ∧
      SortedOn key (heapSortPop less first n data) first (first + hi) := by
  intro n
  induction n with
  | zero =>
    intro data _ _ _ hs _
    exact ⟨Within.withinRefl _ _ _, hs⟩
  | succ i ih =>
    intro data hn hlen hheap hs hbound
    unfold heapSortPop
    have hroot := heap_root_max key data first (i + 1) hheap
    have s0 : i ≠ 0 → keyAt key (Swap data first (first + i)) (first + 0)
        = keyAt key data (first + i) := by
      intro hi0
      rw [keyAt_Swap key data _ _ _ (by omega) (by omega), if_neg (by omega),
        if_pos (Nat.add_zero first)]
    have si : keyAt key (Swap data first (first + i)) (first + i)
        = keyAt key data (first + 0) := by
      rw [keyAt_Swap key data _ _ _ (by omega) (by omega), if_pos rfl]
      rfl
    have so : ∀ x, x ≠ 0 → x ≠ i → keyAt key (Swap data first (first + i)) (first + x)
        = keyAt key data (first + x) := by
      intro x e1 e2
      rw [keyAt_Swap key data _ _ _ (by omega) (by omega), if_neg (by omega),
        if_neg (by omega)]
    have hlen1 : first + hi ≤ (Swap data first (first + i)).length := by
      rw [Swap_length]; exact hlen
    have w0 : Within first (first + hi) data (Swap data first (first + i)) :=
      Swap_within data first (first + hi) _ _ ⟨by omega, by omega⟩ ⟨by omega, by omega⟩
    obtain ⟨w1, s1⟩ := siftDown_spec less key hless (Swap data first (first + i)) 0 i first
      (by omega) (by
        intro c hc1 hc2 hc3
        rw [so c (by omega) (by omega), so ((c - 1) / 2) (by omega) (by omega)]
        exact hheap c hc1 (by omega))
    have hlen2 : first + hi ≤ (siftDown less (Swap data first (first + i)) 0 i first).length := by
      rw [w1.length]; exact hlen1
    have keep : ∀ d, i ≤ d →
        keyAt key (siftDown less (Swap data first (first + i)) 0 i first) (first + d)
          = keyAt key (Swap data first (first + i)) (first + d) := by
      intro d hd
      exact keyAt_of_frame key w1.1 _ (Or.inr (by omega))
    -- the keys of the swapped list below `i` lie below the keys from `i` on
    have low1 : ∀ c d, c < i → i ≤ d → d < hi →
        keyAt key (Swap data first (first + i)) (first + c)
          ≤ keyAt key (Swap data first (first + i)) (first + d) := by
      intro c d hc hd1 hd2
      by_cases hd : d = i
      · rw [hd, si]
        by_cases hc0 : c = 0
        · rw [hc0, s0 (by omega)]
          exact hroot i (by omega)
        · rw [so c hc0 (by omega)]
          exact hroot c (by omega)
      · rw [so d (by omega) hd]
        by_cases hc0 : c = 0
        · rw [hc0, s0 (by omega)]
          exact hbound i d (by omega) (by omega) hd2
        · rw [so c hc0 (by omega)]
          exact hbound c d (by omega) (by omega) hd2
    obtain ⟨w2, s2⟩ := ih (siftDown less (Swap data first (first + i)) 0 i first)
      (by omega) hlen2 (fun c h1 h2 => s1 c h1 h2 (Nat.zero_le _))
      (by
        intro p q hp hpq hq
        have e1 : p = first + (p - first) := by omega
        have e2 : q = first + (q - first) := by omega
        rw [e1, e2, keep _ (by omega), keep _ (by omega)]
        by_cases hpi : p - first = i
        · by_cases hqi : q - first = i
          · rw [hpi, hqi]
          · rw [hpi, si, so _ (by omega) hqi]
            exact hbound 0 (q - first) (by omega) (by omega) (by omega)
        · rw [so _ (by omega) hpi, so _ (by omega) (by omega)]
          have h3 := hs p q (by omega) hpq hq
          rw [e1, e2] at h3
          exact h3)
      (by
        intro c d hc hd1 hd2
        rw [keep d hd1]
        have h4 := Within.forall_key key w1 (by omega) (by rw [Swap_length]; omega)
          (fun v => v ≤ keyAt key (Swap data first (first + i)) (first + d))
          (by
            intro k hk1 hk2
            have e : k = first + (k - first) := by omega
            rw [e]
            exact low1 (k - first) d (by omega) hd1 hd2)
          (first + c) (by omega) (by omega)
        exact h4)
    exact ⟨(w0.withinTrans (w1.withinMono (Nat.le_refl _) (by omega))).withinTrans w2, s2⟩

/-- The function `heapSort(data, a, b)` sorts `data[a:b]` and leaves the rest. -/
theorem heapSort_spec (data : List α) (a b : Nat) (hab : a ≤ b) (hb : b ≤ data.length) :
    Within a b data (heapSort less data a b) ∧
    SortedOn key (heapSort less data a b) a b := by
  unfold heapSort
  simp only
  have e : a + (b - a) = b := by omega
  obtain ⟨w1, s1⟩ := heapSortBuild_spec less key hless (b - a) a ((b - a - 1) / 2 + 1) data
    (by omega) (fun c h1 h2 h3 => by omega)
  obtain ⟨w2, s2⟩ := heapSortPop_spec less key hless (b - a) a (b - a) _ (Nat.le_refl _)
    (by rw [w1.length]; omega) s1 (fun i j h1 h2 h3 => by omega)
    (fun c d h1 h2 h3 => by omega)
  rw [e] at w1 w2 s2
  exact ⟨w1.withinTrans w2, s2⟩

end keyed

/-- A lower bound on the keys of `data[a:b]` carried by `data[a-1]` survives a
rearrangement of `data[a:b]`. -/
theorem lowBound_of_within (key : α → Int) {a b : Nat} {d1 d2 : List α} (h : Within a b d1 d2)
    (hab : a ≤ b) (hb : b ≤ d1.length)
    (hlow : a = 0 ∨ ∀ k, a ≤ k → k < b → keyAt key d1 (a - 1) ≤ keyAt key d1 k) :
    a = 0 ∨ ∀ k, a ≤ k → k < b → keyAt key d2 (a - 1) ≤ keyAt key d2 k := by
  rcases hlow with h0 | hl
  · exact Or.inl h0
  · by_cases h0 : a = 0
    · exact Or.inl h0
    · refine Or.inr ?_
      rw [keyAt_of_frame key h.1 (a - 1) (Or.inl (by omega))]
      exact Within.forall_key key h hab hb (fun v => keyAt key d1 (a - 1) ≤ v) hl

section keyed

variable (less : α → α → Bool) (key : α → Int)
variable (hless : ∀ x y, less x y = decide (key x < key y))

include hless

/-- The statements of `pdqsort` before the partitioning rearrange `data[a:b]`,
choose a pivot inside the range and report the range sorted only when it is. -/
theorem pdqsortPivot_spec (data : List α) (a b limit : Nat) (wb wp : Bool) (hab : a < b)
    (hb : b ≤ data.length)
    (hlow : a = 0 ∨ ∀ k, a ≤ k → k < b → keyAt key data (a - 1) ≤ keyAt key data k) :
    Within a b data (pdqsortPivot less data a b limit wb wp).1 ∧
    a ≤ (pdqsortPivot less data a b limit wb wp).2.2.1 ∧
    (pdqsortPivot less data a b limit wb wp).2.2.1 < b ∧
    ((pdqsortPivot less data a b limit wb wp).2.2.2 = true →
      SortedOn key (pdqsortPivot less data a b limit wb wp).1 a b) := by
  have w1 : Within a b data (if wb = true then data else breakPatterns data a b) := by
    split
    · exact Within.withinRefl _ _ _
    · exact ⟨breakPatterns_frame data a b (by omega), breakPatterns_perm data a b⟩
  unfold pdqsortPivot
  simp only []
  generalize (if wb = true then data else breakPatterns data a b) = d1 at w1 ⊢
  have hpr := choosePivot_range less d1 a b hab
  generalize choosePivot less d1 a b = ph at hpr ⊢
  have w2 : Within a b d1
      (if decide (ph.2 = sortedHint.decreasingHint) = true then reverseRange d1 a b else d1) := by
    split
    · exact ⟨reverseRange_frame d1 a b, reverseRange_perm d1 a b⟩
    · exact Within.withinRefl _ _ _
  have hp2 : a ≤ (if decide (ph.2 = sortedHint.decreasingHint) = true
        then (b - 1) - (ph.1 - a) else ph.1) ∧
      (if decide (ph.2 = sortedHint.decreasingHint) = true
        then (b - 1) - (ph.1 - a) else ph.1) < b := by
    split
    · omega
    · exact hpr
  generalize (if decide (ph.2 = sortedHint.decreasingHint) = true
    then reverseRange d1 a b else d1) = d2 at w2 ⊢
  generalize (if decide (ph.2 = sortedHint.decreasingHint) = true
    then (b - 1) - (ph.1 - a) else ph.1) = pivot at hp2 ⊢
  have w12 := w1.withinTrans w2
  have hb2 : b ≤ d2.length := by rw [w12.length]; exact hb
  have hlow2 := lowBound_of_within key w12 (by omega) hb hlow
  obtain ⟨w3, s3⟩ := partialInsertionSort_spec less key hless d2 a b hab hb2 hlow2
  generalize (if decide (ph.2 = sortedHint.decreasingHint) = true
    then sortedHint.increasingHint else ph.2) = hint
  by_cases hc : wb = true ∧ wp = true ∧ hint = sortedHint.increasingHint
  · rw [if_pos hc]
    exact ⟨w12.withinTrans w3, hp2.1, hp2.2, s3⟩
  · rw [if_neg hc]
    exact ⟨w12, hp2.1, hp2.2, fun h => by cases h⟩

end keyed

/-- A range is sorted when both sides of `mid` are sorted, the left keys are not
greater and the right keys are not less than the key at `mid`. -/
theorem sortedOn_join (key : α → Int) (data : List α) (a mid b : Nat)
    (sL : SortedOn key data a mid) (sR : SortedOn key data (mid + 1) b)
    (hL : ∀ k, a ≤ k → k < mid → keyAt key data k ≤ keyAt key data mid)
    (hR : ∀ k, mid < k → k < b → keyAt key data mid ≤ keyAt key data k) :
    SortedOn key data a b := by
  intro i j hi hij hj
  by_cases h1 : j < mid
  · exact sL i j hi hij h1
  · by_cases h2 : mid < i
    · exact sR i j (by omega) hij hj
    · by_cases h3 : i = mid
      · by_cases h4 : j = mid
        · rw [h3, h4]
        · rw [h3]
          exact hR j (by omega) hj
      · by_cases h4 : j = mid
        · rw [h4]
          exact hL i hi (by omega)
        · exact Int.le_trans (hL i hi (by omega)) (hR j (by omega) hj)

/-- A sorted range stays sorted under a rearrangement of a disjoint range. -/
theorem sortedOn_of_frame (key : α → Int) {x y : Nat} {d1 d2 : List α} (h : Frame x y d1 d2)
    (a b : Nat) (hs : SortedOn key d1 a b) (hdis : b ≤ x ∨ y ≤ a) : SortedOn key d2 a b := by
  intro i j hi hij hj
  rw [keyAt_of_frame key h i (by omega), keyAt_of_frame key h j (by omega)]
  exact hs i j hi hij hj

/-- The partition around `mid` survives a rearrangement of one of its sides. -/
theorem part_of_within (key : α → Int) {d1 d2 : List α} (a mid b x y : Nat)
    (h : Within x y d1 d2) (hxy : x ≤ y) (hy : y ≤ d1.length)
    (hside : (a ≤ x ∧ y ≤ mid) ∨ (mid + 1 ≤ x ∧ y ≤ b))
    (hL : ∀ k, a ≤ k → k < mid → keyAt key d1 k ≤ keyAt key d1 mid)
    (hR : ∀ k, mid < k → k < b → keyAt key d1 mid ≤ keyAt key d1 k) :
    (∀ k, a ≤ k → k < mid → keyAt key d2 k ≤ keyAt key d2 mid) ∧
    (∀ k, mid < k → k < b → keyAt key d2 mid ≤ keyAt key d2 k) := by
  have hm : keyAt key d2 mid = keyAt key d1 mid := keyAt_of_frame key h.1 mid (by omega)
  rw [hm]
  rcases hside with hs | hs
  · constructor
    · intro k hk1 hk2
      by_cases hk : x ≤ k ∧ k < y
      · exact Within.forall_key key h hxy hy (fun v => v ≤ keyAt key d1 mid)
          (fun i h1 h2 => hL i (by omega) (by omega)) k hk.1 hk.2
      · rw [keyAt_of_frame key h.1 k (by omega)]
        exact hL k hk1 hk2
    · intro k hk1 hk2
      rw [keyAt_of_frame key h.1 k (by omega)]
      exact hR k hk1 hk2
  · constructor
    · intro k hk1 hk2
      rw [keyAt_of_frame key h.1 k (by omega)]
      exact hL k hk1 hk2
    · intro k hk1 hk2
      by_cases hk : x ≤ k ∧ k < y
      · exact Within.forall_key key h hxy hy (fun v => keyAt key d1 mid ≤ v)
          (fun i h1 h2 => hR i (by omega) (by omega)) k hk.1 hk.2
      · rw [keyAt_of_frame key h.1 k (by omega)]
        exact hR k hk1 hk2

section keyed

variable (less : α → α → Bool) (key : α → Int)
variable (hless : ∀ x y, less x y = decide (key x < key y))

include hless

/-- The function `pdqsort(data, a, b, limit)` returns within `b - a + 1` nested
iterations and calls, rearranges `data[a:b]` only and leaves it sorted, when
`data[a-1]` (if any) is not greater than the elements of `data[a:b]`. -/
theorem pdqsortLoop_spec :
    ∀ (fuel : Nat) (data : List α) (a b limit : Nat) (wb wp : Bool), a ≤ b →
      b ≤ data.length → b - a < fuel →
      (a = 0 ∨ ∀ k, a ≤ k → k < b → keyAt key data (a - 1) ≤ keyAt key data k) →
      ∃ r, pdqsortLoop less fuel data a b limit wb wp = some r ∧ Within a b data r ∧
        SortedOn key r a b := by
  intro fuel
  induction fuel with
  | zero =>
    intro data a b limit wb wp _ _ hf
    exact absurd hf (Nat.not_lt_zero _)
  | succ fuel ih =>
    intro data a b limit wb wp hab hb hf hlow
    unfold pdqsortLoop
    by_cases h12 : b - a ≤ 12
    · rw [if_pos h12]
      exact ⟨_, rfl, insertionSort_spec less key hless data a b hab hb⟩
    rw [if_neg h12]
    by_cases hl0 : limit = 0
    · rw [if_pos hl0]
      exact ⟨_, rfl, heapSort_spec less key hless data a b hab hb⟩
    rw [if_neg hl0]
    simp only []
    obtain ⟨ws, hp1, hp2, hsorted⟩ :=
      pdqsortPivot_spec less key hless data a b limit wb wp (by omega) hb hlow
    generalize pdqsortPivot less data a b limit wb wp = s at ws hp1 hp2 hsorted ⊢
    obtain ⟨sd, sl, sp, sf⟩ := s
    simp only at ws hp1 hp2 hsorted ⊢
    by_cases hf1 : sf = true
    · rw [if_pos hf1]
      exact ⟨sd, rfl, ws, hsorted hf1⟩
    rw [if_neg hf1]
    have hbs : b ≤ sd.length := by rw [ws.length]; exact hb
    have hlows := lowBound_of_within key ws hab hb hlow
    by_cases hpe : 0 < a ∧ Less less sd (a - 1) sp = false
    · rw [if_pos hpe]
      obtain ⟨we, m1, m2, hle⟩ :=
        partitionEqual_spec less key hless sd a b sp (by omega) hbs ⟨hp1, hp2⟩
      generalize partitionEqual less sd a b sp = r at we m1 m2 hle ⊢
      obtain ⟨rd, mid⟩ := r
      simp only at we m1 m2 hle ⊢
      have hge : keyAt key sd sp ≤ keyAt key sd (a - 1) :=
        (Less_false_iff less key hless sd _ _ (by omega) (by omega)).1 hpe.2
      have hlo : ∀ k, a ≤ k → k < b → keyAt key sd (a - 1) ≤ keyAt key sd k := by
        rcases hlows with h0 | h
        · omega
        · exact h
      have hlo2 := Within.forall_key key we hab hbs (fun v => keyAt key sd (a - 1) ≤ v) hlo
      have hbr : b ≤ rd.length := by rw [we.length]; exact hbs
      obtain ⟨r2, e2, w2, s2⟩ := ih rd mid b sl wb wp m2 hbr (by omega)
        (Or.inr (fun k hk1 hk2 =>
          Int.le_trans (Int.le_trans (hle (mid - 1) (by omega) (by omega)) hge)
            (hlo2 k (by omega) hk2)))
      have hlo3 := Within.forall_key key w2 m2 hbr (fun v => keyAt key sd (a - 1) ≤ v)
        (fun k hk1 hk2 => hlo2 k (by omega) hk2)
      refine ⟨r2, e2, ws.withinTrans (we.withinTrans (w2.withinMono (by omega) (Nat.le_refl _))), ?_⟩
      intro i j hi hij hj
      by_cases hm : mid ≤ i
      · exact s2 i j hm hij hj
      · rw [keyAt_of_frame key w2.1 i (Or.inl (by omega))]
        have h1 := Int.le_trans (hle i hi (by omega)) hge
        by_cases hm2 : mid ≤ j
        · exact Int.le_trans h1 (hlo3 j hm2 hj)
        · rw [keyAt_of_frame key w2.1 j (Or.inl (by omega))]
          exact Int.le_trans h1 (hlo2 j (by omega) hj)
    · rw [if_neg hpe]
      obtain ⟨wq, m1, m2, hL0, hR⟩ :=
        partition_spec less key hless sd a b sp (by omega) hbs ⟨hp1, hp2⟩
      generalize partition less sd a b sp = r at wq m1 m2 hL0 hR ⊢
      obtain ⟨rd, mid, ap⟩ := r
      simp only at wq m1 m2 hL0 hR ⊢
      have hL : ∀ k, a ≤ k → k < mid → keyAt key rd k ≤ keyAt key rd mid :=
        fun k h1 h2 => Int.le_of_lt (hL0 k h1 h2)
      have hbr : b ≤ rd.length := by rw [wq.length]; exact hbs
      have hlowr := lowBound_of_within key wq hab hbs hlows
      have em : mid + 1 - 1 = mid := by omega
      by_cases hside : mid - a < b - mid
      · rw [if_pos hside]
        obtain ⟨r1, e1, w1, s1⟩ := ih rd a mid sl true true m1 (by omega) (by omega)
          (by
            rcases hlowr with h0 | h
            · exact Or.inl h0
            · exact Or.inr (fun k hk1 hk2 => h k hk1 (by omega)))
        rw [e1]
        simp only []
        have hb1 : b ≤ r1.length := by rw [w1.length]; exact hbr
        obtain ⟨pL1, pR1⟩ := part_of_within key a mid b a mid w1 m1 (by omega)
          (Or.inl ⟨Nat.le_refl _, Nat.le_refl _⟩) hL hR
        obtain ⟨r2, e2, w2, s2⟩ := ih r1 (mid + 1) b sl (decide ((b - a) / 8 ≤ mid - a)) ap
          (by omega) hb1 (by omega) (Or.inr (fun k hk1 hk2 => by
            rw [em]
            exact pR1 k (by omega) hk2))
        obtain ⟨pL2, pR2⟩ := part_of_within key a mid b (mid + 1) b w2 (by omega) hb1
          (Or.inr ⟨Nat.le_refl _, Nat.le_refl _⟩) pL1 pR1
        refine ⟨r2, e2, ws.withinTrans (wq.withinTrans ((w1.withinMono (Nat.le_refl _) (by omega)).withinTrans
          (w2.withinMono (by omega) (Nat.le_refl _)))), ?_⟩
        exact sortedOn_join key r2 a mid b
          (sortedOn_of_frame key w2.1 a mid s1 (Or.inl (by omega))) s2 pL2 pR2
      · rw [if_neg hside]
        obtain ⟨r1, e1, w1, s1⟩ := ih rd (mid + 1) b sl true true (by omega) hbr (by omega)
          (Or.inr (fun k hk1 hk2 => by
            rw [em]
            exact hR k (by omega) hk2))
        rw [e1]
        simp only []
        have hb1 : b ≤ r1.length := by rw [w1.length]; exact hbr
        obtain ⟨pL1, pR1⟩ := part_of_within key a mid b (mid + 1) b w1 (by omega) hbr
          (Or.inr ⟨Nat.le_refl _, Nat.le_refl _⟩) hL hR
        obtain ⟨r2, e2, w2, s2⟩ := ih r1 a mid sl (decide ((b - a) / 8 ≤ b - mid)) ap
          m1 (by omega) (by omega)
          (by
            rcases hlowr with h0 | h
            · exact Or.inl h0
            · refine Or.inr (fun k hk1 hk2 => ?_)
              rw [keyAt_of_frame key w1.1 (a - 1) (Or.inl (by omega)),
                keyAt_of_frame key w1.1 k (Or.inl (by omega))]
              exact h k hk1 (by omega))
        obtain ⟨pL2, pR2⟩ := part_of_within key a mid b a mid w2 m1 (by omega)
          (Or.inl ⟨Nat.le_refl _, Nat.le_refl _⟩) pL1 pR1
        refine ⟨r2, e2, ws.withinTrans (wq.withinTrans ((w1.withinMono (by omega) (Nat.le_refl _)).withinTrans
          (w2.withinMono (Nat.le_refl _) (by omega)))), ?_⟩
        exact sortedOn_join key r2 a mid b s2
          (sortedOn_of_frame key w2.1 (mid + 1) b s1 (Or.inr (by omega))) pL2 pR2

/-- The function `sort.Sort` leaves the whole list sorted by `key`. -/
theorem SortFn_sorted (data : List α) :
    SortedOn key (SortFn less data) 0 data.length := by
  unfold SortFn
  simp only
  by_cases h : data.length ≤ 1
  · rw [if_pos h]
    intro i j _ hij hj
    have e : i = j := by omega
    rw [e]
  · rw [if_neg h]
    obtain ⟨r, e, _, s⟩ := pdqsortLoop_spec less key hless (data.length + 1) data 0 data.length
      (bitsLen data.length) true true (Nat.zero_le _) (Nat.le_refl _) (by omega) (Or.inl rfl)
    rw [e]
    exact s

end keyed

/-- A list sorted on its whole range is pairwise ordered by `key`. -/
theorem pairwise_of_sortedOn (key : α → Int) (data : List α)
    (h : SortedOn key data 0 data.length) : data.Pairwise (fun x y => key x ≤ key y) := by
  rw [List.pairwise_iff_getElem]
  intro i j hi hj hij
  have h1 := h i j (Nat.zero_le _) (Nat.le_of_lt hij) hj
  unfold keyAt at h1
  rw [List.getElem?_eq_getElem hi, List.getElem?_eq_getElem hj] at h1
  exact h1

/-- The function `sort.Sort` returns a list along which `key` does not decrease,
when `less` compares by `key`. -/
theorem SortFn_pairwise (less : α → α → Bool) (key : α → Int)
    (hless : ∀ x y, less x y = decide (key x < key y)) (data : List α) :
    (SortFn less data).Pairwise (fun x y => key x ≤ key y) := by
  have h := SortFn_sorted less key hless data
  have e : (SortFn less data).length = data.length := (SortFn_perm less data).length_eq
  rw [← e] at h
  exact pairwise_of_sortedOn key _ h

/-- Reading a list at every position in turn gives the list back. -/
theorem filterMap_range_getElem? (l : List α) :
    (List.range l.length).filterMap (fun p => l[p]?) = l := by
  induction l using List.reverseRecOn with
  | nil => rfl
  | append_singleton l x ih =>
    rw [List.length_append, List.length_singleton, List.range_succ, List.filterMap_append]
    have h1 : (List.range l.length).filterMap (fun p => (l ++ [x])[p]?)
        = (List.range l.length).filterMap (fun p => l[p]?) := by
      apply List.filterMap_congr
      intro p hp
      exact List.getElem?_append_left (List.mem_range.1 hp)
    rw [h1, ih]
    simp

end sort

namespace graphapi

/-! ### C18: the execution order is sorted by `Order` -/

/-- On `alternatingDocument` the second iteration of `pdqsort` works on
`data[1:16]` after an unbalanced partition and calls `breakPatterns`; the
execution order is the one below. -/
theorem execution_order_of_alternatingDocument :
    (UnmarshalJSON alternatingDocument).NodesInExecutionOrder
      = [8, 10, 2, 14, 4, 12, 6, 0, 9, 7, 1, 11, 5, 13, 3, 15] := by
  decide

/-- The call of `breakPatterns` in that run: `idx` is 6, and the elements at 6, 7
and 8 change places with those at 1, 9 and 8. -/
theorem breakPatterns_of_alternating :
    sort.breakPatterns [8, 1, 2, 3, 4, 5, 6, 7, 0, 9, 10, 11, 12, 13, 14, 15] 1 16
      = [8, 6, 2, 3, 4, 5, 1, 9, 0, 7, 10, 11, 12, 13, 14, 15] := by
  decide

/-- C18: for every decoded document, the `NodesInExecutionOrder` of the graph
`Graph.UnmarshalJSON` builds holds every pointer into `Nodes` exactly once, so
the nodes it points to are the nodes of `Nodes` with the same multiplicity; the
field `Order` does not decrease along it; and `Nodes` is the list of the
document, in the order of the document. -/
theorem C18_execution_order_sorted (decoded : Document) :
    (UnmarshalJSON decoded).NodesInExecutionOrder.Perm
      (List.range (UnmarshalJSON decoded).Nodes.length) ∧
    ((UnmarshalJSON decoded).NodesInExecutionOrder.filterMap
      (fun p => (UnmarshalJSON decoded).Nodes[p]?)).Perm (UnmarshalJSON decoded).Nodes ∧
    (UnmarshalJSON decoded).NodesInExecutionOrder.Pairwise
      (fun p q => orderAt (UnmarshalJSON decoded).Nodes p
        ≤ orderAt (UnmarshalJSON decoded).Nodes q) ∧
    (UnmarshalJSON decoded).Nodes = decoded.Nodes := by
  have hp : (sort.SortFn (ByGraphOrdinal.Less decoded.Nodes)
      (List.range decoded.Nodes.length)).Perm (List.range decoded.Nodes.length) :=
    sort.SortFn_perm _ _
  refine ⟨hp, ?_, ?_, rfl⟩
  · have h1 := hp.filterMap (fun p => decoded.Nodes[p]?)
    rw [sort.filterMap_range_getElem?] at h1
    exact h1
  · exact sort.SortFn_pairwise (ByGraphOrdinal.Less decoded.Nodes) (orderAt decoded.Nodes)
      (fun _ _ => rfl) (List.range decoded.Nodes.length)

end graphapi
